import Mathlib

/-!
# A shallow embedding of `src/goo/goo.c` (kyokan/goosig)

Big integers (`mpz_t`) are Lean integers; byte buffers are lists of bytes;
C calls that report a status, assert, or loop return a `Res`.
SHA-256, the HMAC-DRBG, the primality test and the system randomness source
are not part of `goo.c`; they are parameters (`Env`).
-/

namespace Goo

/-- Outcome of a C call: a value, a reported failure (`return 0`), an aborted
run (failed `assert`, read outside an array), or a run that never returns. -/
inductive Res (α : Type) where
  | ok (a : α)
  | fail
  | abort
  | hang
deriving DecidableEq, Repr

/-- Sequencing of calls: the first outcome that is not a value ends the run. -/
def Res.bind {α β : Type} : Res α → (α → Res β) → Res β
  | .ok a, f => f a
  | .fail, _ => .fail
  | .abort, _ => .abort
  | .hang, _ => .hang

instance : Monad Res where
  pure := Res.ok
  bind := Res.bind

/-- Did the run return a value. -/
def Res.isOk {α : Type} : Res α → Bool
  | .ok _ => true
  | _ => false

/-- The value a run returned, `d` if it returned none. -/
def Res.getD {α : Type} (r : Res α) (d : α) : α :=
  match r with
  | .ok a => a
  | _ => d

/-- An `assert(c)`. -/
def assertC (c : Bool) : Res Unit := if c then .ok () else .abort

abbrev Bytes := List UInt8

/-! ## GMP primitives used by `goo.c` -/

/-- Number of binary digits of `n`, by repeated halving; `fuel` bounds the
number of halvings. -/
def bitlenLoop : Nat → Nat → Nat
  | 0, _ => 0
  | fuel + 1, n => if n = 0 then 0 else bitlenLoop fuel (n / 2) + 1

/-- `goo_mpz_bitlen`: `mpz_sizeinbase(n, 2)`, with 0 for `n = 0`. -/
def goo_mpz_bitlen (n : Int) : Nat := bitlenLoop n.natAbs n.natAbs

/-- `goo_mpz_bytesize(n) = (goo_mpz_bitlen(n) + 7) / 8`. -/
def goo_mpz_bytesize (n : Int) : Nat := (goo_mpz_bitlen n + 7) / 8

/-- `goo_mpz_import`: big-endian bytes to a non-negative integer. -/
def goo_mpz_import (data : Bytes) : Int :=
  Int.ofNat (data.foldl (fun acc b => acc * 256 + b.toNat) 0)

/-- Big-endian digits of a natural number, most significant first, written
with exactly `len` bytes (the low `len` bytes). -/
def natToBytes : Nat → Nat → Bytes
  | 0, _ => []
  | len + 1, n => natToBytes len (n / 256) ++ [UInt8.ofNat (n % 256)]

/-- `goo_mpz_export`: the magnitude of `n`, big-endian, without leading zero
bytes (no bytes at all for 0). -/
def goo_mpz_export (n : Int) : Bytes := natToBytes (goo_mpz_bytesize n) n.natAbs

/-- `mpz_tstbit(e, p)`: bit `p` of `e` in two's complement. -/
def mpz_tstbit (e : Int) (p : Nat) : Bool :=
  match e with
  | Int.ofNat m => Nat.testBit m p
  | Int.negSucc m => !(Nat.testBit m p)

/-- Square-and-multiply loop behind `mpz_powm` for a non-negative exponent;
`fuel` bounds the number of exponent bits. -/
def powmLoop : Nat → Int → Nat → Int → Int → Int
  | 0, _, _, acc, _ => acc
  | fuel + 1, b, e, acc, n =>
    if e = 0 then acc
    else powmLoop fuel (b * b % n) (e / 2) (if e % 2 = 1 then acc * b % n else acc) n

/-- Extended Euclid on remainders `(r0, r1)` with cofactors of the first
operand `(s0, s1)` and of the second `(t0, t1)`. -/
def egcdLoop : Nat → Int → Int → Int → Int → Int → Int → Int × Int × Int
  | 0, r0, s0, t0, _, _, _ => (r0, s0, t0)
  | fuel + 1, r0, s0, t0, r1, s1, t1 =>
    if r1 = 0 then (r0, s0, t0)
    else egcdLoop fuel r1 s1 t1 (r0 % r1) (s0 - r0 / r1 * s1) (t0 - r0 / r1 * t1)

/-- `mpz_gcdext(g, s, t, a, b)` for non-negative operands: `g = gcd(a, b)`
with cofactors `a*s + b*t = g`. -/
def mpz_gcdext (a b : Int) : Int × Int × Int :=
  egcdLoop (b.natAbs + 1) a 1 0 b 0 1

/-- `mpz_invert(r, b, n)`: the inverse of `b` modulo `n` in `[0, |n|)` when
`gcd(b, n) = 1`, no result otherwise. -/
def mpz_invert (b n : Int) : Option Int :=
  let m : Int := n.natAbs
  match mpz_gcdext (b % m) m with
  | (g, s, _) => if g = 1 then some (s % m) else none

/-- `mpz_powm(r, b, e, n)`: `b^e mod n`; a negative exponent raises the
inverse of `b` (GMP raises a division by zero when there is none, a case the
callers in `goo.c` never produce; the model then uses 0 for the inverse). -/
def mpz_powm (b e n : Int) : Int :=
  if 0 ≤ e then powmLoop (goo_mpz_bitlen e) (b % n) e.natAbs (1 % n) n
  else powmLoop (goo_mpz_bitlen e) ((mpz_invert b n).getD 0 % n) e.natAbs (1 % n) n

/-- The Kronecker symbol `(a / 2)`. -/
def kronecker2 (a : Nat) : Int :=
  if a % 2 = 0 then 0 else if a % 8 = 1 ∨ a % 8 = 7 then 1 else -1

/-- Binary Jacobi-symbol loop for an odd modulus `n` and `a < n`, with the
sign accumulated so far. -/
def jacobiLoop : Nat → Nat → Nat → Int → Int
  | 0, _, _, _ => 0
  | fuel + 1, a, n, r =>
    if a = 0 then (if n = 1 then r else 0)
    else if a % 2 = 0 then
      jacobiLoop fuel (a / 2) n (if n % 8 = 3 ∨ n % 8 = 5 then -r else r)
    else
      jacobiLoop fuel (n % a) a (if a % 4 = 3 ∧ n % 4 = 3 then -r else r)

/-- Number of trailing zero bits of a positive number, and the odd part. -/
def oddPart : Nat → Nat → Nat × Nat
  | 0, n => (0, n)
  | fuel + 1, n => if n % 2 = 0 ∧ n ≠ 0 then
      let r := oddPart fuel (n / 2)
      (r.1 + 1, r.2)
    else (0, n)

/-- `mpz_jacobi(a, n)` for the non-negative operands `goo.c` passes: the
Jacobi symbol for odd `n`, extended to even `n` as the Kronecker symbol. -/
def mpz_jacobi (a n : Nat) : Int :=
  if n = 0 then (if a = 1 then 1 else 0)
  else
    let kn := oddPart n n
    kronecker2 a ^ kn.1 * jacobiLoop (a % kn.2 + kn.2 + 1) (a % kn.2) kn.2 1

end Goo

namespace Goo

/-! ## External collaborators and the constants of `goo.h` -/

/-- Modelled from the spec: what `goo.c` takes from outside, `goo.h`
(constants), `random.h`, the SHA-256 and HMAC-DRBG primitives and GMP's
probable-prime test. Every result below holds for every such environment,
under the stated conditions on the constants. -/
structure Env where
  /-- State of the HMAC-DRBG (`goo_drbg_t`). -/
  Drbg : Type
  /-- `goo_drbg_init(ctx, entropy, len)`. -/
  drbg_init : Bytes → Drbg
  /-- `goo_drbg_generate(ctx, out, 32)`: 32 bytes and the next state. -/
  drbg_generate : Drbg → Bytes × Drbg
  /-- `goo_sha256_init/update/final` over the concatenated input. -/
  sha256 : Bytes → Bytes
  /-- `mpz_probab_prime_p(p, 2) != 0`. -/
  probab_prime : Int → Bool
  GOO_CHAL_BITS : Nat
  GOO_EXPONENT_SIZE : Nat
  GOO_ELLDIFF_MAX : Nat
  GOO_WINDOW_SIZE : Nat
  GOO_TABLEN : Nat
  GOO_MAX_COMB_SIZE : Nat

/-- The string `goo_prefix`, "libGooPy:". -/
def goo_prefix : Bytes := [108, 105, 98, 71, 111, 111, 80, 121, 58]

/-- The string `goo_pers`, "libGooPy_prng". -/
def goo_pers : Bytes := [108, 105, 98, 71, 111, 111, 80, 121, 95, 112, 114, 110, 103]

/-- The table `goo_primes[168]`. -/
def goo_primes : List Nat := [
  2, 3, 5, 7, 11, 13, 17, 19, 23, 29, 31, 37, 41, 43, 47, 53, 59, 61, 67, 71,
  73, 79, 83, 89, 97, 101, 103, 107, 109, 113, 127, 131, 137, 139, 149, 151,
  157, 163, 167, 173, 179, 181, 191, 193, 197, 199, 211, 223, 227, 229, 233,
  239, 241, 251, 257, 263, 269, 271, 277, 281, 283, 293, 307, 311, 313, 317,
  331, 337, 347, 349, 353, 359, 367, 373, 379, 383, 389, 397, 401, 409, 419,
  421, 431, 433, 439, 443, 449, 457, 461, 463, 467, 479, 487, 491, 499, 503,
  509, 521, 523, 541, 547, 557, 563, 569, 571, 577, 587, 593, 599, 601, 607,
  613, 617, 619, 631, 641, 643, 647, 653, 659, 661, 673, 677, 683, 691, 701,
  709, 719, 727, 733, 739, 743, 751, 757, 761, 769, 773, 787, 797, 809, 811,
  821, 823, 827, 829, 839, 853, 857, 859, 863, 877, 881, 883, 887, 907, 911,
  919, 929, 937, 941, 947, 953, 967, 971, 977, 983, 991, 997]

/-- A counted `for (i = start; i < start + count; i++)` loop over a state. -/
def forRange {σ : Type} : Nat → Nat → (Nat → σ → Res σ) → σ → Res σ
  | 0, _, _, s => .ok s
  | k + 1, i, f, s => (f i s).bind (fun s1 => forRange k (i + 1) f s1)

/-- Read `a[i]`; outside the array the run has no defined result. -/
def rd {α : Type} (a : List α) (i : Nat) : Res α :=
  match a.get? i with
  | some x => .ok x
  | none => .abort

/-- Write `a[i] = x`; outside the array the run has no defined result. -/
def wr {α : Type} (a : List α) (i : Nat) (x : α) : Res (List α) :=
  if i < a.length then .ok (a.set i x) else .abort

/-! ## PRNG with bit stash -/

/-- The struct `goo_prng_t`: DRBG state and the stash `save` (`tmp` is scratch). -/
structure Prng (E : Env) where
  ctx : E.Drbg
  save : Int

/-- `goo_prng_seed(prng, key)`: entropy is `key[0..32) ‖ 32 zero bytes ‖
goo_pers`; the previous state is overwritten. -/
def goo_prng_seed (E : Env) (_prng : Prng E) (key : Bytes) : Prng E :=
  { ctx := E.drbg_init (key.take 32 ++ List.replicate 32 0 ++ goo_pers), save := 0 }

/-- `goo_prng_nextrand`: the next 32 bytes of the DRBG. -/
def goo_prng_nextrand (E : Env) (prng : Prng E) : Bytes × Prng E :=
  let o := E.drbg_generate prng.ctx
  (o.1.take 32, { prng with ctx := o.2 })

/-- The `while (b < nbits)` loop of `goo_prng_getrandbits` on `(prng, r, b)`.
The counter `b` is unbounded here; it agrees with the `unsigned int` of the C
code as long as `nbits + 256 ≤ 2^32`, which holds at every call site. -/
def getrandbitsLoop (E : Env) (nbits : Nat) :
    Nat → Prng E → Int → Nat → Prng E × Int × Nat
  | 0, prng, r, b => (prng, r, b)
  | fuel + 1, prng, r, b =>
    if b < nbits then
      let o := goo_prng_nextrand E prng
      getrandbitsLoop E nbits fuel o.2 (Int.lor (r * 2 ^ 256) (goo_mpz_import o.1)) (b + 256)
    else (prng, r, b)

/-- `goo_prng_getrandbits(prng, r, nbits)`: the value `r` and the new state. -/
def goo_prng_getrandbits (E : Env) (prng : Prng E) (nbits : Nat) : Int × Prng E :=
  match getrandbitsLoop E nbits (nbits + 1) prng prng.save (goo_mpz_bitlen prng.save) with
  | (prng1, r, b) =>
    let left := b - nbits
    if left = 0 then (r, { prng1 with save := 0 })
    else (r / 2 ^ left, { prng1 with save := Int.land r (2 ^ left - 1) })

/-! ## Comb specification -/

/-- `goo_clog2(val)`: bit length of `val - 1`. -/
def goo_clog2 (val : Int) : Nat := goo_mpz_bitlen (val - 1)

/-- The `while (shift >= 0)` loop of `goo_sqrt`, `k` iterations left, the
current shift being `2 * (k - 1)`. -/
def sqrtLoop : Nat → Nat → Nat → Nat
  | 0, _, res => res
  | k + 1, n, res =>
    let res1 := 2 * res
    sqrtLoop k n (if (res1 + 1) * (res1 + 1) ≤ n >>> (2 * k) then res1 + 1 else res1)

/-- `goo_sqrt(n)`: integer square root. -/
def goo_sqrt (n : Nat) : Nat :=
  let len := goo_mpz_bitlen n
  let shift := 2 * ((len + 1) / 2) - 2
  sqrtLoop (shift / 2 + 1) n 0

/-- The struct `goo_combspec_t`. -/
structure CombSpec where
  «exists» : Bool
  points_per_add : Nat
  adds_per_shift : Nat
  shifts : Nat
  bits_per_window : Nat
  ops : Nat
  size : Nat
deriving DecidableEq, Repr

/-- A zeroed `goo_combspec_t` (as `calloc` leaves it). -/
def CombSpec.zero : CombSpec := ⟨false, 0, 0, 0, 0, 0, 0⟩

/-- `combspec_size(bits)`: size of the map indexed by `ops`. -/
def combspec_size (bits : Nat) : Nat :=
  (List.range' 2 16).foldl (fun mx ppa =>
    let bpw := (bits + ppa - 1) / ppa
    let sqrt := goo_sqrt bpw
    (List.range' 1 (sqrt + 1)).foldl (fun mx aps =>
      if bpw % aps ≠ 0 then mx
      else
        let shifts := bpw / aps
        let ops1 := shifts * (aps + 1) - 1
        let ops2 := aps * (shifts + 1) - 1
        let ops := (if ops1 > ops2 then ops1 else ops2) + 1
        if ops > mx then ops else mx) mx) 0

/-- `combspec_result(combs, shifts, aps, ppa, bps)`: record the candidate in
`combs[ops]` when that slot is empty or holds a larger table. -/
def combspec_result (combs : List CombSpec) (shifts aps ppa bps : Nat) :
    Res (List CombSpec) :=
  let ops := shifts * (aps + 1) - 1
  let size := (2 ^ ppa - 1) * aps
  (rd combs ops).bind (fun best =>
    if best.exists = false ∨ best.size > size then
      wr combs ops ⟨true, ppa, aps, shifts, bps, ops, size⟩
    else .ok combs)

/-- The candidate enumeration of `goo_combspec_init`. -/
def combspec_fill (bits : Nat) (combs : List CombSpec) : Res (List CombSpec) :=
  forRange 16 2 (fun ppa combs =>
    let bpw := (bits + ppa - 1) / ppa
    let sqrt := goo_sqrt bpw
    forRange (sqrt + 1) 1 (fun aps combs =>
      if bpw % aps ≠ 0 then .ok combs
      else
        let shifts := bpw / aps
        (combspec_result combs shifts aps ppa bpw).bind (fun combs1 =>
          combspec_result combs1 aps shifts ppa bpw)) combs) combs

/-- The final scan of `goo_combspec_init` over the map, `sm` being the
smallest size seen so far (0 before the first). -/
def combspec_scan (maxsize : Nat) : List CombSpec → Nat → Option CombSpec
  | [], _ => none
  | comb :: rest, sm =>
    if comb.exists = false then combspec_scan maxsize rest sm
    else if sm ≠ 0 ∧ sm ≤ comb.size then combspec_scan maxsize rest sm
    else if comb.size ≤ maxsize then some comb
    else combspec_scan maxsize rest comb.size

/-- `goo_combspec_init(combspec, bits, maxsize)`; `bits` is a signed `long`. -/
def goo_combspec_init (bits : Int) (maxsize : Nat) : Res CombSpec :=
  if bits < 128 then .fail
  else
    (combspec_fill bits.toNat
      (List.replicate (combspec_size bits.toNat) CombSpec.zero)).bind (fun combs =>
      match combspec_scan maxsize combs 0 with
      | some ret => .ok ret
      | none => .fail)

end Goo

namespace Goo

/-! ## Group arithmetic that needs only the modulus -/

/-- `goo_group_sqr`: `mpz_powm_ui(ret, b, 2, n)`. -/
def goo_group_sqr (n b : Int) : Int := b * b % n

/-- `goo_group_pow`: `mpz_powm(ret, b, e, n)` (the inverse argument is unused). -/
def goo_group_pow (n b e : Int) : Int := mpz_powm b e n

/-- `goo_group_mul`: `mpz_mul` then `mpz_mod`. -/
def goo_group_mul (n m1 m2 : Int) : Int := m1 * m2 % n

/-- `goo_group_inv`: `mpz_invert(ret, b, n)`. -/
def goo_group_inv (n b : Int) : Res Int :=
  match mpz_invert b n with
  | some r => .ok r
  | none => .fail

/-! ## Comb tables -/

/-- The struct `goo_comb_t`; `wins` is scratch and is returned by the recoder. -/
structure Comb where
  «exists» : Bool
  points_per_add : Nat
  adds_per_shift : Nat
  shifts : Nat
  bits_per_window : Nat
  bits : Nat
  points_per_subcomb : Nat
  size : Nat
  items : List Int
deriving DecidableEq, Repr

/-- A zeroed `goo_comb_t` (`memset(&group->g_comb2, 0x00, ...)`). -/
def Comb.zero : Comb := ⟨false, 0, 0, 0, 0, 0, 0, 0, []⟩

/-- First table loop of `goo_comb_init`: for `i` in `[1, points_per_add)`,
`it[2^i - 1] = it[2^(i-1) - 1]^win`, then
`it[j - 1] = it[j - 2^i - 1] * it[2^i - 1]` for `j` in `(2^i, 2^(i+1))`. -/
def comb_fill_points (n : Int) (ppa : Nat) (win : Int) (it : List Int) : Res (List Int) :=
  forRange (ppa - 1) 1 (fun i it =>
    let oval := 2 ^ i
    let ival := oval / 2
    (rd it (ival - 1)).bind (fun x =>
    (wr it (oval - 1) (goo_group_pow n x win)).bind (fun it1 =>
      forRange (oval - 1) (oval + 1) (fun j it =>
        (rd it (j - oval - 1)).bind (fun a =>
        (rd it (oval - 1)).bind (fun b =>
          wr it (j - 1) (goo_group_mul n a b)))) it1))) it

/-- Second table loop of `goo_comb_init`: for `i` in `[1, adds_per_shift)` and
`j` in `[0, skip)`, `it[i*skip + j] = it[i*skip + j - skip]^win`. -/
def comb_fill_subcombs (n : Int) (aps skip : Nat) (win : Int) (it : List Int) :
    Res (List Int) :=
  forRange (aps - 1) 1 (fun i it =>
    forRange skip 0 (fun j it =>
      let k := i * skip + j
      (rd it (k - skip)).bind (fun x => wr it k (goo_group_pow n x win))) it) it

/-- `goo_comb_init(comb, group, base, spec, tiny)`. -/
def goo_comb_init (n : Int) (base : Int) (spec : CombSpec) (tiny : Bool) : Res Comb :=
  let skip := 2 ^ spec.points_per_add - 1
  let bits := spec.bits_per_window * spec.points_per_add
  (assertC (!tiny || (spec.points_per_add == 8 && spec.adds_per_shift == 2
      && spec.shifts == 8 && spec.bits_per_window == 16 && bits == 128
      && skip == 255 && spec.size == 510))).bind (fun _ =>
  (wr (List.replicate spec.size (0 : Int)) 0 base).bind (fun it0 =>
  (comb_fill_points n spec.points_per_add (2 ^ spec.bits_per_window) it0).bind (fun it1 =>
  (comb_fill_subcombs n spec.adds_per_shift skip (2 ^ spec.shifts) it1).bind (fun it2 =>
    .ok { «exists» := true, points_per_add := spec.points_per_add,
          adds_per_shift := spec.adds_per_shift, shifts := spec.shifts,
          bits_per_window := spec.bits_per_window, bits := bits,
          points_per_subcomb := skip, size := spec.size, items := it2 }))))

/-- Innermost loop of `goo_to_comb_exp`: the digit read for sub-comb `i` and
shift `j`, most significant bit first. -/
def comb_digit (comb : Comb) (e : Int) (pad i j : Nat) : Nat :=
  (List.range comb.points_per_add).foldl (fun ret k =>
    let b := (i + k * comb.adds_per_shift) * comb.shifts + j
    if b < pad then 2 * ret
    else 2 * ret + (if mpz_tstbit e ((comb.bits - 1) - b) then 1 else 0)) 0

/-- `goo_to_comb_exp(comb, e)`: the recoded exponent `wins[j][a]`, for `j` in
`[0, shifts)` and `a` in `[0, adds_per_shift)`, where
`wins[j][(adds_per_shift - 1) - i]` is the digit of sub-comb `i`. -/
def goo_to_comb_exp (comb : Comb) (e : Int) : Res (List (List Nat)) :=
  let len := goo_mpz_bitlen e
  if len > comb.bits then .fail
  else
    let pad := comb.bits - len
    .ok ((List.range comb.shifts).map (fun j =>
      (List.range comb.adds_per_shift).map (fun a =>
        comb_digit comb e pad ((comb.adds_per_shift - 1) - a) j)))

/-! ## The group context -/

/-- The fields of `goo_group_t` that outlive a call (the rest is scratch). -/
structure Group where
  n : Int
  nh : Int
  g : Int
  h : Int
  rand_bits : Nat
  g_comb1 : Comb
  h_comb1 : Comb
  g_comb2 : Comb
  h_comb2 : Comb
deriving DecidableEq, Repr

/-- A call `goo_combspec_init(&spec, bits, GOO_MAX_COMB_SIZE)` whose status
is ignored, as in `goo_group_init`: when it fails, `spec` stays uninitialised
and the run has no defined result. -/
def combspec_unchecked (E : Env) (bits : Int) : Res CombSpec :=
  match goo_combspec_init bits E.GOO_MAX_COMB_SIZE with
  | .ok s => .ok s
  | .hang => .hang
  | _ => .abort

/-- `goo_group_init(group, n, n_len, g, h, modbits)`; the status of
`goo_combspec_init` is not checked. `rand_bits` is a `size_t` (64 bits),
read as a signed `long` for the combs. -/
def goo_group_init (E : Env) (n : Bytes) (g h modbits : Nat) : Res Group :=
  let nn := goo_mpz_import n
  let nh := nn / 2
  let rand_bits : Nat := (goo_clog2 nn + (2 ^ 64 - 1)) % 2 ^ 64
  let small_bits : Int := if rand_bits < 2 ^ 63 then (rand_bits : Int) else (rand_bits : Int) - 2 ^ 64
  if modbits ≠ 0 then
    let big1 : Int := 2 * modbits
    let big2 : Int := modbits + small_bits
    let big := if big1 > big2 then big1 else big2
    let big_bits := big + E.GOO_CHAL_BITS + 1
    (combspec_unchecked E big_bits).bind (fun big_spec =>
    (combspec_unchecked E small_bits).bind (fun small_spec =>
    (goo_comb_init nn g small_spec false).bind (fun g1 =>
    (goo_comb_init nn h small_spec false).bind (fun h1 =>
    (goo_comb_init nn g big_spec false).bind (fun g2 =>
    (goo_comb_init nn h big_spec false).bind (fun h2 =>
      .ok ⟨nn, nh, g, h, rand_bits, g1, h1, g2, h2⟩))))))
  else
    (combspec_unchecked E E.GOO_CHAL_BITS).bind (fun tiny_spec =>
    (goo_comb_init nn g tiny_spec true).bind (fun g1 =>
    (goo_comb_init nn h tiny_spec true).bind (fun h1 =>
      .ok ⟨nn, nh, g, h, rand_bits, g1, h1, Comb.zero, Comb.zero⟩)))

/-- `goo_group_reduce(group, ret, b)` with `ret` and `b` the same variable,
as at every call site. -/
def goo_group_reduce (G : Group) (b : Int) : Int :=
  if b > G.nh then G.n - b else b

/-- `goo_group_is_reduced`. -/
def goo_group_is_reduced (G : Group) (b : Int) : Bool := decide (b ≤ G.nh)

/-- `goo_group_inv2(group, r1, r2, b1, b2)`. -/
def goo_group_inv2 (G : Group) (b1 b2 : Int) : Res (Int × Int) :=
  (goo_group_inv G.n (b1 * b2)).bind (fun b12_inv =>
    .ok (goo_group_mul G.n b2 b12_inv, goo_group_mul G.n b1 b12_inv))

/-- `goo_group_inv5(group, r1, ..., r5, b1, ..., b5)`. -/
def goo_group_inv5 (G : Group) (b1 b2 b3 b4 b5 : Int) :
    Res (Int × Int × Int × Int × Int) :=
  let b12 := goo_group_mul G.n b1 b2
  let b34 := goo_group_mul G.n b3 b4
  let b1234 := goo_group_mul G.n b12 b34
  let b12345 := goo_group_mul G.n b1234 b5
  (goo_group_inv G.n b12345).bind (fun b12345_inv =>
    let b1234_inv := goo_group_mul G.n b12345_inv b5
    let b34_inv := goo_group_mul G.n b1234_inv b12
    let b12_inv := goo_group_mul G.n b1234_inv b34
    .ok (goo_group_mul G.n b12_inv b2, goo_group_mul G.n b12_inv b1,
         goo_group_mul G.n b34_inv b4, goo_group_mul G.n b34_inv b3,
         goo_group_mul G.n b12345_inv b1234))

/-- Inner loop of `goo_group_powgh` over the sub-combs `j` of one shift. -/
def powgh_adds (G : Group) (gcomb hcomb : Comb) (e1vs e2vs : List Nat) (ret : Int) :
    Res Int :=
  forRange gcomb.adds_per_shift 0 (fun j ret =>
    (rd e1vs j).bind (fun e1v =>
    (rd e2vs j).bind (fun e2v =>
    (if e1v ≠ 0 then
      (rd gcomb.items (j * gcomb.points_per_subcomb + e1v - 1)).bind (fun g =>
        .ok (goo_group_mul G.n ret g))
     else .ok ret).bind (fun ret1 =>
    (if e2v ≠ 0 then
      (rd hcomb.items (j * hcomb.points_per_subcomb + e2v - 1)).bind (fun h =>
        .ok (goo_group_mul G.n ret1 h))
     else .ok ret1))))) ret

/-- `goo_group_powgh(group, ret, e1, e2)`. -/
def goo_group_powgh (G : Group) (e1 e2 : Int) : Res Int :=
  let e1bits := goo_mpz_bitlen e1
  let e2bits := goo_mpz_bitlen e2
  let loge := if e1bits > e2bits then e1bits else e2bits
  let pick : Res (Comb × Comb) :=
    if loge > G.g_comb1.bits then
      (if G.g_comb2.exists = true ∧ loge ≤ G.g_comb2.bits then .ok (G.g_comb2, G.h_comb2)
       else .fail)
    else .ok (G.g_comb1, G.h_comb1)
  pick.bind (fun c =>
  (goo_to_comb_exp c.1 e1).bind (fun w1 =>
  (goo_to_comb_exp c.2 e2).bind (fun w2 =>
    forRange c.1.shifts 0 (fun i ret =>
      (rd w1 i).bind (fun e1vs =>
      (rd w2 i).bind (fun e2vs =>
        powgh_adds G c.1 c.2 e1vs e2vs (if ret ≠ 1 then goo_group_sqr G.n ret else ret)))) 1)))

/-! ## Windowed NAF -/

/-- `goo_group_wnaf_pc_help(group, b, out)`: `out[0] = b`,
`out[i] = out[i-1] * b^2 mod n`, for `GOO_TABLEN` entries. -/
def goo_group_wnaf_pc_help (E : Env) (G : Group) (b : Int) : Res (List Int) :=
  let bsq := goo_group_sqr G.n b
  (wr (List.replicate E.GOO_TABLEN (0 : Int)) 0 b).bind (fun out0 =>
    forRange (E.GOO_TABLEN - 1) 1 (fun i out =>
      (rd out (i - 1)).bind (fun x => wr out i (goo_group_mul G.n x bsq))) out0)

/-- The loop of `goo_group_wnaf` from `i = bitlen - 1` down to 0: the digit
list (`out[i]` is pushed in front of `out[i+1..]`) and the final residue `r`. -/
def wnafLoop (w : Nat) : Nat → Int → List Int → List Int × Int
  | 0, r, out => (out, r)
  | k + 1, r, out =>
    if r % 2 = 1 then
      let v := r % 2 ^ w
      let val := if mpz_tstbit v (w - 1) then v - 2 ^ w else v
      wnafLoop w k ((r - val) / 2) (val :: out)
    else wnafLoop w k (r / 2) (0 :: out)

/-- `goo_group_wnaf(group, e, out, bitlen)`, ending with `assert(r == 0)`. -/
def goo_group_wnaf (E : Env) (e : Int) (bitlen : Nat) : Res (List Int) :=
  match wnafLoop E.GOO_WINDOW_SIZE bitlen e [] with
  | (out, r) => (assertC (r == 0)).bind (fun _ => .ok out)

/-- `goo_group_one_mul(group, ret, w, p, n)`. -/
def goo_group_one_mul (G : Group) (ret : Int) (w : Int) (p n : List Int) : Res Int :=
  if w > 0 then (rd p ((w - 1) / 2).toNat).bind (fun x => .ok (goo_group_mul G.n ret x))
  else if w < 0 then (rd n ((-1 - w) / 2).toNat).bind (fun x => .ok (goo_group_mul G.n ret x))
  else .ok ret

/-- `goo_group_pow2(group, ret, b1, b1_inv, e1, b2, b2_inv, e2)`. -/
def goo_group_pow2 (E : Env) (G : Group) (b1 b1_inv e1 b2 b2_inv e2 : Int) : Res Int :=
  (goo_group_wnaf_pc_help E G b1).bind (fun p1 =>
  (goo_group_wnaf_pc_help E G b1_inv).bind (fun n1 =>
  (goo_group_wnaf_pc_help E G b2).bind (fun p2 =>
  (goo_group_wnaf_pc_help E G b2_inv).bind (fun n2 =>
    let e1len := goo_mpz_bitlen e1
    let e2len := goo_mpz_bitlen e2
    let totlen := (if e1len > e2len then e1len else e2len) + 1
    (goo_group_wnaf E e1 totlen).bind (fun e1bits =>
    (goo_group_wnaf E e2 totlen).bind (fun e2bits =>
      forRange totlen 0 (fun i ret =>
        (rd e1bits i).bind (fun w1 =>
        (rd e2bits i).bind (fun w2 =>
        (goo_group_one_mul G (if ret ≠ 1 then goo_group_sqr G.n ret else ret) w1 p1 n1).bind
          (fun ret1 => goo_group_one_mul G ret1 w2 p2 n2)))) 1))))))

/-- `goo_group_recon(group, ret, b1, b1_inv, e1, b2, b2_inv, e2, e3, e4)`. -/
def goo_group_recon (E : Env) (G : Group) (b1 b1_inv e1 b2 b2_inv e2 e3 e4 : Int) :
    Res Int :=
  (goo_group_pow2 E G b1 b1_inv e1 b2 b2_inv e2).bind (fun ret =>
  (goo_group_powgh G e3 e4).bind (fun gh =>
    .ok (goo_group_reduce G (goo_group_mul G.n ret gh))))

end Goo

namespace Goo

/-! ## Fiat-Shamir transcript and challenge -/

/-- `goo_hash_item(ctx, n, size, buf)`: the bytes fed to SHA-256 for one
item, after `assert(len <= 768)`. -/
def goo_hash_item (n : Int) : Res Bytes :=
  let buf := goo_mpz_export n
  let len := buf.length
  (assertC (decide (len ≤ 768))).bind (fun _ =>
    let len1 := if n < 0 then Nat.lor len 0x8000 else len
    .ok ([UInt8.ofNat (len1 % 256), UInt8.ofNat (len1 / 256 % 256)] ++ buf))

/-- The byte string `goo_hash_all` feeds to SHA-256. -/
def goo_hash_transcript (G : Group) (C1 C2 t A B C D msg : Int) : Res Bytes :=
  (goo_hash_item G.n).bind (fun i1 =>
  (goo_hash_item G.g).bind (fun i2 =>
  (goo_hash_item G.h).bind (fun i3 =>
  (goo_hash_item C1).bind (fun i4 =>
  (goo_hash_item C2).bind (fun i5 =>
  (goo_hash_item t).bind (fun i6 =>
  (goo_hash_item A).bind (fun i7 =>
  (goo_hash_item B).bind (fun i8 =>
  (goo_hash_item C).bind (fun i9 =>
  (goo_hash_item D).bind (fun i10 =>
  (goo_hash_item msg).bind (fun i11 =>
    .ok ( goo_prefix ++ i1 ++ i2 ++ i3 ++ i4 ++ i5 ++ i6 ++ i7 ++ i8 ++ i9 ++ i10 ++ i11))))))))))))

/-- `goo_hash_all(out, group, C1, C2, t, A, B, C, D, msg)`: the 32-byte key. -/
def goo_hash_all (E : Env) (G : Group) (C1 C2 t A B C D msg : Int) : Res Bytes :=
  (goo_hash_transcript G C1 C2 t A B C D msg).bind (fun tr => .ok (E.sha256 tr))

/-- `goo_is_prime`. -/
def goo_is_prime (E : Env) (p : Int) : Bool := E.probab_prime p

/-- The `while (!goo_is_prime(ret))` loop of `goo_next_prime` on `(ret, inc)`. -/
def nextPrimeLoop (E : Env) (maxinc : Nat) : Nat → Int → Nat → Res (Int × Nat)
  | 0, _, _ => .hang
  | fuel + 1, ret, inc =>
    if goo_is_prime E ret then .ok (ret, inc)
    else if maxinc ≠ 0 ∧ inc > maxinc then .ok (ret, inc)
    else nextPrimeLoop E maxinc fuel (ret + 2) (inc + 2)

/-- `goo_next_prime(ret, p, maxinc)`. With `maxinc != 0` the loop ends within
`maxinc / 2 + 2` rounds; the unbounded search of `maxinc == 0` (not used by
the source) is followed up to `2 * |p| + 3` rounds. -/
def goo_next_prime (E : Env) (p : Int) (maxinc : Nat) : Res Int :=
  let start : Int × Nat := if p % 2 = 0 then (p + 1, 1) else (p, 0)
  (nextPrimeLoop E maxinc (if maxinc ≠ 0 then maxinc + 3 else 2 * p.natAbs + 3)
      start.1 start.2).bind (fun st =>
    if maxinc ≠ 0 ∧ st.2 > maxinc then .fail else .ok st.1)

/-- `goo_group_fs_chal(group, chal, ell, C1, C2, t, A, B, C, D, msg, verify)`:
the returned status with the outputs `chal`, `ell`, and the PRNG it leaves. -/
def goo_group_fs_chal (E : Env) (G : Group) (prng : Prng E)
    (C1 C2 t A B C D msg : Int) (verify : Bool) : Res (Bool × Int × Int × Prng E) :=
  (goo_hash_all E G C1 C2 t A B C D msg).bind (fun key =>
    let prng1 := goo_prng_seed E prng key
    let c := goo_prng_getrandbits E prng1 E.GOO_CHAL_BITS
    let l := goo_prng_getrandbits E c.2 E.GOO_CHAL_BITS
    if verify then .ok (true, c.1, l.1, l.2)
    else
      match goo_next_prime E l.1 E.GOO_ELLDIFF_MAX with
      | .ok ell => .ok (true, c.1, ell, l.2)
      | .fail => .ok (false, 0, 0, l.2)
      | .abort => .abort
      | .hang => .hang)

/-! ## Signatures and the verifier -/

/-- The struct `goo_sig_t`. -/
structure Sig where
  C2 : Int
  t : Int
  chal : Int
  ell : Int
  Aq : Int
  Bq : Int
  Cq : Int
  Dq : Int
  z_w : Int
  z_w2 : Int
  z_s1 : Int
  z_a : Int
  z_an : Int
  z_s1w : Int
  z_sa : Int
deriving DecidableEq, Repr

/-- The verifier's value `D`: `Dq*ell + (z_w2 - z_an) - t*chal`, plus `ell`
when `z_w2 - z_an < 0`. -/
def verify_D (sig : Sig) : Int :=
  let z_w2_m_an := sig.z_w2 - sig.z_an
  let D := sig.Dq * sig.ell + z_w2_m_an - sig.t * sig.chal
  if z_w2_m_an < 0 then D + sig.ell else D

/-- `goo_group_verify(group, msg, C1, C2, t, chal, ell, Aq, Bq, Cq, Dq, z_w,
z_w2, z_s1, z_a, z_an, z_s1w, z_sa)`: `.ok ()` is `return 1` and `.fail` is
`return 0`. -/
def goo_group_verify (E : Env) (G : Group) (prng : Prng E) (msg C1 : Int) (sig : Sig) :
    Res Unit :=
  if ¬ (goo_primes.any (fun p => decide (sig.t = (p : Int)))) = true then .fail
  else if ¬ (goo_group_is_reduced G C1 && goo_group_is_reduced G sig.C2
      && goo_group_is_reduced G sig.Aq && goo_group_is_reduced G sig.Bq
      && goo_group_is_reduced G sig.Cq) = true then .fail
  else
    (goo_group_inv5 G C1 sig.C2 sig.Aq sig.Bq sig.Cq).bind (fun inv =>
    match inv with
    | (C1_inv, C2_inv, Aq_inv, Bq_inv, Cq_inv) =>
    (goo_group_recon E G sig.Aq Aq_inv sig.ell C2_inv sig.C2 sig.chal sig.z_w sig.z_s1).bind
      (fun A =>
    (goo_group_recon E G sig.Bq Bq_inv sig.ell C2_inv sig.C2 sig.z_w sig.z_w2 sig.z_s1w).bind
      (fun B =>
    (goo_group_recon E G sig.Cq Cq_inv sig.ell C1_inv C1 sig.z_a sig.z_an sig.z_sa).bind
      (fun C =>
    let D := verify_D sig
    match goo_group_fs_chal E G prng C1 sig.C2 sig.t A B C D msg true with
    | .abort => .abort
    | .hang => .hang
    | .fail => .fail
    | .ok (_, chal_out, ell_r_out, _) =>
      let elldiff := sig.ell - ell_r_out
      if sig.chal ≠ chal_out ∨ elldiff < 0 ∨ elldiff > E.GOO_ELLDIFF_MAX
          ∨ goo_is_prime E sig.ell = false then .fail
      else .ok ()))))

/-! ## Modular square roots -/

/-- `goo_factor_twos(d, s, n)` for `n != 0`: `n = d * 2^s` with `d` odd. -/
def goo_factor_twos (n : Nat) : Nat × Nat :=
  let r := oddPart n n
  (r.2, r.1)

/-- The search `while (mpz_jacobi(w, p) != -1) w++`. -/
def sqrtpWitness (p : Nat) : Nat → Nat → Res Nat
  | 0, _ => .hang
  | fuel + 1, w => if mpz_jacobi w p = -1 then .ok w else sqrtpWitness p fuel (w + 1)

/-- The loop `while (i < s && y != 1) { y = y^2 mod p; i++ }`: the final `i`. -/
def sqrtpOrder (p : Int) (s : Nat) : Nat → Nat → Int → Nat
  | 0, i, _ => i
  | fuel + 1, i, y =>
    if i < s ∧ y ≠ 1 then sqrtpOrder p s fuel (i + 1) (mpz_powm y 2 p) else i

/-- The `for (;;)` loop of `goo_mod_sqrtp` on `(s, w, y, q)`: the final `q`. -/
def sqrtpLoop (p : Int) : Nat → Nat → Int → Int → Int → Res Int
  | 0, _, _, _, _ => .hang
  | fuel + 1, s, w, y, q =>
    let i := sqrtpOrder p s s 0 y
    if i = 0 then .ok q
    else if i = s then .fail
    else
      let w1 := mpz_powm w (2 ^ (s - i - 1)) p
      let q1 := q * w1 % p
      let w2 := mpz_powm w1 2 p
      sqrtpLoop p fuel i w2 (y * w2 % p) q1

/-- `goo_mod_sqrtp(ret, n, p)`. A zero modulus makes `mpz_mod` divide by
zero. The witness search is followed for `4p + 4` candidates, which covers
a full period of the symbol. -/
def goo_mod_sqrtp (n p : Int) : Res Int :=
  if p < 0 then .fail
  else if p = 0 then .abort
  else
    let nn := n % p
    if nn = 0 then .ok 0
    else if mpz_jacobi nn.toNat p.toNat = -1 then .fail
    else if p % 4 = 3 then .ok (mpz_powm nn ((p + 1) / 4) p)
    else
      let Qs := goo_factor_twos (p - 1).toNat
      let Q : Int := Qs.1
      (sqrtpWitness p.toNat (4 * p.toNat + 4) 2).bind (fun w0 =>
        let w := mpz_powm w0 Q p
        let y := mpz_powm nn Q p
        let q := mpz_powm nn ((Q + 1) / 2) p
        (sqrtpLoop p (Qs.2 + 1) Qs.2 w y q).bind (fun q1 =>
          let q2 := if q1 > p / 2 then p - q1 else q1
          (assertC (decide (nn = q2 * q2 % p))).bind (fun _ => .ok q2)))

/-- `goo_mod_sqrtn(ret, x, p, q)`. -/
def goo_mod_sqrtn (x p q : Int) : Res Int :=
  (goo_mod_sqrtp x p).bind (fun sqrt_p =>
  (goo_mod_sqrtp x q).bind (fun sqrt_q =>
    match mpz_gcdext p q with
    | (_, mp, mq) =>
      let xx := sqrt_q * mp * p
      let xy := sqrt_p * mq * q
      .ok ((xx + xy) % (p * q))))

end Goo

namespace Goo

/-! ## The signer -/

/-- The system randomness source `goo_random(key, 32)`: the outcome of the
`k`-th call, `none` when the call fails. -/
abbrev RandSrc := Nat → Option Bytes

/-- `goo_group_randbits(group, ret, size)`, drawing call number `k`. -/
def goo_group_randbits (E : Env) (rnd : RandSrc) (k : Nat) (prng : Prng E) (size : Nat) :
    Res (Int × Nat × Prng E) :=
  match rnd k with
  | none => .fail
  | some key =>
    let r := goo_prng_getrandbits E (goo_prng_seed E prng key) size
    .ok (r.1, k + 1, r.2)

/-- `goo_group_rand_scalar(group, ret)`, drawing call number `k`. -/
def goo_group_rand_scalar (E : Env) (G : Group) (rnd : RandSrc) (k : Nat) (prng : Prng E) :
    Res (Int × Nat × Prng E) :=
  let size := if G.rand_bits > E.GOO_EXPONENT_SIZE then E.GOO_EXPONENT_SIZE else G.rand_bits
  goo_group_randbits E rnd k prng size

/-- The key built by `goo_group_expand_sprime`: `pos = 32 - bytesize(s)` zero
bytes, then the bytes of `s_prime`; `s` is what the result held before and
`stack` what `key[32]` held, which shows where nothing is written. Bytes that `goo_mpz_export` writes past `key[31]` are
outside the array and are not part of the key. -/
def expand_sprime_key (s s_prime : Int) (stack : Bytes) : Bytes :=
  let pos := 32 - goo_mpz_bytesize s
  let sp := goo_mpz_export s_prime
  (List.range 32).map (fun i =>
    if i < pos then 0
    else if i < pos + sp.length then sp.getD (i - pos) 0
    else stack.getD i 0)

/-- `goo_group_expand_sprime(group, s, s_prime)`; `pos` is a `size_t`, so
`32 - bytesize(s)` wraps above 32 when `s` has more than 32 bytes. -/
def goo_group_expand_sprime (E : Env) (prng : Prng E) (s s_prime : Int) (stack : Bytes) :
    Res (Int × Prng E) :=
  if goo_mpz_bytesize s > 32 then .fail
  else
    .ok (goo_prng_getrandbits E (goo_prng_seed E prng (expand_sprime_key s s_prime stack))
      E.GOO_EXPONENT_SIZE)

/-- `goo_group_challenge(group, s_prime, C1, n)`, drawing call number `k`;
its `s` is a fresh variable (zero). -/
def goo_group_challenge (E : Env) (G : Group) (rnd : RandSrc) (k : Nat) (prng : Prng E)
    (stack : Bytes) (n : Int) : Res (Int × Int) :=
  (goo_group_randbits E rnd k prng 256).bind (fun r =>
  (goo_group_expand_sprime E r.2.2 0 r.1 stack).bind (fun s =>
  (goo_group_powgh G n s.1).bind (fun C1 =>
    .ok (r.1, goo_group_reduce G C1))))

/-- The small-prime search of `goo_group_sign`,
`for (i = 0; i < (int)sizeof(goo_primes); i++)`, from index `i` with `cnt`
rounds left: the chosen `t` and `w`. -/
def signSearch (p q : Int) : Nat → Nat → Res (Int × Int)
  | 0, _ => .fail
  | cnt + 1, i =>
    (rd goo_primes i).bind (fun t =>
      match goo_mod_sqrtn t p q with
      | .ok w => .ok ((t : Int), w)
      | .fail => signSearch p q cnt (i + 1)
      | .abort => .abort
      | .hang => .hang)

/-- `sizeof(goo_primes)`: 168 entries of type `unsigned int` (4 bytes). -/
def sizeof_goo_primes : Nat := 168 * 4

/-- The loop `while (r == 0 || goo_mpz_bitlen(*ell) != 128)` of
`goo_group_sign`: the final `r_s1`, `chal`, `ell`. -/
def signLoop (E : Env) (G : Group) (rnd : RandSrc) (C1 C2 t B C D msg r_w : Int) :
    Nat → Nat → Prng E → Res (Int × Int × Int)
  | 0, _, _ => .hang
  | fuel + 1, k, prng =>
    (goo_group_rand_scalar E G rnd k prng).bind (fun r =>
    (goo_group_powgh G r_w r.1).bind (fun A0 =>
    (goo_group_fs_chal E G r.2.2 C1 C2 t (goo_group_reduce G A0) B C D msg false).bind
      (fun o =>
        if o.1 = false ∨ goo_mpz_bitlen o.2.2.1 ≠ 128 then
          signLoop E G rnd C1 C2 t B C D msg r_w fuel r.2.1 o.2.2.2
        else .ok (r.1, o.2.1, o.2.2.1))))

/-- `goo_group_sign(group, sig, msg, s_prime, C1, n, p, q)`. `Aq0` is the
content of the context slot `group->Aq` (the variable `s`) on entry, `stack`
the content of the key buffer of `goo_group_expand_sprime`, `rnd` the
outcomes of `goo_random`, and `fuel` bounds the rounds of the final loop. -/
def goo_group_sign (E : Env) (G : Group) (rnd : RandSrc) (fuel : Nat) (prng : Prng E)
    (Aq0 : Int) (stack : Bytes) (msg s_prime C1 n p q : Int) : Res Sig :=
  (goo_group_expand_sprime E prng Aq0 s_prime stack).bind (fun e =>
  let s := e.1
  (goo_group_powgh G n s).bind (fun x0 =>
  if C1 ≠ goo_group_reduce G x0 then .fail
  else
  (signSearch p q sizeof_goo_primes 0).bind (fun tw =>
  let t := tw.1
  let w := tw.2
  if n = 0 then .abort
  else
  let a := Int.fdiv (w ^ 2 - t) n
  if a * n ≠ w ^ 2 - t then .fail
  else
  (goo_group_rand_scalar E G rnd 0 e.2).bind (fun d1 =>
  let s1 := d1.1
  (goo_group_powgh G w s1).bind (fun C2raw =>
  let C2 := goo_group_reduce G C2raw
  (goo_group_inv2 G C1 C2).bind (fun invs =>
  let C1_inv := invs.1
  let C2_inv := invs.2
  (goo_group_rand_scalar E G rnd d1.2.1 d1.2.2).bind (fun d2 =>
  (goo_group_rand_scalar E G rnd d2.2.1 d2.2.2).bind (fun d3 =>
  (goo_group_rand_scalar E G rnd d3.2.1 d3.2.2).bind (fun d4 =>
  (goo_group_rand_scalar E G rnd d4.2.1 d4.2.2).bind (fun d5 =>
  (goo_group_rand_scalar E G rnd d5.2.1 d5.2.2).bind (fun d6 =>
  (goo_group_rand_scalar E G rnd d6.2.1 d6.2.2).bind (fun d7 =>
  let r_w := d2.1
  let r_a := d4.1
  let r_s1w := d6.1
  let r_sa := d7.1
  let r_w2 := if d3.1 < d5.1 then d5.1 else d3.1
  let r_an := if d3.1 < d5.1 then d3.1 else d5.1
  (goo_group_powgh G r_w2 r_s1w).bind (fun y1 =>
  let B := goo_group_reduce G (goo_group_mul G.n (goo_group_pow G.n C2_inv r_w) y1)
  (goo_group_powgh G r_an r_sa).bind (fun y2 =>
  let C := goo_group_reduce G (goo_group_mul G.n (goo_group_pow G.n C1_inv r_a) y2)
  let D := r_w2 - r_an
  (signLoop E G rnd C1 C2 t B C D msg r_w fuel d7.2.1 d7.2.2).bind (fun fs =>
  let r_s1 := fs.1
  let chal := fs.2.1
  let ell := fs.2.2
  let z_w := chal * w + r_w
  let z_w2 := chal * w * w + r_w2
  let z_s1 := chal * s1 + r_s1
  let z_a := chal * a + r_a
  let z_an := chal * a * n + r_an
  let z_s1w := chal * s1 * w + r_s1w
  let z_sa := chal * s * a + r_sa
  (goo_group_powgh G (Int.fdiv z_w ell) (Int.fdiv z_s1 ell)).bind (fun Aq0 =>
  (goo_group_powgh G (Int.fdiv z_w2 ell) (Int.fdiv z_s1w ell)).bind (fun yy1 =>
  let Bq := goo_group_reduce G
    (goo_group_mul G.n (goo_group_pow G.n C2_inv (Int.fdiv z_w ell)) yy1)
  (goo_group_powgh G (Int.fdiv z_an ell) (Int.fdiv z_sa ell)).bind (fun yy2 =>
  let Cq := goo_group_reduce G
    (goo_group_mul G.n (goo_group_pow G.n C1_inv (Int.fdiv z_a ell)) yy2)
  .ok { C2 := C2, t := t, chal := chal, ell := ell,
        Aq := goo_group_reduce G Aq0, Bq := Bq, Cq := Cq,
        Dq := Int.fdiv (z_w2 - z_an) ell,
        z_w := z_w % ell, z_w2 := z_w2 % ell, z_s1 := z_s1 % ell, z_a := z_a % ell,
        z_an := z_an % ell, z_s1w := z_s1w % ell, z_sa := z_sa % ell }))))))))))))))))))

/-! ## The byte interface -/

/-- The macro `goo_read_item(n)` at offset `pos`: the integer read and the
next offset. -/
def goo_read_item (sig : Bytes) (pos : Nat) : Res (Int × Nat) :=
  if pos + 2 > sig.length then .fail
  else
    let len := Nat.lor ((sig.getD (pos + 1) 0).toNat * 0x100) (sig.getD pos 0).toNat
    if len > 768 then .fail
    else if pos + 2 + len > sig.length then .fail
    else .ok (goo_mpz_import ((sig.drop (pos + 2)).take len), pos + 2 + len)

/-- The fifteen `goo_read_item` calls of `goo_verify` followed by
`goo_read_final`. -/
def goo_read_sig (sig : Bytes) : Res Sig :=
  (goo_read_item sig 0).bind (fun C2 =>
  (goo_read_item sig C2.2).bind (fun t =>
  (goo_read_item sig t.2).bind (fun chal =>
  (goo_read_item sig chal.2).bind (fun ell =>
  (goo_read_item sig ell.2).bind (fun Aq =>
  (goo_read_item sig Aq.2).bind (fun Bq =>
  (goo_read_item sig Bq.2).bind (fun Cq =>
  (goo_read_item sig Cq.2).bind (fun Dq =>
  (goo_read_item sig Dq.2).bind (fun z_w =>
  (goo_read_item sig z_w.2).bind (fun z_w2 =>
  (goo_read_item sig z_w2.2).bind (fun z_s1 =>
  (goo_read_item sig z_s1.2).bind (fun z_a =>
  (goo_read_item sig z_a.2).bind (fun z_an =>
  (goo_read_item sig z_an.2).bind (fun z_s1w =>
  (goo_read_item sig z_s1w.2).bind (fun z_sa =>
    if z_sa.2 ≠ sig.length then .fail
    else .ok ⟨C2.1, t.1, chal.1, ell.1, Aq.1, Bq.1, Cq.1, Dq.1, z_w.1, z_w2.1, z_s1.1,
      z_a.1, z_an.1, z_s1w.1, z_sa.1⟩)))))))))))))))

/-- The macro `goo_write_item(n)` of `goo_sign`: two length bytes, low byte
first, then the magnitude of `n`. -/
def goo_write_item (n : Int) : Res Bytes :=
  let nsize := goo_mpz_bytesize n
  if nsize > 768 then .fail
  else .ok ([UInt8.ofNat (nsize % 256), UInt8.ofNat (nsize / 256 % 256)] ++ goo_mpz_export n)

/-- The fifteen `goo_write_item` calls at the end of `goo_sign`. -/
def goo_write_sig (sig : Sig) : Res Bytes :=
  (goo_write_item sig.C2).bind (fun b1 =>
  (goo_write_item sig.t).bind (fun b2 =>
  (goo_write_item sig.chal).bind (fun b3 =>
  (goo_write_item sig.ell).bind (fun b4 =>
  (goo_write_item sig.Aq).bind (fun b5 =>
  (goo_write_item sig.Bq).bind (fun b6 =>
  (goo_write_item sig.Cq).bind (fun b7 =>
  (goo_write_item sig.Dq).bind (fun b8 =>
  (goo_write_item sig.z_w).bind (fun b9 =>
  (goo_write_item sig.z_w2).bind (fun b10 =>
  (goo_write_item sig.z_s1).bind (fun b11 =>
  (goo_write_item sig.z_a).bind (fun b12 =>
  (goo_write_item sig.z_an).bind (fun b13 =>
  (goo_write_item sig.z_s1w).bind (fun b14 =>
  (goo_write_item sig.z_sa).bind (fun b15 =>
    .ok (b1 ++ b2 ++ b3 ++ b4 ++ b5 ++ b6 ++ b7 ++ b8 ++ b9 ++ b10 ++ b11 ++ b12 ++ b13
      ++ b14 ++ b15))))))))))))))))

/-- `goo_verify(ctx, msg, msg_len, sig, sig_len, C1, C1_len)` for non-null
arguments: `.ok ()` is `return 1`, `.fail` is `return 0`. -/
def goo_verify (E : Env) (G : Group) (prng : Prng E) (msg sig C1 : Bytes) : Res Unit :=
  if msg.length > 768 then .fail
  else if C1.length > 768 then .fail
  else
    (goo_read_sig sig).bind (fun s =>
      goo_group_verify E G prng (goo_mpz_import msg) (goo_mpz_import C1) s)

end Goo

namespace Goo

/-! ## A concrete environment for running the model -/

/-- One Miller-Rabin round: is `n` a strong probable prime to base `a`, for
odd `n = d * 2^s + 1`. -/
def mrRound (n : Int) (d s : Nat) (a : Int) : Bool :=
  let x := mpz_powm a d n
  if x = 1 ∨ x = n - 1 then true
  else (List.range (s - 1)).foldl (fun (st : Int × Bool) _ =>
      let y := st.1 * st.1 % n
      (y, st.2 || decide (y = n - 1))) (x, false) |>.2

/-- A deterministic stand-in for `mpz_probab_prime_p(p, 2)`: trial division
by 2 and 3, then two Miller-Rabin rounds (bases 2 and 3). -/
def demoPrime (p : Int) : Bool :=
  if p < 2 then false
  else if p = 2 ∨ p = 3 then true
  else if p % 2 = 0 ∨ p % 3 = 0 then false
  else
    let ds := goo_factor_twos (p - 1).toNat
    mrRound p ds.1 ds.2 2 && mrRound p ds.1 ds.2 3

/-- A stand-in for SHA-256: a polynomial checksum of the input, as 32 bytes. -/
def demoHash (x : Bytes) : Bytes :=
  natToBytes 32 (x.foldl (fun acc b =>
    (acc * 6364136223846793005 + b.toNat + 1442695040888963407) % 2 ^ 256) 7)

/-- A stand-in for the HMAC-DRBG: the state is a 256-bit number, stepped by
an affine map; each block is the state squared and folded, as 32 bytes. -/
def demoEnv : Env where
  Drbg := Nat
  drbg_init := fun entropy => (goo_mpz_import (demoHash entropy)).toNat
  drbg_generate := fun st =>
    let st1 := (st * 0x5851f42d4c957f2d14057b7ef767814f + 0x14057b7ef767814f5851f42d4c957f2d) % 2 ^ 256
    (natToBytes 32 ((st1 * st1 / 2 ^ 128 + st1) % 2 ^ 256), st1)
  sha256 := demoHash
  probab_prime := demoPrime
  GOO_CHAL_BITS := 128
  GOO_EXPONENT_SIZE := 2048
  GOO_ELLDIFF_MAX := 512
  GOO_WINDOW_SIZE := 6
  GOO_TABLEN := 16
  GOO_MAX_COMB_SIZE := 512

/-- The same stand-ins with shorter exponents and smaller comb tables, for
running whole protocol rounds. -/
def smallEnv : Env :=
  { demoEnv with GOO_EXPONENT_SIZE := 160, GOO_MAX_COMB_SIZE := 32 }

/-- A group structure without tables. -/
def Group.zero : Group := ⟨0, 0, 0, 0, 0, Comb.zero, Comb.zero, Comb.zero, Comb.zero⟩

/-- The signature with all fields zero. -/
def Sig.zero : Sig := ⟨0, 0, 0, 0, 0, 0, 0, 0, 0, 0, 0, 0, 0, 0, 0⟩

/-- The modulus `2^130 + 7` as 17 bytes. -/
def demoN : Bytes := natToBytes 17 (2 ^ 130 + 7)

/-- The signer's group for `demoN` with `g = 2`, `h = 3`, `modbits = 20`. -/
def demoGroup : Group := (goo_group_init smallEnv demoN 2 3 20).getD Group.zero

def demoPrng : Prng smallEnv := ⟨(0 : Nat), 0⟩

/-- Outcomes of `goo_random`: call `k` returns the 32 bytes of `k^2 + 17`. -/
def demoRand : RandSrc := fun k => some (natToBytes 32 (k * k + 17))

/-- The commitment `C1` to `n = 1009 * 1013` under the seed `s_prime = 1`. -/
def demoC1 : Int := 176969015797946944643981349510852846988

/-- The signature of the message 424242 for `n = 1009 * 1013` that
`goo_group_sign` returns in `demoGroup` with the draws `demoRand`. -/
def demoSig : Sig :=
  { C2 := 660225931180421638547865882063198863685
    t := 71
    chal := 101471558409405437495298769240407645954
    ell := 227211642385681583009755761253083947197
    Aq := 535347247478066455507516723085761827210
    Bq := 629889505512481502330756857060335018441
    Cq := 189763064890550342973028930074847047397
    Dq := 32
    z_w := 43998651546430717757958748845651820389
    z_w2 := 188658822580424974988816140713870921315
    z_s1 := 60232021390557329971831590373601363304
    z_a := 207011375312689989454265649973002642988
    z_an := 141010000527773264102219554042831623059
    z_s1w := 221249481939848527468320707820725280554
    z_sa := 215719651824514054806076752447655651161 }

/-- The verifier-path Fiat-Shamir output for `demoSig` with the values
`A`, `B`, `C` the verifier reconstructs. -/
def demoFs : Bool × Int × Int × Prng smallEnv :=
  (goo_group_fs_chal smallEnv demoGroup demoPrng demoC1 demoSig.C2 demoSig.t
    6528008380626320696197985765733543087 411615901427384345663857414448839388638
    74610714849727796139410581501990630677 (verify_D demoSig) 424242 true).getD
    (false, 0, 0, demoPrng)

/-- The message 424242 as bytes. -/
def demoMsg : Bytes := [6, 121, 50]

def demoC1Bytes : Bytes := goo_mpz_export demoC1

def demoSigBytes : Bytes := (goo_write_sig demoSig).getD []

end Goo

namespace Goo

/-! ## Reference functions used to state the results -/

/-- Value of a signed-digit string, most significant digit first. -/
def evalDigits (ds : List Int) : Int := ds.foldl (fun acc d => 2 * acc + d) 0

/-- Power with a signed exponent: a negative exponent means the
corresponding power of the supplied inverse. -/
def signedPow (b b_inv e : Int) : Int :=
  if 0 ≤ e then b ^ e.toNat else b_inv ^ (-e).toNat

/-- A comb specification as `goo_combspec_init` produces them: positive
parameters, `bits_per_window = shifts * adds_per_shift` and
`size = (2^points_per_add - 1) * adds_per_shift`. -/
def CombSpec.WF (s : CombSpec) : Prop :=
  1 ≤ s.points_per_add ∧ 1 ≤ s.adds_per_shift ∧ 1 ≤ s.shifts
    ∧ s.bits_per_window = s.shifts * s.adds_per_shift
    ∧ s.size = (2 ^ s.points_per_add - 1) * s.adds_per_shift

/-- The exponent a comb digit stands for: bit `k` of the digit `v` (for
`k < P`) contributes `2^(W*k)`. -/
def spread (W : Nat) : Nat → Nat → Nat
  | 0, _ => 0
  | P + 1, v => v % 2 + 2 ^ W * spread W P (v / 2)

/-- Contents of a comb table for `base` modulo `m`: the item at index
`j * (2^P - 1) + v - 1` is `base^(2^(S*j) * spread W P v)`, for every
sub-comb `j < A` and digit `1 ≤ v ≤ 2^P - 1`. -/
def Comb.Good (c : Comb) (m : Nat) (base : Int) : Prop :=
  c.exists = true ∧ 1 ≤ c.points_per_add ∧ 1 ≤ c.adds_per_shift ∧ 1 ≤ c.shifts
    ∧ c.bits_per_window = c.shifts * c.adds_per_shift
    ∧ c.bits = c.bits_per_window * c.points_per_add
    ∧ c.points_per_subcomb = 2 ^ c.points_per_add - 1
    ∧ c.items.length = c.points_per_subcomb * c.adds_per_shift
    ∧ ∀ (j v : Nat) (x : Int), j < c.adds_per_shift → 1 ≤ v → v ≤ c.points_per_subcomb →
        c.items[j * c.points_per_subcomb + v - 1]? = some x →
        (x : ZMod m) = (base : ZMod m) ^ (2 ^ (c.shifts * j)
          * spread c.bits_per_window c.points_per_add v)

/-- The digits allowed in a width-`w` NAF: zero or odd, below `2^(w-1)` in size. -/
def wnafDigitOk (w : Nat) (d : Int) : Prop :=
  d = 0 ∨ (d % 2 = 1 ∧ -(2 ^ (w - 1)) < d ∧ d < 2 ^ (w - 1))

/-- What every filled slot of the `ops`-indexed map satisfies. -/
def slotOk (bits : Nat) (c : CombSpec) : Prop :=
  c.exists = true → c.WF ∧ bits ≤ c.bits_per_window * c.points_per_add
    ∧ 2 ≤ c.points_per_add ∧ c.points_per_add ≤ 17

/-- Two combs built from the same specification. -/
def Comb.SameShape (c1 c2 : Comb) : Prop :=
  c2.points_per_add = c1.points_per_add ∧ c2.adds_per_shift = c1.adds_per_shift
    ∧ c2.shifts = c1.shifts ∧ c2.bits_per_window = c1.bits_per_window

/-- A group context whose modulus is `m > 1` and whose comb tables hold the
powers of `g` and `h` (the second pair only when it exists). -/
def Group.Good (G : Group) (m : Nat) : Prop :=
  G.n = m ∧ 1 < m ∧ G.g_comb1.Good m G.g ∧ G.h_comb1.Good m G.h
    ∧ G.g_comb1.SameShape G.h_comb1
    ∧ (G.g_comb2.exists = true →
        G.g_comb2.Good m G.g ∧ G.h_comb2.Good m G.h ∧ G.g_comb2.SameShape G.h_comb2)

/-- The integer `t` has a square root modulo `m`. -/
def HasSqrtMod (t : Int) (m : Nat) : Prop := ∃ x : Int, x * x % (m : Int) = t % (m : Int)

/-- The integer `x` is `u` or `-u` modulo `m`: it stands for the class of
the unit `u` in the quotient of the unit group by `±1`. -/
def Rep (m : Nat) (x : Int) (u : (ZMod m)ˣ) : Prop :=
  (x : ZMod m) = (u : ZMod m) ∨ (x : ZMod m) = -(u : ZMod m)

/-- The unit `g^a * h^b` for integer exponents. -/
def ghPow {m : Nat} (ug uh : (ZMod m)ˣ) (a b : Int) : (ZMod m)ˣ := ug ^ a * uh ^ b

/-- The value `g^e1 * h^e2 mod n` that `goo_group_powgh` computes. -/
def powghVal (G : Group) (e1 e2 : Int) : Int := G.g ^ e1.toNat * G.h ^ e2.toNat % G.n

/-- The value `b^e mod n * (g^e1 * h^e2 mod n) mod n` of the signer's
commitments `B`, `C`, `Bq`, `Cq`. -/
def commitVal (G : Group) (b e e1 e2 : Int) : Int :=
  goo_group_mul G.n (b ^ e.toNat % G.n) (powghVal G e1 e2)

/-- What a run of `goo_group_sign` that returns `sig` has established: the
secrets, masks and inverses it used, and how the fields of `sig` are built
from them. -/
structure HonestRun (E : Env) (G : Group) (msg C1 : Int) (sig : Sig)
    (n s w a s1 r_w r_w2 r_s1 r_a r_an r_s1w r_sa C1_inv C2_inv : Int)
    (prngA prngB : Prng E) : Prop where
  s_nonneg : 0 ≤ s
  w_nonneg : 0 ≤ w
  a_nonneg : 0 ≤ a
  n_pos : 0 < n
  s1_nonneg : 0 ≤ s1
  r_w_nonneg : 0 ≤ r_w
  r_w2_nonneg : 0 ≤ r_w2
  r_s1_nonneg : 0 ≤ r_s1
  r_a_nonneg : 0 ≤ r_a
  r_an_nonneg : 0 ≤ r_an
  r_s1w_nonneg : 0 ≤ r_s1w
  r_sa_nonneg : 0 ≤ r_sa
  mask_order : r_an ≤ r_w2
  t_mem : ∃ tn ∈ goo_primes, sig.t = (tn : Int)
  opening : C1 = goo_group_reduce G (powghVal G n s)
  root : a * n = w ^ 2 - sig.t
  commit_w : sig.C2 = goo_group_reduce G (powghVal G w s1)
  inv_C1 : goo_group_inv G.n C1 = Res.ok C1_inv
  inv_C2 : goo_group_inv G.n sig.C2 = Res.ok C2_inv
  challenge : goo_group_fs_chal E G prngA C1 sig.C2 sig.t
      (goo_group_reduce G (powghVal G r_w r_s1))
      (goo_group_reduce G (commitVal G C2_inv r_w r_w2 r_s1w))
      (goo_group_reduce G (commitVal G C1_inv r_a r_an r_sa))
      (r_w2 - r_an) msg false = Res.ok (true, sig.chal, sig.ell, prngB)
  ell_bits : goo_mpz_bitlen sig.ell = 128
  Aq_eq : sig.Aq = goo_group_reduce G (powghVal G
      (Int.fdiv (sig.chal * w + r_w) sig.ell) (Int.fdiv (sig.chal * s1 + r_s1) sig.ell))
  Bq_eq : sig.Bq = goo_group_reduce G (commitVal G C2_inv
      (Int.fdiv (sig.chal * w + r_w) sig.ell)
      (Int.fdiv (sig.chal * w * w + r_w2) sig.ell)
      (Int.fdiv (sig.chal * s1 * w + r_s1w) sig.ell))
  Cq_eq : sig.Cq = goo_group_reduce G (commitVal G C1_inv
      (Int.fdiv (sig.chal * a + r_a) sig.ell)
      (Int.fdiv (sig.chal * a * n + r_an) sig.ell)
      (Int.fdiv (sig.chal * s * a + r_sa) sig.ell))
  Dq_eq : sig.Dq = Int.fdiv ((sig.chal * w * w + r_w2) - (sig.chal * a * n + r_an)) sig.ell
  z_w_eq : sig.z_w = (sig.chal * w + r_w) % sig.ell
  z_w2_eq : sig.z_w2 = (sig.chal * w * w + r_w2) % sig.ell
  z_s1_eq : sig.z_s1 = (sig.chal * s1 + r_s1) % sig.ell
  z_a_eq : sig.z_a = (sig.chal * a + r_a) % sig.ell
  z_an_eq : sig.z_an = (sig.chal * a * n + r_an) % sig.ell
  z_s1w_eq : sig.z_s1w = (sig.chal * s1 * w + r_s1w) % sig.ell
  z_sa_eq : sig.z_sa = (sig.chal * s * a + r_sa) % sig.ell

/-- The challenge the Fiat-Shamir derivation draws from the transcript `tr`:
the first `GOO_CHAL_BITS` bits of the generator seeded with its hash. -/
def transcriptChal (E : Env) (prng : Prng E) (tr : Bytes) : Int :=
  (goo_prng_getrandbits E (goo_prng_seed E prng (E.sha256 tr)) E.GOO_CHAL_BITS).1

/-- Trial-division primality test used for the finite check below. -/
def primeB (p : Nat) : Bool :=
  decide (2 ≤ p) && (List.range p).all (fun d => decide (d < 2) || p % d != 0)

/-- For every pair of distinct primes with product at most 997, the root `w`
chosen by the signer's search satisfies `t ≤ w^2`. -/
def smallModulusCheck : Bool :=
  (List.range 333).all fun p => !primeB p || (List.range 333).all fun q =>
    decide (997 < p * q) || decide (p = q) || !primeB q ||
      (match signSearch p q sizeof_goo_primes 0 with
       | .ok (t, w) => decide (t ≤ w * w)
       | _ => true)

/-- Bit `p` of `e` as a number. -/
def bitv (e : Int) (p : Nat) : Nat := if mpz_tstbit e p then 1 else 0

end Goo

namespace Goo

/-! ## Reference definitions for the wire format, the transcript and the generator -/

/-- The fifteen `goo_read_item` calls of `goo_verify` as a loop: `k` items
read from offset `pos`, with the offset after the last one. -/
def readItemsFrom (sig : Bytes) : Nat → Nat → Res (List Int × Nat)
  | 0, pos => .ok ([], pos)
  | k + 1, pos =>
    (goo_read_item sig pos).bind (fun x =>
    (readItemsFrom sig k x.2).bind (fun r => .ok (x.1 :: r.1, r.2)))

/-- The signature wire format in the words of the spec: `k` items, each a
little-endian u16 length of at most 768 followed by that many bytes of
big-endian magnitude, which together use up the buffer. -/
def specWireItems : Nat → Bytes → Option (List Int)
  | 0, [] => some []
  | 0, _ :: _ => none
  | k + 1, b0 :: b1 :: rest =>
    let len := b0.toNat + 256 * b1.toNat
    if len > 768 then none
    else if rest.length < len then none
    else (specWireItems k (rest.drop len)).map (fun xs => goo_mpz_import (rest.take len) :: xs)
  | _ + 1, _ => none

/-- The signature made of fifteen items, in the order of the wire format. -/
def specSig : List Int → Option Sig
  | [C2, t, chal, ell, Aq, Bq, Cq, Dq, z_w, z_w2, z_s1, z_a, z_an, z_s1w, z_sa] =>
    some ⟨C2, t, chal, ell, Aq, Bq, Cq, Dq, z_w, z_w2, z_s1, z_a, z_an, z_s1w, z_sa⟩
  | _ => none

/-- Big-endian base-256 digits of `m` without leading zeros (none for 0);
`fuel` bounds the number of digits. -/
def specMagnitudeNat : Nat → Nat → Bytes
  | 0, _ => []
  | fuel + 1, m =>
    if m = 0 then [] else specMagnitudeNat fuel (m / 256) ++ [UInt8.ofNat (m % 256)]

/-- The magnitude bytes of an integer in the words of the spec. -/
def specMagnitude (n : Int) : Bytes := specMagnitudeNat n.natAbs n.natAbs

/-- A transcript item in the words of the spec: the two bytes
`(L mod 256, L div 256)` with `L = len(|n|) + 0x8000 * [n < 0]`, then the
magnitude bytes. -/
def specItem (n : Int) : Bytes :=
  let L := (specMagnitude n).length + (if n < 0 then 0x8000 else 0)
  [UInt8.ofNat (L % 256), UInt8.ofNat (L / 256)] ++ specMagnitude n

/-- The hashed transcript in the words of the spec: the ASCII prefix and the
eleven items in order. -/
def specTranscript (N g h C1 C2 t A B C D msg : Int) : Bytes :=
  ("libGooPy:".toList.map (fun c => UInt8.ofNat c.toNat))
    ++ specItem N ++ specItem g ++ specItem h ++ specItem C1 ++ specItem C2 ++ specItem t
    ++ specItem A ++ specItem B ++ specItem C ++ specItem D ++ specItem msg

/-- The `while (b < nbits)` loop of `goo_prng_getrandbits` with the counter
`b` as the `unsigned int` it is: `b += 256` wraps modulo `2^32`. The result
is `none` when the loop has not ended within `fuel` rounds. -/
def getrandbitsLoop32 (E : Env) (nbits : Nat) :
    Nat → Prng E → Int → Nat → Option (Prng E × Int × Nat)
  | 0, _, _, _ => none
  | fuel + 1, prng, r, b =>
    if b < nbits then
      let o := goo_prng_nextrand E prng
      getrandbitsLoop32 E nbits fuel o.2 (Int.lor (r * 2 ^ 256) (goo_mpz_import o.1))
        ((b + 256) % 2 ^ 32)
    else some (prng, r, b)

/-- `goo_prng_getrandbits(prng, r, nbits)` with the counter as an
`unsigned int`: the value `r` and the new state, or `none` when the loop has
not ended within `fuel` rounds. -/
def goo_prng_getrandbits32 (E : Env) (fuel : Nat) (prng : Prng E) (nbits : Nat) :
    Option (Int × Prng E) :=
  match getrandbitsLoop32 E nbits fuel prng prng.save (goo_mpz_bitlen prng.save % 2 ^ 32) with
  | none => none
  | some (prng1, r, b) =>
    let left := b - nbits
    if left = 0 then some (r, { prng1 with save := 0 })
    else some (r / 2 ^ left, { prng1 with save := Int.land r (2 ^ left - 1) })

/-- The first `k` blocks the DRBG of `prng` generates. -/
def drbgBlocks (E : Env) : Nat → Prng E → List Bytes
  | 0, _ => []
  | k + 1, prng =>
    let o := goo_prng_nextrand E prng
    o.1 :: drbgBlocks E k o.2

/-- The accumulated value in the words of the spec: the stash shifted left
by 256 and OR-ed with a block, for each block absorbed. -/
def absorb (save : Int) (blocks : List Bytes) : Int :=
  blocks.foldl (fun r blk => Int.lor (r * 2 ^ 256) (goo_mpz_import blk)) save

/-- Equality up to sign modulo `N`: `x ≡ y` or `x ≡ -y`. -/
def PmEq (N x y : Int) : Prop := (x - y) % N = 0 ∨ (x + y) % N = 0

end Goo

namespace Goo

/-! ## Reference definitions for the comb chooser and concrete inputs -/

/-- The record `combspec_result(combs, shifts, aps, ppa, bps)` stores. -/
def combCandidate (shifts aps ppa bps : Nat) : CombSpec :=
  ⟨true, ppa, aps, shifts, bps, shifts * (aps + 1) - 1, (2 ^ ppa - 1) * aps⟩

/-- The two candidates `goo_combspec_init` registers for `ppa` and `aps`
(none when `aps` does not divide `bpw`), in the order of the two calls. -/
def combCandidatesAt (bits ppa aps : Nat) : List CombSpec :=
  let bpw := (bits + ppa - 1) / ppa
  if bpw % aps ≠ 0 then []
  else [combCandidate (bpw / aps) aps ppa bpw, combCandidate aps (bpw / aps) ppa bpw]

/-- The candidates of one `ppa`: `aps` runs over `[1, goo_sqrt(bpw) + 2)`. -/
def combCandidatesFor (bits ppa : Nat) : List CombSpec :=
  ((List.range' 1 (goo_sqrt ((bits + ppa - 1) / ppa) + 1)).map
    (combCandidatesAt bits ppa)).flatten

/-- All candidates `goo_combspec_init` enumerates for `bits`, in the order of
its two loops: `ppa` runs over `[2, 18)`. -/
def combCandidates (bits : Nat) : List CombSpec :=
  ((List.range' 2 16).map (combCandidatesFor bits)).flatten

/-- `combspec_result` without the bounds check of the array access. -/
def combspecStore (combs : List CombSpec) (c : CombSpec) : List CombSpec :=
  if (combs.getD c.ops CombSpec.zero).exists = false
      ∨ (combs.getD c.ops CombSpec.zero).size > c.size then combs.set c.ops c
  else combs

/-- What the map holds after the candidates `L` were stored: slot `o` is
empty when no candidate has `ops = o`, and otherwise holds a candidate with
`ops = o` of the smallest size. -/
def StoreInv (N : Nat) (L M : List CombSpec) : Prop :=
  M.length = N ∧ ∀ o, o < N →
    ((M.getD o CombSpec.zero).exists = false → ∀ c ∈ L, c.ops ≠ o)
    ∧ ((M.getD o CombSpec.zero).exists = true →
        M.getD o CombSpec.zero ∈ L ∧ (M.getD o CombSpec.zero).ops = o
        ∧ ∀ c ∈ L, c.ops = o → (M.getD o CombSpec.zero).size ≤ c.size)

/-- A comb table under construction: item 0 is the base as given, and every
other item is a residue in `[0, m)`. -/
def TableRange (m : Nat) (base : Int) (it : List Int) : Prop :=
  it[0]? = some base ∧ ∀ (idx : Nat) (x : Int), 1 ≤ idx → it[idx]? = some x → 0 ≤ x ∧ x < m

/-- The "tiny" comb specification that `goo_comb_init` asserts. -/
def tinySpec : CombSpec := ⟨true, 8, 2, 8, 16, 23, 510⟩

/-- The specification `goo_combspec_init(128, 3)` returns: two points per add,
one sub-comb, 64 shifts. -/
def narrowSpec : CombSpec := ⟨true, 2, 1, 64, 64, 127, 3⟩

/-- A specification with two points per add and two sub-combs of one shift:
`P = 2`, `A = 2`, `S = 1`, `W = 2`, six items. -/
def pairSpec : CombSpec := ⟨true, 2, 2, 1, 2, 3, 6⟩

/-- The shape of a comb built from `pairSpec`, without its table. -/
def pairComb : Comb := ⟨true, 2, 2, 1, 2, 4, 3, 6, []⟩

/-- A group context for the modulus 35 with `g = 2`, `h = 3`, without tables. -/
def toyGroup : Group := { Group.zero with n := 35, g := 2, h := 3 }

def toyPrng : Prng demoEnv := ⟨(0 : Nat), 0⟩

/-- The verifier-path Fiat-Shamir output in `toyGroup` for the values
`C1 .. msg = 1 .. 8`. -/
def toyFs : Bool × Int × Int × Prng demoEnv :=
  (goo_group_fs_chal demoEnv toyGroup toyPrng 1 2 3 4 5 6 7 8 true).getD (false, 0, 0, toyPrng)

/-- A signature whose `Dq` has 768 bytes: `C2 = Aq = Bq = Cq = 1`, `t = 2`,
`chal = 5`, `ell = 3`, `Dq = 2^6143`, and the seven responses zero. -/
def wideSig : Sig :=
  { Sig.zero with C2 := 1, t := 2, chal := 5, ell := 3, Aq := 1, Bq := 1, Cq := 1, Dq := ((2 ^ 6143 : Nat) : Int) }

/-- The wire bytes of `wideSig`: fifteen items, each a little-endian u16
length followed by the big-endian magnitude; the eighth is `Dq`, with the
length 768 (`00 03`) and the bytes `80 00 ... 00`. -/
def wideSigBytes : Bytes :=
  [1, 0, 1, 1, 0, 2, 1, 0, 5, 1, 0, 3, 1, 0, 1, 1, 0, 1, 1, 0, 1, 0, 3, 128]
    ++ List.replicate 767 0 ++ [0, 0, 0, 0, 0, 0, 0, 0, 0, 0, 0, 0, 0, 0]

/-- A generator state whose stash is the one-bit number 1. -/
def stashPrng : Prng demoEnv := ⟨(0 : Nat), 1⟩

/-- A 1385-bit number congruent to 5 modulo 8 and to a quadratic non-residue
modulo every odd prime below 1000, so that each of the 168 entries of
`goo_primes` has Jacobi symbol `-1` over it. -/
def searchlessP : Nat :=
  542391494685690822855579790700821367154108255771250746509345999946023324701450767157871099178639616800519996131878167349139287483080752939407063068437209333495811142560157138746304397608565458733349904754335742423793950381637379122564456194027035923337796904207248351916901039531806187993230487562634038505569505637539876142112085094770475028840464917611748422592878717783543281293098519212830777583226251538387519637

end Goo

namespace Goo

/-! ## Basic facts: outcomes, loops, bit lengths -/

@[simp] theorem Res.bind_ok {α β : Type} (a : α) (f : α → Res β) :
    (Res.ok a).bind f = f a := rfl

@[simp] theorem Res.bind_fail {α β : Type} (f : α → Res β) :
    (Res.fail : Res α).bind f = Res.fail := rfl

@[simp] theorem Res.bind_abort {α β : Type} (f : α → Res β) :
    (Res.abort : Res α).bind f = Res.abort := rfl

@[simp] theorem Res.bind_hang {α β : Type} (f : α → Res β) :
    (Res.hang : Res α).bind f = Res.hang := rfl

theorem Res.eq_ok_of_isOk {α : Type} (r : Res α) (d : α) (h : r.isOk = true) :
    r = Res.ok (r.getD d) := by
  cases r <;> simp_all [Res.isOk, Res.getD]

theorem Res.bind_eq_ok {α β : Type} {x : Res α} {f : α → Res β} {b : β}
    (h : x.bind f = Res.ok b) : ∃ a, x = Res.ok a ∧ f a = Res.ok b := by
  cases x with
  | ok a => exact ⟨a, rfl, h⟩
  | fail => simp at h
  | abort => simp at h
  | hang => simp at h

theorem assertC_eq_ok {c : Bool} {u : Unit} (h : assertC c = Res.ok u) : c = true := by
  unfold assertC at h
  split at h
  · assumption
  · simp at h

@[simp] theorem assertC_true : assertC true = Res.ok () := rfl

/-- A counted loop whose body keeps an invariant returns a state that
satisfies the invariant at the final index. -/
theorem forRange_inv {σ : Type} (Inv : Nat → σ → Prop) (f : Nat → σ → Res σ) :
    ∀ (k i : Nat) (s : σ), Inv i s →
      (∀ j s, i ≤ j → j < i + k → Inv j s → ∃ s1, f j s = Res.ok s1 ∧ Inv (j + 1) s1) →
      ∃ s1, forRange k i f s = Res.ok s1 ∧ Inv (i + k) s1 := by
  intro k
  induction k with
  | zero => intro i s h _; exact ⟨s, rfl, h⟩
  | succ k ih =>
    intro i s h hstep
    obtain ⟨s1, h1, hinv1⟩ := hstep i s (le_refl _) (by omega) h
    obtain ⟨s2, h2, hinv2⟩ := ih (i + 1) s1 hinv1
      (fun j s hj hj2 hI => hstep j s (by omega) (by omega) hI)
    refine ⟨s2, ?_, ?_⟩
    · simp [forRange, h1, h2]
    · have : i + 1 + k = i + (k + 1) := by omega
      rw [← this]; exact hinv2

/-- A counted loop that returns went through bodies that all returned; an
invariant kept by returning bodies holds at the end. -/
theorem forRange_ok_inv {σ : Type} (Inv : Nat → σ → Prop) (f : Nat → σ → Res σ) :
    ∀ (k i : Nat) (s s2 : σ), Inv i s → forRange k i f s = Res.ok s2 →
      (∀ j s s1, i ≤ j → j < i + k → Inv j s → f j s = Res.ok s1 → Inv (j + 1) s1) →
      Inv (i + k) s2 := by
  intro k
  induction k with
  | zero => intro i s s2 h hr _; simp [forRange] at hr; subst hr; exact h
  | succ k ih =>
    intro i s s2 h hr hstep
    simp only [forRange] at hr
    obtain ⟨s1, h1, h2⟩ := Res.bind_eq_ok hr
    have hinv1 := hstep i s s1 (le_refl _) (by omega) h h1
    have := ih (i + 1) s1 s2 hinv1 h2
      (fun j s s1 hj hj2 hI => hstep j s s1 (by omega) (by omega) hI)
    have e : i + 1 + k = i + (k + 1) := by omega
    rw [← e]; exact this

theorem rd_eq_ok {α : Type} {a : List α} {i : Nat} (h : i < a.length) :
    rd a i = Res.ok (a.get ⟨i, h⟩) := by
  unfold rd
  rw [List.get?_eq_get h]

theorem rd_ok_iff {α : Type} {a : List α} {i : Nat} {x : α} :
    rd a i = Res.ok x ↔ a.get? i = some x := by
  unfold rd
  cases h : a.get? i <;> simp

theorem wr_eq_ok {α : Type} {a : List α} {i : Nat} (x : α) (h : i < a.length) :
    wr a i x = Res.ok (a.set i x) := by
  unfold wr; simp [h]

theorem wr_ok_iff {α : Type} {a b : List α} {i : Nat} {x : α} :
    wr a i x = Res.ok b ↔ i < a.length ∧ b = a.set i x := by
  unfold wr
  split <;> simp_all [eq_comm]

theorem bitlen_zero : goo_mpz_bitlen 0 = 0 := rfl

theorem bitlenLoop_eq_log2 : ∀ (fuel n : Nat), n ≤ fuel →
    bitlenLoop fuel n = if n = 0 then 0 else Nat.log2 n + 1 := by
  intro fuel
  induction fuel with
  | zero =>
    intro n hn
    have : n = 0 := by omega
    subst this
    rfl
  | succ fuel ih =>
    intro n hn
    unfold bitlenLoop
    by_cases h0 : n = 0
    · simp [h0]
    · rw [if_neg h0, if_neg h0, ih (n / 2) (by omega)]
      by_cases h2 : 2 ≤ n
      · have hne : n / 2 ≠ 0 := by omega
        rw [if_neg hne]
        conv_rhs => rw [Nat.log2]
        rw [if_pos h2]
      · have h1 : n = 1 := by omega
        subst h1
        conv_rhs => rw [Nat.log2]
        simp

/-- The bit length counts the binary digits: `log2 |n| + 1` for `n ≠ 0`. -/
theorem bitlen_eq_log2 (n : Int) :
    goo_mpz_bitlen n = if n.natAbs = 0 then 0 else Nat.log2 n.natAbs + 1 :=
  bitlenLoop_eq_log2 _ _ le_rfl

theorem natAbs_lt_two_pow_bitlen (n : Int) : n.natAbs < 2 ^ goo_mpz_bitlen n := by
  rw [bitlen_eq_log2]
  split
  · simp_all
  · exact Nat.lt_log2_self

theorem bitlen_le_iff (n : Int) (k : Nat) : goo_mpz_bitlen n ≤ k ↔ n.natAbs < 2 ^ k := by
  rw [bitlen_eq_log2]
  split
  · rename_i h; simp [h]
  · rename_i h
    rw [Nat.succ_le_iff, Nat.log2_lt h]

theorem bitlen_of_nonneg_le_iff {n : Int} (h : 0 ≤ n) (k : Nat) :
    goo_mpz_bitlen n ≤ k ↔ n < 2 ^ k := by
  rw [bitlen_le_iff]
  constructor
  · intro h1
    have : (n.natAbs : Int) < ((2 ^ k : Nat) : Int) := by exact_mod_cast h1
    rw [Int.natAbs_of_nonneg h] at this
    simpa using this
  · intro h1
    have h2 : (n.natAbs : Int) < ((2 ^ k : Nat) : Int) := by
      rw [Int.natAbs_of_nonneg h]; simpa using h1
    exact_mod_cast h2

theorem two_pow_le_of_bitlen {n : Int} {k : Nat} (h : goo_mpz_bitlen n = k + 1) :
    2 ^ k ≤ n.natAbs := by
  rw [bitlen_eq_log2] at h
  split at h
  · omega
  · rename_i h0
    have : Nat.log2 n.natAbs = k := by omega
    rw [← this]; exact Nat.log2_self_le h0

/-! ## `mpz_powm` -/

theorem powmLoop_spec (n : Int) : ∀ (fuel : Nat) (b : Int) (e : Nat) (acc : Int),
    e < 2 ^ fuel → acc % n = acc → powmLoop fuel b e acc n = acc * b ^ e % n := by
  intro fuel
  induction fuel with
  | zero =>
    intro b e acc he hacc
    have : e = 0 := by simpa using he
    subst this; simp [powmLoop, hacc]
  | succ fuel ih =>
    intro b e acc he hacc
    unfold powmLoop
    by_cases h0 : e = 0
    · subst h0; simp [hacc]
    · simp only [h0, if_false]
      have he2 : e / 2 < 2 ^ fuel := by
        rw [Nat.div_lt_iff_lt_mul (by norm_num)]; rw [pow_succ] at he; exact he
      have hacc2 : (if e % 2 = 1 then acc * b % n else acc) % n
          = (if e % 2 = 1 then acc * b % n else acc) := by
        split
        · exact Int.emod_emod_of_dvd _ (dvd_refl n)
        · exact hacc
      rw [ih _ _ _ he2 hacc2]
      have hsplit : b ^ e = b ^ (e % 2) * (b * b) ^ (e / 2) := by
        rw [← pow_two, ← pow_mul, ← pow_add, Nat.mod_add_div]
      rw [hsplit]
      rcases Nat.mod_two_eq_zero_or_one e with h | h
      · simp only [h, pow_zero, one_mul]
        simp only [show ¬ ((0 : Nat) = 1) by decide, if_false]
        exact (Int.ModEq.mul (Int.ModEq.refl acc)
          (Int.ModEq.pow (e / 2) (Int.mod_modEq (b * b) n))).eq
      · simp only [h, pow_one, if_true]
        have := (Int.ModEq.mul (Int.mod_modEq (acc * b) n)
          (Int.ModEq.pow (e / 2) (Int.mod_modEq (b * b) n))).eq
        rw [this, mul_assoc]

theorem mpz_powm_of_nonneg (b n : Int) {e : Int} (he : 0 ≤ e) :
    mpz_powm b e n = b ^ e.toNat % n := by
  unfold mpz_powm
  simp only [he, if_true]
  rw [powmLoop_spec n _ _ _ _ (natAbs_lt_two_pow_bitlen e)
    (Int.emod_emod_of_dvd _ (dvd_refl n))]
  have : e.natAbs = e.toNat := by omega
  rw [this, Int.mul_emod, Int.emod_emod_of_dvd _ (dvd_refl n), ← Int.mul_emod, one_mul]
  exact (Int.ModEq.pow e.toNat (Int.mod_modEq b n)).eq

theorem mpz_powm_natCast (b n : Int) (e : Nat) : mpz_powm b (e : Int) n = b ^ e % n := by
  rw [mpz_powm_of_nonneg b n (Int.natCast_nonneg e)]; simp

theorem mpz_powm_two (b n : Int) : mpz_powm b 2 n = b * b % n := by
  have := mpz_powm_natCast b n 2
  simpa [pow_two] using this

end Goo

namespace Goo

/-! ## `mpz_gcdext` and `mpz_invert` -/

theorem egcdLoop_spec (a b : Int) : ∀ (fuel : Nat) (r0 s0 t0 r1 s1 t1 : Int),
    0 ≤ r0 → 0 ≤ r1 → r1.natAbs < fuel → r0 = a * s0 + b * t0 → r1 = a * s1 + b * t1 →
    (egcdLoop fuel r0 s0 t0 r1 s1 t1).1 = a * (egcdLoop fuel r0 s0 t0 r1 s1 t1).2.1
        + b * (egcdLoop fuel r0 s0 t0 r1 s1 t1).2.2
      ∧ (egcdLoop fuel r0 s0 t0 r1 s1 t1).1 = (Int.gcd r0 r1 : Int) := by
  intro fuel
  induction fuel with
  | zero => intro r0 s0 t0 r1 s1 t1 _ _ h; omega
  | succ fuel ih =>
    intro r0 s0 t0 r1 s1 t1 h0 h1 hf e0 e1
    unfold egcdLoop
    by_cases hz : r1 = 0
    · subst hz
      simp only [if_true]
      refine ⟨e0, ?_⟩
      simp [Int.gcd_zero_right, abs_of_nonneg h0]
    · simp only [hz, if_false]
      have hpos : 0 < r1 := lt_of_le_of_ne h1 (Ne.symm hz)
      have hm0 : 0 ≤ r0 % r1 := Int.emod_nonneg _ hz
      have hm1 : r0 % r1 < r1 := Int.emod_lt_of_pos _ hpos
      have hfuel : (r0 % r1).natAbs < fuel := by omega
      have e2 : r0 % r1 = a * (s0 - r0 / r1 * s1) + b * (t0 - r0 / r1 * t1) := by
        have := Int.emod_add_ediv r0 r1
        have h3 : r0 % r1 = r0 - r1 * (r0 / r1) := by linarith
        rw [h3]
        generalize r0 / r1 = q
        rw [e0, e1]
        ring
      obtain ⟨hA, hB⟩ := ih r1 s1 t1 (r0 % r1) _ _ h1 hm0 hfuel e1 e2
      refine ⟨hA, ?_⟩
      rw [hB]
      congr 1
      have hn : (r0 % r1).natAbs = r0.natAbs % r1.natAbs := by
        lift r0 to Nat using h0
        lift r1 to Nat using h1
        have e : ((r0 : Int) % (r1 : Int)) = ((r0 % r1 : Nat) : Int) := by norm_cast
        rw [e]
        simp only [Int.natAbs_ofNat]
      show Nat.gcd r1.natAbs (r0 % r1).natAbs = Nat.gcd r0.natAbs r1.natAbs
      rw [hn, Nat.gcd_comm r0.natAbs, Nat.gcd_comm r1.natAbs (r0.natAbs % r1.natAbs)]
      exact (Nat.gcd_rec r1.natAbs r0.natAbs).symm

theorem mpz_gcdext_spec {a b : Int} (ha : 0 ≤ a) (hb : 0 ≤ b) :
    (mpz_gcdext a b).1 = a * (mpz_gcdext a b).2.1 + b * (mpz_gcdext a b).2.2
      ∧ (mpz_gcdext a b).1 = (Int.gcd a b : Int) := by
  unfold mpz_gcdext
  exact egcdLoop_spec a b _ a 1 0 b 0 1 ha hb (by omega) (by ring) (by ring)

/-- Specification of `mpz_invert` for a positive modulus: it succeeds exactly
on units, with the inverse in `[0, n)`. -/
theorem mpz_invert_some {b n r : Int} (hn : 0 < n) (h : mpz_invert b n = some r) :
    0 ≤ r ∧ r < n ∧ b * r % n = 1 % n ∧ Int.gcd b n = 1 := by
  unfold mpz_invert at h
  have habs : ((n.natAbs : Int)) = n := Int.natAbs_of_nonneg hn.le
  simp only [habs] at h
  have hb0 : 0 ≤ b % n := Int.emod_nonneg _ hn.ne'
  obtain ⟨hA, hB⟩ := mpz_gcdext_spec hb0 hn.le
  rcases hg : mpz_gcdext (b % n) n with ⟨g, s, t⟩
  rw [hg] at h hA hB
  simp only at h hA hB
  by_cases h1 : g = 1
  · simp only [h1, if_true, Option.some.injEq] at h
    subst h
    refine ⟨Int.emod_nonneg _ hn.ne', Int.emod_lt_of_pos _ hn, ?_, ?_⟩
    · rw [h1] at hA
      have : b * (s % n) % n = (b % n * s + n * t) % n := by
        rw [Int.add_mul_emod_self_left]
        exact (Int.ModEq.mul (Int.mod_modEq b n).symm (Int.mod_modEq s n)).eq
      rw [this, ← hA]
    · rw [h1] at hA
      rw [← Int.isCoprime_iff_gcd_eq_one]
      refine ⟨s, t - b / n * s, ?_⟩
      have := Int.emod_add_ediv b n
      have h3 : b % n = b - n * (b / n) := by linarith
      rw [h3] at hA
      rw [hA]; ring
  · simp [h1] at h

theorem mpz_invert_isSome {b n : Int} (hn : 0 < n) (h : Int.gcd b n = 1) :
    ∃ r, mpz_invert b n = some r := by
  unfold mpz_invert
  have habs : ((n.natAbs : Int)) = n := Int.natAbs_of_nonneg hn.le
  simp only [habs]
  have hb0 : 0 ≤ b % n := Int.emod_nonneg _ hn.ne'
  obtain ⟨_, hB⟩ := mpz_gcdext_spec hb0 hn.le
  rcases hg : mpz_gcdext (b % n) n with ⟨g, s, t⟩
  rw [hg] at hB
  simp only at hB
  have hc : IsCoprime (b % n) n := by
    have h1 : IsCoprime b n := Int.isCoprime_iff_gcd_eq_one.mpr h
    have := Int.emod_add_ediv b n
    have h3 : b % n = b + n * (-(b / n)) := by linarith
    rw [h3]
    exact h1.add_mul_left_left _
  have : g = 1 := by
    rw [hB]; exact_mod_cast Int.isCoprime_iff_gcd_eq_one.mp hc
  exact ⟨s % n, by simp [this]⟩

theorem mpz_invert_none {b n : Int} (hn : 0 < n) (h : Int.gcd b n ≠ 1) :
    mpz_invert b n = none := by
  cases h1 : mpz_invert b n with
  | none => rfl
  | some r => exact absurd (mpz_invert_some hn h1).2.2.2 h

/-- Two inverses of the same element in `[0, n)` coincide. -/
theorem inverse_unique {b n r1 r2 : Int} (_hn : 0 < n) (h1 : 0 ≤ r1) (h1n : r1 < n)
    (h2 : 0 ≤ r2) (h2n : r2 < n) (e1 : b * r1 % n = 1 % n) (e2 : b * r2 % n = 1 % n) :
    r1 = r2 := by
  have m1 : r1 ≡ r1 * (b * r2) [ZMOD n] := by
    have : b * r2 ≡ 1 [ZMOD n] := e2
    simpa using (Int.ModEq.mul (Int.ModEq.refl r1) this).symm
  have m2 : r2 * (b * r1) ≡ r2 [ZMOD n] := by
    have : b * r1 ≡ 1 [ZMOD n] := e1
    simpa using (Int.ModEq.mul (Int.ModEq.refl r2) this)
  have m3 : r1 ≡ r2 [ZMOD n] := by
    have e : r1 * (b * r2) = r2 * (b * r1) := by ring
    rw [e] at m1
    exact m1.trans m2
  have := m3.eq
  rwa [Int.emod_eq_of_lt h1 h1n, Int.emod_eq_of_lt h2 h2n] at this

/-- A product mod `n` that is 1 identifies the result of `mpz_invert`. -/
theorem mpz_invert_eq_of_mul {b n r : Int} (hn : 0 < n) (h0 : 0 ≤ r) (h1 : r < n)
    (e : b * r % n = 1 % n) : mpz_invert b n = some r := by
  have hc : Int.gcd b n = 1 := by
    rw [← Int.isCoprime_iff_gcd_eq_one]
    refine ⟨r, (1 % n - b * r % n + (1 / n - b * r / n) * 1) * 0 + (1 / n - b * r / n), ?_⟩
    have a1 := Int.emod_add_ediv (b * r) n
    have a2 := Int.emod_add_ediv 1 n
    nlinarith [a1, a2, e]
  obtain ⟨r2, hr2⟩ := mpz_invert_isSome hn hc
  obtain ⟨p0, p1, p2, _⟩ := mpz_invert_some hn hr2
  rw [hr2, inverse_unique hn h0 h1 p0 p1 e p2]

end Goo

namespace Goo

/-! ## Batched inversion -/

theorem goo_group_inv_ok_iff {n b r : Int} :
    goo_group_inv n b = Res.ok r ↔ mpz_invert b n = some r := by
  unfold goo_group_inv
  cases mpz_invert b n <;> simp

theorem goo_group_inv_of_none {n b : Int} (h : mpz_invert b n = none) :
    goo_group_inv n b = Res.fail := by
  unfold goo_group_inv; rw [h]

/-- A residue that multiplies `b` to 1 in `ZMod m` is what `goo_group_inv` returns. -/
theorem goo_group_inv_of_zmod {m : Nat} (hm : 1 < m) (b x : Int)
    (h : ((b : ZMod m) * (x : ZMod m)) = 1) :
    goo_group_inv (m : Int) b = Res.ok (x % m) ∧ 0 ≤ x % (m : Int) ∧ x % (m : Int) < m
      ∧ b * (x % m) % (m : Int) = 1 := by
  have hpos : (0 : Int) < m := by exact_mod_cast (by omega : 0 < m)
  have h0 := Int.emod_nonneg x hpos.ne'
  have h1 := Int.emod_lt_of_pos x hpos
  have e : b * (x % m) % (m : Int) = 1 % (m : Int) := by
    rw [← ZMod.intCast_eq_intCast_iff']
    push_cast [ZMod.intCast_mod]
    exact h
  have one : (1 : Int) % (m : Int) = 1 := Int.emod_eq_of_lt (by norm_num) (by exact_mod_cast hm)
  refine ⟨goo_group_inv_ok_iff.mpr (mpz_invert_eq_of_mul hpos h0 h1 e), h0, h1, ?_⟩
  rw [e, one]

theorem gcd_eq_one_iff_zmod_unit {m : Nat} (b : Int) :
    Int.gcd b m = 1 ↔ IsUnit (b : ZMod m) := by
  rw [← Int.isCoprime_iff_gcd_eq_one]
  constructor
  · rintro ⟨u, v, h⟩
    have := congrArg (fun z : Int => (z : ZMod m)) h
    simp only [Int.cast_add, Int.cast_mul, Int.cast_natCast, ZMod.natCast_self, mul_zero,
      add_zero, Int.cast_one] at this
    exact isUnit_of_mul_eq_one _ _ (by rw [mul_comm]; exact this)
  · intro h
    obtain ⟨c, hc⟩ := h.exists_right_inv
    obtain ⟨ci, rfl⟩ := ZMod.intCast_surjective c
    have h1 : ((b * ci : Int) : ZMod m) = ((1 : Int) : ZMod m) := by push_cast; exact hc
    rw [ZMod.intCast_eq_intCast_iff_dvd_sub] at h1
    obtain ⟨k, hk⟩ := h1
    exact ⟨ci, k, by linarith⟩

theorem goo_group_inv_spec {m : Nat} (hm : 1 < m) {b r : Int}
    (h : goo_group_inv (m : Int) b = Res.ok r) :
    0 ≤ r ∧ r < m ∧ (b : ZMod m) * (r : ZMod m) = 1 := by
  have hpos : (0 : Int) < m := by exact_mod_cast (by omega : 0 < m)
  obtain ⟨h0, h1, h2, _⟩ := mpz_invert_some hpos (goo_group_inv_ok_iff.mp h)
  refine ⟨h0, h1, ?_⟩
  have := (ZMod.intCast_eq_intCast_iff' (b * r) 1 m).mpr h2
  simpa using this

theorem goo_group_inv_fail_or_ok (n b : Int) :
    goo_group_inv n b = Res.fail ∨ ∃ r, goo_group_inv n b = Res.ok r := by
  unfold goo_group_inv
  cases mpz_invert b n <;> simp

theorem goo_group_inv_fail_iff {m : Nat} (hm : 1 < m) (b : Int) :
    goo_group_inv (m : Int) b = Res.fail ↔ ¬ IsUnit (b : ZMod m) := by
  have hpos : (0 : Int) < m := by exact_mod_cast (by omega : 0 < m)
  constructor
  · intro h hu
    obtain ⟨r, hr⟩ := mpz_invert_isSome hpos ((gcd_eq_one_iff_zmod_unit b).mpr hu)
    rw [goo_group_inv_ok_iff.mpr hr] at h
    cases h
  · intro h
    apply goo_group_inv_of_none
    apply mpz_invert_none hpos
    intro hg
    exact h ((gcd_eq_one_iff_zmod_unit b).mp hg)

/-- `goo_group_inv2` against two separate inversions. -/
theorem inv2_spec (G : Group) (hN : 1 < G.n) (b1 b2 : Int) :
    (Int.gcd b1 G.n = 1 ∧ Int.gcd b2 G.n = 1 →
      ∃ r1 r2, goo_group_inv2 G b1 b2 = Res.ok (r1, r2)
        ∧ goo_group_inv G.n b1 = Res.ok r1 ∧ goo_group_inv G.n b2 = Res.ok r2
        ∧ (0 ≤ r1 ∧ r1 < G.n ∧ b1 * r1 % G.n = 1)
        ∧ (0 ≤ r2 ∧ r2 < G.n ∧ b2 * r2 % G.n = 1))
    ∧ (¬ (Int.gcd b1 G.n = 1 ∧ Int.gcd b2 G.n = 1) → goo_group_inv2 G b1 b2 = Res.fail) := by
  obtain ⟨m, hm⟩ : ∃ m : Nat, G.n = m := ⟨G.n.toNat, by omega⟩
  rw [hm] at hN ⊢
  have hm1 : 1 < m := by exact_mod_cast hN
  simp only [gcd_eq_one_iff_zmod_unit]
  have hunit : IsUnit ((b1 * b2 : Int) : ZMod m) ↔
      IsUnit (b1 : ZMod m) ∧ IsUnit (b2 : ZMod m) := by
    push_cast; exact IsUnit.mul_iff
  unfold goo_group_inv2
  rw [hm]
  constructor
  · intro hu
    rcases goo_group_inv_fail_or_ok (m : Int) (b1 * b2) with hf | ⟨I, hI⟩
    · exact absurd (hunit.mpr hu) ((goo_group_inv_fail_iff hm1 _).mp hf)
    · obtain ⟨_, _, hmul⟩ := goo_group_inv_spec hm1 hI
      push_cast at hmul
      rw [hI]
      simp only [Res.bind_ok, goo_group_mul]
      have k1 := goo_group_inv_of_zmod hm1 b1 (b2 * I) (by push_cast; linear_combination hmul)
      have k2 := goo_group_inv_of_zmod hm1 b2 (b1 * I) (by push_cast; linear_combination hmul)
      exact ⟨_, _, rfl, k1.1, k2.1, k1.2, k2.2⟩
  · intro hu
    rw [(goo_group_inv_fail_iff hm1 _).mpr (fun h => hu (hunit.mp h))]
    rfl

/-- `goo_group_inv5` against five separate inversions. -/
theorem inv5_spec (G : Group) (hN : 1 < G.n) (b1 b2 b3 b4 b5 : Int) :
    (Int.gcd b1 G.n = 1 ∧ Int.gcd b2 G.n = 1 ∧ Int.gcd b3 G.n = 1 ∧ Int.gcd b4 G.n = 1
        ∧ Int.gcd b5 G.n = 1 →
      ∃ r1 r2 r3 r4 r5, goo_group_inv5 G b1 b2 b3 b4 b5 = Res.ok (r1, r2, r3, r4, r5)
        ∧ goo_group_inv G.n b1 = Res.ok r1 ∧ goo_group_inv G.n b2 = Res.ok r2
        ∧ goo_group_inv G.n b3 = Res.ok r3 ∧ goo_group_inv G.n b4 = Res.ok r4
        ∧ goo_group_inv G.n b5 = Res.ok r5
        ∧ (0 ≤ r1 ∧ r1 < G.n ∧ b1 * r1 % G.n = 1)
        ∧ (0 ≤ r2 ∧ r2 < G.n ∧ b2 * r2 % G.n = 1)
        ∧ (0 ≤ r3 ∧ r3 < G.n ∧ b3 * r3 % G.n = 1)
        ∧ (0 ≤ r4 ∧ r4 < G.n ∧ b4 * r4 % G.n = 1)
        ∧ (0 ≤ r5 ∧ r5 < G.n ∧ b5 * r5 % G.n = 1))
    ∧ (¬ (Int.gcd b1 G.n = 1 ∧ Int.gcd b2 G.n = 1 ∧ Int.gcd b3 G.n = 1 ∧ Int.gcd b4 G.n = 1
        ∧ Int.gcd b5 G.n = 1) → goo_group_inv5 G b1 b2 b3 b4 b5 = Res.fail) := by
  obtain ⟨m, hm⟩ : ∃ m : Nat, G.n = m := ⟨G.n.toNat, by omega⟩
  rw [hm] at hN ⊢
  have hm1 : 1 < m := by exact_mod_cast hN
  simp only [gcd_eq_one_iff_zmod_unit]
  have hcast : ((goo_group_mul m (goo_group_mul m (goo_group_mul m b1 b2)
      (goo_group_mul m b3 b4)) b5 : Int) : ZMod m)
      = (b1 : ZMod m) * b2 * (b3 * b4) * b5 := by
    simp only [goo_group_mul]; push_cast [ZMod.intCast_mod]; rfl
  have hunit : IsUnit ((goo_group_mul m (goo_group_mul m (goo_group_mul m b1 b2)
      (goo_group_mul m b3 b4)) b5 : Int) : ZMod m) ↔
      IsUnit (b1 : ZMod m) ∧ IsUnit (b2 : ZMod m) ∧ IsUnit (b3 : ZMod m)
        ∧ IsUnit (b4 : ZMod m) ∧ IsUnit (b5 : ZMod m) := by
    rw [hcast]; simp only [IsUnit.mul_iff]; tauto
  unfold goo_group_inv5
  rw [hm]
  constructor
  · intro hu
    rcases goo_group_inv_fail_or_ok (m : Int) (goo_group_mul m (goo_group_mul m
      (goo_group_mul m b1 b2) (goo_group_mul m b3 b4)) b5) with hf | ⟨I, hI⟩
    · exact absurd (hunit.mpr hu) ((goo_group_inv_fail_iff hm1 _).mp hf)
    · obtain ⟨_, _, hmul⟩ := goo_group_inv_spec hm1 hI
      rw [hcast] at hmul
      simp only [hI, Res.bind_ok]
      simp only [goo_group_mul] at hI ⊢
      have k1 := goo_group_inv_of_zmod hm1 b1 (I * b5 % m * (b3 * b4 % m) % m * b2)
        (by push_cast [ZMod.intCast_mod]; linear_combination hmul)
      have k2 := goo_group_inv_of_zmod hm1 b2 (I * b5 % m * (b3 * b4 % m) % m * b1)
        (by push_cast [ZMod.intCast_mod]; linear_combination hmul)
      have k3 := goo_group_inv_of_zmod hm1 b3 (I * b5 % m * (b1 * b2 % m) % m * b4)
        (by push_cast [ZMod.intCast_mod]; linear_combination hmul)
      have k4 := goo_group_inv_of_zmod hm1 b4 (I * b5 % m * (b1 * b2 % m) % m * b3)
        (by push_cast [ZMod.intCast_mod]; linear_combination hmul)
      have k5 := goo_group_inv_of_zmod hm1 b5 (I * (b1 * b2 % m * (b3 * b4 % m) % m))
        (by push_cast [ZMod.intCast_mod]; linear_combination hmul)
      exact ⟨_, _, _, _, _, rfl, k1.1, k2.1, k3.1, k4.1, k5.1, k1.2, k2.2, k3.2, k4.2, k5.2⟩
  · intro hu
    simp only [(goo_group_inv_fail_iff hm1 _).mpr (fun h => hu (hunit.mp h))]
    rfl

end Goo

namespace Goo

/-! ## Windowed NAF recoding -/

theorem evalDigits_append_single (ds : List Int) (d : Int) :
    evalDigits (ds ++ [d]) = 2 * evalDigits ds + d := by
  simp [evalDigits, List.foldl_append]

theorem mpz_tstbit_top {v : Int} {w : Nat} (hw : 1 ≤ w) (h0 : 0 ≤ v) (h1 : v < 2 ^ w) :
    mpz_tstbit v (w - 1) = decide (2 ^ (w - 1) ≤ v) := by
  obtain ⟨m, rfl⟩ := Int.eq_ofNat_of_zero_le h0
  have h2 : m < 2 ^ w := by exact_mod_cast h1
  show Nat.testBit m (w - 1) = _
  rw [Nat.testBit_to_div_mod]
  have hw2 : 2 ^ w = 2 * 2 ^ (w - 1) := by
    conv_lhs => rw [show w = (w - 1) + 1 by omega, pow_succ]
    ring
  have hlt : m / 2 ^ (w - 1) < 2 := by
    rw [Nat.div_lt_iff_lt_mul (by positivity)]; omega
  by_cases hc : 2 ^ (w - 1) ≤ m
  · have : 1 ≤ m / 2 ^ (w - 1) := (Nat.one_le_div_iff (by positivity)).mpr hc
    have e : m / 2 ^ (w - 1) % 2 = 1 := by omega
    have hc2 : (2 : Int) ^ (w - 1) ≤ (m : Int) := by exact_mod_cast hc
    simp [e, hc2]
  · have : m / 2 ^ (w - 1) = 0 := Nat.div_eq_of_lt (by omega)
    have hc2 : ¬ (2 : Int) ^ (w - 1) ≤ (m : Int) := by
      intro h; exact hc (by exact_mod_cast h)
    simp [this, hc2]

/-- The digit taken from an odd residue: odd, within the window, and
clearing the low `w` bits. -/
theorem wnaf_digit {w : Nat} (hw : 2 ≤ w) {r : Int} (hodd : r % 2 = 1) (val : Int)
    (hval : val = if mpz_tstbit (r % 2 ^ w) (w - 1) = true then r % 2 ^ w - 2 ^ w
      else r % 2 ^ w) :
    val % 2 = 1 ∧ -(2 ^ (w - 1)) < val ∧ val < 2 ^ (w - 1) ∧ (2 : Int) ^ w ∣ r - val := by
  have hWpos : (0 : Int) < 2 ^ w := by positivity
  have hv0 : 0 ≤ r % 2 ^ w := Int.emod_nonneg _ hWpos.ne'
  have hv1 : r % 2 ^ w < 2 ^ w := Int.emod_lt_of_pos _ hWpos
  have hvodd : r % 2 ^ w % 2 = 1 := by
    rw [Int.emod_emod_of_dvd r (dvd_pow_self (2 : Int) (by omega : w ≠ 0))]
    exact hodd
  have hdvd : (2 : Int) ^ w ∣ r - r % 2 ^ w := Int.dvd_sub_of_emod_eq rfl
  have htst := mpz_tstbit_top (by omega : 1 ≤ w) hv0 hv1
  rw [htst] at hval
  generalize r % 2 ^ w = v at *
  have hW : (2 : Int) ^ w = 2 * 2 ^ (w - 1) := by
    conv_lhs => rw [show w = (w - 1) + 1 by omega, pow_succ]
    ring
  have hH : (2 : Int) ^ (w - 1) = 2 * 2 ^ (w - 2) := by
    conv_lhs => rw [show w - 1 = (w - 2) + 1 by omega, pow_succ]
    ring
  have hQpos : (0 : Int) < 2 ^ (w - 2) := by positivity
  by_cases hc : (2 : Int) ^ (w - 1) ≤ v
  · simp only [hc, decide_True, if_true] at hval
    subst hval
    refine ⟨?_, ?_, ?_, ?_⟩
    · rw [hW, hH]; omega
    · rw [hW]; omega
    · rw [hW] at hv1 ⊢; omega
    · have : r - (v - 2 ^ w) = (r - v) + 2 ^ w := by ring
      rw [this]; exact dvd_add hdvd (dvd_refl _)
  · simp only [hc, decide_False, if_false, Bool.false_eq_true] at hval
    subst hval
    refine ⟨hvodd, by omega, by omega, hdvd⟩

/-- One recoding step keeps the residue within half the remaining range. -/
theorem wnaf_step_bound {w : Nat} (hw : 2 ≤ w) {r val : Int} {k : Nat} (hodd : r % 2 = 1)
    (hb : 2 * |r| ≤ 2 ^ (k + 1)) (hv1 : -(2 ^ (w - 1)) < val) (hv2 : val < 2 ^ (w - 1))
    (hd : (2 : Int) ^ w ∣ r - val) : 2 * |(r - val) / 2| ≤ 2 ^ k := by
  have hW : (2 : Int) ^ w = 2 * 2 ^ (w - 1) := by
    conv_lhs => rw [show w = (w - 1) + 1 by omega, pow_succ]
    ring
  have hH : (2 : Int) ^ (w - 1) = 2 * 2 ^ (w - 2) := by
    conv_lhs => rw [show w - 1 = (w - 2) + 1 by omega, pow_succ]
    ring
  have hQpos : (0 : Int) < 2 ^ (w - 2) := by positivity
  have hr : |r| ≤ 2 ^ k := by rw [pow_succ] at hb; linarith
  obtain ⟨c, hc⟩ := hd
  have hx2 : (r - val) / 2 * 2 = r - val := by
    apply Int.ediv_mul_cancel
    rw [hc, hW]; exact ⟨2 ^ (w - 1) * c, by ring⟩
  have habs : 2 * |(r - val) / 2| = |r - val| := by
    conv_rhs => rw [← hx2]
    rw [abs_mul]; simp; ring
  rw [habs]
  rw [abs_le] at hr ⊢
  by_cases hwk : w ≤ k
  · obtain ⟨T, hT⟩ : ∃ T : Int, (2 : Int) ^ k = 2 ^ w * T ∧ 1 ≤ T := by
      refine ⟨2 ^ (k - w), ?_, ?_⟩
      · rw [← pow_add]; congr 1; omega
      · exact one_le_pow₀ (by norm_num)
    obtain ⟨hT1, hT2⟩ := hT
    have hWpos : (0 : Int) < 2 ^ w := by positivity
    have hlt : 2 ^ w * c < 2 ^ w * (T + 1) := by
      rw [← hc]; rw [mul_add, ← hT1, hW]; linarith [hr.2]
    have hgt : 2 ^ w * (-(T + 1)) < 2 ^ w * c := by
      rw [← hc]; rw [mul_neg, mul_add, ← hT1, hW]; linarith [hr.1]
    have c1 : c < T + 1 := lt_of_mul_lt_mul_left hlt hWpos.le
    have c2 : -(T + 1) < c := lt_of_mul_lt_mul_left hgt hWpos.le
    rw [hc, hT1]
    constructor
    · have : -T ≤ c := by omega
      nlinarith [this, hWpos]
    · have : c ≤ T := by omega
      nlinarith [this, hWpos]
  · have hk : (2 : Int) ^ k ≤ 2 ^ (w - 1) :=
      pow_le_pow_right₀ (by norm_num) (by omega)
    have hrs : -(2 ^ (w - 1)) < r ∧ r < 2 ^ (w - 1) := by
      rw [hH] at hk ⊢; omega
    have hWpos : (0 : Int) < 2 ^ w := by positivity
    have c1 : 2 ^ w * c < 2 ^ w * 1 := by rw [← hc, hW]; linarith [hrs.2]
    have c2 : 2 ^ w * (-1) < 2 ^ w * c := by rw [← hc, hW]; linarith [hrs.1]
    have d1 : c < 1 := lt_of_mul_lt_mul_left c1 hWpos.le
    have d2 : -1 < c := lt_of_mul_lt_mul_left c2 hWpos.le
    have : c = 0 := by omega
    rw [hc, this]
    have : (0 : Int) < 2 ^ k := by positivity
    constructor <;> simp

theorem wnafLoop_spec {w : Nat} (hw : 2 ≤ w) : ∀ (k : Nat) (r : Int) (out : List Int),
    ∃ ds r1, wnafLoop w k r out = (ds ++ out, r1) ∧ ds.length = k
      ∧ r = r1 * 2 ^ k + evalDigits ds ∧ (∀ d ∈ ds, wnafDigitOk w d)
      ∧ (2 * |r| ≤ 2 ^ k → r1 = 0) := by
  intro k
  induction k with
  | zero =>
    intro r out
    refine ⟨[], r, rfl, rfl, by simp [evalDigits], by simp, ?_⟩
    intro h
    have : |r| = 0 := by
      have := abs_nonneg r
      simp at h; omega
    exact abs_eq_zero.mp this
  | succ k ih =>
    intro r out
    unfold wnafLoop
    by_cases hodd : r % 2 = 1
    · simp only [hodd, if_true]
      obtain ⟨hd1, hd2, hd3, hd4⟩ := wnaf_digit hw hodd _ rfl
      generalize (if mpz_tstbit (r % 2 ^ w) (w - 1) = true then r % 2 ^ w - 2 ^ w
        else r % 2 ^ w) = val at *
      obtain ⟨ds, r1, h1, h2, h3, h4, h5⟩ := ih ((r - val) / 2) (val :: out)
      refine ⟨ds ++ [val], r1, by simp [h1], by simp [h2], ?_, ?_, ?_⟩
      · rw [evalDigits_append_single, pow_succ]
        have hx2 : (r - val) / 2 * 2 = r - val := by
          apply Int.ediv_mul_cancel
          omega
        linarith
      · intro d hd
        rcases List.mem_append.mp hd with h | h
        · exact h4 d h
        · simp at h; subst h; exact Or.inr ⟨hd1, hd2, hd3⟩
      · intro hb
        exact h5 (wnaf_step_bound hw hodd hb hd2 hd3 hd4)
    · simp only [hodd, if_false]
      obtain ⟨ds, r1, h1, h2, h3, h4, h5⟩ := ih (r / 2) (0 :: out)
      have heven : r % 2 = 0 := by omega
      refine ⟨ds ++ [0], r1, by simp [h1], by simp [h2], ?_, ?_, ?_⟩
      · rw [evalDigits_append_single, pow_succ]
        have : r / 2 * 2 = r := Int.ediv_mul_cancel (Int.dvd_of_emod_eq_zero heven)
        linarith
      · intro d hd
        rcases List.mem_append.mp hd with h | h
        · exact h4 d h
        · simp at h; subst h; exact Or.inl rfl
      · intro hb
        apply h5
        have e : r = r / 2 * 2 := (Int.ediv_mul_cancel (Int.dvd_of_emod_eq_zero heven)).symm
        have : |r| = 2 * |r / 2| := by
          conv_lhs => rw [e]
          rw [abs_mul]; simp; ring
        rw [pow_succ] at hb
        linarith

/-- `goo_group_wnaf` with enough digits returns a valid recoding of `e`. -/
theorem goo_group_wnaf_spec (E : Env) (hw : 2 ≤ E.GOO_WINDOW_SIZE) (e : Int) (totlen : Nat)
    (hlen : goo_mpz_bitlen e + 1 ≤ totlen) :
    ∃ ds, goo_group_wnaf E e totlen = Res.ok ds ∧ ds.length = totlen
      ∧ evalDigits ds = e ∧ ∀ d ∈ ds, wnafDigitOk E.GOO_WINDOW_SIZE d := by
  obtain ⟨ds, r1, h1, h2, h3, h4, h5⟩ := wnafLoop_spec hw totlen e []
  have hb : 2 * |e| ≤ 2 ^ totlen := by
    have h6 := natAbs_lt_two_pow_bitlen e
    have h7 : (2 : Int) ^ (goo_mpz_bitlen e + 1) ≤ 2 ^ totlen :=
      pow_le_pow_right₀ (by norm_num) hlen
    have h8 : |e| < 2 ^ goo_mpz_bitlen e := by
      rw [Int.abs_eq_natAbs]; exact_mod_cast h6
    rw [pow_succ] at h7
    linarith
  have hr := h5 hb
  subst hr
  refine ⟨ds, ?_, h2, by simpa using h3.symm, h4⟩
  unfold goo_group_wnaf
  rw [h1]
  simp

end Goo

namespace Goo

/-! ## Double exponentiation `goo_group_pow2` -/

theorem rd_ok_iff' {α : Type} {a : List α} {i : Nat} {x : α} :
    rd a i = Res.ok x ↔ a[i]? = some x := by
  rw [rd_ok_iff, List.get?_eq_getElem?]

theorem rd_of_getElem? {α : Type} {a : List α} {i : Nat} {x : α} (h : a[i]? = some x) :
    rd a i = Res.ok x := rd_ok_iff'.mpr h

theorem exists_getElem?_of_lt {α : Type} {a : List α} {i : Nat} (h : i < a.length) :
    ∃ x, a[i]? = some x := ⟨a.get ⟨i, h⟩, by simp [List.getElem?_eq_getElem h]⟩

/-- Table of odd powers built by `goo_group_wnaf_pc_help`. -/
theorem wnaf_pc_help_spec (E : Env) (G : Group) {m : Nat} (hm : G.n = m)
    (hT : 1 ≤ E.GOO_TABLEN) (b : Int) :
    ∃ tab, goo_group_wnaf_pc_help E G b = Res.ok tab ∧ tab.length = E.GOO_TABLEN
      ∧ ∀ (i : Nat) (x : Int), tab[i]? = some x → (x : ZMod m) = (b : ZMod m) ^ (2 * i + 1) := by
  unfold goo_group_wnaf_pc_help
  rw [wr_eq_ok b (by simp; omega)]
  simp only [Res.bind_ok]
  have key := forRange_inv
    (fun i (out : List Int) => out.length = E.GOO_TABLEN
      ∧ ∀ (j : Nat) (x : Int), j < i → out[j]? = some x → (x : ZMod m) = (b : ZMod m) ^ (2 * j + 1))
    (fun i out => (rd out (i - 1)).bind
      (fun x => wr out i (goo_group_mul G.n x (goo_group_sqr G.n b))))
    (E.GOO_TABLEN - 1) 1 ((List.replicate E.GOO_TABLEN (0 : Int)).set 0 b)
    (by
      refine ⟨by simp, ?_⟩
      intro j x hj hx
      have hj0 : j = 0 := by omega
      subst hj0
      rw [List.getElem?_set_self (by simp; omega)] at hx
      simp at hx; subst hx; simp)
    (by
      intro j s hj1 hj2 ⟨hlen, hI⟩
      dsimp only
      obtain ⟨x, hx⟩ := exists_getElem?_of_lt (a := s) (i := j - 1) (by omega)
      rw [rd_of_getElem? hx]
      simp only [Res.bind_ok]
      rw [wr_eq_ok _ (by omega)]
      refine ⟨_, rfl, by simp [hlen], ?_⟩
      intro i y hi hy
      by_cases hij : i = j
      · subst hij
        rw [List.getElem?_set_self (by omega)] at hy
        simp at hy; subst hy
        have hx2 := hI (i - 1) x (by omega) hx
        simp only [goo_group_mul, goo_group_sqr, hm]
        push_cast [ZMod.intCast_mod]
        rw [hx2, ← pow_two, ← pow_add]
        congr 1; omega
      · rw [List.getElem?_set_ne (by omega)] at hy
        exact hI i y (by omega) hy)
  obtain ⟨tab, h1, h2, h3⟩ := key
  refine ⟨tab, h1, h2, ?_⟩
  intro i x hx
  have hi : i < tab.length := by
    by_contra hc
    rw [List.getElem?_eq_none (by omega)] at hx; cases hx
  exact h3 i x (by omega) hx

/-- One table multiplication of `goo_group_pow2` multiplies by the unit
raised to the digit. -/
theorem one_mul_spec (E : Env) (G : Group) {m : Nat} (hm : G.n = m) (hm1 : 1 < m)
    (hw : 2 ≤ E.GOO_WINDOW_SIZE) (hT : 2 ^ (E.GOO_WINDOW_SIZE - 2) ≤ E.GOO_TABLEN)
    (u : (ZMod m)ˣ) (p n : List Int)
    (hp : p.length = E.GOO_TABLEN) (hn : n.length = E.GOO_TABLEN)
    (hpv : ∀ (i : Nat) (x : Int), p[i]? = some x → (x : ZMod m) = (u : ZMod m) ^ (2 * i + 1))
    (hnv : ∀ (i : Nat) (x : Int), n[i]? = some x → (x : ZMod m) = ((u⁻¹ : (ZMod m)ˣ) : ZMod m) ^ (2 * i + 1))
    (ret d : Int) (hd : wnafDigitOk E.GOO_WINDOW_SIZE d) (h0 : 0 ≤ ret) (h1 : ret < m) :
    ∃ r, goo_group_one_mul G ret d p n = Res.ok r ∧ 0 ≤ r ∧ r < m
      ∧ (r : ZMod m) = (ret : ZMod m) * ((u ^ d : (ZMod m)ˣ) : ZMod m) := by
  have hpos : (0 : Int) < m := by exact_mod_cast (by omega : 0 < m)
  have hH : (2 : Int) ^ (E.GOO_WINDOW_SIZE - 1) = 2 * 2 ^ (E.GOO_WINDOW_SIZE - 2) := by
    conv_lhs => rw [show E.GOO_WINDOW_SIZE - 1 = (E.GOO_WINDOW_SIZE - 2) + 1 by omega, pow_succ]
    ring
  have hTI : (2 : Int) ^ (E.GOO_WINDOW_SIZE - 2) ≤ E.GOO_TABLEN := by exact_mod_cast hT
  unfold goo_group_one_mul
  rcases hd with hd | ⟨hodd, hlo, hhi⟩
  · subst hd; simp [h0, h1]
  · by_cases hdpos : d > 0
    · simp only [hdpos, if_true]
      have hidx : ((d - 1) / 2).toNat < p.length := by
        rw [hp]; rw [hH] at hhi
        have : (d - 1) / 2 < E.GOO_TABLEN := by omega
        omega
      obtain ⟨x, hx⟩ := exists_getElem?_of_lt hidx
      rw [rd_of_getElem? hx]
      simp only [Res.bind_ok, goo_group_mul, hm]
      refine ⟨_, rfl, Int.emod_nonneg _ hpos.ne', Int.emod_lt_of_pos _ hpos, ?_⟩
      push_cast [ZMod.intCast_mod]
      rw [hpv _ _ hx]
      congr 1
      have e : d = ((2 * ((d - 1) / 2).toNat + 1 : Nat) : Int) := by
        push_cast; rw [Int.toNat_of_nonneg (by omega)]; omega
      conv_rhs => rw [e, zpow_natCast]
      simp
    · have hdneg : d < 0 := by omega
      simp only [hdpos, if_false, hdneg, if_true]
      have hidx : ((-1 - d) / 2).toNat < n.length := by
        rw [hn]; rw [hH] at hlo
        have : (-1 - d) / 2 < E.GOO_TABLEN := by omega
        omega
      obtain ⟨x, hx⟩ := exists_getElem?_of_lt hidx
      rw [rd_of_getElem? hx]
      simp only [Res.bind_ok, goo_group_mul, hm]
      refine ⟨_, rfl, Int.emod_nonneg _ hpos.ne', Int.emod_lt_of_pos _ hpos, ?_⟩
      push_cast [ZMod.intCast_mod]
      rw [hnv _ _ hx]
      congr 1
      have e : d = -((2 * ((-1 - d) / 2).toNat + 1 : Nat) : Int) := by
        push_cast; rw [Int.toNat_of_nonneg (by omega)]; omega
      conv_rhs => rw [e, zpow_neg, zpow_natCast]
      rw [← inv_pow, Units.val_pow_eq_pow_val]

theorem evalDigits_take_succ (ds : List Int) (i : Nat) (d : Int) (h : ds[i]? = some d) :
    evalDigits (ds.take (i + 1)) = 2 * evalDigits (ds.take i) + d := by
  rw [List.take_succ, h]
  exact evalDigits_append_single _ _

theorem signedPow_cast {m : Nat} (u : (ZMod m)ˣ) (b b_inv : Int)
    (hb : (b : ZMod m) = u) (hbi : (b_inv : ZMod m) = ((u⁻¹ : (ZMod m)ˣ) : ZMod m))
    (e : Int) : ((signedPow b b_inv e : Int) : ZMod m) = ((u ^ e : (ZMod m)ˣ) : ZMod m) := by
  unfold signedPow
  split
  · rename_i h
    push_cast
    rw [hb]
    conv_rhs => rw [← Int.toNat_of_nonneg h, zpow_natCast]
    simp
  · rename_i h
    push_cast
    rw [hbi]
    have e2 : e = -((-e).toNat : Int) := by rw [Int.toNat_of_nonneg (by omega)]; ring
    conv_rhs => rw [e2, zpow_neg, zpow_natCast]
    rw [← inv_pow, Units.val_pow_eq_pow_val]

/-- `goo_group_pow2` returns the canonical residue of `b1^e1 * b2^e2`. -/
theorem pow2_spec (E : Env) (G : Group) (hN : 1 < G.n)
    (hw : 2 ≤ E.GOO_WINDOW_SIZE) (hT : 2 ^ (E.GOO_WINDOW_SIZE - 2) ≤ E.GOO_TABLEN)
    (b1 b1_inv e1 b2 b2_inv e2 : Int)
    (h1 : b1 * b1_inv % G.n = 1) (h2 : b2 * b2_inv % G.n = 1) :
    goo_group_pow2 E G b1 b1_inv e1 b2 b2_inv e2
      = Res.ok (signedPow b1 b1_inv e1 * signedPow b2 b2_inv e2 % G.n) := by
  obtain ⟨m, hm⟩ : ∃ m : Nat, G.n = m := ⟨G.n.toNat, by omega⟩
  have hm1 : 1 < m := by rw [hm] at hN; exact_mod_cast hN
  have hpos : (0 : Int) < m := by exact_mod_cast (by omega : 0 < m)
  have hT1 : 1 ≤ E.GOO_TABLEN := le_trans (Nat.one_le_two_pow) hT
  have one : (1 : Int) % (m : Int) = 1 := Int.emod_eq_of_lt (by norm_num) (by exact_mod_cast hm1)
  have c1 : (b1 : ZMod m) * (b1_inv : ZMod m) = 1 := by
    have := (ZMod.intCast_eq_intCast_iff' (b1 * b1_inv) 1 m).mpr (by rw [← hm, h1, hm, one])
    simpa using this
  have c2 : (b2 : ZMod m) * (b2_inv : ZMod m) = 1 := by
    have := (ZMod.intCast_eq_intCast_iff' (b2 * b2_inv) 1 m).mpr (by rw [← hm, h2, hm, one])
    simpa using this
  let u1 : (ZMod m)ˣ := Units.mkOfMulEqOne _ _ c1
  let u2 : (ZMod m)ˣ := Units.mkOfMulEqOne _ _ c2
  have hu1 : (b1 : ZMod m) = u1 := rfl
  have hu2 : (b2 : ZMod m) = u2 := rfl
  have hu1i : (b1_inv : ZMod m) = ((u1⁻¹ : (ZMod m)ˣ) : ZMod m) := rfl
  have hu2i : (b2_inv : ZMod m) = ((u2⁻¹ : (ZMod m)ˣ) : ZMod m) := rfl
  obtain ⟨p1, hp1, lp1, vp1⟩ := wnaf_pc_help_spec E G hm hT1 b1
  obtain ⟨n1, hn1, ln1, vn1⟩ := wnaf_pc_help_spec E G hm hT1 b1_inv
  obtain ⟨p2, hp2, lp2, vp2⟩ := wnaf_pc_help_spec E G hm hT1 b2
  obtain ⟨n2, hn2, ln2, vn2⟩ := wnaf_pc_help_spec E G hm hT1 b2_inv
  rw [hu1] at vp1; rw [hu1i] at vn1; rw [hu2] at vp2; rw [hu2i] at vn2
  unfold goo_group_pow2
  simp only [hp1, hn1, hp2, hn2, Res.bind_ok]
  set totlen := (if goo_mpz_bitlen e1 > goo_mpz_bitlen e2 then goo_mpz_bitlen e1
    else goo_mpz_bitlen e2) + 1 with htot
  have hl1 : goo_mpz_bitlen e1 + 1 ≤ totlen := by rw [htot]; split <;> omega
  have hl2 : goo_mpz_bitlen e2 + 1 ≤ totlen := by rw [htot]; split <;> omega
  obtain ⟨ds1, hd1, len1, ev1, ok1⟩ := goo_group_wnaf_spec E hw e1 totlen hl1
  obtain ⟨ds2, hd2, len2, ev2, ok2⟩ := goo_group_wnaf_spec E hw e2 totlen hl2
  simp only [hd1, hd2, Res.bind_ok]
  have key := forRange_inv
    (fun i (ret : Int) => 0 ≤ ret ∧ ret < m ∧ (ret : ZMod m)
      = ((u1 ^ evalDigits (ds1.take i) * u2 ^ evalDigits (ds2.take i) : (ZMod m)ˣ) : ZMod m))
    (fun i ret =>
        (rd ds1 i).bind (fun w1 =>
        (rd ds2 i).bind (fun w2 =>
        (goo_group_one_mul G (if ret ≠ 1 then goo_group_sqr G.n ret else ret) w1 p1 n1).bind
          (fun ret1 => goo_group_one_mul G ret1 w2 p2 n2))))
    totlen 0 1
    (by
      refine ⟨by norm_num, by exact_mod_cast hm1, ?_⟩
      simp [evalDigits])
    (by
      intro j ret _ hj ⟨r0, r1, rc⟩
      dsimp only
      obtain ⟨w1, hw1⟩ := exists_getElem?_of_lt (a := ds1) (i := j) (by omega)
      obtain ⟨w2, hw2⟩ := exists_getElem?_of_lt (a := ds2) (i := j) (by omega)
      rw [rd_of_getElem? hw1, rd_of_getElem? hw2]
      simp only [Res.bind_ok]
      have sq : ∃ s, (if ret ≠ 1 then goo_group_sqr G.n ret else ret) = s ∧ 0 ≤ s ∧ s < m
          ∧ (s : ZMod m) = (ret : ZMod m) * (ret : ZMod m) := by
        by_cases h : ret = 1
        · subst h; exact ⟨1, by simp, by norm_num, by exact_mod_cast hm1, by simp⟩
        · refine ⟨_, rfl, ?_, ?_, ?_⟩
          · simp only [h, ne_eq, not_false_eq_true, if_true, goo_group_sqr, hm]
            exact Int.emod_nonneg _ hpos.ne'
          · simp only [h, ne_eq, not_false_eq_true, if_true, goo_group_sqr, hm]
            exact Int.emod_lt_of_pos _ hpos
          · simp only [h, ne_eq, not_false_eq_true, if_true, goo_group_sqr, hm]
            push_cast [ZMod.intCast_mod]; rfl
      obtain ⟨s, hs, s0, s1, sc⟩ := sq
      rw [hs]
      obtain ⟨ra, ha, a0, a1, ac⟩ := one_mul_spec E G hm hm1 hw hT u1 p1 n1 lp1 ln1 vp1 vn1
        s w1 (ok1 w1 (List.getElem?_mem hw1)) s0 s1
      rw [ha]
      simp only [Res.bind_ok]
      obtain ⟨rb, hb, b0, b1', bc⟩ := one_mul_spec E G hm hm1 hw hT u2 p2 n2 lp2 ln2 vp2 vn2
        ra w2 (ok2 w2 (List.getElem?_mem hw2)) a0 a1
      refine ⟨rb, hb, b0, b1', ?_⟩
      rw [bc, ac, sc, rc, evalDigits_take_succ ds1 j w1 hw1, evalDigits_take_succ ds2 j w2 hw2]
      rw [← Units.val_mul, ← Units.val_mul, ← Units.val_mul]
      congr 1
      rw [zpow_add, zpow_add, two_mul, zpow_add, two_mul, zpow_add]
      ac_rfl)
  obtain ⟨r, hr, r0, r1, rc⟩ := key
  rw [hr]
  congr 1
  simp only [Nat.zero_add] at rc
  rw [List.take_of_length_le (by omega), List.take_of_length_le (by omega), ev1, ev2] at rc
  have hc : (r : ZMod m) = ((signedPow b1 b1_inv e1 * signedPow b2 b2_inv e2 : Int) : ZMod m) := by
    rw [rc]; push_cast
    rw [signedPow_cast u1 b1 b1_inv hu1 hu1i, signedPow_cast u2 b2 b2_inv hu2 hu2i]
  have := (ZMod.intCast_eq_intCast_iff' _ _ m).mp hc
  rw [Int.emod_eq_of_lt r0 r1] at this
  rw [hm]; exact this

end Goo

namespace Goo

/-! ## The comb specification chooser returns well-formed specifications -/

theorem combspec_result_inv (bits : Nat) (combs combs1 : List CombSpec)
    (shifts aps ppa bps : Nat)
    (h : combspec_result combs shifts aps ppa bps = Res.ok combs1)
    (hinv : ∀ c ∈ combs, slotOk bits c)
    (hp : 2 ≤ ppa) (hp2 : ppa ≤ 17) (ha : 1 ≤ aps) (hs : 1 ≤ shifts) (hb : bps = shifts * aps)
    (hbits : bits ≤ bps * ppa) :
    ∀ c ∈ combs1, slotOk bits c := by
  unfold combspec_result at h
  obtain ⟨best, _, h2⟩ := Res.bind_eq_ok h
  split at h2
  · obtain ⟨_, rfl⟩ := wr_ok_iff.mp h2
    intro c hc
    rcases List.mem_or_eq_of_mem_set hc with h | h
    · exact hinv c h
    · subst h
      intro _
      exact ⟨⟨by simp; omega, ha, hs, hb, rfl⟩, hbits, hp, hp2⟩
  · simp at h2; subst h2; exact hinv

theorem combspec_fill_inv (bits : Nat) (hbits : 128 ≤ bits) (combs combs1 : List CombSpec)
    (h : combspec_fill bits combs = Res.ok combs1)
    (hinv : ∀ c ∈ combs, slotOk bits c) : ∀ c ∈ combs1, slotOk bits c := by
  unfold combspec_fill at h
  have := forRange_ok_inv (fun _ (cs : List CombSpec) => ∀ c ∈ cs, slotOk bits c) _
    16 2 combs combs1 hinv h
    (by
      intro ppa s s1 hp1 hp2 hI hs
      dsimp only at hs
      have hbpw : bits ≤ (bits + ppa - 1) / ppa * ppa := by
        have h1 := Nat.div_add_mod (bits + ppa - 1) ppa
        have h2 := Nat.mod_lt (bits + ppa - 1) (by omega : ppa > 0)
        have h3 : ppa * ((bits + ppa - 1) / ppa) = (bits + ppa - 1) / ppa * ppa := by ring
        omega
      have hbpw1 : 1 ≤ (bits + ppa - 1) / ppa := by
        rcases Nat.eq_zero_or_pos ((bits + ppa - 1) / ppa) with h0 | h0
        · rw [h0] at hbpw; omega
        · exact h0
      exact forRange_ok_inv (fun _ (cs : List CombSpec) => ∀ c ∈ cs, slotOk bits c) _
        _ 1 s s1 hI hs
        (by
          intro aps t t1 ha1 _ hJ ht
          split at ht
          · simp at ht; subst ht; exact hJ
          · rename_i hdiv
            have hdiv0 : (bits + ppa - 1) / ppa % aps = 0 := by
              by_contra hc; exact hdiv hc
            have hmul : (bits + ppa - 1) / ppa = (bits + ppa - 1) / ppa / aps * aps :=
              (Nat.div_mul_cancel (Nat.dvd_of_mod_eq_zero hdiv0)).symm
            have hsh : 1 ≤ (bits + ppa - 1) / ppa / aps := by
              rcases Nat.eq_zero_or_pos ((bits + ppa - 1) / ppa / aps) with h0 | h0
              · rw [h0] at hmul; omega
              · exact h0
            obtain ⟨t2, ht2, ht3⟩ := Res.bind_eq_ok ht
            have hK := combspec_result_inv bits t t2 _ _ _ _ ht2 hJ hp1 (by omega) ha1 hsh
              hmul hbpw
            exact combspec_result_inv bits t2 t1 _ _ _ _ ht3 hK hp1 (by omega) hsh ha1
              (by rw [Nat.mul_comm]; exact hmul) hbpw))
  exact this

theorem combspec_scan_mem (maxsize : Nat) : ∀ (l : List CombSpec) (sm : Nat) (c : CombSpec),
    combspec_scan maxsize l sm = some c → c ∈ l ∧ c.exists = true ∧ c.size ≤ maxsize := by
  intro l
  induction l with
  | nil => intro sm c h; simp [combspec_scan] at h
  | cons a rest ih =>
    intro sm c h
    unfold combspec_scan at h
    split at h
    · obtain ⟨h1, h2⟩ := ih _ _ h; exact ⟨List.mem_cons_of_mem _ h1, h2⟩
    · split at h
      · obtain ⟨h1, h2⟩ := ih _ _ h; exact ⟨List.mem_cons_of_mem _ h1, h2⟩
      · split at h
        · simp at h; subst h
          rename_i he _ hs
          refine ⟨List.mem_cons_self _ _, ?_, hs⟩
          cases hx : a.exists <;> simp_all
        · obtain ⟨h1, h2⟩ := ih _ _ h; exact ⟨List.mem_cons_of_mem _ h1, h2⟩

/-- A successful `goo_combspec_init` returns a well-formed specification
that covers `bits` and fits `maxsize`. -/
theorem combspec_init_wf {bits : Int} {maxsize : Nat} {s : CombSpec}
    (h : goo_combspec_init bits maxsize = Res.ok s) :
    s.WF ∧ 128 ≤ bits ∧ bits ≤ (s.bits_per_window * s.points_per_add : Nat)
      ∧ s.size ≤ maxsize ∧ 2 ≤ s.points_per_add ∧ s.points_per_add ≤ 17 := by
  unfold goo_combspec_init at h
  split at h
  · simp at h
  · rename_i hb
    obtain ⟨combs, h1, h2⟩ := Res.bind_eq_ok h
    have hb2 : 128 ≤ bits.toNat := by omega
    have hinv := combspec_fill_inv bits.toNat hb2 _ combs h1
      (by
        intro c hc
        rw [List.eq_of_mem_replicate hc]
        intro h; simp [CombSpec.zero] at h)
    cases hsc : combspec_scan maxsize combs 0 with
    | none => rw [hsc] at h2; simp at h2
    | some ret =>
      rw [hsc] at h2
      simp at h2; subst h2
      obtain ⟨hm, he, hs⟩ := combspec_scan_mem maxsize combs 0 ret hsc
      obtain ⟨w1, w2, w3, w4⟩ := hinv ret hm he
      refine ⟨w1, by omega, ?_, hs, w3, w4⟩
      have : (bits.toNat : Int) = bits := Int.toNat_of_nonneg (by omega)
      rw [← this]; exact_mod_cast w2

end Goo

namespace Goo

/-! ## Contents of the comb tables -/

theorem spread_zero (W P : Nat) : spread W P 0 = 0 := by
  induction P with
  | zero => rfl
  | succ P ih => simp [spread, ih]

theorem spread_two_pow_add (W : Nat) : ∀ (P i v : Nat), i < P → v < 2 ^ i →
    spread W P (2 ^ i + v) = 2 ^ (W * i) + spread W P v := by
  intro P
  induction P with
  | zero => intro i v h; omega
  | succ P ih =>
    intro i v hi hv
    cases i with
    | zero =>
      have : v = 0 := by simpa using hv
      subst this
      simp [spread, spread_zero]
    | succ i =>
      have h1 : (2 ^ (i + 1) + v) % 2 = v % 2 := by rw [pow_succ]; omega
      have h2 : (2 ^ (i + 1) + v) / 2 = 2 ^ i + v / 2 := by rw [pow_succ]; omega
      have hv2 : v / 2 < 2 ^ i := by rw [pow_succ] at hv; omega
      simp only [spread, h1, h2]
      rw [ih i (v / 2) (by omega) hv2]
      rw [show W * (i + 1) = W + W * i by ring, pow_add]
      ring

theorem spread_two_pow (W P i : Nat) (h : i < P) : spread W P (2 ^ i) = 2 ^ (W * i) := by
  have := spread_two_pow_add W P i 0 h (by positivity)
  simpa [spread_zero] using this

theorem goo_group_pow_two_pow_cast (m : Nat) (x : Int) (k : Nat) :
    ((goo_group_pow (m : Int) x (2 ^ k) : Int) : ZMod m) = (x : ZMod m) ^ (2 ^ k) := by
  unfold goo_group_pow
  have : ((2 : Int) ^ k) = ((2 ^ k : Nat) : Int) := by push_cast; rfl
  rw [this, mpz_powm_natCast]
  push_cast [ZMod.intCast_mod]; rfl

theorem getElem?_set_of_ne {α : Type} (l : List α) (i j : Nat) (a x : α) (h : i ≠ j)
    (hx : (l.set i a)[j]? = some x) : l[j]? = some x := by
  rwa [List.getElem?_set_ne h] at hx

theorem getElem?_set_same {α : Type} (l : List α) (i : Nat) (a x : α) (hi : i < l.length)
    (hx : (l.set i a)[i]? = some x) : x = a := by
  rw [List.getElem?_set_self hi] at hx
  exact (Option.some.inj hx).symm

/-- First table loop: the digits `1 .. 2^P - 1` of the first sub-comb. -/
theorem comb_fill_points_spec (m : Nat) (base : Int) (P W L : Nat) (hP : 1 ≤ P)
    (hL : 2 ^ P - 1 ≤ L) (it0 : List Int) (hlen : it0.length = L)
    (h0 : it0[0]? = some base) :
    ∃ it, comb_fill_points (m : Int) P (2 ^ W) it0 = Res.ok it ∧ it.length = L
      ∧ (∀ (v : Nat) (x : Int), 1 ≤ v → v < 2 ^ P → it[v - 1]? = some x →
          (x : ZMod m) = (base : ZMod m) ^ spread W P v) := by
  unfold comb_fill_points
  have hpow1 : 1 ≤ 2 ^ P := Nat.one_le_two_pow
  have key := forRange_inv
    (fun i (it : List Int) => it.length = L
      ∧ ∀ (v : Nat) (x : Int), 1 ≤ v → v < 2 ^ i → it[v - 1]? = some x →
          (x : ZMod m) = (base : ZMod m) ^ spread W P v)
    (fun i it =>
      (rd it (2 ^ i / 2 - 1)).bind (fun x =>
      (wr it (2 ^ i - 1) (goo_group_pow (m : Int) x (2 ^ W))).bind (fun it1 =>
        forRange (2 ^ i - 1) (2 ^ i + 1) (fun j it =>
          (rd it (j - 2 ^ i - 1)).bind (fun a =>
          (rd it (2 ^ i - 1)).bind (fun b =>
            wr it (j - 1) (goo_group_mul (m : Int) a b)))) it1)))
    (P - 1) 1 it0
    (by
      refine ⟨hlen, ?_⟩
      intro v x hv1 hv2 hx
      have : v = 1 := by simp at hv2; omega
      subst this
      simp only [Nat.sub_self] at hx
      rw [h0] at hx
      have e := Option.some.inj hx
      subst e
      have := spread_two_pow W P 0 (by omega)
      simp at this
      rw [this]; simp)
    (by
      intro i it hi1 hi2 ⟨hl, hI⟩
      dsimp only
      have hiP : i < P := by omega
      have hoval : 2 ^ i = 2 * 2 ^ (i - 1) := by
        conv_lhs => rw [show i = (i - 1) + 1 by omega, pow_succ]
        ring
      have hpi : 2 * 2 ^ i ≤ 2 ^ P := by
        rw [← pow_succ']; exact Nat.pow_le_pow_right (by norm_num) (by omega)
      have hpi1 : 1 ≤ 2 ^ (i - 1) := Nat.one_le_two_pow
      have hival : 2 ^ i / 2 = 2 ^ (i - 1) := by omega
      rw [hival]
      obtain ⟨x, hx⟩ := exists_getElem?_of_lt (a := it) (i := 2 ^ (i - 1) - 1) (by omega)
      rw [rd_of_getElem? hx]
      simp only [Res.bind_ok]
      rw [wr_eq_ok _ (by omega)]
      simp only [Res.bind_ok]
      have hxv := hI (2 ^ (i - 1)) x hpi1 (by omega) hx
      rw [spread_two_pow W P (i - 1) (by omega)] at hxv
      have hov : ((goo_group_pow (m : Int) x (2 ^ W) : Int) : ZMod m)
          = (base : ZMod m) ^ spread W P (2 ^ i) := by
        rw [goo_group_pow_two_pow_cast, hxv, ← pow_mul, spread_two_pow W P i hiP, ← pow_add]
        congr 2
        conv_rhs => rw [show i = (i - 1) + 1 by omega]
        ring
      have inner := forRange_inv
        (fun j (it : List Int) => it.length = L
          ∧ ∀ (v : Nat) (y : Int), 1 ≤ v → v < j → it[v - 1]? = some y →
              (y : ZMod m) = (base : ZMod m) ^ spread W P v)
        (fun j it =>
          (rd it (j - 2 ^ i - 1)).bind (fun a =>
          (rd it (2 ^ i - 1)).bind (fun b =>
            wr it (j - 1) (goo_group_mul (m : Int) a b))))
        (2 ^ i - 1) (2 ^ i + 1) (it.set (2 ^ i - 1) (goo_group_pow (m : Int) x (2 ^ W)))
        (by
          refine ⟨by simp [hl], ?_⟩
          intro v y hv1 hv2 hy
          by_cases hv : v = 2 ^ i
          · subst hv
            have := getElem?_set_same _ _ _ _ (by omega) hy
            subst this; exact hov
          · exact hI v y hv1 (by omega) (getElem?_set_of_ne _ _ _ _ _ (by omega) hy))
        (by
          intro j jt hj1 hj2 ⟨hjl, hJ⟩
          dsimp only
          obtain ⟨a, ha⟩ := exists_getElem?_of_lt (a := jt) (i := j - 2 ^ i - 1) (by omega)
          obtain ⟨b, hb⟩ := exists_getElem?_of_lt (a := jt) (i := 2 ^ i - 1) (by omega)
          rw [rd_of_getElem? ha, rd_of_getElem? hb]
          simp only [Res.bind_ok]
          rw [wr_eq_ok _ (by omega)]
          refine ⟨_, rfl, by simp [hjl], ?_⟩
          intro v y hv1 hv2 hy
          by_cases hv : v = j
          · subst hv
            have := getElem?_set_same _ _ _ _ (by omega) hy
            subst this
            have hav := hJ (v - 2 ^ i) a (by omega) (by omega) ha
            have hbv := hJ (2 ^ i) b (by omega) (by omega) hb
            simp only [goo_group_mul]
            push_cast [ZMod.intCast_mod]
            rw [hav, hbv, ← pow_add]
            congr 1
            have := spread_two_pow_add W P i (v - 2 ^ i) hiP (by omega)
            rw [show 2 ^ i + (v - 2 ^ i) = v by omega] at this
            rw [this, spread_two_pow W P i hiP]; ring
          · exact hJ v y hv1 (by omega) (getElem?_set_of_ne _ _ _ _ _ (by omega) hy))
      obtain ⟨it2, hit2, hl2, hJ2⟩ := inner
      refine ⟨it2, hit2, hl2, ?_⟩
      intro v y hv1 hv2 hy
      exact hJ2 v y hv1 (by rw [pow_succ] at hv2; omega) hy)
  obtain ⟨it, h1, h2, h3⟩ := key
  refine ⟨it, h1, h2, ?_⟩
  intro v x hv1 hv2 hx
  exact h3 v x hv1 (by rw [show 1 + (P - 1) = P by omega]; exact hv2) hx

end Goo

namespace Goo

/-- Second table loop: sub-comb `i` is sub-comb `i - 1` raised to `2^S`. -/
theorem comb_fill_subcombs_spec (m : Nat) (base : Int) (P W S A skip : Nat) (hA : 1 ≤ A)
    (hskip : skip = 2 ^ P - 1) (it0 : List Int) (hlen : it0.length = skip * A)
    (h0 : ∀ (v : Nat) (x : Int), 1 ≤ v → v < 2 ^ P → it0[v - 1]? = some x →
          (x : ZMod m) = (base : ZMod m) ^ spread W P v) :
    ∃ it, comb_fill_subcombs (m : Int) A skip (2 ^ S) it0 = Res.ok it
      ∧ it.length = skip * A
      ∧ (∀ (j v : Nat) (x : Int), j < A → 1 ≤ v → v ≤ skip → it[j * skip + v - 1]? = some x →
          (x : ZMod m) = (base : ZMod m) ^ (2 ^ (S * j) * spread W P v)) := by
  unfold comb_fill_subcombs
  have hpow1 : 1 ≤ 2 ^ P := Nat.one_le_two_pow
  have key := forRange_inv
    (fun i (it : List Int) => it.length = skip * A
      ∧ ∀ (j v : Nat) (x : Int), j < i → 1 ≤ v → v ≤ skip → it[j * skip + v - 1]? = some x →
          (x : ZMod m) = (base : ZMod m) ^ (2 ^ (S * j) * spread W P v))
    (fun i it =>
      forRange skip 0 (fun j it =>
        (rd it (i * skip + j - skip)).bind (fun x =>
          wr it (i * skip + j) (goo_group_pow (m : Int) x (2 ^ S)))) it)
    (A - 1) 1 it0
    (by
      refine ⟨hlen, ?_⟩
      intro j v x hj hv1 hv2 hx
      have : j = 0 := by omega
      subst this
      simp only [Nat.zero_mul, Nat.zero_add, Nat.mul_zero, pow_zero, Nat.one_mul] at hx ⊢
      exact h0 v x hv1 (by omega) hx)
    (by
      intro i it hi1 hi2 ⟨hl, hI⟩
      dsimp only
      have hiA : i + 1 ≤ A := by omega
      have hmul : (i + 1) * skip ≤ A * skip := Nat.mul_le_mul_right _ hiA
      have hsucc : (i + 1) * skip = i * skip + skip := Nat.succ_mul i skip
      have hpred : i * skip = (i - 1) * skip + skip := by
        conv_lhs => rw [show i = (i - 1) + 1 by omega, Nat.succ_mul]
      have hcomm : skip * A = A * skip := Nat.mul_comm _ _
      have inner := forRange_inv
        (fun j (jt : List Int) => jt.length = skip * A
          ∧ (∀ (j' v : Nat) (x : Int), j' < i → 1 ≤ v → v ≤ skip →
              jt[j' * skip + v - 1]? = some x →
              (x : ZMod m) = (base : ZMod m) ^ (2 ^ (S * j') * spread W P v))
          ∧ (∀ (v : Nat) (x : Int), 1 ≤ v → v ≤ j → jt[i * skip + v - 1]? = some x →
              (x : ZMod m) = (base : ZMod m) ^ (2 ^ (S * i) * spread W P v)))
        (fun j it =>
          (rd it (i * skip + j - skip)).bind (fun x =>
            wr it (i * skip + j) (goo_group_pow (m : Int) x (2 ^ S))))
        skip 0 it
        (by
          refine ⟨hl, hI, ?_⟩
          intro v x hv1 hv2; omega)
        (by
          intro j jt _ hj2 ⟨hjl, hJ1, hJ2⟩
          dsimp only
          obtain ⟨x, hx⟩ := exists_getElem?_of_lt (a := jt) (i := i * skip + j - skip)
            (by omega)
          rw [rd_of_getElem? hx]
          simp only [Res.bind_ok]
          rw [wr_eq_ok _ (by omega)]
          refine ⟨_, rfl, by simp [hjl], ?_, ?_⟩
          · intro j' v y hj' hv1 hv2 hy
            have hlt : (j' + 1) * skip ≤ i * skip := Nat.mul_le_mul_right _ (by omega)
            rw [Nat.succ_mul] at hlt
            exact hJ1 j' v y hj' hv1 hv2 (getElem?_set_of_ne _ _ _ _ _ (by omega) hy)
          · intro v y hv1 hv2 hy
            by_cases hv : v = j + 1
            · subst hv
              have e1 : i * skip + (j + 1) - 1 = i * skip + j := by omega
              rw [e1] at hy
              have := getElem?_set_same _ _ _ _ (by omega) hy
              subst this
              have e2 : i * skip + j - skip = (i - 1) * skip + (j + 1) - 1 := by omega
              rw [e2] at hx
              have hxv := hJ1 (i - 1) (j + 1) x (by omega) (by omega) (by omega) hx
              rw [goo_group_pow_two_pow_cast, hxv, ← pow_mul]
              congr 1
              have : S * i = S * (i - 1) + S := by
                conv_lhs => rw [show i = (i - 1) + 1 by omega]
                ring
              rw [this, pow_add]; ring
            · exact hJ2 v y hv1 (by omega) (getElem?_set_of_ne _ _ _ _ _ (by omega) hy))
      obtain ⟨it2, hit2, hl2, hK1, hK2⟩ := inner
      refine ⟨it2, hit2, hl2, ?_⟩
      intro j v x hj hv1 hv2 hx
      by_cases hji : j = i
      · subst hji; exact hK2 v x hv1 (by omega) hx
      · exact hK1 j v x (by omega) hv1 hv2 hx)
  obtain ⟨it, h1, h2, h3⟩ := key
  refine ⟨it, h1, h2, ?_⟩
  intro j v x hj hv1 hv2 hx
  exact h3 j v x (by omega) hv1 hv2 hx

/-- `goo_comb_init` on a well-formed specification builds the comb table. -/
theorem goo_comb_init_spec (m : Nat) (base : Int) (spec : CombSpec) (hwf : spec.WF) :
    ∃ c, goo_comb_init (m : Int) base spec false = Res.ok c ∧ c.Good m base
      ∧ c.points_per_add = spec.points_per_add ∧ c.adds_per_shift = spec.adds_per_shift
      ∧ c.shifts = spec.shifts ∧ c.bits_per_window = spec.bits_per_window := by
  obtain ⟨hP, hA, hS, hW, hsize⟩ := hwf
  unfold goo_comb_init
  have hpow1 : 1 ≤ 2 ^ spec.points_per_add := Nat.one_le_two_pow
  have hpow2 : 2 ≤ 2 ^ spec.points_per_add := by
    calc 2 = 2 ^ 1 := by norm_num
      _ ≤ 2 ^ spec.points_per_add := Nat.pow_le_pow_right (by norm_num) hP
  have hsz : 2 ^ spec.points_per_add - 1 ≤ spec.size := by
    rw [hsize]; exact Nat.le_mul_of_pos_right _ hA
  simp only [Bool.not_false, Bool.true_or, assertC_true, Res.bind_ok]
  rw [wr_eq_ok _ (by simp; omega)]
  simp only [Res.bind_ok]
  obtain ⟨it1, h1, l1, v1⟩ := comb_fill_points_spec m base spec.points_per_add
    spec.bits_per_window spec.size hP hsz
    ((List.replicate spec.size (0 : Int)).set 0 base) (by simp)
    (by rw [List.getElem?_set_self (by simp; omega)])
  rw [h1]
  simp only [Res.bind_ok]
  obtain ⟨it2, h2, l2, v2⟩ := comb_fill_subcombs_spec m base spec.points_per_add
    spec.bits_per_window spec.shifts spec.adds_per_shift (2 ^ spec.points_per_add - 1) hA rfl
    it1 (by rw [l1, hsize]) v1
  rw [h2]
  simp only [Res.bind_ok]
  refine ⟨_, rfl, ⟨rfl, hP, hA, hS, hW, rfl, rfl, l2, ?_⟩, rfl, rfl, rfl, rfl⟩
  intro j v x hj hv1 hv2 hx
  exact v2 j v x hj hv1 hv2 hx

theorem goo_comb_init_tiny {n base : Int} {spec : CombSpec} {c : Comb}
    (h : goo_comb_init n base spec true = Res.ok c) :
    goo_comb_init n base spec false = Res.ok c := by
  unfold goo_comb_init at h ⊢
  obtain ⟨_, _, h2⟩ := Res.bind_eq_ok h
  simpa using h2

end Goo

namespace Goo

open Finset in
/-- Splitting a sum over `[0, n*k)` into `n` blocks of length `k`. -/
theorem sum_range_blocks (F : Nat → Nat) (n k : Nat) :
    ∑ q in range n, ∑ r in range k, F (q * k + r) = ∑ p in range (n * k), F p := by
  induction n with
  | zero => simp
  | succ n ih =>
    rw [sum_range_succ, ih, Nat.succ_mul, sum_range_add]

open Finset in
/-- The low `L` bits of a number add up to its residue modulo `2^L`. -/
theorem sum_bits_eq_mod (x L : Nat) :
    ∑ p in range L, 2 ^ p * (if x.testBit p then 1 else 0) = x % 2 ^ L := by
  induction L with
  | zero => simp [Nat.mod_one]
  | succ L ih =>
    rw [sum_range_succ, ih, Nat.mod_pow_succ, Nat.testBit_to_div_mod]
    congr 2
    rcases Nat.mod_two_eq_zero_or_one (x / 2 ^ L) with h | h <;> simp [h]

theorem bitv_of_nonneg {e : Int} (he : 0 ≤ e) (p : Nat) :
    bitv e p = if e.toNat.testBit p then 1 else 0 := by
  obtain ⟨n, rfl⟩ := Int.eq_ofNat_of_zero_le he
  rfl

theorem bitv_le_one (e : Int) (p : Nat) : bitv e p ≤ 1 := by
  unfold bitv; split <;> simp

theorem bitv_eq_zero_of_bitlen {e : Int} (he : 0 ≤ e) {p : Nat} (h : goo_mpz_bitlen e ≤ p) :
    bitv e p = 0 := by
  rw [bitv_of_nonneg he]
  have h1 := natAbs_lt_two_pow_bitlen e
  have h2 : e.toNat < 2 ^ p := by
    have : e.natAbs = e.toNat := by omega
    rw [← this]
    exact lt_of_lt_of_le h1 (Nat.pow_le_pow_right (by norm_num) h)
  rw [Nat.testBit_lt_two_pow h2]; simp

open Finset in
/-- Horner evaluation of a bit string and the exponent its value stands for. -/
theorem horner_spread (W : Nat) (β : Nat → Nat) (hβ : ∀ k, β k ≤ 1) (K : Nat) :
    (List.range K).foldl (fun ret k => 2 * ret + β k) 0 < 2 ^ K
    ∧ spread W K ((List.range K).foldl (fun ret k => 2 * ret + β k) 0)
        = ∑ k in range K, 2 ^ (W * (K - 1 - k)) * β k := by
  induction K with
  | zero => simp [spread]
  | succ K ih =>
    obtain ⟨ih1, ih2⟩ := ih
    rw [List.range_succ, List.foldl_append]
    simp only [List.foldl_cons, List.foldl_nil]
    generalize (List.range K).foldl (fun ret k => 2 * ret + β k) 0 = D at ih1 ih2
    have hb := hβ K
    refine ⟨by rw [pow_succ]; omega, ?_⟩
    have h1 : (2 * D + β K) % 2 = β K := by omega
    have h2 : (2 * D + β K) / 2 = D := by omega
    simp only [spread, h1, h2, ih2]
    rw [sum_range_succ, mul_sum]
    simp only [Nat.add_sub_cancel, Nat.sub_self, Nat.mul_zero, pow_zero, Nat.one_mul]
    rw [add_comm]
    congr 1
    apply sum_congr rfl
    intro k hk
    rw [mem_range] at hk
    rw [← mul_assoc, ← pow_add]
    congr 2
    have : K - k = (K - 1 - k) + 1 := by omega
    rw [this]; ring

/-- The bit of the exponent read at step `k` of the digit for sub-comb
`A - 1 - a` and shift `j` is bit `m*W + a*S + (S - 1 - j)` with `m = P - 1 - k`. -/
theorem comb_bit_position (P A S a m j : Nat) (ha : a < A) (hm : m < P) (hj : j < S) :
    S * A * P - 1 - (((A - 1 - a) + (P - 1 - m) * A) * S + j)
      = m * (S * A) + a * S + (S - 1 - j) := by
  obtain ⟨a', rfl⟩ : ∃ a', A = a + a' + 1 := ⟨A - 1 - a, by omega⟩
  obtain ⟨m', rfl⟩ : ∃ m', P = m + m' + 1 := ⟨P - 1 - m, by omega⟩
  obtain ⟨j', rfl⟩ : ∃ j', S = j + j' + 1 := ⟨S - 1 - j, by omega⟩
  have e1 : a + a' + 1 - 1 - a = a' := by omega
  have e2 : m + m' + 1 - 1 - m = m' := by omega
  have e3 : j + j' + 1 - 1 - j = j' := by omega
  rw [e1, e2, e3]
  have key : (j + j' + 1) * (a + a' + 1) * (m + m' + 1)
      = (m * ((j + j' + 1) * (a + a' + 1)) + a * (j + j' + 1) + j')
        + ((a' + m' * (a + a' + 1)) * (j + j' + 1) + j) + 1 := by ring
  omega

end Goo

namespace Goo

open Finset

theorem getElem?_map_range {α : Type} (f : Nat → α) (n j : Nat) (h : j < n) :
    ((List.range n).map f)[j]? = some (f j) := by
  rw [List.getElem?_map, List.getElem?_range h]; rfl

/-- The digit `goo_to_comb_exp` stores in `wins[j][a]` and the exponent bits
it stands for. -/
theorem comb_digit_spec (c : Comb) (e : Int) (he : 0 ≤ e)
    (hW : c.bits_per_window = c.shifts * c.adds_per_shift)
    (hbits : c.bits = c.bits_per_window * c.points_per_add)
    (hlen : goo_mpz_bitlen e ≤ c.bits) (a j : Nat) (ha : a < c.adds_per_shift)
    (hj : j < c.shifts) :
    comb_digit c e (c.bits - goo_mpz_bitlen e) ((c.adds_per_shift - 1) - a) j
        < 2 ^ c.points_per_add
    ∧ spread c.bits_per_window c.points_per_add
        (comb_digit c e (c.bits - goo_mpz_bitlen e) ((c.adds_per_shift - 1) - a) j)
      = ∑ m in range c.points_per_add, 2 ^ (c.bits_per_window * m)
          * bitv e (m * c.bits_per_window + a * c.shifts + (c.shifts - 1 - j)) := by
  set P := c.points_per_add
  set A := c.adds_per_shift
  set S := c.shifts
  set W := c.bits_per_window
  set pad := c.bits - goo_mpz_bitlen e
  have hfun : (fun (ret k : Nat) =>
      let b := ((A - 1 - a) + k * A) * S + j
      if b < pad then 2 * ret
      else 2 * ret + (if mpz_tstbit e ((c.bits - 1) - b) then 1 else 0))
      = (fun ret k => 2 * ret + bitv e ((c.bits - 1) - (((A - 1 - a) + k * A) * S + j))) := by
    funext ret k
    dsimp only
    split
    · rename_i hb
      rw [bitv_eq_zero_of_bitlen he (by omega)]
      rfl
    · rfl
  have hd : comb_digit c e pad ((A - 1) - a) j
      = (List.range P).foldl (fun ret k =>
          2 * ret + bitv e ((c.bits - 1) - (((A - 1 - a) + k * A) * S + j))) 0 := by
    unfold comb_digit
    rw [← hfun]
  obtain ⟨h1, h2⟩ := horner_spread W
    (fun k => bitv e ((c.bits - 1) - (((A - 1 - a) + k * A) * S + j)))
    (fun k => bitv_le_one _ _) P
  rw [hd]
  refine ⟨h1, ?_⟩
  rw [h2]
  rw [← sum_range_reflect]
  apply sum_congr rfl
  intro k hk
  rw [mem_range] at hk
  have hbit : c.bits - 1 - ((A - 1 - a + (P - 1 - k) * A) * S + j)
      = k * W + a * S + (S - 1 - j) := by
    have := comb_bit_position P A S a k j ha hk hj
    rw [hbits, hW, ← this]
  rw [hbit, show P - 1 - (P - 1 - k) = k by omega]

/-- The recoded exponent adds up to the exponent. -/
theorem comb_total (P A S W : Nat) (hW : W = S * A) (e : Int) (he : 0 ≤ e)
    (hlt : goo_mpz_bitlen e ≤ W * P) :
    ∑ j in range S, 2 ^ (S - 1 - j) * ∑ a in range A, 2 ^ (S * a)
        * ∑ m in range P, 2 ^ (W * m) * bitv e (m * W + a * S + (S - 1 - j))
      = e.toNat := by
  have hF : ∀ j a m, 2 ^ (S - 1 - j) * (2 ^ (S * a) * (2 ^ (W * m)
      * bitv e (m * W + a * S + (S - 1 - j))))
      = (fun p => 2 ^ p * (if e.toNat.testBit p then 1 else 0))
          (m * W + a * S + (S - 1 - j)) := by
    intro j a m
    dsimp only
    rw [bitv_of_nonneg he, ← mul_assoc, ← mul_assoc, ← pow_add, ← pow_add]
    congr 2; ring
  simp only [mul_sum, hF]
  rw [sum_range_reflect (fun r => ∑ a in range A, ∑ m in range P,
    (fun p => 2 ^ p * (if e.toNat.testBit p then 1 else 0)) (m * W + a * S + r)) S]
  rw [sum_comm]
  have h1 : ∀ a ∈ range A, ∑ r in range S, ∑ m in range P,
      (fun p => 2 ^ p * (if e.toNat.testBit p then 1 else 0)) (m * W + a * S + r)
      = ∑ m in range P, ∑ r in range S,
        (fun p => 2 ^ p * (if e.toNat.testBit p then 1 else 0)) (m * W + a * S + r) := by
    intro a _; exact sum_comm
  rw [sum_congr rfl h1, sum_comm]
  have h2 : ∀ m ∈ range P, ∑ a in range A, ∑ r in range S,
      (fun p => 2 ^ p * (if e.toNat.testBit p then 1 else 0)) (m * W + a * S + r)
      = ∑ q in range W,
        (fun p => 2 ^ p * (if e.toNat.testBit p then 1 else 0)) (m * W + q) := by
    intro m _
    have := sum_range_blocks
      (fun q => (fun p => 2 ^ p * (if e.toNat.testBit p then 1 else 0)) (m * W + q)) A S
    have hr : range W = range (A * S) := by rw [hW, Nat.mul_comm]
    rw [hr, ← this]
    apply sum_congr rfl; intro a _
    apply sum_congr rfl; intro r _
    dsimp only
    rw [Nat.add_assoc]
  rw [sum_congr rfl h2,
    sum_range_blocks (fun p => 2 ^ p * (if e.toNat.testBit p then 1 else 0)) P W,
    sum_bits_eq_mod]
  apply Nat.mod_eq_of_lt
  have h3 := natAbs_lt_two_pow_bitlen e
  have h4 : e.natAbs = e.toNat := by omega
  rw [← h4, Nat.mul_comm P W]
  exact lt_of_lt_of_le h3 (Nat.pow_le_pow_right (by norm_num) hlt)

end Goo

namespace Goo

open Finset

theorem horner_sum_succ (X : Nat → Nat) (j : Nat) :
    ∑ i in range (j + 1), 2 ^ (j + 1 - 1 - i) * X i
      = 2 * ∑ i in range j, 2 ^ (j - 1 - i) * X i + X j := by
  rw [sum_range_succ, mul_sum]
  simp only [Nat.add_sub_cancel, Nat.sub_self, pow_zero, Nat.one_mul]
  congr 1
  apply sum_congr rfl
  intro i hi
  rw [mem_range] at hi
  rw [← mul_assoc, ← pow_succ']
  congr 2
  omega

/-- Inner loop of `goo_group_powgh`: one shift multiplies in the table
entries selected by the digits of that shift. -/
theorem powgh_adds_spec (G : Group) (m : Nat) (hm : G.n = m) (hm1 : 1 < m)
    (gc hc : Comb) (hg : gc.Good m G.g) (hh : hc.Good m G.h)
    (sP : hc.points_per_add = gc.points_per_add)
    (sA : hc.adds_per_shift = gc.adds_per_shift)
    (sS : hc.shifts = gc.shifts) (sW : hc.bits_per_window = gc.bits_per_window)
    (e1vs e2vs : List Nat) (d1 d2 : Nat → Nat)
    (h1 : ∀ a, a < gc.adds_per_shift → e1vs[a]? = some (d1 a))
    (h2 : ∀ a, a < gc.adds_per_shift → e2vs[a]? = some (d2 a))
    (b1 : ∀ a, a < gc.adds_per_shift → d1 a < 2 ^ gc.points_per_add)
    (b2 : ∀ a, a < gc.adds_per_shift → d2 a < 2 ^ gc.points_per_add)
    (ret : Int) (r0 : 0 ≤ ret) (r1 : ret < m) :
    ∃ r, powgh_adds G gc hc e1vs e2vs ret = Res.ok r ∧ 0 ≤ r ∧ r < m
      ∧ (r : ZMod m) = (ret : ZMod m)
        * (G.g : ZMod m) ^ (∑ a in range gc.adds_per_shift, 2 ^ (gc.shifts * a)
            * spread gc.bits_per_window gc.points_per_add (d1 a))
        * (G.h : ZMod m) ^ (∑ a in range gc.adds_per_shift, 2 ^ (gc.shifts * a)
            * spread gc.bits_per_window gc.points_per_add (d2 a)) := by
  obtain ⟨_, gP, gA, gS, gW, gB, gK, gL, gV⟩ := hg
  obtain ⟨_, hP, hA, hS, hW, hB, hK, hL, hV⟩ := hh
  have hpos : (0 : Int) < m := by exact_mod_cast (by omega : 0 < m)
  have hKK : hc.points_per_subcomb = gc.points_per_subcomb := by rw [hK, gK, sP]
  unfold powgh_adds
  have key := forRange_inv
    (fun a (r : Int) => 0 ≤ r ∧ r < m ∧ (r : ZMod m) = (ret : ZMod m)
        * (G.g : ZMod m) ^ (∑ a in range a, 2 ^ (gc.shifts * a)
            * spread gc.bits_per_window gc.points_per_add (d1 a))
        * (G.h : ZMod m) ^ (∑ a in range a, 2 ^ (gc.shifts * a)
            * spread gc.bits_per_window gc.points_per_add (d2 a)))
    (fun j ret =>
      (rd e1vs j).bind (fun e1v =>
      (rd e2vs j).bind (fun e2v =>
      (if e1v ≠ 0 then
        (rd gc.items (j * gc.points_per_subcomb + e1v - 1)).bind (fun g =>
          .ok (goo_group_mul G.n ret g))
       else .ok ret).bind (fun ret1 =>
      (if e2v ≠ 0 then
        (rd hc.items (j * hc.points_per_subcomb + e2v - 1)).bind (fun h =>
          .ok (goo_group_mul G.n ret1 h))
       else .ok ret1)))))
    gc.adds_per_shift 0 ret
    (by simp [r0, r1])
    (by
      intro a r _ ha ⟨q0, q1, qc⟩
      dsimp only
      have haA : a < gc.adds_per_shift := by omega
      rw [rd_of_getElem? (h1 a haA), rd_of_getElem? (h2 a haA)]
      simp only [Res.bind_ok]
      have hmulA : (a + 1) * gc.points_per_subcomb
          ≤ gc.adds_per_shift * gc.points_per_subcomb := Nat.mul_le_mul_right _ (by omega)
      rw [Nat.succ_mul] at hmulA
      have hcm : gc.points_per_subcomb * gc.adds_per_shift
          = gc.adds_per_shift * gc.points_per_subcomb := Nat.mul_comm _ _
      have hpow1 : 1 ≤ 2 ^ gc.points_per_add := Nat.one_le_two_pow
      have hd1 := b1 a haA
      have hd2 := b2 a haA
      -- the multiplication by the entry for `g`
      have stepg : ∃ ra, (if d1 a ≠ 0 then
            (rd gc.items (a * gc.points_per_subcomb + d1 a - 1)).bind (fun g =>
              Res.ok (goo_group_mul G.n r g))
          else Res.ok r) = Res.ok ra ∧ 0 ≤ ra ∧ ra < m
          ∧ (ra : ZMod m) = (r : ZMod m) * (G.g : ZMod m) ^ (2 ^ (gc.shifts * a)
            * spread gc.bits_per_window gc.points_per_add (d1 a)) := by
        by_cases hz : d1 a = 0
        · refine ⟨r, by simp [hz], q0, q1, ?_⟩
          rw [hz, spread_zero]; simp
        · simp only [hz, ne_eq, not_false_eq_true, if_true]
          obtain ⟨x, hx⟩ := exists_getElem?_of_lt (a := gc.items)
            (i := a * gc.points_per_subcomb + d1 a - 1) (by rw [gL, gK] at *; omega)
          rw [rd_of_getElem? hx]
          simp only [Res.bind_ok, goo_group_mul, hm]
          refine ⟨_, rfl, Int.emod_nonneg _ hpos.ne', Int.emod_lt_of_pos _ hpos, ?_⟩
          push_cast [ZMod.intCast_mod]
          rw [gV a (d1 a) x haA (by omega) (by rw [gK]; omega) hx]
      obtain ⟨ra, hra, a0, a1, ac⟩ := stepg
      rw [hra]
      simp only [Res.bind_ok]
      have steph : ∃ rb, (if d2 a ≠ 0 then
            (rd hc.items (a * hc.points_per_subcomb + d2 a - 1)).bind (fun h =>
              Res.ok (goo_group_mul G.n ra h))
          else Res.ok ra) = Res.ok rb ∧ 0 ≤ rb ∧ rb < m
          ∧ (rb : ZMod m) = (ra : ZMod m) * (G.h : ZMod m) ^ (2 ^ (gc.shifts * a)
            * spread gc.bits_per_window gc.points_per_add (d2 a)) := by
        by_cases hz : d2 a = 0
        · refine ⟨ra, by simp [hz], a0, a1, ?_⟩
          rw [hz, spread_zero]; simp
        · simp only [hz, ne_eq, not_false_eq_true, if_true]
          obtain ⟨x, hx⟩ := exists_getElem?_of_lt (a := hc.items)
            (i := a * hc.points_per_subcomb + d2 a - 1)
            (by rw [hL, hKK, sA, gK] at *; omega)
          rw [rd_of_getElem? hx]
          simp only [Res.bind_ok, goo_group_mul, hm]
          refine ⟨_, rfl, Int.emod_nonneg _ hpos.ne', Int.emod_lt_of_pos _ hpos, ?_⟩
          push_cast [ZMod.intCast_mod]
          rw [hV a (d2 a) x (by omega) (by omega) (by rw [hKK, gK]; omega) hx, sS, sW, sP]
      obtain ⟨rb, hrb, c0, c1, cc⟩ := steph
      refine ⟨rb, hrb, c0, c1, ?_⟩
      rw [cc, ac, qc, sum_range_succ, sum_range_succ, pow_add, pow_add]
      ring)
  obtain ⟨r, hr, q0, q1, qc⟩ := key
  refine ⟨r, hr, q0, q1, ?_⟩
  simpa using qc

end Goo

namespace Goo

open Finset

/-- The shift loop of `goo_group_powgh` on one comb pair computes
`g^e1 * h^e2 mod n`. -/
theorem powgh_pair_spec (G : Group) (m : Nat) (hm : G.n = m) (hm1 : 1 < m)
    (gc hc : Comb) (hg : gc.Good m G.g) (hh : hc.Good m G.h) (hs : gc.SameShape hc)
    (e1 e2 : Int) (he1 : 0 ≤ e1) (he2 : 0 ≤ e2)
    (hl1 : goo_mpz_bitlen e1 ≤ gc.bits) (hl2 : goo_mpz_bitlen e2 ≤ gc.bits) :
    ((goo_to_comb_exp gc e1).bind (fun w1 =>
      (goo_to_comb_exp hc e2).bind (fun w2 =>
        forRange gc.shifts 0 (fun i ret =>
          (rd w1 i).bind (fun e1vs =>
          (rd w2 i).bind (fun e2vs =>
            powgh_adds G gc hc e1vs e2vs
              (if ret ≠ 1 then goo_group_sqr G.n ret else ret)))) 1)))
      = Res.ok (G.g ^ e1.toNat * G.h ^ e2.toNat % G.n) := by
  obtain ⟨sP, sA, sS, sW⟩ := hs
  have hpos : (0 : Int) < m := by exact_mod_cast (by omega : 0 < m)
  have hg' := hg
  have hh' := hh
  obtain ⟨_, gP, gA, gS, gW, gB, gK, gL, gV⟩ := hg
  obtain ⟨_, hP, hA, hS, hW, hB, hK, hL, hV⟩ := hh
  have hbits : hc.bits = gc.bits := by rw [hB, gB, sW, sP]
  unfold goo_to_comb_exp
  rw [if_neg (by omega), if_neg (by omega)]
  simp only [Res.bind_ok]
  set D1 : Nat → Nat → Nat := fun j a =>
    comb_digit gc e1 (gc.bits - goo_mpz_bitlen e1) ((gc.adds_per_shift - 1) - a) j with hD1
  set D2 : Nat → Nat → Nat := fun j a =>
    comb_digit hc e2 (hc.bits - goo_mpz_bitlen e2) ((hc.adds_per_shift - 1) - a) j with hD2
  set X1 : Nat → Nat := fun j => ∑ a in range gc.adds_per_shift, 2 ^ (gc.shifts * a)
    * spread gc.bits_per_window gc.points_per_add (D1 j a) with hX1
  set X2 : Nat → Nat := fun j => ∑ a in range gc.adds_per_shift, 2 ^ (gc.shifts * a)
    * spread gc.bits_per_window gc.points_per_add (D2 j a) with hX2
  have key := forRange_inv
    (fun j (r : Int) => 0 ≤ r ∧ r < m ∧ (r : ZMod m)
        = (G.g : ZMod m) ^ (∑ i in range j, 2 ^ (j - 1 - i) * X1 i)
          * (G.h : ZMod m) ^ (∑ i in range j, 2 ^ (j - 1 - i) * X2 i))
    (fun i ret =>
          (rd ((List.range gc.shifts).map (fun j =>
            (List.range gc.adds_per_shift).map (fun a => D1 j a))) i).bind (fun e1vs =>
          (rd ((List.range hc.shifts).map (fun j =>
            (List.range hc.adds_per_shift).map (fun a => D2 j a))) i).bind (fun e2vs =>
            powgh_adds G gc hc e1vs e2vs
              (if ret ≠ 1 then goo_group_sqr G.n ret else ret))))
    gc.shifts 0 1
    (by
      refine ⟨by norm_num, by exact_mod_cast hm1, ?_⟩
      simp)
    (by
      intro j r _ hj ⟨q0, q1, qc⟩
      dsimp only
      have hjS : j < gc.shifts := by omega
      rw [rd_of_getElem? (getElem?_map_range _ _ j hjS),
        rd_of_getElem? (getElem?_map_range _ _ j (by omega))]
      simp only [Res.bind_ok]
      have sq : ∃ s, (if r ≠ 1 then goo_group_sqr G.n r else r) = s ∧ 0 ≤ s ∧ s < m
          ∧ (s : ZMod m) = (r : ZMod m) * (r : ZMod m) := by
        by_cases h : r = 1
        · subst h; exact ⟨1, by simp, by norm_num, by exact_mod_cast hm1, by simp⟩
        · refine ⟨_, rfl, ?_, ?_, ?_⟩
          · simp only [h, ne_eq, not_false_eq_true, if_true, goo_group_sqr, hm]
            exact Int.emod_nonneg _ hpos.ne'
          · simp only [h, ne_eq, not_false_eq_true, if_true, goo_group_sqr, hm]
            exact Int.emod_lt_of_pos _ hpos
          · simp only [h, ne_eq, not_false_eq_true, if_true, goo_group_sqr, hm]
            push_cast [ZMod.intCast_mod]; rfl
      obtain ⟨s, hs, s0, s1, sc⟩ := sq
      rw [hs]
      obtain ⟨r2, hr2, t0, t1, tc⟩ := powgh_adds_spec G m hm hm1 gc hc hg' hh' sP sA sS sW
        ((List.range gc.adds_per_shift).map (fun a => D1 j a))
        ((List.range hc.adds_per_shift).map (fun a => D2 j a)) (D1 j) (D2 j)
        (fun a ha => getElem?_map_range _ _ a ha)
        (fun a ha => getElem?_map_range _ _ a (by omega))
        (fun a ha => (comb_digit_spec gc e1 he1 gW gB hl1 a j ha hjS).1)
        (fun a ha => by
          have := (comb_digit_spec hc e2 he2 hW hB (by omega) a j (by omega) (by omega)).1
          rw [sP] at this; exact this)
        s s0 s1
      refine ⟨r2, hr2, t0, t1, ?_⟩
      rw [tc, sc, qc, horner_sum_succ X1 j, horner_sum_succ X2 j]
      rw [pow_add, pow_add, two_mul, pow_add, two_mul, pow_add]
      ring)
  obtain ⟨r, hr, q0, q1, qc⟩ := key
  rw [hr]
  congr 1
  simp only [Nat.zero_add] at qc
  have hE1 : ∑ i in range gc.shifts, 2 ^ (gc.shifts - 1 - i) * X1 i = e1.toNat := by
    rw [← comb_total gc.points_per_add gc.adds_per_shift gc.shifts gc.bits_per_window gW e1 he1
      (by rw [← gB]; exact hl1)]
    apply sum_congr rfl; intro j hj
    rw [mem_range] at hj
    congr 1
    apply sum_congr rfl; intro a ha
    rw [mem_range] at ha
    congr 1
    exact (comb_digit_spec gc e1 he1 gW gB hl1 a j ha hj).2
  have hE2 : ∑ i in range gc.shifts, 2 ^ (gc.shifts - 1 - i) * X2 i = e2.toNat := by
    rw [← comb_total gc.points_per_add gc.adds_per_shift gc.shifts gc.bits_per_window gW e2 he2
      (by rw [← gB]; exact hl2)]
    apply sum_congr rfl; intro j hj
    rw [mem_range] at hj
    congr 1
    apply sum_congr rfl; intro a ha
    rw [mem_range] at ha
    congr 1
    have := (comb_digit_spec hc e2 he2 hW hB (by omega) a j (by omega) (by omega)).2
    rw [sP, sW, sS] at this
    exact this
  rw [hE1, hE2] at qc
  have hc' : (r : ZMod m) = ((G.g ^ e1.toNat * G.h ^ e2.toNat : Int) : ZMod m) := by
    rw [qc]; push_cast; rfl
  have := (ZMod.intCast_eq_intCast_iff' _ _ m).mp hc'
  rw [Int.emod_eq_of_lt q0 q1] at this
  rw [hm]; exact this

/-- `goo_group_powgh` on a good group: success with `g^e1 * h^e2 mod n`
whenever a comb pair admits both exponents. -/
theorem powgh_spec (G : Group) (m : Nat) (hG : G.Good m) (e1 e2 : Int)
    (he1 : 0 ≤ e1) (he2 : 0 ≤ e2)
    (hcap : max (goo_mpz_bitlen e1) (goo_mpz_bitlen e2) ≤ G.g_comb1.bits
      ∨ (G.g_comb2.exists = true
        ∧ max (goo_mpz_bitlen e1) (goo_mpz_bitlen e2) ≤ G.g_comb2.bits)) :
    goo_group_powgh G e1 e2 = Res.ok (G.g ^ e1.toNat * G.h ^ e2.toNat % G.n) := by
  obtain ⟨hm, hm1, g1, h1, s1, h2⟩ := hG
  unfold goo_group_powgh
  have hmax : (if goo_mpz_bitlen e1 > goo_mpz_bitlen e2 then goo_mpz_bitlen e1
      else goo_mpz_bitlen e2) = max (goo_mpz_bitlen e1) (goo_mpz_bitlen e2) := by
    split <;> omega
  simp only [hmax]
  by_cases hsmall : max (goo_mpz_bitlen e1) (goo_mpz_bitlen e2) ≤ G.g_comb1.bits
  · rw [if_neg (by omega)]
    simp only [Res.bind_ok]
    exact powgh_pair_spec G m hm hm1 _ _ g1 h1 s1 e1 e2 he1 he2
      (le_trans (le_max_left _ _) hsmall) (le_trans (le_max_right _ _) hsmall)
  · rcases hcap with h | ⟨hex, hbig⟩
    · exact absurd h hsmall
    · obtain ⟨g2, h2', s2⟩ := h2 hex
      rw [if_pos (by omega), if_pos ⟨hex, hbig⟩]
      simp only [Res.bind_ok]
      exact powgh_pair_spec G m hm hm1 _ _ g2 h2' s2 e1 e2 he1 he2
        (le_trans (le_max_left _ _) hbig) (le_trans (le_max_right _ _) hbig)

/-- `goo_group_powgh` fails when no comb pair admits the exponents. -/
theorem powgh_fail (G : Group) (e1 e2 : Int)
    (h1 : G.g_comb1.bits < max (goo_mpz_bitlen e1) (goo_mpz_bitlen e2))
    (h2 : G.g_comb2.exists = false
      ∨ G.g_comb2.bits < max (goo_mpz_bitlen e1) (goo_mpz_bitlen e2)) :
    goo_group_powgh G e1 e2 = Res.fail := by
  unfold goo_group_powgh
  have hmax : (if goo_mpz_bitlen e1 > goo_mpz_bitlen e2 then goo_mpz_bitlen e1
      else goo_mpz_bitlen e2) = max (goo_mpz_bitlen e1) (goo_mpz_bitlen e2) := by
    split <;> omega
  simp only [hmax]
  rw [if_pos (by omega)]
  rw [if_neg]
  · rfl
  · rintro ⟨a, b⟩
    rcases h2 with h | h
    · rw [h] at a; cases a
    · omega

end Goo

namespace Goo

theorem spec_match_ok {E : Env} {bits : Int} {s : CombSpec}
    (h : combspec_unchecked E bits = Res.ok s) :
    goo_combspec_init bits E.GOO_MAX_COMB_SIZE = Res.ok s := by
  unfold combspec_unchecked at h
  cases hx : goo_combspec_init bits E.GOO_MAX_COMB_SIZE <;> rw [hx] at h <;> simp at h
  rw [h]

theorem comb_of_init {m : Nat} {base : Int} {spec : CombSpec} {tiny : Bool} {c : Comb}
    (hwf : spec.WF) (h : goo_comb_init (m : Int) base spec tiny = Res.ok c) :
    c.Good m base ∧ c.points_per_add = spec.points_per_add
      ∧ c.adds_per_shift = spec.adds_per_shift ∧ c.shifts = spec.shifts
      ∧ c.bits_per_window = spec.bits_per_window := by
  have h2 : goo_comb_init (m : Int) base spec false = Res.ok c := by
    cases tiny
    · exact h
    · exact goo_comb_init_tiny h
  obtain ⟨c2, e, hgood⟩ := goo_comb_init_spec m base spec hwf
  rw [h2] at e
  cases e
  exact hgood

theorem goo_mpz_import_nonneg (b : Bytes) : 0 ≤ goo_mpz_import b := by
  unfold goo_mpz_import; exact Int.ofNat_nonneg _

/-- A group returned by `goo_group_init` with a modulus above 1 has good comb
tables, covering `GOO_CHAL_BITS` bits in the tiny configuration and the
protocol's exponents when `modbits` is not zero. -/
theorem group_init_good {E : Env} {n : Bytes} {g h modbits : Nat} {G : Group}
    (hinit : goo_group_init E n g h modbits = Res.ok G) (hN : 1 < G.n) :
    G.Good G.n.toNat ∧ G.g = g ∧ G.h = h ∧ G.nh = G.n / 2 ∧ 128 ≤ G.g_comb1.bits
      ∧ (modbits ≠ 0 → G.g_comb2.exists = true ∧ G.rand_bits ≤ G.g_comb1.bits
          ∧ 128 ≤ G.rand_bits
          ∧ max (2 * modbits) (modbits + G.rand_bits) + E.GOO_CHAL_BITS + 1 ≤ G.g_comb2.bits)
      ∧ (modbits = 0 → G.g_comb2.exists = false ∧ E.GOO_CHAL_BITS ≤ G.g_comb1.bits) := by
  unfold goo_group_init at hinit
  have hnn := goo_mpz_import_nonneg n
  obtain ⟨m, hm⟩ : ∃ m : Nat, goo_mpz_import n = m := ⟨_, (Int.toNat_of_nonneg hnn).symm⟩
  rw [hm] at hinit
  dsimp only at hinit
  have hrblt : (goo_clog2 (m : Int) + (2 ^ 64 - 1)) % 2 ^ 64 < 2 ^ 64 :=
    Nat.mod_lt _ (by norm_num)
  generalize (goo_clog2 (m : Int) + (2 ^ 64 - 1)) % 2 ^ 64 = rb at hinit hrblt
  split at hinit
  · rename_i hmod
    obtain ⟨big_spec, hb, hinit⟩ := Res.bind_eq_ok hinit
    obtain ⟨small_spec, hs, hinit⟩ := Res.bind_eq_ok hinit
    obtain ⟨g1, hg1, hinit⟩ := Res.bind_eq_ok hinit
    obtain ⟨h1, hh1, hinit⟩ := Res.bind_eq_ok hinit
    obtain ⟨g2, hg2, hinit⟩ := Res.bind_eq_ok hinit
    obtain ⟨h2, hh2, hinit⟩ := Res.bind_eq_ok hinit
    obtain ⟨bw, _, bcov, _, _, _⟩ := combspec_init_wf (spec_match_ok hb)
    obtain ⟨sw, s128, scov, _, _, _⟩ := combspec_init_wf (spec_match_ok hs)
    obtain ⟨G1, p1, a1, s1, w1⟩ := comb_of_init sw hg1
    obtain ⟨H1, p2, a2, s2, w2⟩ := comb_of_init sw hh1
    obtain ⟨G2, p3, a3, s3, w3⟩ := comb_of_init bw hg2
    obtain ⟨H2, p4, a4, s4, w4⟩ := comb_of_init bw hh2
    simp only [Res.ok.injEq] at hinit
    subst hinit
    dsimp only at hN ⊢
    have hmm : ((m : Int)).toNat = m := by simp
    rw [hmm]
    have hm1 : 1 < m := by exact_mod_cast hN
    have hsmall : rb < 2 ^ 63 := by
      by_contra hc
      rw [if_neg hc] at s128
      have : (rb : Int) < 2 ^ 64 := by exact_mod_cast hrblt
      omega
    rw [if_pos hsmall] at s128 scov
    have s128' : 128 ≤ rb := by exact_mod_cast s128
    have scov' : rb ≤ small_spec.bits_per_window * small_spec.points_per_add := by
      exact_mod_cast scov
    have g1b : g1.bits = small_spec.bits_per_window * small_spec.points_per_add := by
      rw [G1.2.2.2.2.2.1, w1, p1]
    have g2b : g2.bits = big_spec.bits_per_window * big_spec.points_per_add := by
      rw [G2.2.2.2.2.2.1, w3, p3]
    refine ⟨⟨rfl, hm1, G1, H1, ⟨by rw [p2, p1], by rw [a2, a1], by rw [s2, s1],
        by rw [w2, w1]⟩, fun _ => ⟨G2, H2, ⟨by rw [p4, p3], by rw [a4, a3], by rw [s4, s3],
        by rw [w4, w3]⟩⟩⟩, rfl, rfl, rfl, by omega, ?_, fun h0 => absurd h0 hmod⟩
    intro _
    refine ⟨G2.1, by omega, s128', ?_⟩
    rw [if_pos hsmall] at bcov
    rw [g2b]
    have : ((max (2 * modbits) (modbits + rb) + E.GOO_CHAL_BITS + 1 : Nat) : Int)
        ≤ ((big_spec.bits_per_window * big_spec.points_per_add : Nat) : Int) := by
      refine le_trans ?_ bcov
      push_cast
      split <;> rename_i hcmp
      · have : max (2 * (modbits : Int)) (modbits + rb) = 2 * modbits := max_eq_left (by omega)
        rw [this]
      · have : max (2 * (modbits : Int)) (modbits + rb) = modbits + rb :=
          max_eq_right (by omega)
        rw [this]
    exact_mod_cast this
  · rename_i hmod
    have hmod0 : modbits = 0 := by omega
    obtain ⟨tiny_spec, ht, hinit⟩ := Res.bind_eq_ok hinit
    obtain ⟨g1, hg1, hinit⟩ := Res.bind_eq_ok hinit
    obtain ⟨h1, hh1, hinit⟩ := Res.bind_eq_ok hinit
    obtain ⟨tw, t128, tcov, _, _, _⟩ := combspec_init_wf (spec_match_ok ht)
    obtain ⟨G1, p1, a1, s1, w1⟩ := comb_of_init tw hg1
    obtain ⟨H1, p2, a2, s2, w2⟩ := comb_of_init tw hh1
    simp only [Res.ok.injEq] at hinit
    subst hinit
    dsimp only at hN ⊢
    have hmm : ((m : Int)).toNat = m := by simp
    rw [hmm]
    have hm1 : 1 < m := by exact_mod_cast hN
    have g1b : g1.bits = tiny_spec.bits_per_window * tiny_spec.points_per_add := by
      rw [G1.2.2.2.2.2.1, w1, p1]
    have tcov' : E.GOO_CHAL_BITS ≤ tiny_spec.bits_per_window * tiny_spec.points_per_add := by
      exact_mod_cast tcov
    have t128' : 128 ≤ E.GOO_CHAL_BITS := by exact_mod_cast t128
    refine ⟨⟨rfl, hm1, G1, H1, ⟨by rw [p2, p1], by rw [a2, a1], by rw [s2, s1],
        by rw [w2, w1]⟩, fun hx => by simp [Comb.zero] at hx⟩, rfl, rfl, rfl, by omega,
        fun h0 => absurd hmod0 h0, fun _ => ⟨rfl, by omega⟩⟩

end Goo

namespace Goo

open NumberTheorySymbols

/-! ## `mpz_jacobi` is the Jacobi symbol -/

theorem jacobiLoop_spec : ∀ (fuel a n : Nat) (r : Int), n % 2 = 1 → a < n → a + n < fuel →
    jacobiLoop fuel a n r = r * J(a | n) := by
  intro fuel
  induction fuel with
  | zero => intro a n r _ _ h; omega
  | succ fuel ih =>
    intro a n r hn ha hf
    unfold jacobiLoop
    by_cases ha0 : a = 0
    · subst ha0
      simp only [if_true]
      by_cases hn1 : n = 1
      · subst hn1; simp [jacobiSym.one_right]
      · simp only [hn1, if_false]
        have : J(((0 : Nat) : Int) | n) = 0 := by
          simpa using jacobiSym.zero_left (b := n) (by omega)
        rw [this]; simp
    · simp only [ha0, if_false]
      by_cases hev : a % 2 = 0
      · simp only [hev, if_true]
        rw [ih (a / 2) n _ hn (by omega) (by omega)]
        have h2 : ((a : Int)) % 2 = 0 := by omega
        have key := jacobiSym.even_odd (a := (a : Int)) (b := n) h2 hn
        have hcast : ((a / 2 : Nat) : Int) = (a : Int) / 2 := by norm_cast
        rw [hcast, ← key]
        split <;> ring
      · simp only [hev, if_false]
        have hodd : a % 2 = 1 := by omega
        have hpos : 0 < a := Nat.pos_of_ne_zero ha0
        have hlt : n % a < a := Nat.mod_lt _ hpos
        rw [ih (n % a) a _ hodd hlt (by omega)]
        have key := jacobiSym.quadratic_reciprocity_if (a := a) (b := n) hodd hn
        have hmod : J(((n % a : Nat) : Int) | a) = J((n : Int) | a) := by
          rw [jacobiSym.mod_left (n : Int) a]; norm_cast
        rw [hmod, ← key]
        split <;> ring

theorem oddPart_spec : ∀ (fuel n : Nat), 0 < n → n ≤ fuel →
    n = (oddPart fuel n).2 * 2 ^ (oddPart fuel n).1 ∧ (oddPart fuel n).2 % 2 = 1 := by
  intro fuel
  induction fuel with
  | zero => intro n h1 h2; omega
  | succ fuel ih =>
    intro n hpos hle
    unfold oddPart
    by_cases hev : n % 2 = 0
    · have hn0 : n ≠ 0 := by omega
      simp only [hev, hn0, ne_eq, not_false_eq_true, and_self, if_true]
      obtain ⟨h1, h2⟩ := ih (n / 2) (by omega) (by omega)
      refine ⟨?_, h2⟩
      rw [pow_succ, ← mul_assoc, ← h1]; omega
    · simp only [hev, false_and, if_false]
      exact ⟨by simp, by omega⟩

theorem oddPart_of_odd (fuel n : Nat) (h : n % 2 = 1) : oddPart fuel n = (0, n) := by
  cases fuel with
  | zero => rfl
  | succ f => unfold oddPart; simp [h]

/-- For an odd modulus, `mpz_jacobi` is the Jacobi symbol. -/
theorem mpz_jacobi_eq (a n : Nat) (hn : n % 2 = 1) : mpz_jacobi a n = J(a | n) := by
  unfold mpz_jacobi
  have hn0 : n ≠ 0 := by omega
  simp only [hn0, if_false, oddPart_of_odd n n hn, pow_zero, one_mul]
  rw [jacobiLoop_spec _ _ _ _ hn (Nat.mod_lt _ (by omega)) (by omega), one_mul]
  rw [jacobiSym.mod_left (a : Int) n]; norm_cast

/-- `goo_factor_twos` on a positive number: `n = d * 2^s` with `d` odd. -/
theorem goo_factor_twos_spec (n : Nat) (h : 0 < n) :
    n = (goo_factor_twos n).1 * 2 ^ (goo_factor_twos n).2 ∧ (goo_factor_twos n).1 % 2 = 1 := by
  unfold goo_factor_twos
  exact oddPart_spec n n h (le_refl _)

end Goo

namespace Goo

open NumberTheorySymbols

/-! ## Tonelli-Shanks -/

theorem mpz_powm_cast (b : Int) (e p : Nat) :
    ((mpz_powm b (e : Int) (p : Int) : Int) : ZMod p) = (b : ZMod p) ^ e := by
  rw [mpz_powm_natCast]; push_cast [ZMod.intCast_mod]; rfl

theorem mpz_powm_range (b : Int) (e p : Nat) (hp : 0 < p) :
    0 ≤ mpz_powm b (e : Int) (p : Int) ∧ mpz_powm b (e : Int) (p : Int) < p := by
  rw [mpz_powm_natCast]
  have : (0 : Int) < p := by exact_mod_cast hp
  exact ⟨Int.emod_nonneg _ this.ne', Int.emod_lt_of_pos _ this⟩

theorem eq_one_iff_cast {p : Nat} (hp : 1 < p) {x : Int} (h0 : 0 ≤ x) (h1 : x < p) :
    x = 1 ↔ (x : ZMod p) = 1 := by
  constructor
  · intro h; subst h; simp
  · intro h
    have h2 : (x : ZMod p) = ((1 : Int) : ZMod p) := by simpa using h
    have := (ZMod.intCast_eq_intCast_iff' _ _ p).mp h2
    rwa [Int.emod_eq_of_lt h0 h1, Int.emod_eq_of_lt (by norm_num) (by exact_mod_cast hp)] at this

theorem eq_of_cast_eq {p : Nat} {x y : Int} (h0 : 0 ≤ x) (h1 : x < p) (g0 : 0 ≤ y)
    (g1 : y < p) (h : (x : ZMod p) = (y : ZMod p)) : x = y := by
  have := (ZMod.intCast_eq_intCast_iff' _ _ p).mp h
  rwa [Int.emod_eq_of_lt h0 h1, Int.emod_eq_of_lt g0 g1] at this

/-- The squaring loop returns the least `r` with `y^(2^r) = 1`, or `s`. -/
theorem sqrtpOrder_spec (p : Nat) (hp : 1 < p) (s : Nat) : ∀ (fuel i : Nat) (y : Int),
    0 ≤ y → y < p → i + fuel = s →
    i ≤ sqrtpOrder p s fuel i y ∧ sqrtpOrder p s fuel i y ≤ s
      ∧ (sqrtpOrder p s fuel i y < s → (y : ZMod p) ^ (2 ^ (sqrtpOrder p s fuel i y - i)) = 1)
      ∧ (∀ k, i ≤ k → k < sqrtpOrder p s fuel i y → (y : ZMod p) ^ (2 ^ (k - i)) ≠ 1) := by
  intro fuel
  induction fuel with
  | zero =>
    intro i y _ _ h
    simp only [sqrtpOrder]
    refine ⟨le_refl _, by omega, fun h2 => by omega, fun k h1 h2 => by omega⟩
  | succ fuel ih =>
    intro i y h0 h1 hs
    unfold sqrtpOrder
    by_cases hc : i < s ∧ y ≠ 1
    · simp only [hc, ne_eq, not_false_eq_true, and_self, if_true]
      have hr := mpz_powm_range y 2 p (by omega)
      have hcast := mpz_powm_cast y 2 p
      simp only [Nat.cast_ofNat] at hr hcast
      obtain ⟨a1, a2, a3, a4⟩ := ih (i + 1) (mpz_powm y 2 p) hr.1 hr.2 (by omega)
      refine ⟨by omega, a2, ?_, ?_⟩
      · intro hlt
        have := a3 hlt
        rw [hcast, ← pow_mul, ← pow_succ'] at this
        rw [← this]; congr 2; omega
      · intro k hk1 hk2
        by_cases hki : k = i
        · subst hki
          simp only [Nat.sub_self, pow_zero, pow_one]
          intro h; exact hc.2 ((eq_one_iff_cast hp h0 h1).mpr h)
        · have := a4 k (by omega) hk2
          rw [hcast, ← pow_mul, ← pow_succ'] at this
          intro h; apply this; rw [← h]; congr 2; omega
    · simp only [hc, if_false]
      refine ⟨le_refl _, by omega, ?_, fun k h1 h2 => by omega⟩
      intro hlt
      have : y = 1 := by
        by_contra h; exact hc ⟨hlt, h⟩
      subst this; simp

/-- The main loop of `goo_mod_sqrtp` returns a square root. -/
theorem sqrtpLoop_spec (p : Nat) [Fact p.Prime] (nn : ZMod p) :
    ∀ (fuel s : Nat) (w y q : Int), s < fuel → 0 ≤ y → y < p →
      (w : ZMod p) ^ (2 ^ (s - 1)) = -1 → (y : ZMod p) ^ (2 ^ (s - 1)) = 1 →
      (q : ZMod p) ^ 2 = nn * (y : ZMod p) →
      ∃ q1, sqrtpLoop p fuel s w y q = Res.ok q1 ∧ (q1 : ZMod p) ^ 2 = nn
        ∧ (q1 = q ∨ (0 ≤ q1 ∧ q1 < p)) := by
  have hp1 : 1 < p := (Fact.out : p.Prime).one_lt
  have hpos : (0 : Int) < p := by exact_mod_cast (by omega : 0 < p)
  intro fuel
  induction fuel with
  | zero => intro s w y q h; omega
  | succ fuel ih =>
    intro s w y q hs y0 y1 hw hy hq
    unfold sqrtpLoop
    obtain ⟨o1, o2, o3, o4⟩ := sqrtpOrder_spec p hp1 s s 0 y y0 y1 (by omega)
    simp only [Nat.sub_zero] at o3 o4
    generalize sqrtpOrder p s s 0 y = i at o1 o2 o3 o4
    have hlt : i < s ∨ (i = 0 ∧ s = 0) := by
      rcases Nat.lt_or_ge i s with h | h
      · exact Or.inl h
      · have his : i = s := by omega
        by_cases hs0 : s = 0
        · exact Or.inr ⟨by omega, hs0⟩
        · exact absurd hy (o4 (s - 1) (by omega) (by omega))
    by_cases hi0 : i = 0
    · subst hi0
      simp only [if_true]
      refine ⟨q, rfl, ?_, Or.inl rfl⟩
      have hy1 : (y : ZMod p) = 1 := by
        rcases hlt with h | ⟨_, h⟩
        · simpa using o3 h
        · subst h; simpa using hy
      rw [hq, hy1, mul_one]
    · have hi : i < s := by
        rcases hlt with h | ⟨h, _⟩
        · exact h
        · exact absurd h hi0
      simp only [hi0, if_false, show ¬ i = s by omega]
      have e1 : ((2 : Int) ^ (s - i - 1)) = ((2 ^ (s - i - 1) : Nat) : Int) := by push_cast; rfl
      rw [e1]
      set w1 := mpz_powm w ((2 ^ (s - i - 1) : Nat) : Int) p with hw1
      have c1 : (w1 : ZMod p) = (w : ZMod p) ^ (2 ^ (s - i - 1)) := mpz_powm_cast _ _ _
      have c2 := mpz_powm_cast w1 2 p
      simp only [Nat.cast_ofNat] at c2
      have hyi : (y : ZMod p) ^ (2 ^ (i - 1)) = -1 := by
        have hne := o4 (i - 1) (by omega) (by omega)
        have hsq : ((y : ZMod p) ^ (2 ^ (i - 1))) ^ 2 = 1 := by
          rw [← pow_mul, ← pow_succ]
          have := o3 hi
          rw [← this]; congr 2; omega
        rw [pow_two] at hsq
        rcases mul_self_eq_one_iff.mp hsq with h | h
        · exact absurd h hne
        · exact h
      have hw2 : ((mpz_powm w1 2 p : Int) : ZMod p) ^ (2 ^ (i - 1)) = -1 := by
        rw [c2, c1, ← pow_mul, ← pow_mul, ← hw]
        congr 1
        rw [← pow_succ', ← pow_add]
        congr 1; omega
      obtain ⟨q1, hq1, hq2, hq3⟩ := ih i (mpz_powm w1 2 p) (y * mpz_powm w1 2 p % p)
        (q * w1 % p) (by omega) (Int.emod_nonneg _ hpos.ne') (Int.emod_lt_of_pos _ hpos)
        hw2
        (by push_cast [ZMod.intCast_mod]; rw [mul_pow, hyi, hw2]; ring)
        (by push_cast [ZMod.intCast_mod]; rw [mul_pow, hq, c2]; ring)
      refine ⟨q1, hq1, hq2, Or.inr ?_⟩
      rcases hq3 with h | h
      · subst h; exact ⟨Int.emod_nonneg _ hpos.ne', Int.emod_lt_of_pos _ hpos⟩
      · exact h

end Goo

namespace Goo

open NumberTheorySymbols

theorem sqrtpWitness_found (p : Nat) : ∀ (fuel w : Nat),
    (∃ w0, w ≤ w0 ∧ w0 < w + fuel ∧ mpz_jacobi w0 p = -1) →
    ∃ w1, sqrtpWitness p fuel w = Res.ok w1 ∧ mpz_jacobi w1 p = -1 := by
  intro fuel
  induction fuel with
  | zero => rintro w ⟨w0, h1, h2, _⟩; omega
  | succ fuel ih =>
    rintro w ⟨w0, h1, h2, h3⟩
    unfold sqrtpWitness
    by_cases hj : mpz_jacobi w p = -1
    · exact ⟨w, by simp [hj], hj⟩
    · simp only [hj, if_false]
      apply ih
      refine ⟨w0, ?_, by omega, h3⟩
      rcases Nat.lt_or_ge w w0 with h | h
      · omega
      · have : w0 = w := by omega
        subst this; exact absurd h3 hj

/-- For an odd prime there is a non-residue in `[2, p)`. -/
theorem exists_nonresidue (p : Nat) [Fact p.Prime] (hp2 : p ≠ 2) :
    ∃ w0, 2 ≤ w0 ∧ w0 < p ∧ mpz_jacobi w0 p = -1 := by
  have hodd : p % 2 = 1 := by
    rcases (Fact.out : p.Prime).eq_two_or_odd with h | h
    · exact absurd h hp2
    · exact h
  obtain ⟨a, ha⟩ := FiniteField.exists_nonsquare (F := ZMod p)
    (by rw [ZMod.ringChar_zmod_n]; exact hp2)
  have hval : ((a.val : Nat) : ZMod p) = a := ZMod.natCast_zmod_val a
  refine ⟨a.val, ?_, ZMod.val_lt a, ?_⟩
  · by_contra hc
    have : a.val = 0 ∨ a.val = 1 := by omega
    rcases this with h | h
    · rw [h] at hval; apply ha; rw [← hval]; simp
    · rw [h] at hval; apply ha; rw [← hval]; simp
  · rw [mpz_jacobi_eq _ _ hodd, ← jacobiSym.legendreSym.to_jacobiSym,
      legendreSym.eq_neg_one_iff]
    simpa [hval] using ha

/-- Specification of `goo_mod_sqrtp` for an odd prime modulus. -/
theorem mod_sqrtp_spec (p : Nat) [Fact p.Prime] (hp2 : p ≠ 2) (n : Int) :
    (n % p = 0 → goo_mod_sqrtp n p = Res.ok 0)
    ∧ (J(n | p) = -1 → goo_mod_sqrtp n p = Res.fail)
    ∧ (n % p ≠ 0 → J(n | p) ≠ -1 →
        ∃ r, goo_mod_sqrtp n p = Res.ok r ∧ 0 ≤ r ∧ r < p ∧ r * r % p = n % p) := by
  have hprime : p.Prime := Fact.out
  have hp1 : 1 < p := hprime.one_lt
  have hpos : (0 : Int) < p := by exact_mod_cast (by omega : 0 < p)
  have hodd : p % 2 = 1 := by
    rcases hprime.eq_two_or_odd with h | h
    · exact absurd h hp2
    · exact h
  have hnn0 : 0 ≤ n % p := Int.emod_nonneg _ hpos.ne'
  have hnn1 : n % p < p := Int.emod_lt_of_pos _ hpos
  have hnot1 : ¬ ((p : Int) < 0) := by omega
  have hnot2 : ¬ ((p : Int) = 0) := by omega
  have hjac : mpz_jacobi (n % p).toNat (p : Int).toNat = J(n | p) := by
    rw [Int.toNat_natCast, mpz_jacobi_eq _ _ hodd, Int.toNat_of_nonneg hnn0]
    exact (jacobiSym.mod_left n p).symm
  refine ⟨?_, ?_, ?_⟩
  · intro h0
    unfold goo_mod_sqrtp
    simp [hnot1, hnot2, h0]
  · intro hJ
    have hne : n % p ≠ 0 := by
      intro h0
      have : J(n | p) = 0 := by
        rw [jacobiSym.mod_left, h0]; exact jacobiSym.zero_left hp1
      rw [this] at hJ; cases hJ
    unfold goo_mod_sqrtp
    simp only [hnot1, hnot2, if_false, hne, hjac, hJ, if_true]
  · intro hne hJ
    have hcast0 : ((n % p : Int) : ZMod p) ≠ 0 := by
      intro h
      rw [ZMod.intCast_zmod_eq_zero_iff_dvd] at h
      have := Int.emod_emod_of_dvd n (dvd_refl (p : Int))
      exact hne (by rw [← this]; exact Int.emod_eq_zero_of_dvd h)
    have hcn : ((n % p : Int) : ZMod p) = (n : ZMod p) := ZMod.intCast_mod n p
    have hleg : legendreSym p n = 1 := by
      have h1 := legendreSym.eq_one_or_neg_one p (a := n) (by rw [← hcn]; exact hcast0)
      rw [jacobiSym.legendreSym.to_jacobiSym] at h1
      rw [jacobiSym.legendreSym.to_jacobiSym]
      rcases h1 with h | h
      · exact h
      · exact absurd h hJ
    have heul : ((n % p : Int) : ZMod p) ^ (p / 2) = 1 := by
      rw [hcn, ← legendreSym.eq_pow, hleg]; simp
    unfold goo_mod_sqrtp
    simp only [hnot1, hnot2, if_false, hne, hjac, hJ]
    have hres : ∀ r : Int, 0 ≤ r → r < p → (r : ZMod p) ^ 2 = ((n % p : Int) : ZMod p) →
        r * r % p = n % p := by
      intro r _ _ h
      have h2 : ((r * r % p : Int) : ZMod p) = ((n % p : Int) : ZMod p) := by
        rw [← h]; push_cast [ZMod.intCast_mod]; ring
      exact eq_of_cast_eq (Int.emod_nonneg _ hpos.ne') (Int.emod_lt_of_pos _ hpos) hnn0 hnn1 h2
    by_cases h43 : (p : Int) % 4 = 3
    · simp only [h43, if_true]
      have e : ((p : Int) + 1) / 4 = (((p + 1) / 4 : Nat) : Int) := by norm_cast
      rw [e]
      obtain ⟨r0, r1⟩ := mpz_powm_range (n % p) ((p + 1) / 4) p (by omega)
      refine ⟨_, rfl, r0, r1, hres _ r0 r1 ?_⟩
      rw [mpz_powm_cast, ← pow_mul]
      have h4 : p % 4 = 3 := by omega
      have : (p + 1) / 4 * 2 = p / 2 + 1 := by omega
      rw [this, pow_succ, heul, one_mul]
    · simp only [h43, if_false]
      have hpm : ((p : Int) - 1).toNat = p - 1 := by omega
      rw [hpm]
      obtain ⟨hQ1, hQ2⟩ := goo_factor_twos_spec (p - 1) (by omega)
      generalize goo_factor_twos (p - 1) = Qs at hQ1 hQ2
      obtain ⟨Q, s⟩ := Qs
      simp only at hQ1 hQ2 ⊢
      have hs1 : 1 ≤ s := by
        by_contra hc
        have : s = 0 := by omega
        subst this
        simp at hQ1; omega
      have hhalf : p / 2 = Q * 2 ^ (s - 1) := by
        have : 2 ^ s = 2 * 2 ^ (s - 1) := by
          conv_lhs => rw [show s = (s - 1) + 1 by omega, pow_succ]
          ring
        rw [this] at hQ1
        have h5 : p - 1 = 2 * (Q * 2 ^ (s - 1)) := by rw [hQ1]; ring
        omega
      obtain ⟨w0, hw0a, hw0b, hw0c⟩ := exists_nonresidue p hp2
      obtain ⟨w1, hw1, hw1j⟩ := sqrtpWitness_found p (4 * p + 4) 2 ⟨w0, hw0a, by omega, hw0c⟩
      rw [Int.toNat_natCast, hw1]
      simp only [Res.bind_ok]
      have hw1e : ((w1 : Int) : ZMod p) ^ (p / 2) = -1 := by
        rw [mpz_jacobi_eq _ _ hodd, ← jacobiSym.legendreSym.to_jacobiSym] at hw1j
        rw [← legendreSym.eq_pow, hw1j]; simp
      have eq2 : ((Q : Int) + 1) / 2 = (((Q + 1) / 2 : Nat) : Int) := by norm_cast
      rw [eq2]
      obtain ⟨y0, y1⟩ := mpz_powm_range (n % p) Q p (by omega)
      obtain ⟨q0, q1⟩ := mpz_powm_range (n % p) ((Q + 1) / 2) p (by omega)
      obtain ⟨qq, hqq, hsq, hrange⟩ := sqrtpLoop_spec p ((n % p : Int) : ZMod p) (s + 1) s
        (mpz_powm w1 Q p) (mpz_powm (n % p) Q p) (mpz_powm (n % p) (((Q + 1) / 2 : Nat) : Int) p)
        (by omega) y0 y1
        (by rw [mpz_powm_cast, ← pow_mul, ← hhalf]; exact hw1e)
        (by rw [mpz_powm_cast, ← pow_mul, ← hhalf]; exact heul)
        (by
          rw [mpz_powm_cast, mpz_powm_cast, ← pow_mul, ← pow_succ']
          congr 1; omega)
      rw [hqq]
      simp only [Res.bind_ok]
      have hqr : 0 ≤ qq ∧ qq < p := by
        rcases hrange with h | h
        · rw [h]; exact ⟨q0, q1⟩
        · exact h
      have hcanon : ∃ q2, (if qq > (p : Int) / 2 then (p : Int) - qq else qq) = q2 ∧ 0 ≤ q2
          ∧ q2 < p ∧ (q2 : ZMod p) ^ 2 = ((n % p : Int) : ZMod p) := by
        by_cases hgt : qq > (p : Int) / 2
        · refine ⟨_, rfl, ?_, ?_, ?_⟩
          · simp only [hgt, if_true]; omega
          · simp only [hgt, if_true]; omega
          · simp only [hgt, if_true]
            have hneg : ((((p : Int) - qq : Int)) : ZMod p) = -(qq : ZMod p) := by
              push_cast; simp
            rw [hneg, neg_sq]; exact hsq
        · exact ⟨_, rfl, by simp only [hgt, if_false]; exact hqr.1,
            by simp only [hgt, if_false]; exact hqr.2, by simp only [hgt, if_false]; exact hsq⟩
      obtain ⟨q2, hq2, c0, c1, c2⟩ := hcanon
      rw [hq2]
      have hfin := hres q2 c0 c1 c2
      rw [hfin]
      simp only [decide_True, assertC_true, Res.bind_ok]
      exact ⟨q2, rfl, c0, c1, hfin⟩

end Goo

namespace Goo

open NumberTheorySymbols

/-! ## Square roots modulo `p * q` -/

theorem hasSqrtMod_iff_isSquare (t : Int) (p : Nat) :
    HasSqrtMod t p ↔ IsSquare (t : ZMod p) := by
  constructor
  · rintro ⟨x, hx⟩
    refine ⟨(x : ZMod p), ?_⟩
    have := (ZMod.intCast_eq_intCast_iff' (x * x) t p).mpr hx
    rw [← this]; push_cast; rfl
  · rintro ⟨y, hy⟩
    obtain ⟨x, rfl⟩ := ZMod.intCast_surjective y
    refine ⟨x, ?_⟩
    apply (ZMod.intCast_eq_intCast_iff' (x * x) t p).mp
    rw [hy]; push_cast; rfl

theorem dvd_sub_of_emod_eq_emod {a b n : Int} (h : a % n = b % n) : n ∣ a - b :=
  Int.ModEq.dvd (show b ≡ a [ZMOD n] from h.symm)

theorem hasSqrtMod_iff_jacobi (t : Int) (p : Nat) [Fact p.Prime] :
    HasSqrtMod t p ↔ J(t | p) ≠ -1 := by
  rw [hasSqrtMod_iff_isSquare]
  have := ZMod.nonsquare_iff_jacobiSym_eq_neg_one (a := t) (p := p)
  constructor
  · intro h hc; exact (this.mp hc) h
  · intro h; by_contra hc; exact h (this.mpr hc)

/-- Outcome of `goo_mod_sqrtp` for an odd prime: a root in `[0, p)` exactly
when one exists. -/
theorem mod_sqrtp_cases (p : Nat) [Fact p.Prime] (hp2 : p ≠ 2) (n : Int) :
    (HasSqrtMod n p → ∃ r, goo_mod_sqrtp n p = Res.ok r ∧ 0 ≤ r ∧ r < p
        ∧ r * r % p = n % p)
    ∧ (¬ HasSqrtMod n p → goo_mod_sqrtp n p = Res.fail) := by
  obtain ⟨h1, h2, h3⟩ := mod_sqrtp_spec p hp2 n
  have hpos : (0 : Int) < p := by
    have := (Fact.out : p.Prime).pos
    exact_mod_cast this
  constructor
  · intro h
    by_cases h0 : n % p = 0
    · exact ⟨0, h1 h0, le_refl _, hpos, by simp [h0]⟩
    · exact h3 h0 ((hasSqrtMod_iff_jacobi n p).mp h)
  · intro h
    apply h2
    by_contra hc
    exact h ((hasSqrtMod_iff_jacobi n p).mpr hc)

/-- Specification of `goo_mod_sqrtn` for distinct odd primes. -/
theorem mod_sqrtn_spec (p q : Nat) [Fact p.Prime] [Fact q.Prime] (hp2 : p ≠ 2) (hq2 : q ≠ 2)
    (hpq : p ≠ q) (t : Int) :
    (HasSqrtMod t p ∧ HasSqrtMod t q →
      ∃ w, goo_mod_sqrtn t p q = Res.ok w ∧ 0 ≤ w ∧ w < (p : Int) * q
        ∧ w * w % ((p : Int) * q) = t % ((p : Int) * q))
    ∧ (¬ (HasSqrtMod t p ∧ HasSqrtMod t q) → goo_mod_sqrtn t p q = Res.fail) := by
  have hpp : p.Prime := Fact.out
  have hqp : q.Prime := Fact.out
  have hppos : (0 : Int) < p := by exact_mod_cast hpp.pos
  have hqpos : (0 : Int) < q := by exact_mod_cast hqp.pos
  have hpqpos : (0 : Int) < (p : Int) * q := mul_pos hppos hqpos
  obtain ⟨a1, a2⟩ := mod_sqrtp_cases p hp2 t
  obtain ⟨b1, b2⟩ := mod_sqrtp_cases q hq2 t
  constructor
  · rintro ⟨h1, h2⟩
    obtain ⟨sp, hsp, sp0, sp1, spe⟩ := a1 h1
    obtain ⟨sq, hsq, sq0, sq1, sqe⟩ := b1 h2
    unfold goo_mod_sqrtn
    rw [hsp, hsq]
    simp only [Res.bind_ok]
    obtain ⟨hA, hB⟩ := mpz_gcdext_spec hppos.le hqpos.le
    rcases hg : mpz_gcdext (p : Int) (q : Int) with ⟨g, mp, mq⟩
    rw [hg] at hA hB
    simp only at hA hB ⊢
    have hcop : Nat.Coprime p q := (Nat.coprime_primes hpp hqp).mpr hpq
    have hg1 : g = 1 := by
      rw [hB]
      have : Int.gcd (p : Int) (q : Int) = Nat.gcd p q := Int.gcd_natCast_natCast p q
      rw [this, hcop]; rfl
    rw [hg1] at hA
    refine ⟨_, rfl, Int.emod_nonneg _ hpqpos.ne', Int.emod_lt_of_pos _ hpqpos, ?_⟩
    set w0 := sq * mp * p + sp * mq * q with hw0
    have dp : (p : Int) ∣ w0 * w0 - t := by
      have e1 : (p : Int) ∣ sp * sp - t := dvd_sub_of_emod_eq_emod spe
      have e2 : w0 * w0 - t = (sp * sp - t) + (p : Int) * (mp * (sq - sp) * (w0 + sp)) := by
        have hq' : (q : Int) * mq = 1 - p * mp := by linarith
        have : w0 = sp + (p : Int) * (mp * (sq - sp)) := by
          rw [hw0]
          have : sp * mq * q = sp * ((q : Int) * mq) := by ring
          rw [this, hq']; ring
        rw [this]; ring
      rw [e2]; exact dvd_add e1 (Dvd.intro _ rfl)
    have dq : (q : Int) ∣ w0 * w0 - t := by
      have e1 : (q : Int) ∣ sq * sq - t := dvd_sub_of_emod_eq_emod sqe
      have e2 : w0 * w0 - t = (sq * sq - t) + (q : Int) * (mq * (sp - sq) * (w0 + sq)) := by
        have hp' : (p : Int) * mp = 1 - q * mq := by linarith
        have : w0 = sq + (q : Int) * (mq * (sp - sq)) := by
          rw [hw0]
          have : sq * mp * p = sq * ((p : Int) * mp) := by ring
          rw [this, hp']; ring
        rw [this]; ring
      rw [e2]; exact dvd_add e1 (Dvd.intro _ rfl)
    have hic : IsCoprime (p : Int) (q : Int) := Nat.isCoprime_iff_coprime.mpr hcop
    have dpq : (p : Int) * q ∣ w0 * w0 - t := hic.mul_dvd dp dq
    have m1 : w0 % ((p : Int) * q) * (w0 % ((p : Int) * q)) ≡ w0 * w0 [ZMOD (p : Int) * q] :=
      Int.ModEq.mul (Int.mod_modEq _ _) (Int.mod_modEq _ _)
    have m2 : w0 * w0 ≡ t [ZMOD (p : Int) * q] := by
      rw [Int.modEq_iff_dvd]
      have : t - w0 * w0 = -(w0 * w0 - t) := by ring
      rw [this]; exact (dvd_neg).mpr dpq
    exact (m1.trans m2).eq
  · intro h
    unfold goo_mod_sqrtn
    by_cases h1 : HasSqrtMod t p
    · obtain ⟨sp, hsp, _⟩ := a1 h1
      have h2 : ¬ HasSqrtMod t q := fun h2 => h ⟨h1, h2⟩
      rw [hsp, b2 h2]; rfl
    · rw [a2 h1]; rfl

end Goo

namespace Goo

/-! ## PRNG draws and the challenge derivation -/

theorem int_lor_nonneg {a b : Int} (ha : 0 ≤ a) (hb : 0 ≤ b) : 0 ≤ Int.lor a b := by
  obtain ⟨m, rfl⟩ := Int.eq_ofNat_of_zero_le ha
  obtain ⟨n, rfl⟩ := Int.eq_ofNat_of_zero_le hb
  show 0 ≤ ((m ||| n : Nat) : Int)
  exact Int.ofNat_nonneg _

theorem int_land_nonneg {a b : Int} (ha : 0 ≤ a) (hb : 0 ≤ b) : 0 ≤ Int.land a b := by
  obtain ⟨m, rfl⟩ := Int.eq_ofNat_of_zero_le ha
  obtain ⟨n, rfl⟩ := Int.eq_ofNat_of_zero_le hb
  show 0 ≤ ((m &&& n : Nat) : Int)
  exact Int.ofNat_nonneg _

theorem getrandbitsLoop_nonneg (E : Env) (nbits : Nat) : ∀ (fuel : Nat) (prng : Prng E)
    (r : Int) (b : Nat), 0 ≤ r → 0 ≤ (getrandbitsLoop E nbits fuel prng r b).2.1 := by
  intro fuel
  induction fuel with
  | zero => intro prng r b h; exact h
  | succ fuel ih =>
    intro prng r b h
    unfold getrandbitsLoop
    split
    · apply ih
      exact int_lor_nonneg (mul_nonneg h (by positivity)) (goo_mpz_import_nonneg _)
    · exact h

/-- A draw from a PRNG whose stash is non-negative is non-negative and
leaves a non-negative stash. -/
theorem getrandbits_nonneg (E : Env) (prng : Prng E) (nbits : Nat) (h : 0 ≤ prng.save) :
    0 ≤ (goo_prng_getrandbits E prng nbits).1
      ∧ 0 ≤ (goo_prng_getrandbits E prng nbits).2.save := by
  unfold goo_prng_getrandbits
  have hl := getrandbitsLoop_nonneg E nbits (nbits + 1) prng prng.save
    (goo_mpz_bitlen prng.save) h
  rcases hx : getrandbitsLoop E nbits (nbits + 1) prng prng.save (goo_mpz_bitlen prng.save)
    with ⟨prng1, r, b⟩
  rw [hx] at hl
  simp only at hl ⊢
  split
  · exact ⟨hl, le_refl _⟩
  · refine ⟨Int.ediv_nonneg hl (by positivity), int_land_nonneg hl ?_⟩
    have : (1 : Int) ≤ 2 ^ (b - nbits) := one_le_pow₀ (by norm_num)
    omega

theorem seed_save (E : Env) (prng : Prng E) (key : Bytes) :
    (goo_prng_seed E prng key).save = 0 := rfl

theorem seed_indep (E : Env) (prng1 prng2 : Prng E) (key : Bytes) :
    goo_prng_seed E prng1 key = goo_prng_seed E prng2 key := rfl

theorem nextPrimeLoop_spec (E : Env) (maxinc : Nat) : ∀ (fuel : Nat) (ret : Int) (inc : Nat)
    (r : Int) (i : Nat), nextPrimeLoop E maxinc fuel ret inc = Res.ok (r, i) →
    r - ret = (i : Int) - inc ∧ inc ≤ i ∧ (goo_is_prime E r = true ∨ (maxinc ≠ 0 ∧ i > maxinc)) := by
  intro fuel
  induction fuel with
  | zero => intro ret inc r i h; simp [nextPrimeLoop] at h
  | succ fuel ih =>
    intro ret inc r i h
    unfold nextPrimeLoop at h
    split at h
    · rename_i hp
      simp only [Res.ok.injEq, Prod.mk.injEq] at h
      obtain ⟨rfl, rfl⟩ := h
      exact ⟨by ring, le_refl _, Or.inl hp⟩
    · split at h
      · rename_i hb
        simp only [Res.ok.injEq, Prod.mk.injEq] at h
        obtain ⟨rfl, rfl⟩ := h
        exact ⟨by ring, le_refl _, Or.inr hb⟩
      · obtain ⟨h1, h2, h3⟩ := ih _ _ _ _ h
        refine ⟨?_, by omega, h3⟩
        push_cast at h1; omega

/-- A successful `goo_next_prime` with a non-zero budget returns a number that
passes the primality test, at most `maxinc` above the start. -/
theorem goo_next_prime_spec (E : Env) (p : Int) (maxinc : Nat) (hmax : maxinc ≠ 0)
    (ell : Int) (h : goo_next_prime E p maxinc = Res.ok ell) :
    goo_is_prime E ell = true ∧ 0 ≤ ell - p ∧ ell - p ≤ maxinc := by
  unfold goo_next_prime at h
  obtain ⟨st, h1, h2⟩ := Res.bind_eq_ok h
  obtain ⟨r, i⟩ := st
  simp only at h2
  split at h2
  · simp at h2
  · rename_i hc
    simp only [Res.ok.injEq] at h2
    subst h2
    obtain ⟨a1, a2, a3⟩ := nextPrimeLoop_spec E maxinc _ _ _ _ _ h1
    have hi : i ≤ maxinc := by
      by_contra hx; exact hc ⟨hmax, by omega⟩
    have hprime : goo_is_prime E r = true := by
      rcases a3 with h | ⟨_, h⟩
      · exact h
      · omega
    refine ⟨hprime, ?_, ?_⟩
    · split at a1 <;> simp only at a1 a2 <;> push_cast at a1 <;> omega
    · split at a1 <;> simp only at a1 a2 <;> push_cast at a1 <;> omega

/-- What the prover's challenge derivation tells about the verifier's: the
same challenge, and an `ell` that passes the final checks. -/
theorem fs_chal_prover_verifier (E : Env) (hmax : E.GOO_ELLDIFF_MAX ≠ 0) (G : Group)
    (prng1 prng2 : Prng E) (C1 C2 t A B C D msg chal ell : Int) (prng3 : Prng E)
    (h : goo_group_fs_chal E G prng1 C1 C2 t A B C D msg false
      = Res.ok (true, chal, ell, prng3)) :
    ∃ ell_r, goo_group_fs_chal E G prng2 C1 C2 t A B C D msg true
        = Res.ok (true, chal, ell_r, prng3)
      ∧ 0 ≤ chal ∧ 0 ≤ ell_r ∧ goo_is_prime E ell = true ∧ 0 ≤ ell - ell_r
      ∧ ell - ell_r ≤ E.GOO_ELLDIFF_MAX := by
  unfold goo_group_fs_chal at h ⊢
  obtain ⟨key, hk, h2⟩ := Res.bind_eq_ok h
  rw [hk]
  simp only [Res.bind_ok, Bool.false_eq_true, if_false, if_true] at h2 ⊢
  rw [seed_indep E prng2 prng1 key]
  set prngS := goo_prng_seed E prng1 key with hS
  have n1 := getrandbits_nonneg E prngS E.GOO_CHAL_BITS (by rw [hS, seed_save])
  have n2 := getrandbits_nonneg E (goo_prng_getrandbits E prngS E.GOO_CHAL_BITS).2
    E.GOO_CHAL_BITS n1.2
  cases hnp : goo_next_prime E
      (goo_prng_getrandbits E (goo_prng_getrandbits E prngS E.GOO_CHAL_BITS).2
        E.GOO_CHAL_BITS).1 E.GOO_ELLDIFF_MAX with
  | ok l =>
    rw [hnp] at h2
    simp only [Res.ok.injEq, Prod.mk.injEq, true_and] at h2
    obtain ⟨rfl, rfl, rfl⟩ := h2
    obtain ⟨p1, p2, p3⟩ := goo_next_prime_spec E _ _ hmax _ hnp
    exact ⟨_, rfl, n1.1, n2.1, p1, p2, p3⟩
  | fail => rw [hnp] at h2; simp at h2
  | abort => rw [hnp] at h2; simp at h2
  | hang => rw [hnp] at h2; simp at h2

end Goo

namespace Goo

/-! ## Group elements up to sign -/

theorem rep_of_cast {m : Nat} {x : Int} {u : (ZMod m)ˣ} (h : (x : ZMod m) = (u : ZMod m)) :
    Rep m x u := Or.inl h

theorem rep_emod {m : Nat} {x : Int} {u : (ZMod m)ˣ} (h : Rep m x u) : Rep m (x % m) u := by
  unfold Rep at *; rw [ZMod.intCast_mod]; exact h

theorem rep_mul {m : Nat} {x y : Int} {u v : (ZMod m)ˣ} (hx : Rep m x u) (hy : Rep m y v) :
    Rep m (x * y) (u * v) := by
  unfold Rep at *
  push_cast
  rcases hx with hx | hx <;> rcases hy with hy | hy <;> rw [hx, hy]
  · left; rfl
  · right; ring
  · right; ring
  · left; ring

theorem rep_pow {m : Nat} {x : Int} {u : (ZMod m)ˣ} (hx : Rep m x u) (k : Nat) :
    Rep m (x ^ k) (u ^ k) := by
  induction k with
  | zero => left; simp
  | succ k ih => rw [pow_succ, pow_succ]; exact rep_mul ih hx

theorem rep_zpow {m : Nat} {x : Int} {u : (ZMod m)ˣ} (hx : Rep m x u) {k : Int} (hk : 0 ≤ k) :
    Rep m (x ^ k.toNat) (u ^ k) := by
  have := rep_pow hx k.toNat
  rwa [← zpow_natCast u, Int.toNat_of_nonneg hk] at this

theorem rep_inv {m : Nat} {x xi : Int} {u : (ZMod m)ˣ} (hx : Rep m x u)
    (h : (x : ZMod m) * (xi : ZMod m) = 1) : Rep m xi u⁻¹ := by
  unfold Rep at *
  rcases hx with hx | hx
  · left
    rw [hx] at h
    calc (xi : ZMod m) = ((u⁻¹ : (ZMod m)ˣ) : ZMod m) * ((u : ZMod m) * xi) := by
          rw [← mul_assoc, Units.inv_mul, one_mul]
      _ = _ := by rw [h, mul_one]
  · right
    rw [hx] at h
    have h2 : (u : ZMod m) * (-(xi : ZMod m)) = 1 := by rw [← h]; ring
    have : -(xi : ZMod m) = ((u⁻¹ : (ZMod m)ˣ) : ZMod m) := by
      calc -(xi : ZMod m) = ((u⁻¹ : (ZMod m)ˣ) : ZMod m) * ((u : ZMod m) * (-(xi : ZMod m))) := by
            rw [← mul_assoc, Units.inv_mul, one_mul]
        _ = _ := by rw [h2, mul_one]
    rw [← this, neg_neg]

theorem rep_unit {m : Nat} {x : Int} {u : (ZMod m)ˣ} (hx : Rep m x u) :
    IsUnit (x : ZMod m) := by
  rcases hx with hx | hx
  · rw [hx]; exact u.isUnit
  · rw [hx]; exact u.isUnit.neg

theorem rep_congr {m : Nat} {x : Int} {u v : (ZMod m)ˣ} (hx : Rep m x u) (h : u = v) :
    Rep m x v := h ▸ hx

theorem rep_reduce (G : Group) {m : Nat} (hm : G.n = m) {x : Int} {u : (ZMod m)ˣ}
    (hx : Rep m x u) : Rep m (goo_group_reduce G x) u := by
  unfold goo_group_reduce
  split
  · unfold Rep at *
    rw [hm]; push_cast
    rw [ZMod.natCast_self, zero_sub]
    rcases hx with hx | hx
    · right; rw [hx]
    · left; rw [hx, neg_neg]
  · exact hx

theorem reduce_range (G : Group) (hnh : G.nh = G.n / 2) {x : Int} (h0 : 0 ≤ x) (h1 : x < G.n) :
    0 ≤ goo_group_reduce G x ∧ goo_group_reduce G x < G.n
      ∧ goo_group_is_reduced G (goo_group_reduce G x) = true := by
  unfold goo_group_reduce goo_group_is_reduced
  rw [hnh]
  split
  · refine ⟨by omega, by omega, ?_⟩
    simp only [decide_eq_true_eq]; omega
  · refine ⟨h0, h1, ?_⟩
    simp only [decide_eq_true_eq]; omega

/-- Two residues that stand for the same class reduce to the same canonical
representative. -/
theorem reduce_eq_of_rep (G : Group) {m : Nat} (hm : G.n = m) (hnh : G.nh = G.n / 2)
    {x y : Int} {u : (ZMod m)ˣ} (hx : Rep m x u) (hy : Rep m y u)
    (x0 : 0 ≤ x) (x1 : x < G.n) (y0 : 0 ≤ y) (y1 : y < G.n) :
    goo_group_reduce G x = goo_group_reduce G y := by
  have hcases : (x : ZMod m) = (y : ZMod m) ∨ ((x + y : Int) : ZMod m) = 0 := by
    unfold Rep at hx hy
    rcases hx with hx | hx <;> rcases hy with hy | hy
    · left; rw [hx, hy]
    · right; push_cast; rw [hx, hy]; ring
    · right; push_cast; rw [hx, hy]; ring
    · left; rw [hx, hy]
  rw [hm] at x1 y1
  rcases hcases with h | h
  · rw [eq_of_cast_eq x0 x1 y0 y1 h]
  · rw [ZMod.intCast_zmod_eq_zero_iff_dvd] at h
    obtain ⟨k, hk⟩ := h
    have hk01 : k = 0 ∨ k = 1 := by
      have hmpos : (0 : Int) < m := by omega
      have h1 : (m : Int) * k < (m : Int) * 2 := by rw [← hk]; omega
      have h2 : (m : Int) * (-1) < (m : Int) * k := by rw [← hk]; omega
      have := lt_of_mul_lt_mul_left h1 hmpos.le
      have := lt_of_mul_lt_mul_left h2 hmpos.le
      omega
    unfold goo_group_reduce
    rw [hnh, hm]
    rcases hk01 with rfl | rfl
    · have : x = 0 ∧ y = 0 := by omega
      rw [this.1, this.2]
    · have hxy : x = m - y := by omega
      rw [hxy]
      split <;> split <;> omega

theorem ghPow_mul {m : Nat} (ug uh : (ZMod m)ˣ) (a b c d : Int) :
    ghPow ug uh a b * ghPow ug uh c d = ghPow ug uh (a + c) (b + d) := by
  unfold ghPow
  rw [zpow_add, zpow_add]
  exact mul_mul_mul_comm _ _ _ _

theorem ghPow_zpow {m : Nat} (ug uh : (ZMod m)ˣ) (a b k : Int) :
    ghPow ug uh a b ^ k = ghPow ug uh (a * k) (b * k) := by
  unfold ghPow
  rw [mul_zpow, ← zpow_mul, ← zpow_mul]

theorem ghPow_inv {m : Nat} (ug uh : (ZMod m)ˣ) (a b : Int) :
    (ghPow ug uh a b)⁻¹ = ghPow ug uh (-a) (-b) := by
  unfold ghPow
  rw [mul_inv, zpow_neg, zpow_neg]

/-- The value `goo_group_powgh` returns stands for `g^e1 * h^e2`. -/
theorem rep_powgh_value {m : Nat} (G : Group) (hm : G.n = m) (ug uh : (ZMod m)ˣ)
    (hg : (G.g : ZMod m) = ug) (hh : (G.h : ZMod m) = uh) {e1 e2 : Int}
    (he1 : 0 ≤ e1) (he2 : 0 ≤ e2) :
    Rep m (G.g ^ e1.toNat * G.h ^ e2.toNat % G.n) (ghPow ug uh e1 e2) := by
  left
  rw [hm, ZMod.intCast_mod]
  push_cast
  rw [hg, hh]
  unfold ghPow
  rw [Units.val_mul]
  congr 1
  · conv_rhs => rw [← Int.toNat_of_nonneg he1, zpow_natCast]
    simp
  · conv_rhs => rw [← Int.toNat_of_nonneg he2, zpow_natCast]
    simp

end Goo

namespace Goo

/-! ## What a successful signing run establishes -/

/-- A returned `goo_group_powgh` on a good group has the value `g^e1 * h^e2 mod n`. -/
theorem powgh_ok_value (G : Group) (m : Nat) (hG : G.Good m) {e1 e2 x : Int}
    (he1 : 0 ≤ e1) (he2 : 0 ≤ e2) (h : goo_group_powgh G e1 e2 = Res.ok x) :
    x = powghVal G e1 e2 := by
  by_cases hcap : max (goo_mpz_bitlen e1) (goo_mpz_bitlen e2) ≤ G.g_comb1.bits
      ∨ (G.g_comb2.exists = true
        ∧ max (goo_mpz_bitlen e1) (goo_mpz_bitlen e2) ≤ G.g_comb2.bits)
  · rw [powgh_spec G m hG e1 e2 he1 he2 hcap] at h
    simp only [Res.ok.injEq] at h
    exact h.symm
  · have := powgh_fail G e1 e2 (by
      by_contra hc; exact hcap (Or.inl (by omega))) (by
      by_contra hc
      apply hcap
      right
      constructor
      · cases hx : G.g_comb2.exists
        · exact absurd (Or.inl hx) hc
        · rfl
      · by_contra hc2; exact hc (Or.inr (by omega)))
    rw [this] at h; cases h

theorem randbits_nonneg {E : Env} {rnd : RandSrc} {k : Nat} {prng : Prng E} {size : Nat}
    {r : Int × Nat × Prng E} (h : goo_group_randbits E rnd k prng size = Res.ok r) :
    0 ≤ r.1 := by
  unfold goo_group_randbits at h
  cases hk : rnd k with
  | none => rw [hk] at h; cases h
  | some key =>
    rw [hk] at h
    simp only [Res.ok.injEq] at h
    subst h
    exact (getrandbits_nonneg E _ _ (by rw [seed_save])).1

theorem rand_scalar_nonneg {E : Env} {G : Group} {rnd : RandSrc} {k : Nat} {prng : Prng E}
    {r : Int × Nat × Prng E} (h : goo_group_rand_scalar E G rnd k prng = Res.ok r) :
    0 ≤ r.1 := by
  unfold goo_group_rand_scalar at h
  exact randbits_nonneg h

theorem expand_sprime_nonneg {E : Env} {prng : Prng E} {s s_prime : Int} {stack : Bytes}
    {r : Int × Prng E} (h : goo_group_expand_sprime E prng s s_prime stack = Res.ok r) :
    0 ≤ r.1 := by
  unfold goo_group_expand_sprime at h
  split at h
  · cases h
  · simp only [Res.ok.injEq] at h
    subst h
    exact (getrandbits_nonneg E _ _ (by rw [seed_save])).1

/-- The signer's search returns an entry of the list together with the root
`goo_mod_sqrtn` found for it. -/
theorem signSearch_spec (p q : Int) : ∀ (cnt i : Nat) (t w : Int),
    signSearch p q cnt i = Res.ok (t, w) →
    ∃ tn, tn ∈ goo_primes ∧ t = (tn : Int) ∧ goo_mod_sqrtn t p q = Res.ok w := by
  intro cnt
  induction cnt with
  | zero => intro i t w h; simp [signSearch] at h
  | succ cnt ih =>
    intro i t w h
    unfold signSearch at h
    obtain ⟨tn, h1, h2⟩ := Res.bind_eq_ok h
    have hmem : tn ∈ goo_primes := List.getElem?_mem (rd_ok_iff'.mp h1)
    cases hs : goo_mod_sqrtn (tn : Int) p q with
    | ok w1 =>
      rw [hs] at h2
      simp only [Res.ok.injEq, Prod.mk.injEq] at h2
      obtain ⟨rfl, rfl⟩ := h2
      exact ⟨tn, hmem, rfl, hs⟩
    | fail => rw [hs] at h2; exact ih _ _ _ h2
    | abort => rw [hs] at h2; cases h2
    | hang => rw [hs] at h2; cases h2

theorem sqrtn_range {x p q w : Int} (h : goo_mod_sqrtn x p q = Res.ok w) (hpq : 0 < p * q) :
    0 ≤ w ∧ w < p * q := by
  unfold goo_mod_sqrtn at h
  obtain ⟨sp, _, h⟩ := Res.bind_eq_ok h
  obtain ⟨sq, _, h⟩ := Res.bind_eq_ok h
  rcases hg : mpz_gcdext p q with ⟨g, mp, mq⟩
  rw [hg] at h
  simp only [Res.ok.injEq] at h
  subst h
  exact ⟨Int.emod_nonneg _ hpq.ne', Int.emod_lt_of_pos _ hpq⟩

theorem goo_primes_le : ∀ tn ∈ goo_primes, tn ≤ 997 := by decide!

theorem primeB_of_prime {p : Nat} (hp : p.Prime) : primeB p = true := by
  unfold primeB
  simp only [Bool.and_eq_true, decide_eq_true_eq, List.all_eq_true, List.mem_range,
    Bool.or_eq_true, bne_iff_ne, ne_eq]
  refine ⟨hp.two_le, ?_⟩
  intro d hd
  by_cases h2 : d < 2
  · exact Or.inl h2
  · right
    intro hmod
    have hdvd : d ∣ p := Nat.dvd_of_mod_eq_zero hmod
    rcases (Nat.dvd_prime hp).mp hdvd with h | h <;> omega

theorem smallModulusCheck_true : smallModulusCheck = true := by decide!

/-- The root chosen by the signer's search is at least `sqrt t`, also for
small moduli. -/
theorem search_root_large (p q : Nat) (hp : p.Prime) (hq : q.Prime) (hpq : p ≠ q)
    (hp2 : p ≠ 2) (hq2 : q ≠ 2) (t w : Int)
    (h : signSearch p q sizeof_goo_primes 0 = Res.ok (t, w))
    (hsmall : p * q ≤ 997) : t ≤ w * w := by
  have hp3 : 3 ≤ p := by have := hp.two_le; omega
  have hq3 : 3 ≤ q := by have := hq.two_le; omega
  have hpb : p < 333 := by
    by_contra hc
    have : 333 * 3 ≤ p * q := Nat.mul_le_mul (by omega) hq3
    omega
  have hqb : q < 333 := by
    by_contra hc
    have : 3 * 333 ≤ p * q := Nat.mul_le_mul hp3 (by omega)
    omega
  have hc := smallModulusCheck_true
  unfold smallModulusCheck at hc
  rw [List.all_eq_true] at hc
  have h1 := hc p (List.mem_range.mpr hpb)
  simp only [primeB_of_prime hp, Bool.not_true, Bool.false_or] at h1
  rw [List.all_eq_true] at h1
  have h2 := h1 q (List.mem_range.mpr hqb)
  simp only [primeB_of_prime hq, Bool.not_true, Bool.or_false, Bool.or_eq_true,
    decide_eq_true_eq] at h2
  rcases h2 with (h2 | h2) | h2
  · omega
  · exact absurd h2 hpq
  · rw [h] at h2
    simpa using h2

end Goo

namespace Goo

/-- A returned round of the signer's final loop: the scalar `r_s1` it drew,
and the Fiat-Shamir challenge computed with it, which has a 128-bit `ell`. -/
theorem signLoop_spec (E : Env) (G : Group) (m : Nat) (hG : G.Good m) (rnd : RandSrc)
    (C1 C2 t B C D msg r_w : Int) (hrw : 0 ≤ r_w) :
    ∀ (fuel k : Nat) (prng : Prng E) (r_s1 chal ell : Int),
      signLoop E G rnd C1 C2 t B C D msg r_w fuel k prng = Res.ok (r_s1, chal, ell) →
      0 ≤ r_s1 ∧ goo_mpz_bitlen ell = 128 ∧ ∃ prngA prngB,
        goo_group_fs_chal E G prngA C1 C2 t (goo_group_reduce G (powghVal G r_w r_s1))
          B C D msg false = Res.ok (true, chal, ell, prngB) := by
  intro fuel
  induction fuel with
  | zero => intro k prng r_s1 chal ell h; simp [signLoop] at h
  | succ fuel ih =>
    intro k prng r_s1 chal ell h
    unfold signLoop at h
    obtain ⟨r, hr, h⟩ := Res.bind_eq_ok h
    obtain ⟨A0, hA0, h⟩ := Res.bind_eq_ok h
    obtain ⟨o, ho, h⟩ := Res.bind_eq_ok h
    have hr0 := rand_scalar_nonneg hr
    split at h
    · exact ih _ _ _ _ _ h
    · rename_i hc
      simp only [Res.ok.injEq, Prod.mk.injEq] at h
      obtain ⟨rfl, rfl, rfl⟩ := h
      have hc' : o.1 = true ∧ goo_mpz_bitlen o.2.2.1 = 128 := by
        constructor
        · cases hb : o.1
          · exact absurd (Or.inl hb) hc
          · rfl
        · by_contra hne; exact hc (Or.inr hne)
      refine ⟨hr0, hc'.2, r.2.2, o.2.2.2, ?_⟩
      rw [← powgh_ok_value G m hG hrw hr0 hA0, ho]
      rcases o with ⟨o1, o2, o3, o4⟩
      simp only at hc'
      rw [hc'.1]

/-- A run of `goo_group_sign` that returns a signature is an honest run. -/
theorem sign_honest (E : Env) (hmax : E.GOO_ELLDIFF_MAX ≠ 0) (G : Group) (m : Nat)
    (hG : G.Good m) (hN : 1 < G.n)
    (rnd : RandSrc) (fuel : Nat) (prng : Prng E) (Aq0 : Int) (stack : Bytes)
    (msg s_prime C1 : Int) (p q : Nat) (hp : p.Prime) (hq : q.Prime) (hpq : p ≠ q)
    (hp2 : p ≠ 2) (hq2 : q ≠ 2) (sig : Sig)
    (h : goo_group_sign E G rnd fuel prng Aq0 stack msg s_prime C1 ((p : Int) * q) p q
      = Res.ok sig) :
    ∃ s w a s1 r_w r_w2 r_s1 r_a r_an r_s1w r_sa C1_inv C2_inv prngA prngB,
      HonestRun E G msg C1 sig ((p : Int) * q) s w a s1 r_w r_w2 r_s1 r_a r_an r_s1w r_sa
        C1_inv C2_inv prngA prngB := by
  have hnpos : (0 : Int) < (p : Int) * q := by
    have := hp.pos; have := hq.pos; positivity
  unfold goo_group_sign at h
  obtain ⟨e, he, h⟩ := Res.bind_eq_ok h
  obtain ⟨x0, hx0, h⟩ := Res.bind_eq_ok h
  have hs0 := expand_sprime_nonneg he
  split at h
  · cases h
  rename_i hC1
  obtain ⟨tw, htw, h⟩ := Res.bind_eq_ok h
  dsimp only at h
  split at h
  · cases h
  split at h
  · cases h
  rename_i hroot
  obtain ⟨d1, hd1, h⟩ := Res.bind_eq_ok h
  obtain ⟨C2raw, hC2raw, h⟩ := Res.bind_eq_ok h
  obtain ⟨invs, hinvs, h⟩ := Res.bind_eq_ok h
  obtain ⟨d2, hd2, h⟩ := Res.bind_eq_ok h
  obtain ⟨d3, hd3, h⟩ := Res.bind_eq_ok h
  obtain ⟨d4, hd4, h⟩ := Res.bind_eq_ok h
  obtain ⟨d5, hd5, h⟩ := Res.bind_eq_ok h
  obtain ⟨d6, hd6, h⟩ := Res.bind_eq_ok h
  obtain ⟨d7, hd7, h⟩ := Res.bind_eq_ok h
  obtain ⟨y1, hy1, h⟩ := Res.bind_eq_ok h
  obtain ⟨y2, hy2, h⟩ := Res.bind_eq_ok h
  obtain ⟨fs, hfs, h⟩ := Res.bind_eq_ok h
  obtain ⟨Aq1, hAq1, h⟩ := Res.bind_eq_ok h
  obtain ⟨yy1, hyy1, h⟩ := Res.bind_eq_ok h
  obtain ⟨yy2, hyy2, h⟩ := Res.bind_eq_ok h
  simp only [Res.ok.injEq] at h
  push_neg at hC1 hroot
  rcases tw with ⟨t, w⟩
  dsimp only at *
  obtain ⟨tn, htn, htt, hsq⟩ := signSearch_spec _ _ _ _ _ _ htw
  obtain ⟨hw0, hwn⟩ := sqrtn_range hsq hnpos
  have ht997 : t ≤ 997 := by
    rw [htt]; exact_mod_cast goo_primes_le tn htn
  -- the quotient a is not negative
  have ha0 : 0 ≤ Int.fdiv (w ^ 2 - t) ((p : Int) * q) := by
    have htw2 : t ≤ w ^ 2 := by
      by_cases hsmall : p * q ≤ 997
      · have := search_root_large p q hp hq hpq hp2 hq2 t w htw hsmall
        rw [pow_two]; exact this
      · by_contra hlt
        push_neg at hlt
        have hbig : (997 : Int) < (p : Int) * q := by
          have : 997 < p * q := by omega
          exact_mod_cast this
        have hw2 : 0 ≤ w ^ 2 := by positivity
        have hneg : Int.fdiv (w ^ 2 - t) ((p : Int) * q) * ((p : Int) * q) < 0 := by
          rw [hroot]; omega
        have hle : Int.fdiv (w ^ 2 - t) ((p : Int) * q) ≤ -1 := by
          by_contra hc
          push_neg at hc
          have : 0 ≤ Int.fdiv (w ^ 2 - t) ((p : Int) * q) := by omega
          have := mul_nonneg this hnpos.le
          omega
        have : Int.fdiv (w ^ 2 - t) ((p : Int) * q) * ((p : Int) * q)
            ≤ (-1) * ((p : Int) * q) :=
          mul_le_mul_of_nonneg_right hle hnpos.le
        rw [hroot] at this
        omega
    rw [Int.fdiv_eq_ediv _ hnpos.le]
    exact Int.ediv_nonneg (by omega) hnpos.le
  have hs1 := rand_scalar_nonneg hd1
  have hr2 := rand_scalar_nonneg hd2
  have hr3 := rand_scalar_nonneg hd3
  have hr4 := rand_scalar_nonneg hd4
  have hr5 := rand_scalar_nonneg hd5
  have hr6 := rand_scalar_nonneg hd6
  have hr7 := rand_scalar_nonneg hd7
  have hrw2 : 0 ≤ (if d3.1 < d5.1 then d5.1 else d3.1) := by split <;> assumption
  have hran : 0 ≤ (if d3.1 < d5.1 then d3.1 else d5.1) := by split <;> assumption
  -- the inverses
  have hinv : goo_group_inv G.n C1 = Res.ok invs.1
      ∧ goo_group_inv G.n (goo_group_reduce G C2raw) = Res.ok invs.2 := by
    by_cases hco : Int.gcd C1 G.n = 1 ∧ Int.gcd (goo_group_reduce G C2raw) G.n = 1
    · obtain ⟨r1, r2, hr, hi1, hi2, _⟩ := (inv2_spec G hN C1 _).1 hco
      rw [hr] at hinvs
      simp only [Res.ok.injEq] at hinvs
      subst hinvs
      exact ⟨hi1, hi2⟩
    · rw [(inv2_spec G hN C1 _).2 hco] at hinvs; cases hinvs
  obtain ⟨hfs0, hellb, prngA, prngB, hchal⟩ :=
    signLoop_spec E G m hG rnd _ _ _ _ _ _ _ _ hr2 _ _ _ fs.1 fs.2.1 fs.2.2 hfs
  obtain ⟨ell_r, _, hchal0, hellr0, _, hdiff0, _⟩ :=
    fs_chal_prover_verifier E hmax G prngA prngA _ _ _ _ _ _ _ _ _ _ prngB hchal
  have hell0 : 0 ≤ fs.2.2 := by omega
  have hn0 : (0 : Int) ≤ (p : Int) * q := hnpos.le
  have hz : ∀ x r : Int, 0 ≤ x → 0 ≤ r → 0 ≤ Int.fdiv (fs.2.1 * x + r) fs.2.2 := by
    intro x r hx hr
    exact Int.fdiv_nonneg (add_nonneg (mul_nonneg hchal0 hx) hr) hell0
  have hpw : ∀ b e : Int, 0 ≤ e → goo_group_pow G.n b e = b ^ e.toNat % G.n := by
    intro b e he
    exact mpz_powm_of_nonneg b G.n he
  have hww : fs.2.1 * w * w = fs.2.1 * (w * w) := by ring
  have hs1w : fs.2.1 * d1.1 * w = fs.2.1 * (d1.1 * w) := by ring
  have han : fs.2.1 * Int.fdiv (w ^ 2 - t) ((p : Int) * q) * ((p : Int) * q)
      = fs.2.1 * (Int.fdiv (w ^ 2 - t) ((p : Int) * q) * ((p : Int) * q)) := by ring
  have hsa : fs.2.1 * e.1 * Int.fdiv (w ^ 2 - t) ((p : Int) * q)
      = fs.2.1 * (e.1 * Int.fdiv (w ^ 2 - t) ((p : Int) * q)) := by ring
  have hAq1v := powgh_ok_value G m hG (hz _ _ hw0 hr2) (hz _ _ hs1 hfs0) hAq1
  have hyy1v := powgh_ok_value G m hG
    (by rw [hww]; exact hz _ _ (mul_nonneg hw0 hw0) hrw2)
    (by rw [hs1w]; exact hz _ _ (mul_nonneg hs1 hw0) hr6) hyy1
  have hyy2v := powgh_ok_value G m hG
    (by rw [han]; exact hz _ _ (mul_nonneg ha0 hn0) hran)
    (by rw [hsa]; exact hz _ _ (mul_nonneg hs0 ha0) hr7) hyy2
  have hy1v := powgh_ok_value G m hG hrw2 hr6 hy1
  have hy2v := powgh_ok_value G m hG hran hr7 hy2
  have hx0v := powgh_ok_value G m hG hn0 hs0 hx0
  have hC2v := powgh_ok_value G m hG hw0 hs1 hC2raw
  refine ⟨e.1, w, Int.fdiv (w ^ 2 - t) ((p : Int) * q), d1.1, d2.1,
    (if d3.1 < d5.1 then d5.1 else d3.1), fs.1, d4.1,
    (if d3.1 < d5.1 then d3.1 else d5.1), d6.1, d7.1, invs.1, invs.2, prngA, prngB, ?_⟩
  subst h
  have hBc : goo_group_mul G.n (goo_group_pow G.n invs.2 d2.1) y1
      = commitVal G invs.2 d2.1 (if d3.1 < d5.1 then d5.1 else d3.1) d6.1 := by
    rw [hpw _ _ hr2, hy1v]; rfl
  have hCc : goo_group_mul G.n (goo_group_pow G.n invs.1 d4.1) y2
      = commitVal G invs.1 d4.1 (if d3.1 < d5.1 then d3.1 else d5.1) d7.1 := by
    rw [hpw _ _ hr4, hy2v]; rfl
  rw [hBc, hCc] at hchal
  exact {
    s_nonneg := hs0
    w_nonneg := hw0
    a_nonneg := ha0
    n_pos := hnpos
    s1_nonneg := hs1
    r_w_nonneg := hr2
    r_w2_nonneg := hrw2
    r_s1_nonneg := hfs0
    r_a_nonneg := hr4
    r_an_nonneg := hran
    r_s1w_nonneg := hr6
    r_sa_nonneg := hr7
    mask_order := by split <;> omega
    t_mem := ⟨tn, htn, htt⟩
    opening := by rw [← hx0v]; exact hC1
    root := hroot
    commit_w := by rw [← hC2v]
    inv_C1 := hinv.1
    inv_C2 := hinv.2
    challenge := hchal
    ell_bits := hellb
    Aq_eq := by rw [← hAq1v]
    Bq_eq := by
      show goo_group_reduce G (goo_group_mul G.n (goo_group_pow G.n invs.2 _) yy1) = _
      rw [hpw _ _ (hz _ _ hw0 hr2), hyy1v]; rfl
    Cq_eq := by
      show goo_group_reduce G (goo_group_mul G.n (goo_group_pow G.n invs.1 _) yy2) = _
      rw [hpw _ _ (hz _ _ ha0 hr4), hyy2v]; rfl
    Dq_eq := rfl
    z_w_eq := rfl
    z_w2_eq := rfl
    z_s1_eq := rfl
    z_a_eq := rfl
    z_an_eq := rfl
    z_s1w_eq := rfl
    z_sa_eq := rfl }

end Goo

namespace Goo

/-! ## The verifier's reconstruction -/

theorem rep_emodN {m : Nat} (G : Group) (hm : G.n = m) {x : Int} {u : (ZMod m)ˣ}
    (h : Rep m x u) : Rep m (x % G.n) u := by
  rw [hm]; exact rep_emod h

theorem rep_powghVal {m : Nat} (G : Group) (hm : G.n = m) (ug uh : (ZMod m)ˣ)
    (hg : (G.g : ZMod m) = ug) (hh : (G.h : ZMod m) = uh) {e1 e2 : Int}
    (he1 : 0 ≤ e1) (he2 : 0 ≤ e2) : Rep m (powghVal G e1 e2) (ghPow ug uh e1 e2) :=
  rep_powgh_value G hm ug uh hg hh he1 he2

theorem rep_commitVal {m : Nat} (G : Group) (hm : G.n = m) (ug uh : (ZMod m)ˣ)
    (hg : (G.g : ZMod m) = ug) (hh : (G.h : ZMod m) = uh) {b e e1 e2 : Int}
    {u : (ZMod m)ˣ} (hb : Rep m b u) (he : 0 ≤ e) (he1 : 0 ≤ e1) (he2 : 0 ≤ e2) :
    Rep m (commitVal G b e e1 e2) (u ^ e * ghPow ug uh e1 e2) := by
  unfold commitVal goo_group_mul
  exact rep_emodN G hm (rep_mul (rep_emodN G hm (rep_zpow hb he))
    (rep_powghVal G hm ug uh hg hh he1 he2))

theorem powghVal_range (G : Group) (hN : 0 < G.n) (e1 e2 : Int) :
    0 ≤ powghVal G e1 e2 ∧ powghVal G e1 e2 < G.n :=
  ⟨Int.emod_nonneg _ hN.ne', Int.emod_lt_of_pos _ hN⟩

theorem commitVal_range (G : Group) (hN : 0 < G.n) (b e e1 e2 : Int) :
    0 ≤ commitVal G b e e1 e2 ∧ commitVal G b e e1 e2 < G.n :=
  ⟨Int.emod_nonneg _ hN.ne', Int.emod_lt_of_pos _ hN⟩

/-- `goo_group_recon` on a good group, for non-negative exponents of which
the last two fit the small comb pair. -/
theorem recon_spec (E : Env) (G : Group) (m : Nat) (hG : G.Good m) (hN : 1 < G.n)
    (hw : 2 ≤ E.GOO_WINDOW_SIZE) (hT : 2 ^ (E.GOO_WINDOW_SIZE - 2) ≤ E.GOO_TABLEN)
    (b1 b1_inv e1 b2 b2_inv e2 e3 e4 : Int)
    (h1 : b1 * b1_inv % G.n = 1) (h2 : b2 * b2_inv % G.n = 1)
    (he1 : 0 ≤ e1) (he2 : 0 ≤ e2) (he3 : 0 ≤ e3) (he4 : 0 ≤ e4)
    (hcap : max (goo_mpz_bitlen e3) (goo_mpz_bitlen e4) ≤ G.g_comb1.bits) :
    goo_group_recon E G b1 b1_inv e1 b2 b2_inv e2 e3 e4
      = Res.ok (goo_group_reduce G (goo_group_mul G.n
          (b1 ^ e1.toNat * b2 ^ e2.toNat % G.n) (powghVal G e3 e4))) := by
  unfold goo_group_recon
  rw [pow2_spec E G hN hw hT b1 b1_inv e1 b2 b2_inv e2 h1 h2,
    powgh_spec G m hG e3 e4 he3 he4 (Or.inl hcap)]
  simp only [Res.bind_ok, signedPow, he1, he2, if_true]
  rfl

/-- The unit identity behind the reconstruction of `A`. -/
theorem ghPow_recon_A {m : Nat} (ug uh : (ZMod m)ˣ) (w s1 c rw rs ell : Int) :
    (ghPow ug uh ((c * w + rw) / ell) ((c * s1 + rs) / ell)) ^ ell
        * ((ghPow ug uh w s1)⁻¹) ^ c
        * ghPow ug uh ((c * w + rw) % ell) ((c * s1 + rs) % ell)
      = ghPow ug uh rw rs := by
  simp only [ghPow_inv, ghPow_zpow, ghPow_mul]
  congr 1
  · linear_combination Int.ediv_add_emod' (c * w + rw) ell
  · linear_combination Int.ediv_add_emod' (c * s1 + rs) ell

/-- The unit identity behind the reconstructions of `B` and `C`. -/
theorem ghPow_recon_BC {m : Nat} (ug uh : (ZMod m)ˣ) (b1 b2 Z Z2 Z3 r r2 r3 ell : Int)
    (h2 : -b1 * Z + Z2 = -b1 * r + r2) (h3 : -b2 * Z + Z3 = -b2 * r + r3) :
    (((ghPow ug uh b1 b2)⁻¹) ^ (Z / ell) * ghPow ug uh (Z2 / ell) (Z3 / ell)) ^ ell
        * ((ghPow ug uh b1 b2)⁻¹) ^ (Z % ell)
        * ghPow ug uh (Z2 % ell) (Z3 % ell)
      = ((ghPow ug uh b1 b2)⁻¹) ^ r * ghPow ug uh r2 r3 := by
  simp only [ghPow_inv, ghPow_zpow, ghPow_mul]
  congr 1
  · linear_combination (-b1) * Int.ediv_add_emod' Z ell + Int.ediv_add_emod' Z2 ell + h2
  · linear_combination (-b2) * Int.ediv_add_emod' Z ell + Int.ediv_add_emod' Z3 ell + h3

/-- The verifier's `D` is the signer's. -/
theorem verify_D_spec (sig : Sig) (X Y d : Int) (hell : 0 < sig.ell)
    (hDq : sig.Dq = (X - Y) / sig.ell) (h1 : sig.z_w2 = X % sig.ell)
    (h2 : sig.z_an = Y % sig.ell) (hXY : X - Y = sig.t * sig.chal + d) :
    verify_D sig = d := by
  have hX := Int.ediv_add_emod' X sig.ell
  have hY := Int.ediv_add_emod' Y sig.ell
  have hx0 := Int.emod_nonneg X hell.ne'
  have hx1 := Int.emod_lt_of_pos X hell
  have hy0 := Int.emod_nonneg Y hell.ne'
  have hy1 := Int.emod_lt_of_pos Y hell
  unfold verify_D
  simp only []
  rw [hDq, h1, h2]
  split
  · have hq : (X - Y) / sig.ell = X / sig.ell - Y / sig.ell - 1 := by
      have : X - Y = (X % sig.ell - Y % sig.ell + sig.ell)
          + sig.ell * (X / sig.ell - Y / sig.ell - 1) := by linear_combination hY - hX
      rw [this, Int.add_mul_ediv_left _ _ hell.ne',
        Int.ediv_eq_zero_of_lt (by omega) (by omega)]
      ring
    rw [hq]
    linear_combination hX - hY + hXY
  · have hq : (X - Y) / sig.ell = X / sig.ell - Y / sig.ell := by
      have : X - Y = (X % sig.ell - Y % sig.ell)
          + sig.ell * (X / sig.ell - Y / sig.ell) := by linear_combination hY - hX
      rw [this, Int.add_mul_ediv_left _ _ hell.ne',
        Int.ediv_eq_zero_of_lt (by omega) (by omega)]
      ring
    rw [hq]
    linear_combination hX - hY + hXY

theorem primes_any_of_mem {t : Int} (h : ∃ tn ∈ goo_primes, t = (tn : Int)) :
    goo_primes.any (fun p => decide (t = (p : Int))) = true := by
  obtain ⟨tn, hmem, rfl⟩ := h
  rw [List.any_eq_true]
  exact ⟨tn, hmem, by simp⟩

/-- A residue below a 128-bit `ell` fits in 128 bits. -/
theorem bitlen_emod_le (z ell : Int) (hell : 0 < ell) (hb : goo_mpz_bitlen ell = 128) :
    0 ≤ z % ell ∧ goo_mpz_bitlen (z % ell) ≤ 128 := by
  have h0 := Int.emod_nonneg z hell.ne'
  refine ⟨h0, ?_⟩
  rw [bitlen_of_nonneg_le_iff h0]
  have : ell < 2 ^ 128 := (bitlen_of_nonneg_le_iff hell.le 128).mp hb.le
  exact lt_trans (Int.emod_lt_of_pos z hell) this

end Goo

namespace Goo

/-- The verifier accepts the signature of an honest run. -/
theorem verify_of_honest (E : Env) (hw : 2 ≤ E.GOO_WINDOW_SIZE)
    (hT : 2 ^ (E.GOO_WINDOW_SIZE - 2) ≤ E.GOO_TABLEN) (hmax : E.GOO_ELLDIFF_MAX ≠ 0)
    (G : Group) (m : Nat) (hG : G.Good m) (hnh : G.nh = G.n / 2)
    (h128 : 128 ≤ G.g_comb1.bits)
    (hg : Int.gcd G.g G.n = 1) (hh : Int.gcd G.h G.n = 1) (prng : Prng E)
    (msg C1 : Int) (sig : Sig)
    (n s w a s1 r_w r_w2 r_s1 r_a r_an r_s1w r_sa C1_inv C2_inv : Int)
    (prngA prngB : Prng E)
    (H : HonestRun E G msg C1 sig n s w a s1 r_w r_w2 r_s1 r_a r_an r_s1w r_sa
      C1_inv C2_inv prngA prngB) :
    goo_group_verify E G prng msg C1 sig = Res.ok () := by
  have hm : G.n = m := hG.1
  have hm1 : 1 < m := hG.2.1
  have hN : 1 < G.n := by rw [hm]; exact_mod_cast hm1
  have hN0 : 0 < G.n := by omega
  obtain ⟨ug, hug⟩ := (gcd_eq_one_iff_zmod_unit G.g).mp (by rw [← hm]; exact hg)
  obtain ⟨uh, huh⟩ := (gcd_eq_one_iff_zmod_unit G.h).mp (by rw [← hm]; exact hh)
  have hug' : ((G.g : Int) : ZMod m) = ug := hug.symm
  have huh' : ((G.h : Int) : ZMod m) = uh := huh.symm
  obtain ⟨ell_r, hver, hchal0, hellr0, hprime, hd0, hd1⟩ :=
    fs_chal_prover_verifier E hmax G prngA prng _ _ _ _ _ _ _ _ _ _ prngB H.challenge
  have hell0 : 0 ≤ sig.ell := by omega
  have hellpos : 0 < sig.ell := by
    rcases hell0.lt_or_eq with h | h
    · exact h
    · exfalso
      have := H.ell_bits
      rw [← h, bitlen_zero] at this
      omega
  have hAq := H.Aq_eq
  have hBq := H.Bq_eq
  have hCq := H.Cq_eq
  have hDq := H.Dq_eq
  simp only [fun a => Int.fdiv_eq_ediv a hell0] at hAq hBq hCq hDq
  have hq : ∀ x r : Int, 0 ≤ x → 0 ≤ r → 0 ≤ (sig.chal * x + r) / sig.ell := by
    intro x r hx hr
    exact Int.ediv_nonneg (add_nonneg (mul_nonneg hchal0 hx) hr) hell0
  have e_ww : sig.chal * w * w = sig.chal * (w * w) := by ring
  have e_s1w : sig.chal * s1 * w = sig.chal * (s1 * w) := by ring
  have e_an : sig.chal * a * n = sig.chal * (a * n) := by ring
  have e_sa : sig.chal * s * a = sig.chal * (s * a) := by ring
  have q_w := hq w r_w H.w_nonneg H.r_w_nonneg
  have q_s1 := hq s1 r_s1 H.s1_nonneg H.r_s1_nonneg
  have q_a := hq a r_a H.a_nonneg H.r_a_nonneg
  have q_w2 : 0 ≤ (sig.chal * w * w + r_w2) / sig.ell := by
    rw [e_ww]; exact hq _ _ (mul_nonneg H.w_nonneg H.w_nonneg) H.r_w2_nonneg
  have q_s1w : 0 ≤ (sig.chal * s1 * w + r_s1w) / sig.ell := by
    rw [e_s1w]; exact hq _ _ (mul_nonneg H.s1_nonneg H.w_nonneg) H.r_s1w_nonneg
  have q_an : 0 ≤ (sig.chal * a * n + r_an) / sig.ell := by
    rw [e_an]; exact hq _ _ (mul_nonneg H.a_nonneg H.n_pos.le) H.r_an_nonneg
  have q_sa : 0 ≤ (sig.chal * s * a + r_sa) / sig.ell := by
    rw [e_sa]; exact hq _ _ (mul_nonneg H.s_nonneg H.a_nonneg) H.r_sa_nonneg
  -- what the public values stand for
  have RC1 : Rep m C1 (ghPow ug uh n s) := by
    rw [H.opening]
    exact rep_reduce G hm (rep_powghVal G hm ug uh hug' huh' H.n_pos.le H.s_nonneg)
  have RC2 : Rep m sig.C2 (ghPow ug uh w s1) := by
    rw [H.commit_w]
    exact rep_reduce G hm (rep_powghVal G hm ug uh hug' huh' H.w_nonneg H.s1_nonneg)
  have i1 := goo_group_inv_spec hm1 (by rw [← hm]; exact H.inv_C1)
  have i2 := goo_group_inv_spec hm1 (by rw [← hm]; exact H.inv_C2)
  have RC1i : Rep m C1_inv (ghPow ug uh n s)⁻¹ := rep_inv RC1 i1.2.2
  have RC2i : Rep m C2_inv (ghPow ug uh w s1)⁻¹ := rep_inv RC2 i2.2.2
  have RAq : Rep m sig.Aq (ghPow ug uh ((sig.chal * w + r_w) / sig.ell)
      ((sig.chal * s1 + r_s1) / sig.ell)) := by
    rw [hAq]
    exact rep_reduce G hm (rep_powghVal G hm ug uh hug' huh' q_w q_s1)
  have RBq : Rep m sig.Bq ((ghPow ug uh w s1)⁻¹ ^ ((sig.chal * w + r_w) / sig.ell)
      * ghPow ug uh ((sig.chal * w * w + r_w2) / sig.ell)
          ((sig.chal * s1 * w + r_s1w) / sig.ell)) := by
    rw [hBq]
    exact rep_reduce G hm (rep_commitVal G hm ug uh hug' huh' RC2i q_w q_w2 q_s1w)
  have RCq : Rep m sig.Cq ((ghPow ug uh n s)⁻¹ ^ ((sig.chal * a + r_a) / sig.ell)
      * ghPow ug uh ((sig.chal * a * n + r_an) / sig.ell)
          ((sig.chal * s * a + r_sa) / sig.ell)) := by
    rw [hCq]
    exact rep_reduce G hm (rep_commitVal G hm ug uh hug' huh' RC1i q_a q_an q_sa)
  -- the five values are reduced
  have redP : ∀ e1 e2, goo_group_is_reduced G (goo_group_reduce G (powghVal G e1 e2))
      = true := fun e1 e2 =>
    (reduce_range G hnh (powghVal_range G hN0 e1 e2).1 (powghVal_range G hN0 e1 e2).2).2.2
  have redC : ∀ b e e1 e2,
      goo_group_is_reduced G (goo_group_reduce G (commitVal G b e e1 e2)) = true :=
    fun b e e1 e2 => (reduce_range G hnh (commitVal_range G hN0 b e e1 e2).1
      (commitVal_range G hN0 b e e1 e2).2).2.2
  have red1 : goo_group_is_reduced G C1 = true := by rw [H.opening]; exact redP _ _
  have red2 : goo_group_is_reduced G sig.C2 = true := by rw [H.commit_w]; exact redP _ _
  have red3 : goo_group_is_reduced G sig.Aq = true := by rw [hAq]; exact redP _ _
  have red4 : goo_group_is_reduced G sig.Bq = true := by rw [hBq]; exact redC _ _ _ _
  have red5 : goo_group_is_reduced G sig.Cq = true := by rw [hCq]; exact redC _ _ _ _
  -- the batched inversion
  have cop : ∀ {x : Int} {u : (ZMod m)ˣ}, Rep m x u → Int.gcd x G.n = 1 := by
    intro x u hx
    rw [hm]
    exact (gcd_eq_one_iff_zmod_unit x).mpr (rep_unit hx)
  obtain ⟨r1, r2, r3, r4, r5, h5, j1, j2, j3, j4, j5, p1, p2, p3, p4, p5⟩ :=
    (inv5_spec G hN C1 sig.C2 sig.Aq sig.Bq sig.Cq).1
      ⟨cop RC1, cop RC2, cop RAq, cop RBq, cop RCq⟩
  have er1 : r1 = C1_inv := by
    rw [H.inv_C1] at j1; exact (Res.ok.inj j1).symm
  have er2 : r2 = C2_inv := by
    rw [H.inv_C2] at j2; exact (Res.ok.inj j2).symm
  subst er1 er2
  -- the responses fit the small combs
  have zb : ∀ z : Int, 0 ≤ z % sig.ell ∧ goo_mpz_bitlen (z % sig.ell) ≤ G.g_comb1.bits :=
    fun z => ⟨(bitlen_emod_le z sig.ell hellpos H.ell_bits).1,
      le_trans (bitlen_emod_le z sig.ell hellpos H.ell_bits).2 h128⟩
  -- the three reconstructions
  have hA : goo_group_recon E G sig.Aq r3 sig.ell r2 sig.C2 sig.chal sig.z_w sig.z_s1
      = Res.ok (goo_group_reduce G (powghVal G r_w r_s1)) := by
    rw [H.z_w_eq, H.z_s1_eq]
    rw [recon_spec E G m hG hN hw hT _ _ _ _ _ _ _ _ p3.2.2
      (by rw [mul_comm]; exact p2.2.2) hell0 hchal0 (zb _).1 (zb _).1
      (max_le (zb _).2 (zb _).2)]
    congr 1
    refine reduce_eq_of_rep G hm hnh (u := ghPow ug uh r_w r_s1) ?_
      (rep_powghVal G hm ug uh hug' huh' H.r_w_nonneg H.r_s1_nonneg)
      (Int.emod_nonneg _ hN0.ne') (Int.emod_lt_of_pos _ hN0)
      (powghVal_range G hN0 _ _).1 (powghVal_range G hN0 _ _).2
    exact rep_congr (rep_emodN G hm (rep_mul
      (rep_emodN G hm (rep_mul (rep_zpow RAq hell0) (rep_zpow RC2i hchal0)))
      (rep_powghVal G hm ug uh hug' huh' (zb _).1 (zb _).1)))
      (ghPow_recon_A ug uh w s1 sig.chal r_w r_s1 sig.ell)
  have hB : goo_group_recon E G sig.Bq r4 sig.ell r2 sig.C2 sig.z_w sig.z_w2 sig.z_s1w
      = Res.ok (goo_group_reduce G (commitVal G r2 r_w r_w2 r_s1w)) := by
    rw [H.z_w_eq, H.z_w2_eq, H.z_s1w_eq]
    rw [recon_spec E G m hG hN hw hT _ _ _ _ _ _ _ _ p4.2.2
      (by rw [mul_comm]; exact p2.2.2) hell0 (zb _).1 (zb _).1 (zb _).1
      (max_le (zb _).2 (zb _).2)]
    congr 1
    refine reduce_eq_of_rep G hm hnh
      (u := (ghPow ug uh w s1)⁻¹ ^ r_w * ghPow ug uh r_w2 r_s1w) ?_
      (rep_commitVal G hm ug uh hug' huh' RC2i H.r_w_nonneg H.r_w2_nonneg H.r_s1w_nonneg)
      (Int.emod_nonneg _ hN0.ne') (Int.emod_lt_of_pos _ hN0)
      (commitVal_range G hN0 _ _ _ _).1 (commitVal_range G hN0 _ _ _ _).2
    exact rep_congr (rep_emodN G hm (rep_mul
      (rep_emodN G hm (rep_mul (rep_zpow RBq hell0) (rep_zpow RC2i (zb _).1)))
      (rep_powghVal G hm ug uh hug' huh' (zb _).1 (zb _).1)))
      (ghPow_recon_BC ug uh w s1 _ _ _ r_w r_w2 r_s1w sig.ell (by ring) (by ring))
  have hC : goo_group_recon E G sig.Cq r5 sig.ell r1 C1 sig.z_a sig.z_an sig.z_sa
      = Res.ok (goo_group_reduce G (commitVal G r1 r_a r_an r_sa)) := by
    rw [H.z_a_eq, H.z_an_eq, H.z_sa_eq]
    rw [recon_spec E G m hG hN hw hT _ _ _ _ _ _ _ _ p5.2.2
      (by rw [mul_comm]; exact p1.2.2) hell0 (zb _).1 (zb _).1 (zb _).1
      (max_le (zb _).2 (zb _).2)]
    congr 1
    refine reduce_eq_of_rep G hm hnh
      (u := (ghPow ug uh n s)⁻¹ ^ r_a * ghPow ug uh r_an r_sa) ?_
      (rep_commitVal G hm ug uh hug' huh' RC1i H.r_a_nonneg H.r_an_nonneg H.r_sa_nonneg)
      (Int.emod_nonneg _ hN0.ne') (Int.emod_lt_of_pos _ hN0)
      (commitVal_range G hN0 _ _ _ _).1 (commitVal_range G hN0 _ _ _ _).2
    exact rep_congr (rep_emodN G hm (rep_mul
      (rep_emodN G hm (rep_mul (rep_zpow RCq hell0) (rep_zpow RC1i (zb _).1)))
      (rep_powghVal G hm ug uh hug' huh' (zb _).1 (zb _).1)))
      (ghPow_recon_BC ug uh n s _ _ _ r_a r_an r_sa sig.ell (by ring) (by ring))
  have hD : verify_D sig = r_w2 - r_an :=
    verify_D_spec sig _ _ _ hellpos hDq H.z_w2_eq H.z_an_eq
      (by linear_combination (-sig.chal) * H.root)
  unfold goo_group_verify
  rw [if_neg (by rw [primes_any_of_mem H.t_mem]; simp),
    if_neg (by rw [red1, red2, red3, red4, red5]; simp), h5]
  simp only [Res.bind_ok]
  rw [hA]
  simp only [Res.bind_ok]
  rw [hB]
  simp only [Res.bind_ok]
  rw [hC]
  simp only [Res.bind_ok]
  rw [hD, hver]
  simp only []
  rw [if_neg]
  push_neg
  exact ⟨rfl, hd0, hd1, by rw [hprime]; simp⟩

end Goo

namespace Goo

/-- The modulus of an initialised group is the imported byte string. -/
theorem group_init_n {E : Env} {n : Bytes} {g h modbits : Nat} {G : Group}
    (hinit : goo_group_init E n g h modbits = Res.ok G) : G.n = goo_mpz_import n := by
  unfold goo_group_init at hinit
  dsimp only at hinit
  generalize (goo_clog2 (goo_mpz_import n) + (2 ^ 64 - 1)) % 2 ^ 64 = rb at hinit
  split at hinit
  · obtain ⟨big_spec, hb, hinit⟩ := Res.bind_eq_ok hinit
    obtain ⟨small_spec, hs, hinit⟩ := Res.bind_eq_ok hinit
    obtain ⟨g1, hg1, hinit⟩ := Res.bind_eq_ok hinit
    obtain ⟨h1, hh1, hinit⟩ := Res.bind_eq_ok hinit
    obtain ⟨g2, hg2, hinit⟩ := Res.bind_eq_ok hinit
    obtain ⟨h2, hh2, hinit⟩ := Res.bind_eq_ok hinit
    simp only [Res.ok.injEq] at hinit
    subst hinit
    rfl
  · obtain ⟨tiny_spec, hb, hinit⟩ := Res.bind_eq_ok hinit
    obtain ⟨g1, hg1, hinit⟩ := Res.bind_eq_ok hinit
    obtain ⟨h1, hh1, hinit⟩ := Res.bind_eq_ok hinit
    simp only [Res.ok.injEq] at hinit
    subst hinit
    rfl

/-- The half modulus of an initialised group is `floor(n / 2)`. -/
theorem group_init_nh {E : Env} {n : Bytes} {g h modbits : Nat} {G : Group}
    (hinit : goo_group_init E n g h modbits = Res.ok G) :
    G.nh = goo_mpz_import n / 2 := by
  unfold goo_group_init at hinit
  dsimp only at hinit
  generalize (goo_clog2 (goo_mpz_import n) + (2 ^ 64 - 1)) % 2 ^ 64 = rb at hinit
  split at hinit
  · obtain ⟨big_spec, hb, hinit⟩ := Res.bind_eq_ok hinit
    obtain ⟨small_spec, hs, hinit⟩ := Res.bind_eq_ok hinit
    obtain ⟨g1, hg1, hinit⟩ := Res.bind_eq_ok hinit
    obtain ⟨h1, hh1, hinit⟩ := Res.bind_eq_ok hinit
    obtain ⟨g2, hg2, hinit⟩ := Res.bind_eq_ok hinit
    obtain ⟨h2, hh2, hinit⟩ := Res.bind_eq_ok hinit
    simp only [Res.ok.injEq] at hinit
    subst hinit
    rfl
  · obtain ⟨tiny_spec, hb, hinit⟩ := Res.bind_eq_ok hinit
    obtain ⟨g1, hg1, hinit⟩ := Res.bind_eq_ok hinit
    obtain ⟨h1, hh1, hinit⟩ := Res.bind_eq_ok hinit
    simp only [Res.ok.injEq] at hinit
    subst hinit
    rfl

/-- An honest run only depends on the group through `n`, `nh`, `g` and `h`. -/
theorem honest_transport {E : Env} (G G' : Group) (hn : G'.n = G.n) (hnh : G'.nh = G.nh)
    (hg : G'.g = G.g) (hh : G'.h = G.h) {msg C1 : Int} {sig : Sig}
    {n s w a s1 r_w r_w2 r_s1 r_a r_an r_s1w r_sa C1_inv C2_inv : Int}
    {prngA prngB : Prng E}
    (H : HonestRun E G msg C1 sig n s w a s1 r_w r_w2 r_s1 r_a r_an r_s1w r_sa
      C1_inv C2_inv prngA prngB) :
    HonestRun E G' msg C1 sig n s w a s1 r_w r_w2 r_s1 r_a r_an r_s1w r_sa
      C1_inv C2_inv prngA prngB := by
  have e1 : ∀ x, goo_group_reduce G' x = goo_group_reduce G x := by
    intro x; unfold goo_group_reduce; rw [hn, hnh]
  have e2 : ∀ x y, powghVal G' x y = powghVal G x y := by
    intro x y; unfold powghVal; rw [hn, hg, hh]
  have e3 : ∀ b e x y, commitVal G' b e x y = commitVal G b e x y := by
    intro b e x y; unfold commitVal; rw [e2, hn]
  have e4 : ∀ prng C1 C2 t A B C D msg v,
      goo_group_fs_chal E G' prng C1 C2 t A B C D msg v
        = goo_group_fs_chal E G prng C1 C2 t A B C D msg v := by
    intro prng C1 C2 t A B C D msg v
    unfold goo_group_fs_chal goo_hash_all goo_hash_transcript
    rw [hn, hg, hh]
  exact {
    s_nonneg := H.s_nonneg
    w_nonneg := H.w_nonneg
    a_nonneg := H.a_nonneg
    n_pos := H.n_pos
    s1_nonneg := H.s1_nonneg
    r_w_nonneg := H.r_w_nonneg
    r_w2_nonneg := H.r_w2_nonneg
    r_s1_nonneg := H.r_s1_nonneg
    r_a_nonneg := H.r_a_nonneg
    r_an_nonneg := H.r_an_nonneg
    r_s1w_nonneg := H.r_s1w_nonneg
    r_sa_nonneg := H.r_sa_nonneg
    mask_order := H.mask_order
    t_mem := H.t_mem
    opening := by rw [e1, e2]; exact H.opening
    root := H.root
    commit_w := by rw [e1, e2]; exact H.commit_w
    inv_C1 := by rw [hn]; exact H.inv_C1
    inv_C2 := by rw [hn]; exact H.inv_C2
    challenge := by rw [e4, e1, e1, e1, e2, e3, e3]; exact H.challenge
    ell_bits := H.ell_bits
    Aq_eq := by rw [e1, e2]; exact H.Aq_eq
    Bq_eq := by rw [e1, e3]; exact H.Bq_eq
    Cq_eq := by rw [e1, e3]; exact H.Cq_eq
    Dq_eq := H.Dq_eq
    z_w_eq := H.z_w_eq
    z_w2_eq := H.z_w2_eq
    z_s1_eq := H.z_s1_eq
    z_a_eq := H.z_a_eq
    z_an_eq := H.z_an_eq
    z_s1w_eq := H.z_s1w_eq
    z_sa_eq := H.z_sa_eq }

/-- Completeness, with the verifier working in any context for the same
`(n, g, h)`. -/
theorem sign_verify_general (E : Env) (hw : 2 ≤ E.GOO_WINDOW_SIZE)
    (hT : 2 ^ (E.GOO_WINDOW_SIZE - 2) ≤ E.GOO_TABLEN) (hmax : E.GOO_ELLDIFF_MAX ≠ 0)
    (N : Bytes) (g h modbits modbits' : Nat) (G G' : Group)
    (hinit : goo_group_init E N g h modbits = Res.ok G)
    (hinit' : goo_group_init E N g h modbits' = Res.ok G')
    (hN : 1 < goo_mpz_import N)
    (hg : Int.gcd g (goo_mpz_import N) = 1) (hh : Int.gcd h (goo_mpz_import N) = 1)
    (p q : Nat) (hp : p.Prime) (hq : q.Prime) (hpq : p ≠ q) (hp2 : p ≠ 2) (hq2 : q ≠ 2)
    (rnd : RandSrc) (fuel : Nat) (prng prng' : Prng E) (Aq0 : Int) (stack : Bytes)
    (msg s_prime C1 : Int) (sig : Sig)
    (hsign : goo_group_sign E G rnd fuel prng Aq0 stack msg s_prime C1 ((p : Int) * q) p q
      = Res.ok sig) :
    goo_group_verify E G' prng' msg C1 sig = Res.ok () := by
  have hn := group_init_n hinit
  have hn' := group_init_n hinit'
  obtain ⟨hG, gg, gh, gnh, _⟩ := group_init_good hinit (by rw [hn]; exact hN)
  obtain ⟨hG', gg', gh', gnh', g128, _⟩ := group_init_good hinit' (by rw [hn']; exact hN)
  obtain ⟨s, w, a, s1, r_w, r_w2, r_s1, r_a, r_an, r_s1w, r_sa, C1_inv, C2_inv, prngA,
      prngB, H⟩ :=
    sign_honest E hmax G _ hG (by rw [hn]; exact hN) rnd fuel prng Aq0 stack msg s_prime C1
      p q hp hq hpq hp2 hq2 sig hsign
  have H' := honest_transport G G' (by rw [hn, hn'])
    (by rw [gnh, gnh', hn, hn']) (by rw [gg, gg']) (by rw [gh, gh']) H
  exact verify_of_honest E hw hT hmax G' _ hG' gnh' g128
    (by rw [gg', hn']; exact hg) (by rw [gh', hn']; exact hh) prng' msg C1 sig
    _ _ _ _ _ _ _ _ _ _ _ _ _ _ _ _ H'

end Goo

namespace Goo

/-! ## The byte interface and the hashed transcript -/

theorem goo_mpz_import_cons_zero (b : Bytes) :
    goo_mpz_import (0 :: b) = goo_mpz_import b := by
  unfold goo_mpz_import
  simp [List.foldl]

/-- A leading zero byte of the message does not change the verdict. -/
theorem goo_verify_zero_msg (E : Env) (G : Group) (prng : Prng E) (msg sig C1 : Bytes)
    (h : msg.length < 768) :
    goo_verify E G prng (0 :: msg) sig C1 = goo_verify E G prng msg sig C1 := by
  unfold goo_verify
  have h1 : ¬ (0 :: msg).length > 768 := by simp only [List.length_cons]; omega
  have h2 : ¬ msg.length > 768 := by omega
  rw [if_neg h1, if_neg h2, goo_mpz_import_cons_zero]

/-- A leading zero byte of the commitment does not change the verdict. -/
theorem goo_verify_zero_C1 (E : Env) (G : Group) (prng : Prng E) (msg sig C1 : Bytes)
    (h : C1.length < 768) :
    goo_verify E G prng msg sig (0 :: C1) = goo_verify E G prng msg sig C1 := by
  unfold goo_verify
  have h1 : ¬ (0 :: C1).length > 768 := by simp only [List.length_cons]; omega
  have h2 : ¬ C1.length > 768 := by omega
  rw [if_neg h1, if_neg h2, goo_mpz_import_cons_zero]

/-- An accepting run of `goo_group_verify` hashed a transcript whose derived
challenge is the `chal` field. -/
theorem group_verify_ok_transcript (E : Env) (G : Group) (prng : Prng E) (m c1 : Int)
    (s : Sig) (h : goo_group_verify E G prng m c1 s = Res.ok ()) :
    ∃ A B C tr, goo_hash_transcript G c1 s.C2 s.t A B C (verify_D s) m = Res.ok tr
      ∧ transcriptChal E prng tr = s.chal := by
  unfold goo_group_verify at h
  split at h
  · cases h
  split at h
  · cases h
  obtain ⟨inv, _, h⟩ := Res.bind_eq_ok h
  rcases inv with ⟨C1_inv, C2_inv, Aq_inv, Bq_inv, Cq_inv⟩
  obtain ⟨A, _, h⟩ := Res.bind_eq_ok h
  obtain ⟨B, _, h⟩ := Res.bind_eq_ok h
  obtain ⟨C, _, h⟩ := Res.bind_eq_ok h
  dsimp only at h
  cases hfs : goo_group_fs_chal E G prng c1 s.C2 s.t A B C (verify_D s) m true with
  | abort => rw [hfs] at h; cases h
  | hang => rw [hfs] at h; cases h
  | fail => rw [hfs] at h; cases h
  | ok o =>
    rw [hfs] at h
    rcases o with ⟨b, co, lr, p⟩
    dsimp only at h
    split at h
    · cases h
    rename_i hc
    push_neg at hc
    unfold goo_group_fs_chal at hfs
    obtain ⟨key, hkey, hfs⟩ := Res.bind_eq_ok hfs
    unfold goo_hash_all at hkey
    obtain ⟨tr, htr, hkey⟩ := Res.bind_eq_ok hkey
    simp only [Res.ok.injEq] at hkey
    simp only [if_true, Res.ok.injEq, Prod.mk.injEq] at hfs
    refine ⟨A, B, C, tr, htr, ?_⟩
    unfold transcriptChal
    rw [hkey, hfs.2.1]
    exact hc.1.symm

theorem natToBytes_length : ∀ (len n : Nat), (natToBytes len n).length = len := by
  intro len
  induction len with
  | zero => intro n; rfl
  | succ len ih => intro n; simp [natToBytes, ih]

theorem natToBytes_foldl : ∀ (len n acc : Nat),
    (natToBytes len n).foldl (fun acc b => acc * 256 + b.toNat) acc
      = acc * 256 ^ len + n % 256 ^ len := by
  intro len
  induction len with
  | zero => intro n acc; simp [natToBytes, Nat.mod_one]
  | succ len ih =>
    intro n acc
    have hb : (UInt8.ofNat (n % 256)).toNat = n % 256 := by
      simp [UInt8.toNat, UInt8.ofNat, Fin.ofNat, Nat.mod_mod]
    simp only [natToBytes, List.foldl_append, List.foldl_cons, List.foldl_nil, ih, hb]
    rw [pow_succ', Nat.mod_mul]
    ring

/-- Reading back what `goo_mpz_export` wrote gives the magnitude. -/
theorem import_export (n : Int) : goo_mpz_import (goo_mpz_export n) = n.natAbs := by
  unfold goo_mpz_import goo_mpz_export
  rw [natToBytes_foldl]
  have h1 := natAbs_lt_two_pow_bitlen n
  have h2 : 2 ^ goo_mpz_bitlen n ≤ 256 ^ goo_mpz_bytesize n := by
    unfold goo_mpz_bytesize
    rw [show (256 : Nat) = 2 ^ 8 by norm_num, ← pow_mul]
    exact Nat.pow_le_pow_right (by norm_num) (by omega)
  rw [Nat.mod_eq_of_lt (lt_of_lt_of_le h1 h2)]
  simp

theorem lor_flag : ∀ len : Nat, len ≤ 768 → Nat.lor len 0x8000 = len + 0x8000 := by
  decide!

theorem uint8_ofNat_inj {a b : Nat} (h : UInt8.ofNat a = UInt8.ofNat b) :
    a % 256 = b % 256 := by
  have := congrArg UInt8.toNat h
  simpa [UInt8.toNat, UInt8.ofNat, Fin.ofNat] using this

/-- Items of the hashed transcript are self-delimiting and determine the
integer they encode. -/
theorem hash_item_split {a b : Int} {x y r r' : Bytes}
    (ha : goo_hash_item a = Res.ok x) (hb : goo_hash_item b = Res.ok y)
    (h : x ++ r = y ++ r') : a = b ∧ r = r' := by
  unfold goo_hash_item at ha hb
  dsimp only at ha hb
  obtain ⟨_, ha1, ha⟩ := Res.bind_eq_ok ha
  obtain ⟨_, hb1, hb⟩ := Res.bind_eq_ok hb
  replace ha1 := assertC_eq_ok ha1
  replace hb1 := assertC_eq_ok hb1
  simp only [decide_eq_true_eq] at ha1 hb1
  simp only [Res.ok.injEq] at ha hb
  subst ha hb
  simp only [List.cons_append, List.nil_append, List.cons.injEq] at h
  obtain ⟨h0, h1, h2⟩ := h
  have e0 := uint8_ofNat_inj h0
  have e1 := uint8_ofNat_inj h1
  have fa := lor_flag _ ha1
  have fb := lor_flag _ hb1
  have hlen : (goo_mpz_export a).length = (goo_mpz_export b).length
      ∧ (a < 0 ↔ b < 0) := by
    by_cases sa : a < 0 <;> by_cases sb : b < 0
    · simp only [sa, sb, if_true] at e0 e1
      rw [fa] at e0 e1; rw [fb] at e0 e1
      exact ⟨by omega, by tauto⟩
    · simp only [sa, sb, if_true, if_false] at e0 e1
      rw [fa] at e0 e1
      omega
    · simp only [sa, sb, if_true, if_false] at e0 e1
      rw [fb] at e0 e1
      omega
    · simp only [sa, sb, if_false] at e0 e1
      exact ⟨by omega, by tauto⟩
  obtain ⟨hx, hr⟩ := List.append_inj h2 hlen.1
  refine ⟨?_, hr⟩
  have hi := congrArg goo_mpz_import hx
  rw [import_export, import_export] at hi
  have hab : a.natAbs = b.natAbs := by exact_mod_cast hi
  have := hlen.2
  omega

/-- The hashed transcript determines the commitment `C1` and the message. -/
theorem transcript_inj (G : Group) {C1 C2 t A B C D m C1' C2' t' A' B' C' D' m' : Int}
    {tr : Bytes}
    (h1 : goo_hash_transcript G C1 C2 t A B C D m = Res.ok tr)
    (h2 : goo_hash_transcript G C1' C2' t' A' B' C' D' m' = Res.ok tr) :
    C1 = C1' ∧ m = m' := by
  unfold goo_hash_transcript at h1 h2
  obtain ⟨i1, a1, h1⟩ := Res.bind_eq_ok h1
  obtain ⟨i2, a2, h1⟩ := Res.bind_eq_ok h1
  obtain ⟨i3, a3, h1⟩ := Res.bind_eq_ok h1
  obtain ⟨i4, a4, h1⟩ := Res.bind_eq_ok h1
  obtain ⟨i5, a5, h1⟩ := Res.bind_eq_ok h1
  obtain ⟨i6, a6, h1⟩ := Res.bind_eq_ok h1
  obtain ⟨i7, a7, h1⟩ := Res.bind_eq_ok h1
  obtain ⟨i8, a8, h1⟩ := Res.bind_eq_ok h1
  obtain ⟨i9, a9, h1⟩ := Res.bind_eq_ok h1
  obtain ⟨i10, a10, h1⟩ := Res.bind_eq_ok h1
  obtain ⟨i11, a11, h1⟩ := Res.bind_eq_ok h1
  obtain ⟨j1, b1, h2⟩ := Res.bind_eq_ok h2
  obtain ⟨j2, b2, h2⟩ := Res.bind_eq_ok h2
  obtain ⟨j3, b3, h2⟩ := Res.bind_eq_ok h2
  obtain ⟨j4, b4, h2⟩ := Res.bind_eq_ok h2
  obtain ⟨j5, b5, h2⟩ := Res.bind_eq_ok h2
  obtain ⟨j6, b6, h2⟩ := Res.bind_eq_ok h2
  obtain ⟨j7, b7, h2⟩ := Res.bind_eq_ok h2
  obtain ⟨j8, b8, h2⟩ := Res.bind_eq_ok h2
  obtain ⟨j9, b9, h2⟩ := Res.bind_eq_ok h2
  obtain ⟨j10, b10, h2⟩ := Res.bind_eq_ok h2
  obtain ⟨j11, b11, h2⟩ := Res.bind_eq_ok h2
  simp only [Res.ok.injEq] at h1 h2
  rw [← h2] at h1
  simp only [List.append_assoc] at h1
  have h := List.append_cancel_left h1
  obtain ⟨_, h⟩ := hash_item_split a1 b1 h
  obtain ⟨_, h⟩ := hash_item_split a2 b2 h
  obtain ⟨_, h⟩ := hash_item_split a3 b3 h
  obtain ⟨e4, h⟩ := hash_item_split a4 b4 h
  obtain ⟨_, h⟩ := hash_item_split a5 b5 h
  obtain ⟨_, h⟩ := hash_item_split a6 b6 h
  obtain ⟨_, h⟩ := hash_item_split a7 b7 h
  obtain ⟨_, h⟩ := hash_item_split a8 b8 h
  obtain ⟨_, h⟩ := hash_item_split a9 b9 h
  obtain ⟨_, h⟩ := hash_item_split a10 b10 h
  have h' : i11 ++ [] = j11 ++ [] := by simpa using h
  obtain ⟨e11, _⟩ := hash_item_split a11 b11 h'
  exact ⟨e4, e11⟩

end Goo

namespace Goo

open NumberTheorySymbols

/-! ## The demo run -/

theorem demo_init : goo_group_init smallEnv demoN 2 3 20 = Res.ok demoGroup :=
  Res.eq_ok_of_isOk _ _ (by decide!)

theorem demo_sign :
    goo_group_sign smallEnv demoGroup demoRand 10 demoPrng 0 [] 424242 1 demoC1
      (((1009 : Nat) : Int) * ((1013 : Nat) : Int)) ((1009 : Nat) : Int)
      ((1013 : Nat) : Int) = Res.ok demoSig := by decide!

theorem demo_verify :
    goo_verify smallEnv demoGroup demoPrng demoMsg demoSigBytes demoC1Bytes = Res.ok () := by
  decide!

/-! ## The claims -/

/-- C1 (completeness): take a group initialised from a modulus `N > 1` with
generators `g`, `h` coprime to `N` (any `modbits` hint), an RSA modulus
`n = p * q` with `p`, `q` distinct odd primes, any message, seed and `C1`, any
outcome of the random draws and any state of the generator. Whenever
`goo_group_sign` returns a signature, `goo_group_verify` accepts it, in the
signer's context and in every other context initialised for the same
`(N, g, h)`. The header constants are parameters with `GOO_WINDOW_SIZE ≥ 2`,
`2^(GOO_WINDOW_SIZE - 2) ≤ GOO_TABLEN` and `GOO_ELLDIFF_MAX ≠ 0`. -/
theorem sign_verify_complete (E : Env) (hw : 2 ≤ E.GOO_WINDOW_SIZE)
    (hT : 2 ^ (E.GOO_WINDOW_SIZE - 2) ≤ E.GOO_TABLEN) (hmax : E.GOO_ELLDIFF_MAX ≠ 0)
    (N : Bytes) (g h modbits modbits' : Nat) (G G' : Group)
    (hinit : goo_group_init E N g h modbits = Res.ok G)
    (hinit' : goo_group_init E N g h modbits' = Res.ok G')
    (hN : 1 < goo_mpz_import N)
    (hg : Int.gcd g (goo_mpz_import N) = 1) (hh : Int.gcd h (goo_mpz_import N) = 1)
    (p q : Nat) (hp : p.Prime) (hq : q.Prime) (hpq : p ≠ q) (hp2 : p ≠ 2) (hq2 : q ≠ 2)
    (rnd : RandSrc) (fuel : Nat) (prng prng' : Prng E) (Aq0 : Int) (stack : Bytes)
    (msg s_prime C1 : Int) (sig : Sig)
    (hsign : goo_group_sign E G rnd fuel prng Aq0 stack msg s_prime C1 ((p : Int) * q) p q
      = Res.ok sig) :
    goo_group_verify E G' prng' msg C1 sig = Res.ok () :=
  sign_verify_general E hw hT hmax N g h modbits modbits' G G' hinit hinit' hN hg hh
    p q hp hq hpq hp2 hq2 rnd fuel prng prng' Aq0 stack msg s_prime C1 sig hsign

theorem sign_verify_complete_witness :
    goo_group_sign smallEnv demoGroup demoRand 10 demoPrng 0 [] 424242 1 demoC1
        (((1009 : Nat) : Int) * ((1013 : Nat) : Int)) ((1009 : Nat) : Int)
        ((1013 : Nat) : Int) = Res.ok demoSig
      ∧ goo_group_verify smallEnv demoGroup demoPrng 424242 demoC1 demoSig = Res.ok () :=
  ⟨demo_sign,
    sign_verify_complete smallEnv (by decide) (by decide) (by decide) demoN 2 3 20 20
      demoGroup demoGroup demo_init demo_init (by decide!) (by decide!) (by decide!)
      1009 1013 (by norm_num) (by norm_num) (by decide) (by decide) (by decide)
      demoRand 10 demoPrng demoPrng 0 [] 424242 1 demoC1 demoSig demo_sign⟩

/-- C2 fails as stated: `goo_verify` accepts the demo triple and also the
same signature with a zero byte put in front of the message, or in front of
`C1`, although these byte strings differ from the accepted ones. -/
theorem verify_accepts_padded :
    goo_verify smallEnv demoGroup demoPrng demoMsg demoSigBytes demoC1Bytes = Res.ok ()
      ∧ goo_verify smallEnv demoGroup demoPrng (0 :: demoMsg) demoSigBytes demoC1Bytes
          = Res.ok ()
      ∧ (0 :: demoMsg) ≠ demoMsg
      ∧ goo_verify smallEnv demoGroup demoPrng demoMsg demoSigBytes (0 :: demoC1Bytes)
          = Res.ok ()
      ∧ (0 :: demoC1Bytes) ≠ demoC1Bytes := by
  refine ⟨demo_verify, ?_, by decide, ?_, by decide!⟩
  · rw [goo_verify_zero_msg _ _ _ _ _ _ (by decide)]; exact demo_verify
  · rw [goo_verify_zero_C1 _ _ _ _ _ _ (by decide!)]; exact demo_verify

/-- Two accepting runs of `goo_verify` on the same signature: either the two
messages and the two commitments encode the same integers, or the runs hashed
two different transcripts whose derived challenges both equal the `chal`
field of the signature. -/
theorem verify_binding_of_accept (E : Env) (G : Group) (prng prng2 : Prng E)
    (msg msg2 sig C1 C1b : Bytes)
    (h1 : goo_verify E G prng msg sig C1 = Res.ok ())
    (h2 : goo_verify E G prng2 msg2 sig C1b = Res.ok ()) :
    (goo_mpz_import msg = goo_mpz_import msg2 → goo_mpz_import C1 = goo_mpz_import C1b →
        goo_verify E G prng msg2 sig C1b = goo_verify E G prng msg sig C1)
    ∧ ((goo_mpz_import msg = goo_mpz_import msg2 ∧ goo_mpz_import C1 = goo_mpz_import C1b)
      ∨ ∃ s A B C A' B' C' tr1 tr2, goo_read_sig sig = Res.ok s
          ∧ goo_hash_transcript G (goo_mpz_import C1) s.C2 s.t A B C (verify_D s)
              (goo_mpz_import msg) = Res.ok tr1
          ∧ goo_hash_transcript G (goo_mpz_import C1b) s.C2 s.t A' B' C' (verify_D s)
              (goo_mpz_import msg2) = Res.ok tr2
          ∧ tr1 ≠ tr2
          ∧ transcriptChal E prng tr1 = s.chal ∧ transcriptChal E prng2 tr2 = s.chal) := by
  have l1 : ¬ msg.length > 768 := by
    intro hc; unfold goo_verify at h1; rw [if_pos hc] at h1; cases h1
  have l2 : ¬ msg2.length > 768 := by
    intro hc; unfold goo_verify at h2; rw [if_pos hc] at h2; cases h2
  have l3 : ¬ C1.length > 768 := by
    intro hc; unfold goo_verify at h1; rw [if_neg l1, if_pos hc] at h1; cases h1
  have l4 : ¬ C1b.length > 768 := by
    intro hc; unfold goo_verify at h2; rw [if_neg l2, if_pos hc] at h2; cases h2
  constructor
  · intro e1 e2
    unfold goo_verify
    rw [if_neg l1, if_neg l2, if_neg l3, if_neg l4, e1, e2]
  · by_cases he : goo_mpz_import msg = goo_mpz_import msg2
        ∧ goo_mpz_import C1 = goo_mpz_import C1b
    · exact Or.inl he
    · right
      unfold goo_verify at h1 h2
      rw [if_neg l1, if_neg l3] at h1
      rw [if_neg l2, if_neg l4] at h2
      obtain ⟨s, hs, h1⟩ := Res.bind_eq_ok h1
      obtain ⟨s', hs', h2⟩ := Res.bind_eq_ok h2
      rw [hs] at hs'
      simp only [Res.ok.injEq] at hs'
      subst hs'
      obtain ⟨A, B, C, tr1, t1, c1⟩ := group_verify_ok_transcript E G prng _ _ s h1
      obtain ⟨A', B', C', tr2, t2, c2⟩ := group_verify_ok_transcript E G prng2 _ _ s h2
      refine ⟨s, A, B, C, A', B', C', tr1, tr2, hs, t1, t2, ?_, c1, c2⟩
      intro heq
      rw [← heq] at t2
      obtain ⟨e1, e2⟩ := transcript_inj G t1 t2
      exact he ⟨e2, e1⟩

/-- C3: a signature whose field `t` is not an entry of `goo_primes` (the 168
primes 2, 3, 5, ..., 997) is rejected by `goo_group_verify`, whatever the
group, the message, `C1` and the other fields are: the result does not depend
on any inversion or reconstruction. -/
theorem verify_rejects_bad_t (E : Env) (G : Group) (prng : Prng E) (msg C1 : Int)
    (sig : Sig) (ht : ∀ p ∈ goo_primes, sig.t ≠ (p : Int)) :
    goo_group_verify E G prng msg C1 sig = Res.fail := by
  unfold goo_group_verify
  rw [if_pos]
  intro hc
  rw [List.any_eq_true] at hc
  obtain ⟨p, hp, hd⟩ := hc
  exact ht p hp (by simpa using hd)

theorem verify_rejects_bad_t_witness :
    goo_primes.length = 168
      ∧ goo_group_verify smallEnv demoGroup demoPrng 424242 demoC1 { demoSig with t := 4 }
        = Res.fail :=
  ⟨by decide!, verify_rejects_bad_t smallEnv demoGroup demoPrng 424242 demoC1
    { demoSig with t := 4 } (by decide!)⟩

/-- C4: in a group initialised from the modulus `N`, a call of
`goo_group_verify` in which one of `C1`, `C2`, `Aq`, `Bq`, `Cq` is greater
than `floor(N / 2)` returns false, whatever the hash, the generator and the
other fields are. -/
theorem verify_rejects_unreduced (E : Env) (N : Bytes) (g h modbits : Nat) (G : Group)
    (hinit : goo_group_init E N g h modbits = Res.ok G) (prng : Prng E) (msg C1 : Int)
    (sig : Sig)
    (hbig : goo_mpz_import N / 2 < C1 ∨ goo_mpz_import N / 2 < sig.C2
      ∨ goo_mpz_import N / 2 < sig.Aq ∨ goo_mpz_import N / 2 < sig.Bq
      ∨ goo_mpz_import N / 2 < sig.Cq) :
    goo_group_verify E G prng msg C1 sig = Res.fail := by
  have hnh := group_init_nh hinit
  unfold goo_group_verify
  split
  · rfl
  · rw [if_pos]
    simp only [Bool.and_eq_true, goo_group_is_reduced, decide_eq_true_eq, hnh]
    intro hc
    omega

theorem verify_rejects_unreduced_witness :
    goo_group_verify smallEnv demoGroup demoPrng 424242 (goo_mpz_import demoN - demoC1)
      demoSig = Res.fail :=
  verify_rejects_unreduced smallEnv demoN 2 3 20 demoGroup demo_init demoPrng 424242
    (goo_mpz_import demoN - demoC1) demoSig (Or.inl (by decide!))

/-- When the small-prime check and the reducedness check pass, `inv5` returns
the five inverses, the three reconstructions return `A`, `B`, `C`, and the
verifier-path Fiat-Shamir derivation returns `(chal_out, ell_r_out)`, then
`goo_group_verify` returns true if and only if `chal = chal_out`,
`0 ≤ ell - ell_r_out ≤ GOO_ELLDIFF_MAX` and `ell` passes the primality test,
and it returns false otherwise. -/
theorem verify_decision_of_fs (E : Env) (G : Group) (prng : Prng E) (msg C1 : Int) (sig : Sig)
    (C1_inv C2_inv Aq_inv Bq_inv Cq_inv A B C : Int) (o : Bool × Int × Int × Prng E)
    (ht : ∃ p ∈ goo_primes, sig.t = (p : Int))
    (hred : C1 ≤ G.nh ∧ sig.C2 ≤ G.nh ∧ sig.Aq ≤ G.nh ∧ sig.Bq ≤ G.nh ∧ sig.Cq ≤ G.nh)
    (hinv : goo_group_inv5 G C1 sig.C2 sig.Aq sig.Bq sig.Cq
      = Res.ok (C1_inv, C2_inv, Aq_inv, Bq_inv, Cq_inv))
    (hA : goo_group_recon E G sig.Aq Aq_inv sig.ell C2_inv sig.C2 sig.chal sig.z_w sig.z_s1
      = Res.ok A)
    (hB : goo_group_recon E G sig.Bq Bq_inv sig.ell C2_inv sig.C2 sig.z_w sig.z_w2 sig.z_s1w
      = Res.ok B)
    (hC : goo_group_recon E G sig.Cq Cq_inv sig.ell C1_inv C1 sig.z_a sig.z_an sig.z_sa
      = Res.ok C)
    (hfs : goo_group_fs_chal E G prng C1 sig.C2 sig.t A B C (verify_D sig) msg true
      = Res.ok o) :
    (goo_group_verify E G prng msg C1 sig = Res.ok () ↔
      (sig.chal = o.2.1 ∧ 0 ≤ sig.ell - o.2.2.1 ∧ sig.ell - o.2.2.1 ≤ E.GOO_ELLDIFF_MAX
        ∧ goo_is_prime E sig.ell = true))
    ∧ (¬ (sig.chal = o.2.1 ∧ 0 ≤ sig.ell - o.2.2.1 ∧ sig.ell - o.2.2.1 ≤ E.GOO_ELLDIFF_MAX
        ∧ goo_is_prime E sig.ell = true) →
      goo_group_verify E G prng msg C1 sig = Res.fail) := by
  have hv : goo_group_verify E G prng msg C1 sig
      = if sig.chal ≠ o.2.1 ∨ sig.ell - o.2.2.1 < 0 ∨ sig.ell - o.2.2.1 > E.GOO_ELLDIFF_MAX
          ∨ goo_is_prime E sig.ell = false then Res.fail else Res.ok () := by
    unfold goo_group_verify
    rw [if_neg (by rw [primes_any_of_mem ht]; simp),
      if_neg (by simp [goo_group_is_reduced, hred]), hinv]
    simp only [Res.bind_ok]
    rw [hA]
    simp only [Res.bind_ok]
    rw [hB]
    simp only [Res.bind_ok]
    rw [hC]
    simp only [Res.bind_ok]
    rw [hfs]
  rw [hv]
  constructor
  · constructor
    · intro h
      split at h
      · cases h
      · rename_i hc
        push_neg at hc
        exact ⟨hc.1, hc.2.1, hc.2.2.1, by simpa using hc.2.2.2⟩
    · rintro ⟨a1, a2, a3, a4⟩
      rw [if_neg]
      push_neg
      exact ⟨a1, a2, a3, by simp [a4]⟩
  · intro hn
    rw [if_pos]
    by_contra hc
    push_neg at hc
    exact hn ⟨hc.1, hc.2.1, hc.2.2.1, by simpa using hc.2.2.2⟩

/-- C6: in a group initialised by `goo_group_init` (which builds the comb
tables with `goo_comb_init`) for a modulus `N > 1`, and for non-negative
exponents whose larger bit length is at most the capacity of the small comb
pair, or of the big pair when it exists, `goo_group_powgh` returns
`g^e1 * h^e2 mod N`, which is the product of the two `mpz_powm` powers; in
particular `powgh(0, 0) = 1`. When the larger bit length exceeds the small
capacity and the big pair does not exist or is also exceeded, it fails. The
capacity `bits` of a pair is `bits_per_window * points_per_add`. -/
theorem powgh_correct (E : Env) (N : Bytes) (g h modbits : Nat) (G : Group)
    (hinit : goo_group_init E N g h modbits = Res.ok G) (hN : 1 < goo_mpz_import N)
    (e1 e2 : Int) :
    (0 ≤ e1 → 0 ≤ e2 →
      (max (goo_mpz_bitlen e1) (goo_mpz_bitlen e2) ≤ G.g_comb1.bits
        ∨ (G.g_comb2.exists = true
          ∧ max (goo_mpz_bitlen e1) (goo_mpz_bitlen e2) ≤ G.g_comb2.bits)) →
      goo_group_powgh G e1 e2
          = Res.ok ((g : Int) ^ e1.toNat * (h : Int) ^ e2.toNat % goo_mpz_import N)
        ∧ (g : Int) ^ e1.toNat * (h : Int) ^ e2.toNat % goo_mpz_import N
          = goo_group_mul (goo_mpz_import N) (mpz_powm g e1 (goo_mpz_import N))
              (mpz_powm h e2 (goo_mpz_import N)))
    ∧ (G.g_comb1.bits < max (goo_mpz_bitlen e1) (goo_mpz_bitlen e2) →
        (G.g_comb2.exists = false
          ∨ G.g_comb2.bits < max (goo_mpz_bitlen e1) (goo_mpz_bitlen e2)) →
        goo_group_powgh G e1 e2 = Res.fail)
    ∧ goo_group_powgh G 0 0 = Res.ok 1
    ∧ G.g_comb1.bits = G.g_comb1.bits_per_window * G.g_comb1.points_per_add
    ∧ (G.g_comb2.exists = true →
        G.g_comb2.bits = G.g_comb2.bits_per_window * G.g_comb2.points_per_add) := by
  have hn := group_init_n hinit
  obtain ⟨hG, gg, gh, _, _, _, _⟩ := group_init_good hinit (by rw [hn]; exact hN)
  refine ⟨?_, ?_, ?_, ?_, ?_⟩
  · intro h1 h2 hcap
    rw [powgh_spec G _ hG e1 e2 h1 h2 hcap, gg, gh, hn]
    refine ⟨rfl, ?_⟩
    unfold goo_group_mul
    rw [mpz_powm_of_nonneg _ _ h1, mpz_powm_of_nonneg _ _ h2, ← Int.mul_emod]
  · intro h1 h2
    exact powgh_fail G e1 e2 h1 h2
  · rw [powgh_spec G _ hG 0 0 le_rfl le_rfl (Or.inl (by simp [bitlen_zero])), hn]
    simp only [Int.toNat_zero, pow_zero, one_mul]
    rw [Int.emod_eq_of_lt (by norm_num) hN]
  · exact hG.2.2.1.2.2.2.2.2.1
  · intro hx
    exact (hG.2.2.2.2.2 hx).1.2.2.2.2.2.1

theorem powgh_correct_witness :
    goo_group_powgh demoGroup 5 7
        = Res.ok (((2 : Nat) : Int) ^ (5 : Int).toNat * ((3 : Nat) : Int) ^ (7 : Int).toNat
            % goo_mpz_import demoN)
      ∧ ((2 : Nat) : Int) ^ (5 : Int).toNat * ((3 : Nat) : Int) ^ (7 : Int).toNat
          % goo_mpz_import demoN
        = goo_group_mul (goo_mpz_import demoN) (mpz_powm ((2 : Nat) : Int) 5 (goo_mpz_import demoN))
            (mpz_powm ((3 : Nat) : Int) 7 (goo_mpz_import demoN)) :=
  (powgh_correct smallEnv demoN 2 3 20 demoGroup demo_init (by decide!) 5 7).1
    (by decide) (by decide) (Or.inl (by decide!))

/-- C7: for `N > 1` and all `b1`, `b2` with `b1 * b1_inv ≡ 1` and
`b2 * b2_inv ≡ 1 (mod N)` and all integers `e1`, `e2` (positive, zero or
negative), `goo_group_pow2` returns `b1^e1 * b2^e2 mod N`, where a negative
exponent means the corresponding power of the supplied inverse. The header
constants are parameters with `GOO_WINDOW_SIZE ≥ 2` and
`2^(GOO_WINDOW_SIZE - 2) ≤ GOO_TABLEN`. -/
theorem pow2_correct (E : Env) (G : Group) (hN : 1 < G.n)
    (hw : 2 ≤ E.GOO_WINDOW_SIZE) (hT : 2 ^ (E.GOO_WINDOW_SIZE - 2) ≤ E.GOO_TABLEN)
    (b1 b1_inv e1 b2 b2_inv e2 : Int)
    (h1 : b1 * b1_inv % G.n = 1) (h2 : b2 * b2_inv % G.n = 1) :
    goo_group_pow2 E G b1 b1_inv e1 b2 b2_inv e2
      = Res.ok (signedPow b1 b1_inv e1 * signedPow b2 b2_inv e2 % G.n) :=
  pow2_spec E G hN hw hT b1 b1_inv e1 b2 b2_inv e2 h1 h2

theorem pow2_correct_witness :
    goo_group_pow2 demoEnv { Group.zero with n := 35 } 2 18 (-3) 3 12 5
      = Res.ok (signedPow 2 18 (-3) * signedPow 3 12 5 % 35) :=
  pow2_correct demoEnv { Group.zero with n := 35 } (by decide) (by decide) (by decide)
    2 18 (-3) 3 12 5 (by decide) (by decide)

/-- C8: for `N > 1` and all integers `b1..b5`, `goo_group_inv5` succeeds if
and only if every `b_i` is coprime to `N`, and on success each output `r_i`
is what a separate `goo_group_inv` call returns for `b_i`, the inverse of
`b_i` in `[0, N)`; likewise `goo_group_inv2` succeeds if and only if `b1` and
`b2` are coprime to `N` and then returns their inverses. A run that does not
succeed returns failure. -/
theorem inv_batched_correct (G : Group) (hN : 1 < G.n) (b1 b2 b3 b4 b5 : Int) :
    ((∃ r, goo_group_inv5 G b1 b2 b3 b4 b5 = Res.ok r) ↔
      (Int.gcd b1 G.n = 1 ∧ Int.gcd b2 G.n = 1 ∧ Int.gcd b3 G.n = 1 ∧ Int.gcd b4 G.n = 1
        ∧ Int.gcd b5 G.n = 1))
    ∧ (∀ r1 r2 r3 r4 r5, goo_group_inv5 G b1 b2 b3 b4 b5 = Res.ok (r1, r2, r3, r4, r5) →
        goo_group_inv G.n b1 = Res.ok r1 ∧ goo_group_inv G.n b2 = Res.ok r2
        ∧ goo_group_inv G.n b3 = Res.ok r3 ∧ goo_group_inv G.n b4 = Res.ok r4
        ∧ goo_group_inv G.n b5 = Res.ok r5
        ∧ (0 ≤ r1 ∧ r1 < G.n ∧ b1 * r1 % G.n = 1)
        ∧ (0 ≤ r2 ∧ r2 < G.n ∧ b2 * r2 % G.n = 1)
        ∧ (0 ≤ r3 ∧ r3 < G.n ∧ b3 * r3 % G.n = 1)
        ∧ (0 ≤ r4 ∧ r4 < G.n ∧ b4 * r4 % G.n = 1)
        ∧ (0 ≤ r5 ∧ r5 < G.n ∧ b5 * r5 % G.n = 1))
    ∧ ((∀ r, goo_group_inv5 G b1 b2 b3 b4 b5 ≠ Res.ok r) →
        goo_group_inv5 G b1 b2 b3 b4 b5 = Res.fail)
    ∧ ((∃ r, goo_group_inv2 G b1 b2 = Res.ok r) ↔
        (Int.gcd b1 G.n = 1 ∧ Int.gcd b2 G.n = 1))
    ∧ (∀ r1 r2, goo_group_inv2 G b1 b2 = Res.ok (r1, r2) →
        goo_group_inv G.n b1 = Res.ok r1 ∧ goo_group_inv G.n b2 = Res.ok r2
        ∧ (0 ≤ r1 ∧ r1 < G.n ∧ b1 * r1 % G.n = 1)
        ∧ (0 ≤ r2 ∧ r2 < G.n ∧ b2 * r2 % G.n = 1))
    ∧ ((∀ r, goo_group_inv2 G b1 b2 ≠ Res.ok r) → goo_group_inv2 G b1 b2 = Res.fail) := by
  obtain ⟨s5, f5⟩ := inv5_spec G hN b1 b2 b3 b4 b5
  obtain ⟨s2, f2⟩ := inv2_spec G hN b1 b2
  refine ⟨⟨?_, ?_⟩, ?_, ?_, ⟨?_, ?_⟩, ?_, ?_⟩
  · rintro ⟨r, hr⟩
    by_contra hc
    rw [f5 hc] at hr
    cases hr
  · intro hc
    obtain ⟨r1, r2, r3, r4, r5, h, _⟩ := s5 hc
    exact ⟨_, h⟩
  · intro r1 r2 r3 r4 r5 hr
    by_cases hc : Int.gcd b1 G.n = 1 ∧ Int.gcd b2 G.n = 1 ∧ Int.gcd b3 G.n = 1
        ∧ Int.gcd b4 G.n = 1 ∧ Int.gcd b5 G.n = 1
    · obtain ⟨q1, q2, q3, q4, q5, h, rest⟩ := s5 hc
      rw [h] at hr
      simp only [Res.ok.injEq, Prod.mk.injEq] at hr
      obtain ⟨rfl, rfl, rfl, rfl, rfl⟩ := hr
      exact rest
    · rw [f5 hc] at hr
      cases hr
  · intro hno
    by_cases hc : Int.gcd b1 G.n = 1 ∧ Int.gcd b2 G.n = 1 ∧ Int.gcd b3 G.n = 1
        ∧ Int.gcd b4 G.n = 1 ∧ Int.gcd b5 G.n = 1
    · obtain ⟨q1, q2, q3, q4, q5, h, _⟩ := s5 hc
      exact absurd h (hno _)
    · exact f5 hc
  · rintro ⟨r, hr⟩
    by_contra hc
    rw [f2 hc] at hr
    cases hr
  · intro hc
    obtain ⟨r1, r2, h, _⟩ := s2 hc
    exact ⟨_, h⟩
  · intro r1 r2 hr
    by_cases hc : Int.gcd b1 G.n = 1 ∧ Int.gcd b2 G.n = 1
    · obtain ⟨q1, q2, h, rest⟩ := s2 hc
      rw [h] at hr
      simp only [Res.ok.injEq, Prod.mk.injEq] at hr
      obtain ⟨rfl, rfl⟩ := hr
      exact rest
    · rw [f2 hc] at hr
      cases hr
  · intro hno
    by_cases hc : Int.gcd b1 G.n = 1 ∧ Int.gcd b2 G.n = 1
    · obtain ⟨q1, q2, h, _⟩ := s2 hc
      exact absurd h (hno _)
    · exact f2 hc

theorem inv_batched_correct_witness :
    (∃ r, goo_group_inv5 { Group.zero with n := 35 } 2 3 4 6 8 = Res.ok r)
      ∧ goo_group_inv5 { Group.zero with n := 35 } 2 3 4 6 8 = Res.ok (18, 12, 9, 6, 22) :=
  ⟨(inv_batched_correct { Group.zero with n := 35 } (by decide) 2 3 4 6 8).1.mpr
    (by decide), by decide⟩

/-- C9: for every odd prime `p` and every integer `n`: if `n mod p = 0`,
`goo_mod_sqrtp` succeeds with result 0; if `n` is a non-zero quadratic residue
modulo `p`, it succeeds with a result `r` in `[0, p)` such that
`r^2 ≡ n (mod p)`; and if the Jacobi symbol of `n` over `p` is `-1`, it
returns failure. -/
theorem mod_sqrtp_correct (p : Nat) (hp : p.Prime) (hp2 : p ≠ 2) (n : Int) :
    (n % p = 0 → goo_mod_sqrtp n p = Res.ok 0)
    ∧ (n % p ≠ 0 → HasSqrtMod n p →
        ∃ r, goo_mod_sqrtp n p = Res.ok r ∧ 0 ≤ r ∧ r < p ∧ r * r % p = n % p)
    ∧ (J(n | p) = -1 → goo_mod_sqrtp n p = Res.fail) := by
  haveI : Fact p.Prime := ⟨hp⟩
  obtain ⟨h1, h2, h3⟩ := mod_sqrtp_spec p hp2 n
  exact ⟨h1, fun hn hs => h3 hn ((hasSqrtMod_iff_jacobi n p).mp hs), h2⟩

theorem mod_sqrtp_correct_witness :
    ∃ r, goo_mod_sqrtp 10 ((13 : Nat) : Int) = Res.ok r ∧ 0 ≤ r ∧ r < ((13 : Nat) : Int)
      ∧ r * r % ((13 : Nat) : Int) = 10 % ((13 : Nat) : Int) :=
  (mod_sqrtp_correct 13 (by norm_num) (by decide) 10).2.1 (by decide) ⟨6, by decide⟩

/-- C10: for all distinct odd primes `p`, `q` and every integer `t` that has
a square root modulo `p` and modulo `q`, `goo_mod_sqrtn` succeeds with a
result `w` in `[0, p*q)` such that `w^2 ≡ t (mod p*q)`; if `t` has no square
root modulo `p` or modulo `q`, it returns failure. -/
theorem mod_sqrtn_correct (p q : Nat) (hp : p.Prime) (hq : q.Prime) (hp2 : p ≠ 2)
    (hq2 : q ≠ 2) (hpq : p ≠ q) (t : Int) :
    (HasSqrtMod t p → HasSqrtMod t q →
      ∃ w, goo_mod_sqrtn t p q = Res.ok w ∧ 0 ≤ w ∧ w < (p : Int) * q
        ∧ w * w % ((p : Int) * q) = t % ((p : Int) * q))
    ∧ ((¬ HasSqrtMod t p ∨ ¬ HasSqrtMod t q) → goo_mod_sqrtn t p q = Res.fail) := by
  haveI : Fact p.Prime := ⟨hp⟩
  haveI : Fact q.Prime := ⟨hq⟩
  obtain ⟨h1, h2⟩ := mod_sqrtn_spec p q hp2 hq2 hpq t
  refine ⟨fun a b => h1 ⟨a, b⟩, fun hn => h2 ?_⟩
  rintro ⟨a, b⟩
  rcases hn with hn | hn
  · exact hn a
  · exact hn b

theorem mod_sqrtn_correct_witness :
    ∃ w, goo_mod_sqrtn 2 ((7 : Nat) : Int) ((17 : Nat) : Int) = Res.ok w ∧ 0 ≤ w
      ∧ w < ((7 : Nat) : Int) * ((17 : Nat) : Int)
      ∧ w * w % (((7 : Nat) : Int) * ((17 : Nat) : Int))
        = 2 % (((7 : Nat) : Int) * ((17 : Nat) : Int)) :=
  (mod_sqrtn_correct 7 17 (by norm_num) (by norm_num) (by decide) (by decide) (by decide)
    2).1 ⟨3, by decide⟩ ⟨6, by decide⟩

end Goo

namespace Goo

/-! ## The signature wire format -/

theorem Res.bind_assoc {α β γ : Type} (x : Res α) (f : α → Res β) (g : β → Res γ) :
    (x.bind f).bind g = x.bind (fun a => (f a).bind g) := by
  cases x <;> rfl

theorem u16_le (b0 b1 : UInt8) :
    Nat.lor (b1.toNat * 0x100) b0.toNat = b0.toNat + 256 * b1.toNat := by
  have h0 : b0.toNat < 2 ^ 8 := b0.toNat_lt
  have := Nat.mul_add_lt_is_or h0 b1.toNat
  show b1.toNat * 0x100 ||| b0.toNat = _
  rw [show b1.toNat * 0x100 = 2 ^ 8 * b1.toNat by ring, ← this]
  ring

/-- One `goo_read_item` in terms of the bytes left at its offset. -/
theorem read_item_cons (sig : Bytes) (pos : Nat) (b0 b1 : UInt8) (rest : Bytes)
    (hd : sig.drop pos = b0 :: b1 :: rest) :
    goo_read_item sig pos
        = (if b0.toNat + 256 * b1.toNat > 768 then Res.fail
           else if rest.length < b0.toNat + 256 * b1.toNat then Res.fail
           else Res.ok (goo_mpz_import (rest.take (b0.toNat + 256 * b1.toNat)),
             pos + 2 + (b0.toNat + 256 * b1.toNat)))
      ∧ sig.drop (pos + 2 + (b0.toNat + 256 * b1.toNat))
          = rest.drop (b0.toNat + 256 * b1.toNat)
      ∧ sig.length = pos + 2 + rest.length := by
  have hlen : sig.length = pos + 2 + rest.length := by
    have := congrArg List.length hd
    simp only [List.length_drop, List.length_cons] at this
    omega
  have g0 : sig.getD pos 0 = b0 := by
    rw [List.getD_eq_getElem?_getD]
    have := List.getElem?_drop sig pos 0
    rw [hd] at this
    simp only [add_zero] at this
    rw [← this]; rfl
  have g1 : sig.getD (pos + 1) 0 = b1 := by
    rw [List.getD_eq_getElem?_getD]
    have := List.getElem?_drop sig pos 1
    rw [hd] at this
    rw [← this]; simp
  have d2 : sig.drop (pos + 2) = rest := by
    have := List.drop_drop 2 pos sig
    rw [hd] at this
    rw [← this]; rfl
  refine ⟨?_, ?_, hlen⟩
  · unfold goo_read_item
    rw [if_neg (by omega)]
    simp only [g0, g1, u16_le, d2]
    by_cases h1 : b0.toNat + 256 * b1.toNat > 768
    · rw [if_pos h1, if_pos h1]
    · rw [if_neg h1, if_neg h1]
      by_cases h2 : rest.length < b0.toNat + 256 * b1.toNat
      · rw [if_pos h2, if_pos (by omega)]
      · rw [if_neg h2, if_neg (by omega)]
  · rw [show pos + 2 + (b0.toNat + 256 * b1.toNat)
        = (pos + 2) + (b0.toNat + 256 * b1.toNat) by ring, ← List.drop_drop, d2]

theorem read_item_short (sig : Bytes) (pos : Nat) (hd : (sig.drop pos).length < 2) :
    goo_read_item sig pos = Res.fail := by
  unfold goo_read_item
  rw [if_pos]
  simp only [List.length_drop] at hd
  omega

/-- The loop of reads agrees with the wire format of the spec. -/
theorem wire_items_eq (sig : Bytes) : ∀ (k pos : Nat), pos ≤ sig.length →
    specWireItems k (sig.drop pos)
      = (match readItemsFrom sig k pos with
         | .ok (xs, p) => if p = sig.length then some xs else none
         | _ => none) := by
  intro k
  induction k with
  | zero =>
    intro pos hpos
    simp only [readItemsFrom]
    by_cases h : pos = sig.length
    · rw [if_pos h, h, List.drop_length]; rfl
    · rw [if_neg h]
      cases hd : sig.drop pos with
      | nil =>
        have := congrArg List.length hd
        simp only [List.length_drop, List.length_nil] at this
        omega
      | cons a l => rfl
  | succ k ih =>
    intro pos hpos
    cases hd : sig.drop pos with
    | nil =>
      rw [readItemsFrom, read_item_short sig pos (by rw [hd]; simp)]
      rfl
    | cons b0 l =>
      cases l with
      | nil =>
        rw [readItemsFrom, read_item_short sig pos (by rw [hd]; simp)]
        rfl
      | cons b1 rest =>
        obtain ⟨hr, hdrop, hlen⟩ := read_item_cons sig pos b0 b1 rest hd
        rw [readItemsFrom, hr]
        simp only [specWireItems]
        by_cases h1 : b0.toNat + 256 * b1.toNat > 768
        · rw [if_pos h1, if_pos h1]; rfl
        · rw [if_neg h1, if_neg h1]
          by_cases h2 : rest.length < b0.toNat + 256 * b1.toNat
          · rw [if_pos h2, if_pos h2]; rfl
          · rw [if_neg h2, if_neg h2, ← hdrop, ih _ (by omega)]
            simp only [Res.bind_ok]
            cases readItemsFrom sig k (pos + 2 + (b0.toNat + 256 * b1.toNat)) with
            | ok r =>
              simp only [Res.bind_ok]
              split <;> rfl
            | fail => rfl
            | abort => rfl
            | hang => rfl

/-- The fifteen nested reads of `goo_read_sig` are the loop of fifteen reads. -/
theorem read_sig_loop (sig : Bytes) :
    goo_read_sig sig = (readItemsFrom sig 15 0).bind (fun r =>
      if r.2 ≠ sig.length then Res.fail
      else match specSig r.1 with
        | some s => Res.ok s
        | none => Res.fail) := by
  unfold goo_read_sig
  simp only [readItemsFrom, Res.bind_assoc, Res.bind_ok, specSig]

theorem read_item_ok_or_fail (sig : Bytes) (pos : Nat) :
    goo_read_item sig pos = Res.fail ∨ ∃ x, goo_read_item sig pos = Res.ok x := by
  unfold goo_read_item
  split
  · exact Or.inl rfl
  · dsimp only
    split
    · exact Or.inl rfl
    · split
      · exact Or.inl rfl
      · exact Or.inr ⟨_, rfl⟩

theorem readItems_ok_or_fail (sig : Bytes) : ∀ (k pos : Nat),
    readItemsFrom sig k pos = Res.fail ∨ ∃ x, readItemsFrom sig k pos = Res.ok x := by
  intro k
  induction k with
  | zero => intro pos; exact Or.inr ⟨_, rfl⟩
  | succ k ih =>
    intro pos
    rw [readItemsFrom]
    rcases read_item_ok_or_fail sig pos with h | ⟨x, h⟩
    · rw [h]; exact Or.inl rfl
    · rw [h]
      simp only [Res.bind_ok]
      rcases ih x.2 with h2 | ⟨y, h2⟩
      · rw [h2]; exact Or.inl rfl
      · rw [h2]; exact Or.inr ⟨_, rfl⟩

/-- The reader of `goo_verify` accepts exactly the byte strings of the wire
format, with the items in the order of the struct. -/
theorem read_sig_spec (sig : Bytes) :
    goo_read_sig sig
      = (match (specWireItems 15 sig).bind specSig with
         | some s => Res.ok s
         | none => Res.fail) := by
  have h := wire_items_eq sig 15 0 (Nat.zero_le _)
  rw [List.drop_zero] at h
  rw [read_sig_loop, h]
  rcases readItems_ok_or_fail sig 15 0 with hr | ⟨r, hr⟩
  · rw [hr]; rfl
  · rw [hr]
    rcases r with ⟨xs, p⟩
    simp only [Res.bind_ok]
    by_cases hp : p = sig.length
    · rw [if_neg (by simpa using hp), if_pos hp]
      simp only [Option.bind]
    · rw [if_pos hp, if_neg hp]; rfl

end Goo

namespace Goo

/-! ## The transcript format -/

theorem natToBytes_eq_spec : ∀ (k m fuel : Nat), m ≤ fuel → m < 256 ^ k →
    (k = 0 ∨ 256 ^ (k - 1) ≤ m) → natToBytes k m = specMagnitudeNat fuel m := by
  intro k
  induction k with
  | zero =>
    intro m fuel _ hlt _
    have hm : m = 0 := by simpa using hlt
    subst hm
    cases fuel <;> simp [natToBytes, specMagnitudeNat]
  | succ k ih =>
    intro m fuel hf hlt hge
    have hpos : 256 ^ k ≤ m := by
      rcases hge with h | h
      · omega
      · simpa using h
    have hm0 : m ≠ 0 := by
      have : 0 < 256 ^ k := by positivity
      omega
    cases fuel with
    | zero => omega
    | succ fuel =>
      rw [natToBytes, specMagnitudeNat, if_neg hm0]
      congr 1
      apply ih
      · omega
      · rw [Nat.div_lt_iff_lt_mul (by norm_num)]
        rw [pow_succ] at hlt
        exact hlt
      · rcases Nat.eq_zero_or_pos k with hk | hk
        · exact Or.inl hk
        · right
          rw [Nat.le_div_iff_mul_le (by norm_num)]
          have : 256 ^ (k - 1) * 256 = 256 ^ k := by
            rw [← pow_succ]; congr 1; omega
          rw [this]; exact hpos

theorem bytesize_le_iff (n : Int) (k : Nat) :
    goo_mpz_bytesize n ≤ k ↔ n.natAbs < 256 ^ k := by
  unfold goo_mpz_bytesize
  rw [show (256 : Nat) = 2 ^ 8 by norm_num, ← pow_mul, ← bitlen_le_iff]
  omega

/-- What `goo_mpz_export` writes is the big-endian magnitude without leading
zero bytes. -/
theorem export_eq_spec (n : Int) : goo_mpz_export n = specMagnitude n := by
  unfold goo_mpz_export specMagnitude
  apply natToBytes_eq_spec _ _ _ le_rfl
  · exact (bytesize_le_iff n _).mp le_rfl
  · by_cases h : goo_mpz_bytesize n = 0
    · exact Or.inl h
    · right
      by_contra hc
      push_neg at hc
      have := (bytesize_le_iff n (goo_mpz_bytesize n - 1)).mpr hc
      omega

theorem export_length (n : Int) : (goo_mpz_export n).length = goo_mpz_bytesize n := by
  unfold goo_mpz_export
  exact natToBytes_length _ _

/-- An item of the hashed transcript has the format of the spec. -/
theorem hash_item_spec (n : Int) (h : n.natAbs < 256 ^ 768) :
    goo_hash_item n = Res.ok (specItem n) := by
  have hlen : (goo_mpz_export n).length ≤ 768 := by
    rw [export_length]; exact (bytesize_le_iff n 768).mpr h
  unfold goo_hash_item specItem
  dsimp only
  rw [← export_eq_spec]
  have ha : assertC (decide ((goo_mpz_export n).length ≤ 768)) = Res.ok () := by
    simp [assertC, hlen]
  rw [ha]
  simp only [Res.bind_ok]
  congr 2
  by_cases hneg : n < 0
  · simp only [hneg, if_true]
    rw [lor_flag _ hlen]
    congr 2
    have : (List.length (goo_mpz_export n) + 0x8000) / 256 < 256 := by omega
    rw [Nat.mod_eq_of_lt this]
  · simp only [hneg, if_false, add_zero]
    congr 2
    have : (List.length (goo_mpz_export n)) / 256 < 256 := by omega
    rw [Nat.mod_eq_of_lt this]

theorem prefix_ascii :
    ("libGooPy:".toList.map (fun c => UInt8.ofNat c.toNat)) = goo_prefix := by decide

/-- The byte string `goo_hash_all` hashes, for items of at most 768 bytes. -/
theorem hash_transcript_spec (G : Group) (C1 C2 t A B C D msg : Int)
    (hN : G.n.natAbs < 256 ^ 768) (hg : G.g.natAbs < 256 ^ 768)
    (hh : G.h.natAbs < 256 ^ 768) (h1 : C1.natAbs < 256 ^ 768)
    (h2 : C2.natAbs < 256 ^ 768) (h3 : t.natAbs < 256 ^ 768) (h4 : A.natAbs < 256 ^ 768)
    (h5 : B.natAbs < 256 ^ 768) (h6 : C.natAbs < 256 ^ 768) (h7 : D.natAbs < 256 ^ 768)
    (h8 : msg.natAbs < 256 ^ 768) :
    goo_hash_transcript G C1 C2 t A B C D msg
      = Res.ok (specTranscript G.n G.g G.h C1 C2 t A B C D msg) := by
  unfold goo_hash_transcript specTranscript
  rw [hash_item_spec _ hN, hash_item_spec _ hg, hash_item_spec _ hh, hash_item_spec _ h1,
    hash_item_spec _ h2, hash_item_spec _ h3, hash_item_spec _ h4, hash_item_spec _ h5,
    hash_item_spec _ h6, hash_item_spec _ h7, hash_item_spec _ h8]
  simp only [Res.bind_ok, prefix_ascii]

end Goo

namespace Goo

/-! ## The bit generator -/

theorem import_lt (b : Bytes) : goo_mpz_import b < (256 : Int) ^ b.length := by
  unfold goo_mpz_import
  have key : ∀ (l : Bytes) (acc : Nat),
      l.foldl (fun acc b => acc * 256 + b.toNat) acc < (acc + 1) * 256 ^ l.length := by
    intro l
    induction l with
    | nil => intro acc; simp
    | cons x l ih =>
      intro acc
      simp only [List.foldl_cons, List.length_cons]
      have hx : x.toNat < 256 := x.toNat_lt
      calc List.foldl (fun acc b => acc * 256 + b.toNat) (acc * 256 + x.toNat) l
          < (acc * 256 + x.toNat + 1) * 256 ^ l.length := ih _
        _ ≤ ((acc + 1) * 256) * 256 ^ l.length :=
            Nat.mul_le_mul_right _ (by omega)
        _ = (acc + 1) * 256 ^ (l.length + 1) := by ring
  have := key b 0
  simp only [zero_add, one_mul] at this
  show ((List.foldl (fun acc b => acc * 256 + b.toNat) 0 b : Nat) : Int) < _
  exact_mod_cast this

theorem nextrand_lt (E : Env) (prng : Prng E) :
    goo_mpz_import (goo_prng_nextrand E prng).1 < 2 ^ 256 := by
  have h := import_lt (goo_prng_nextrand E prng).1
  have hl : (goo_prng_nextrand E prng).1.length ≤ 32 := by
    unfold goo_prng_nextrand
    simp only [List.length_take]
    omega
  have : (256 : Int) ^ (goo_prng_nextrand E prng).1.length ≤ 2 ^ 256 := by
    rw [show (256 : Int) = 2 ^ 8 by norm_num, ← pow_mul]
    exact pow_le_pow_right₀ (by norm_num) (by omega)
  omega

theorem int_lor_lt {a b : Int} {k : Nat} (ha : 0 ≤ a) (hb : 0 ≤ b) (ha' : a < 2 ^ k)
    (hb' : b < 2 ^ k) : Int.lor a b < 2 ^ k := by
  lift a to Nat using ha
  lift b to Nat using hb
  have h1 : a < 2 ^ k := by exact_mod_cast ha'
  have h2 : b < 2 ^ k := by exact_mod_cast hb'
  have := Nat.or_lt_two_pow h1 h2
  show ((a ||| b : Nat) : Int) < 2 ^ k
  exact_mod_cast this

theorem int_land_mask {a : Int} (ha : 0 ≤ a) (k : Nat) :
    Int.land a (2 ^ k - 1) = a % 2 ^ k := by
  lift a to Nat using ha
  have h1 : (2 : Int) ^ k - 1 = ((2 ^ k - 1 : Nat) : Int) := by
    have : 1 ≤ 2 ^ k := Nat.one_le_two_pow
    push_cast [Nat.cast_sub this]
    ring
  rw [h1]
  show ((a &&& (2 ^ k - 1) : Nat) : Int) = _
  rw [Nat.and_pow_two_sub_one_eq_mod]
  push_cast
  rfl

/-- The loop of `goo_prng_getrandbits`: it absorbs `k` blocks, the fewest
that bring the counter to `nbits`, and the value stays below `2^b`. -/
theorem getrandbitsLoop_spec (E : Env) (nbits : Nat) : ∀ (fuel : Nat) (prng : Prng E)
    (r : Int) (b : Nat), 0 ≤ r → r < 2 ^ b → nbits ≤ b + 256 * fuel →
    ∃ k, (getrandbitsLoop E nbits fuel prng r b).2.2 = b + 256 * k
      ∧ (getrandbitsLoop E nbits fuel prng r b).2.1 = absorb r (drbgBlocks E k prng)
      ∧ 0 ≤ (getrandbitsLoop E nbits fuel prng r b).2.1
      ∧ (getrandbitsLoop E nbits fuel prng r b).2.1 < 2 ^ (b + 256 * k)
      ∧ nbits ≤ b + 256 * k
      ∧ (k = 0 ∨ b + 256 * (k - 1) < nbits) := by
  intro fuel
  induction fuel with
  | zero =>
    intro prng r b h0 h1 hf
    exact ⟨0, rfl, rfl, h0, by simpa using h1, by omega, Or.inl rfl⟩
  | succ fuel ih =>
    intro prng r b h0 h1 hf
    unfold getrandbitsLoop
    by_cases hb : b < nbits
    · rw [if_pos hb]
      dsimp only
      have hblk := nextrand_lt E prng
      have hblk0 := goo_mpz_import_nonneg (goo_prng_nextrand E prng).1
      have hr0 : 0 ≤ r * 2 ^ 256 := mul_nonneg h0 (by positivity)
      have hr1 : r * 2 ^ 256 < 2 ^ (b + 256) := by
        rw [pow_add]
        exact mul_lt_mul_of_pos_right h1 (by positivity)
      have hb2 : goo_mpz_import (goo_prng_nextrand E prng).1 < 2 ^ (b + 256) :=
        lt_of_lt_of_le hblk (pow_le_pow_right₀ (by norm_num) (by omega))
      obtain ⟨k, e1, e2, e3, e4, e5, e6⟩ := ih (goo_prng_nextrand E prng).2
        (Int.lor (r * 2 ^ 256) (goo_mpz_import (goo_prng_nextrand E prng).1)) (b + 256)
        (int_lor_nonneg hr0 hblk0) (int_lor_lt hr0 hblk0 hr1 hb2) (by omega)
      refine ⟨k + 1, ?_, ?_, e3, ?_, by omega, ?_⟩
      · rw [e1]; ring
      · rw [e2]; rfl
      · rw [show b + 256 * (k + 1) = b + 256 + 256 * k by ring]; exact e4
      · right
        rcases e6 with e6 | e6
        · subst e6; simpa using hb
        · have : k + 1 - 1 = (k - 1) + 1 := by omega
          rw [this]
          have : b + 256 * (k - 1 + 1) = b + 256 + 256 * (k - 1) := by ring
          omega
    · rw [if_neg hb]
      exact ⟨0, rfl, rfl, h0, by simpa using h1, by omega, Or.inl rfl⟩

/-- The split of `goo_prng_getrandbits`: `nbits` top bits out, the rest kept. -/
theorem getrandbits_spec (E : Env) (prng : Prng E) (n : Nat) (hsave : 0 ≤ prng.save) :
    ∃ k left, goo_mpz_bitlen prng.save + 256 * k = n + left
      ∧ (k = 0 ∨ goo_mpz_bitlen prng.save + 256 * (k - 1) < n)
      ∧ 0 ≤ (goo_prng_getrandbits E prng n).1
      ∧ (goo_prng_getrandbits E prng n).1 < 2 ^ n
      ∧ (goo_prng_getrandbits E prng n).1 * 2 ^ left
            + (goo_prng_getrandbits E prng n).2.save
          = absorb prng.save (drbgBlocks E k prng)
      ∧ 0 ≤ (goo_prng_getrandbits E prng n).2.save
      ∧ (goo_prng_getrandbits E prng n).2.save < 2 ^ left := by
  have hlt : prng.save < 2 ^ goo_mpz_bitlen prng.save := by
    have := natAbs_lt_two_pow_bitlen prng.save
    have h2 : (prng.save.natAbs : Int) < ((2 ^ goo_mpz_bitlen prng.save : Nat) : Int) := by
      exact_mod_cast this
    rw [Int.natAbs_of_nonneg hsave] at h2
    exact_mod_cast h2
  obtain ⟨k, e1, e2, e3, e4, e5, e6⟩ := getrandbitsLoop_spec E n (n + 1) prng prng.save
    (goo_mpz_bitlen prng.save) hsave hlt (by omega)
  unfold goo_prng_getrandbits
  rcases hx : getrandbitsLoop E n (n + 1) prng prng.save (goo_mpz_bitlen prng.save)
    with ⟨prng1, r, b⟩
  rw [hx] at e1 e2 e3 e4
  simp only at e1 e2 e3 e4 ⊢
  refine ⟨k, b - n, by omega, e6, ?_⟩
  by_cases hl : b - n = 0
  · rw [if_pos hl, hl]
    have hbn : b = n := by omega
    refine ⟨e3, ?_, ?_, le_rfl, by norm_num⟩
    · rw [← e1, hbn] at e4; exact e4
    · simp only [pow_zero, mul_one, add_zero]; exact e2
  · rw [if_neg hl]
    have hpos : (0 : Int) < 2 ^ (b - n) := by positivity
    refine ⟨Int.ediv_nonneg e3 hpos.le, ?_, ?_, ?_, ?_⟩
    · apply Int.ediv_lt_of_lt_mul hpos
      rw [← pow_add, show n + (b - n) = b by omega, e1]
      exact e4
    · rw [int_land_mask e3, ← e2]
      exact Int.ediv_add_emod' r (2 ^ (b - n))
    · rw [int_land_mask e3]; exact Int.emod_nonneg _ hpos.ne'
    · rw [int_land_mask e3]; exact Int.emod_lt_of_pos _ hpos

/-- With `nbits + 256 ≤ 2^32` the 32-bit counter never wraps. -/
theorem loop32_eq (E : Env) (nbits : Nat) (hn : nbits + 256 ≤ 2 ^ 32) :
    ∀ (fuel : Nat) (prng : Prng E) (r : Int) (b : Nat), nbits ≤ b + 256 * fuel →
      getrandbitsLoop32 E nbits (fuel + 1) prng r b
        = some (getrandbitsLoop E nbits fuel prng r b) := by
  intro fuel
  induction fuel with
  | zero =>
    intro prng r b hf
    rw [getrandbitsLoop32, if_neg (by omega)]
    rfl
  | succ fuel ih =>
    intro prng r b hf
    rw [getrandbitsLoop32, getrandbitsLoop]
    by_cases hb : b < nbits
    · rw [if_pos hb, if_pos hb]
      dsimp only
      rw [Nat.mod_eq_of_lt (by omega)]
      exact ih _ _ _ (by omega)
    · rw [if_neg hb, if_neg hb]

/-- With `nbits = 2^32 - 1` and a counter that is a multiple of 256, the
loop with the 32-bit counter never ends. -/
theorem loop32_never (E : Env) : ∀ (fuel : Nat) (prng : Prng E) (r : Int) (b : Nat),
    b % 256 = 0 → b < 2 ^ 32 → getrandbitsLoop32 E (2 ^ 32 - 1) fuel prng r b = none := by
  intro fuel
  induction fuel with
  | zero => intro prng r b _ _; rfl
  | succ fuel ih =>
    intro prng r b h1 h2
    rw [getrandbitsLoop32, if_pos (by omega)]
    dsimp only
    exact ih _ _ _ (by omega) (Nat.mod_lt _ (by norm_num))

end Goo

namespace Goo

/-! ## Equality up to sign, and the commitments the verifier rebuilds -/

theorem rep_of_emod {m : Nat} {x : Int} {u : (ZMod m)ˣ} (h : Rep m (x % m) u) :
    Rep m x u := by
  unfold Rep at *; rwa [ZMod.intCast_mod] at h

theorem cast_eq_of_emod_sub {m : Nat} {x y : Int} (h : (x - y) % (m : Int) = 0) :
    (x : ZMod m) = (y : ZMod m) := by
  have : ((x - y : Int) : ZMod m) = 0 := by
    rw [ZMod.intCast_zmod_eq_zero_iff_dvd]
    exact Int.dvd_of_emod_eq_zero h
  push_cast at this
  exact sub_eq_zero.mp this

theorem rep_of_pmeq {m : Nat} {x y : Int} {u : (ZMod m)ˣ} (hy : Rep m y u)
    (h : PmEq m x y) : Rep m x u := by
  unfold Rep at *
  rcases h with h | h
  · rw [cast_eq_of_emod_sub h]; exact hy
  · have e : (x : ZMod m) = -(y : ZMod m) := by
      have := cast_eq_of_emod_sub (x := x) (y := -y) (by rw [sub_neg_eq_add]; exact h)
      rw [this]; push_cast; rfl
    rcases hy with hy | hy
    · right; rw [e, hy]
    · left; rw [e, hy, neg_neg]

/-- The reduced value of `x mod N` equals `x` up to sign. -/
theorem pmeq_reduce (G : Group) (x : Int) :
    PmEq G.n (goo_group_reduce G (x % G.n)) x := by
  unfold goo_group_reduce PmEq
  split
  · right
    have : G.n - x % G.n + x = G.n * (1 + x / G.n) + (x % G.n - x % G.n) := by
      have := Int.emod_add_ediv x G.n
      linear_combination -this
    rw [this, sub_self, add_zero, Int.mul_emod_right]
  · left
    have : x % G.n - x = G.n * (-(x / G.n)) := by
      have := Int.emod_add_ediv x G.n
      linear_combination this
    rw [this, Int.mul_emod_right]

theorem cast_mul_eq_one {m : Nat} (hm1 : 1 < m) {b r : Int} (h : b * r % (m : Int) = 1) :
    (b : ZMod m) * (r : ZMod m) = 1 := by
  have one : (1 : Int) % (m : Int) = 1 :=
    Int.emod_eq_of_lt (by norm_num) (by exact_mod_cast hm1)
  have := (ZMod.intCast_eq_intCast_iff' (b * r) 1 m).mpr (by rw [h, one])
  simpa using this

/-- The three reconstructions of the verifier return the signer's `A`, `B`
and `C`, in a good group, for quotient commitments and residues built as
`goo_group_sign` builds them. -/
theorem recon_commitments (E : Env) (hw : 2 ≤ E.GOO_WINDOW_SIZE)
    (hT : 2 ^ (E.GOO_WINDOW_SIZE - 2) ≤ E.GOO_TABLEN)
    (G : Group) (m : Nat) (hG : G.Good m) (hnh : G.nh = G.n / 2)
    (hg : Int.gcd G.g G.n = 1) (hh : Int.gcd G.h G.n = 1)
    (n s w s1 a r_w r_w2 r_s1 r_a r_an r_s1w r_sa chal ell : Int)
    (hn : 0 ≤ n) (hs : 0 ≤ s) (hw0 : 0 ≤ w) (hs1 : 0 ≤ s1) (ha : 0 ≤ a)
    (m1 : 0 ≤ r_w) (m2 : 0 ≤ r_w2) (m3 : 0 ≤ r_s1) (m4 : 0 ≤ r_a) (m5 : 0 ≤ r_an)
    (m6 : 0 ≤ r_s1w) (m7 : 0 ≤ r_sa) (hchal : 0 ≤ chal) (hell : 0 < ell)
    (hcap : goo_mpz_bitlen ell ≤ G.g_comb1.bits)
    (C1 C2 C1_inv C2_inv Aq Bq Cq Aq_inv Bq_inv Cq_inv : Int)
    (hC1 : PmEq G.n C1 (G.g ^ n.toNat * G.h ^ s.toNat))
    (hC2 : PmEq G.n C2 (G.g ^ w.toNat * G.h ^ s1.toNat))
    (i1 : C1 * C1_inv % G.n = 1) (i2 : C2 * C2_inv % G.n = 1)
    (hAq : Aq = goo_group_reduce G (powghVal G
      (Int.fdiv (chal * w + r_w) ell) (Int.fdiv (chal * s1 + r_s1) ell)))
    (hBq : Bq = goo_group_reduce G (commitVal G C2_inv
      (Int.fdiv (chal * w + r_w) ell) (Int.fdiv (chal * w * w + r_w2) ell)
      (Int.fdiv (chal * s1 * w + r_s1w) ell)))
    (hCq : Cq = goo_group_reduce G (commitVal G C1_inv
      (Int.fdiv (chal * a + r_a) ell) (Int.fdiv (chal * a * n + r_an) ell)
      (Int.fdiv (chal * s * a + r_sa) ell)))
    (i3 : Aq * Aq_inv % G.n = 1) (i4 : Bq * Bq_inv % G.n = 1) (i5 : Cq * Cq_inv % G.n = 1) :
    goo_group_recon E G Aq Aq_inv ell C2_inv C2 chal
        ((chal * w + r_w) % ell) ((chal * s1 + r_s1) % ell)
      = Res.ok (goo_group_reduce G (powghVal G r_w r_s1))
    ∧ goo_group_recon E G Bq Bq_inv ell C2_inv C2 ((chal * w + r_w) % ell)
        ((chal * w * w + r_w2) % ell) ((chal * s1 * w + r_s1w) % ell)
      = Res.ok (goo_group_reduce G (commitVal G C2_inv r_w r_w2 r_s1w))
    ∧ goo_group_recon E G Cq Cq_inv ell C1_inv C1 ((chal * a + r_a) % ell)
        ((chal * a * n + r_an) % ell) ((chal * s * a + r_sa) % ell)
      = Res.ok (goo_group_reduce G (commitVal G C1_inv r_a r_an r_sa)) := by
  have hm : G.n = m := hG.1
  have hm1 : 1 < m := hG.2.1
  have hN : 1 < G.n := by rw [hm]; exact_mod_cast hm1
  have hN0 : 0 < G.n := by omega
  obtain ⟨ug, hug⟩ := (gcd_eq_one_iff_zmod_unit G.g).mp (by rw [← hm]; exact hg)
  obtain ⟨uh, huh⟩ := (gcd_eq_one_iff_zmod_unit G.h).mp (by rw [← hm]; exact hh)
  have hug' : ((G.g : Int) : ZMod m) = ug := hug.symm
  have huh' : ((G.h : Int) : ZMod m) = uh := huh.symm
  have hell0 : 0 ≤ ell := hell.le
  simp only [fun x => Int.fdiv_eq_ediv x hell0] at hAq hBq hCq
  have hq : ∀ x r : Int, 0 ≤ x → 0 ≤ r → 0 ≤ (chal * x + r) / ell := by
    intro x r hx hr
    exact Int.ediv_nonneg (add_nonneg (mul_nonneg hchal hx) hr) hell0
  have e_ww : chal * w * w = chal * (w * w) := by ring
  have e_s1w : chal * s1 * w = chal * (s1 * w) := by ring
  have e_an : chal * a * n = chal * (a * n) := by ring
  have e_sa : chal * s * a = chal * (s * a) := by ring
  have q_w := hq w r_w hw0 m1
  have q_s1 := hq s1 r_s1 hs1 m3
  have q_a := hq a r_a ha m4
  have q_w2 : 0 ≤ (chal * w * w + r_w2) / ell := by
    rw [e_ww]; exact hq _ _ (mul_nonneg hw0 hw0) m2
  have q_s1w : 0 ≤ (chal * s1 * w + r_s1w) / ell := by
    rw [e_s1w]; exact hq _ _ (mul_nonneg hs1 hw0) m6
  have q_an : 0 ≤ (chal * a * n + r_an) / ell := by
    rw [e_an]; exact hq _ _ (mul_nonneg ha hn) m5
  have q_sa : 0 ≤ (chal * s * a + r_sa) / ell := by
    rw [e_sa]; exact hq _ _ (mul_nonneg hs ha) m7
  have RC1 : Rep m C1 (ghPow ug uh n s) := by
    rw [hm] at hC1
    refine rep_of_pmeq (rep_of_emod ?_) hC1
    have := rep_powghVal G hm ug uh hug' huh' hn hs
    unfold powghVal at this
    rwa [hm] at this
  have RC2 : Rep m C2 (ghPow ug uh w s1) := by
    rw [hm] at hC2
    refine rep_of_pmeq (rep_of_emod ?_) hC2
    have := rep_powghVal G hm ug uh hug' huh' hw0 hs1
    unfold powghVal at this
    rwa [hm] at this
  have RC1i : Rep m C1_inv (ghPow ug uh n s)⁻¹ :=
    rep_inv RC1 (cast_mul_eq_one hm1 (by rw [← hm]; exact i1))
  have RC2i : Rep m C2_inv (ghPow ug uh w s1)⁻¹ :=
    rep_inv RC2 (cast_mul_eq_one hm1 (by rw [← hm]; exact i2))
  have RAq : Rep m Aq (ghPow ug uh ((chal * w + r_w) / ell) ((chal * s1 + r_s1) / ell)) := by
    rw [hAq]
    exact rep_reduce G hm (rep_powghVal G hm ug uh hug' huh' q_w q_s1)
  have RBq : Rep m Bq ((ghPow ug uh w s1)⁻¹ ^ ((chal * w + r_w) / ell)
      * ghPow ug uh ((chal * w * w + r_w2) / ell) ((chal * s1 * w + r_s1w) / ell)) := by
    rw [hBq]
    exact rep_reduce G hm (rep_commitVal G hm ug uh hug' huh' RC2i q_w q_w2 q_s1w)
  have RCq : Rep m Cq ((ghPow ug uh n s)⁻¹ ^ ((chal * a + r_a) / ell)
      * ghPow ug uh ((chal * a * n + r_an) / ell) ((chal * s * a + r_sa) / ell)) := by
    rw [hCq]
    exact rep_reduce G hm (rep_commitVal G hm ug uh hug' huh' RC1i q_a q_an q_sa)
  have zb : ∀ z : Int, 0 ≤ z % ell ∧ goo_mpz_bitlen (z % ell) ≤ G.g_comb1.bits := by
    intro z
    have h0 := Int.emod_nonneg z hell.ne'
    refine ⟨h0, le_trans ?_ hcap⟩
    rw [bitlen_of_nonneg_le_iff h0]
    have : ell < 2 ^ goo_mpz_bitlen ell := (bitlen_of_nonneg_le_iff hell0 _).mp le_rfl
    exact lt_trans (Int.emod_lt_of_pos z hell) this
  have c2 : C2_inv * C2 % G.n = 1 := by rw [mul_comm]; exact i2
  have c1 : C1_inv * C1 % G.n = 1 := by rw [mul_comm]; exact i1
  refine ⟨?_, ?_, ?_⟩
  · rw [recon_spec E G m hG hN hw hT _ _ _ _ _ _ _ _ i3 c2 hell0 hchal (zb _).1 (zb _).1
      (max_le (zb _).2 (zb _).2)]
    congr 1
    refine reduce_eq_of_rep G hm hnh (u := ghPow ug uh r_w r_s1) ?_
      (rep_powghVal G hm ug uh hug' huh' m1 m3)
      (Int.emod_nonneg _ hN0.ne') (Int.emod_lt_of_pos _ hN0)
      (powghVal_range G hN0 _ _).1 (powghVal_range G hN0 _ _).2
    exact rep_congr (rep_emodN G hm (rep_mul
      (rep_emodN G hm (rep_mul (rep_zpow RAq hell0) (rep_zpow RC2i hchal)))
      (rep_powghVal G hm ug uh hug' huh' (zb _).1 (zb _).1)))
      (ghPow_recon_A ug uh w s1 chal r_w r_s1 ell)
  · rw [recon_spec E G m hG hN hw hT _ _ _ _ _ _ _ _ i4 c2 hell0 (zb _).1 (zb _).1 (zb _).1
      (max_le (zb _).2 (zb _).2)]
    congr 1
    refine reduce_eq_of_rep G hm hnh
      (u := (ghPow ug uh w s1)⁻¹ ^ r_w * ghPow ug uh r_w2 r_s1w) ?_
      (rep_commitVal G hm ug uh hug' huh' RC2i m1 m2 m6)
      (Int.emod_nonneg _ hN0.ne') (Int.emod_lt_of_pos _ hN0)
      (commitVal_range G hN0 _ _ _ _).1 (commitVal_range G hN0 _ _ _ _).2
    exact rep_congr (rep_emodN G hm (rep_mul
      (rep_emodN G hm (rep_mul (rep_zpow RBq hell0) (rep_zpow RC2i (zb _).1)))
      (rep_powghVal G hm ug uh hug' huh' (zb _).1 (zb _).1)))
      (ghPow_recon_BC ug uh w s1 _ _ _ r_w r_w2 r_s1w ell (by ring) (by ring))
  · rw [recon_spec E G m hG hN hw hT _ _ _ _ _ _ _ _ i5 c1 hell0 (zb _).1 (zb _).1 (zb _).1
      (max_le (zb _).2 (zb _).2)]
    congr 1
    refine reduce_eq_of_rep G hm hnh
      (u := (ghPow ug uh n s)⁻¹ ^ r_a * ghPow ug uh r_an r_sa) ?_
      (rep_commitVal G hm ug uh hug' huh' RC1i m4 m5 m7)
      (Int.emod_nonneg _ hN0.ne') (Int.emod_lt_of_pos _ hN0)
      (commitVal_range G hN0 _ _ _ _).1 (commitVal_range G hN0 _ _ _ _).2
    exact rep_congr (rep_emodN G hm (rep_mul
      (rep_emodN G hm (rep_mul (rep_zpow RCq hell0) (rep_zpow RC1i (zb _).1)))
      (rep_powghVal G hm ug uh hug' huh' (zb _).1 (zb _).1)))
      (ghPow_recon_BC ug uh n s _ _ _ r_a r_an r_sa ell (by ring) (by ring))

/-! ## Seed expansion -/

/-- With a zero output variable the key is 32 zero bytes, whatever the seed. -/
theorem expand_sprime_key_zero (s_prime : Int) (stack : Bytes) :
    expand_sprime_key 0 s_prime stack = List.replicate 32 0 := by
  unfold expand_sprime_key
  have hb : goo_mpz_bytesize 0 = 0 := rfl
  simp only [hb, Nat.sub_zero]
  rw [List.map_congr_left (g := fun _ => (0 : UInt8))]
  · rfl
  · intro i hi
    rw [if_pos (List.mem_range.mp hi)]

/-- In a fresh context the expanded `s` does not depend on the seed. -/
theorem expand_sprime_zero_indep (E : Env) (prng : Prng E) (a b : Int) (st1 st2 : Bytes) :
    goo_group_expand_sprime E prng 0 a st1 = goo_group_expand_sprime E prng 0 b st2 := by
  unfold goo_group_expand_sprime
  rw [expand_sprime_key_zero, expand_sprime_key_zero]

/-- In an initialised group `goo_group_reduce` compares with `floor(N / 2)`. -/
theorem reduce_of_init {E : Env} {N : Bytes} {g h modbits : Nat} {G : Group}
    (hinit : goo_group_init E N g h modbits = Res.ok G) (x : Int) :
    goo_group_reduce G x
      = if x > goo_mpz_import N / 2 then goo_mpz_import N - x else x := by
  unfold goo_group_reduce
  rw [group_init_nh hinit, group_init_n hinit]

end Goo

namespace Goo

/-- The generators of an initialised group are the arguments `g` and `h`. -/
theorem group_init_gh {E : Env} {n : Bytes} {g h modbits : Nat} {G : Group}
    (hinit : goo_group_init E n g h modbits = Res.ok G) : G.g = g ∧ G.h = h := by
  unfold goo_group_init at hinit
  dsimp only at hinit
  generalize (goo_clog2 (goo_mpz_import n) + (2 ^ 64 - 1)) % 2 ^ 64 = rb at hinit
  split at hinit
  · obtain ⟨big_spec, hb, hinit⟩ := Res.bind_eq_ok hinit
    obtain ⟨small_spec, hs, hinit⟩ := Res.bind_eq_ok hinit
    obtain ⟨g1, hg1, hinit⟩ := Res.bind_eq_ok hinit
    obtain ⟨h1, hh1, hinit⟩ := Res.bind_eq_ok hinit
    obtain ⟨g2, hg2, hinit⟩ := Res.bind_eq_ok hinit
    obtain ⟨h2, hh2, hinit⟩ := Res.bind_eq_ok hinit
    simp only [Res.ok.injEq] at hinit
    subst hinit
    exact ⟨rfl, rfl⟩
  · obtain ⟨tiny_spec, hb, hinit⟩ := Res.bind_eq_ok hinit
    obtain ⟨g1, hg1, hinit⟩ := Res.bind_eq_ok hinit
    obtain ⟨h1, hh1, hinit⟩ := Res.bind_eq_ok hinit
    simp only [Res.ok.injEq] at hinit
    subst hinit
    exact ⟨rfl, rfl⟩

theorem powghVal_of_init {E : Env} {N : Bytes} {g h modbits : Nat} {G : Group}
    (hinit : goo_group_init E N g h modbits = Res.ok G) (e1 e2 : Int) :
    powghVal G e1 e2 = (g : Int) ^ e1.toNat * (h : Int) ^ e2.toNat % goo_mpz_import N := by
  unfold powghVal
  rw [(group_init_gh hinit).1, (group_init_gh hinit).2, group_init_n hinit]

theorem commitVal_of_init {E : Env} {N : Bytes} {g h modbits : Nat} {G : Group}
    (hinit : goo_group_init E N g h modbits = Res.ok G) (b e e1 e2 : Int) :
    commitVal G b e e1 e2
      = (b ^ e.toNat % goo_mpz_import N)
          * ((g : Int) ^ e1.toNat * (h : Int) ^ e2.toNat % goo_mpz_import N)
          % goo_mpz_import N := by
  unfold commitVal goo_group_mul
  rw [powghVal_of_init hinit, group_init_n hinit]

/-- What the opening check of `goo_group_sign` lets through. -/
theorem sign_opening (E : Env) (G : Group) (rnd : RandSrc) (fuel : Nat) (prng : Prng E)
    (Aq0 : Int) (stack : Bytes) (msg s_prime C1 n p q : Int) (sig : Sig)
    (h : goo_group_sign E G rnd fuel prng Aq0 stack msg s_prime C1 n p q = Res.ok sig) :
    ∃ e x, goo_group_expand_sprime E prng Aq0 s_prime stack = Res.ok e
      ∧ goo_group_powgh G n e.1 = Res.ok x ∧ C1 = goo_group_reduce G x := by
  unfold goo_group_sign at h
  obtain ⟨e, he, h⟩ := Res.bind_eq_ok h
  obtain ⟨x0, hx0, h⟩ := Res.bind_eq_ok h
  split at h
  · cases h
  rename_i hC1
  push_neg at hC1
  exact ⟨e, x0, he, hx0, hC1⟩

set_option exponentiation.threshold 800 in
theorem small_magnitude (x : Int) (h : x.natAbs < 256 ^ 2) : x.natAbs < 256 ^ 768 :=
  lt_of_lt_of_le h (Nat.pow_le_pow_right (by decide) (by decide))

theorem specWireItems_length : ∀ (k : Nat) (b : Bytes) (xs : List Int),
    specWireItems k b = some xs → xs.length = k := by
  intro k
  induction k with
  | zero =>
    intro b xs h
    cases b with
    | nil => simp only [specWireItems, Option.some.injEq] at h; subst h; rfl
    | cons a l => simp [specWireItems] at h
  | succ k ih =>
    intro b xs h
    rcases b with _ | ⟨b0, _ | ⟨b1, rest⟩⟩
    · simp [specWireItems] at h
    · simp [specWireItems] at h
    · simp only [specWireItems] at h
      split at h
      · cases h
      · split at h
        · cases h
        · cases hr : specWireItems k (rest.drop (b0.toNat + 256 * b1.toNat)) with
          | none => rw [hr] at h; cases h
          | some ys =>
            rw [hr] at h
            simp only [Option.map_some', Option.some.injEq] at h
            subst h
            simp [ih _ _ hr]

/-- A non-zero number below `2^256`, written with 32 bytes, is not 32 zero bytes. -/
theorem padded_ne_zero (m : Nat) (h0 : 0 < m) (h1 : m < 2 ^ 256) :
    natToBytes 32 m ≠ List.replicate 32 0 := by
  intro h
  have e := natToBytes_foldl 32 m 0
  rw [h] at e
  have z : (List.replicate 32 (0 : UInt8)).foldl (fun acc b => acc * 256 + b.toNat) 0 = 0 := by
    decide
  rw [z, zero_mul, zero_add, show (256 : Nat) ^ 32 = 2 ^ 256 by norm_num,
    Nat.mod_eq_of_lt h1] at e
  omega

theorem specSig_of_length (xs : List Int) (h : xs.length = 15) : ∃ s, specSig xs = some s := by
  rcases xs with _ | ⟨a1, _ | ⟨a2, _ | ⟨a3, _ | ⟨a4, _ | ⟨a5, _ | ⟨a6, _ | ⟨a7, _ | ⟨a8,
    _ | ⟨a9, _ | ⟨a10, _ | ⟨a11, _ | ⟨a12, _ | ⟨a13, _ | ⟨a14, _ | ⟨a15, _ | ⟨a16, l⟩⟩⟩⟩⟩⟩⟩⟩⟩⟩⟩⟩⟩⟩⟩⟩
    <;> simp only [List.length_cons, List.length_nil] at h <;> first
      | omega
      | exact ⟨_, rfl⟩

end Goo

namespace Goo

/-- C11: in a group initialised from the modulus `N`, `goo_group_reduce`
(applied in place, as at every call site) replaces every `x` with
`0 ≤ x ≤ N` by `min(x, N - x)`; the result lies in `[0, floor(N/2)]`,
satisfies `goo_group_is_reduced`, and reducing it again leaves it unchanged. -/
theorem reduce_canonical (E : Env) (N : Bytes) (g h modbits : Nat) (G : Group)
    (hinit : goo_group_init E N g h modbits = Res.ok G) (x : Int)
    (h0 : 0 ≤ x) (h1 : x ≤ goo_mpz_import N) :
    goo_group_reduce G x = min x (goo_mpz_import N - x)
    ∧ 0 ≤ goo_group_reduce G x ∧ goo_group_reduce G x ≤ goo_mpz_import N / 2
    ∧ goo_group_is_reduced G (goo_group_reduce G x) = true
    ∧ goo_group_reduce G (goo_group_reduce G x) = goo_group_reduce G x := by
  have hr := reduce_of_init hinit
  have hnh := group_init_nh hinit
  by_cases hx : x > goo_mpz_import N / 2
  · have e : goo_group_reduce G x = goo_mpz_import N - x := by rw [hr, if_pos hx]
    rw [e]
    refine ⟨(min_eq_right (by omega)).symm, by omega, by omega, ?_, ?_⟩
    · unfold goo_group_is_reduced
      rw [hnh, decide_eq_true_eq]
      omega
    · rw [hr, if_neg (by omega)]
  · have e : goo_group_reduce G x = x := by rw [hr, if_neg hx]
    rw [e]
    refine ⟨(min_eq_left (by omega)).symm, h0, by omega, ?_, e⟩
    unfold goo_group_is_reduced
    rw [hnh, decide_eq_true_eq]
    omega

theorem reduce_canonical_witness :
    goo_group_reduce demoGroup 1184160451885806909209517080216219998843
        = min 1184160451885806909209517080216219998843
            (goo_mpz_import demoN - 1184160451885806909209517080216219998843)
    ∧ 0 ≤ goo_group_reduce demoGroup 1184160451885806909209517080216219998843
    ∧ goo_group_reduce demoGroup 1184160451885806909209517080216219998843
        ≤ goo_mpz_import demoN / 2
    ∧ goo_group_is_reduced demoGroup
        (goo_group_reduce demoGroup 1184160451885806909209517080216219998843) = true
    ∧ goo_group_reduce demoGroup
        (goo_group_reduce demoGroup 1184160451885806909209517080216219998843)
      = goo_group_reduce demoGroup 1184160451885806909209517080216219998843 :=
  reduce_canonical smallEnv demoN 2 3 20 demoGroup demo_init
    1184160451885806909209517080216219998843 (by decide) (by decide!)

/-- C12: for a fixed hash and DRBG, `goo_group_fs_chal` returns the same
status, `chal`, `ell` (and leaves the same generator state) in any two
contexts with the same `(N, g, h)` when called on the same
`(C1, C2, t, A, B, C, D, msg, verify)`, whatever the state of the generator
was before each call. -/
theorem fs_chal_deterministic (E : Env) (G G' : Group) (hn : G.n = G'.n) (hg : G.g = G'.g)
    (hh : G.h = G'.h) (prng prng' : Prng E) (C1 C2 t A B C D msg : Int) (verify : Bool) :
    goo_group_fs_chal E G prng C1 C2 t A B C D msg verify
      = goo_group_fs_chal E G' prng' C1 C2 t A B C D msg verify := by
  have e : goo_hash_all E G C1 C2 t A B C D msg = goo_hash_all E G' C1 C2 t A B C D msg := by
    unfold goo_hash_all goo_hash_transcript
    rw [hn, hg, hh]
  unfold goo_group_fs_chal
  rw [e]
  cases goo_hash_all E G' C1 C2 t A B C D msg with
  | ok key => simp only [Res.bind_ok, seed_indep E prng prng' key]
  | fail => rfl
  | abort => rfl
  | hang => rfl

theorem fs_chal_deterministic_witness :
    goo_group_fs_chal demoEnv { Group.zero with n := 35, g := 2, h := 3 }
        ⟨(5 : Nat), 77⟩ 1 2 3 4 5 6 7 8 false
      = goo_group_fs_chal demoEnv { Group.zero with n := 35, g := 2, h := 3, rand_bits := 9 }
        ⟨(0 : Nat), 0⟩ 1 2 3 4 5 6 7 8 false :=
  fs_chal_deterministic demoEnv { Group.zero with n := 35, g := 2, h := 3 }
    { Group.zero with n := 35, g := 2, h := 3, rand_bits := 9 } rfl rfl rfl
    ⟨(5 : Nat), 77⟩ ⟨(0 : Nat), 0⟩ 1 2 3 4 5 6 7 8 false

/-- C13: `goo_verify` parses the signature as the wire format of the spec
says: fifteen items, each a little-endian u16 length of at most 768 followed
by that many bytes, which together use up the buffer. When the byte string is
not of this format (a length above 768, a missing length prefix, missing item
bytes, or bytes left after the fifteenth item) `goo_verify` returns false;
when it is, the reader returns the fifteen integers in the order of the
struct. -/
theorem verify_wire_format (E : Env) (G : Group) (prng : Prng E) (msg sig C1 : Bytes) :
    (goo_read_sig sig
      = (match (specWireItems 15 sig).bind specSig with
         | some s => Res.ok s
         | none => Res.fail))
    ∧ (specWireItems 15 sig = none → goo_verify E G prng msg sig C1 = Res.fail)
    ∧ (∀ xs, specWireItems 15 sig = some xs →
        ∃ s, specSig xs = some s ∧ goo_read_sig sig = Res.ok s) := by
  refine ⟨read_sig_spec sig, ?_, ?_⟩
  · intro h
    unfold goo_verify
    split
    · rfl
    · split
      · rfl
      · rw [read_sig_spec, h]; rfl
  · intro xs h
    obtain ⟨s, hs⟩ := specSig_of_length xs (specWireItems_length _ _ _ h)
    refine ⟨s, hs, ?_⟩
    rw [read_sig_spec, h]
    simp only [Option.bind, hs]

theorem verify_wire_format_witness :
    goo_verify smallEnv demoGroup demoPrng demoMsg (demoSigBytes ++ [0]) demoC1Bytes
        = Res.fail
      ∧ goo_verify smallEnv demoGroup demoPrng demoMsg demoSigBytes.dropLast demoC1Bytes
        = Res.fail
      ∧ goo_read_sig demoSigBytes = Res.ok demoSig :=
  ⟨(verify_wire_format smallEnv demoGroup demoPrng demoMsg (demoSigBytes ++ [0])
      demoC1Bytes).2.1 (by decide!),
    (verify_wire_format smallEnv demoGroup demoPrng demoMsg demoSigBytes.dropLast
      demoC1Bytes).2.1 (by decide!),
    by decide!⟩

/-- C14: for all integers `N, g, h, C1, C2, t, A, B, C, D, msg` of magnitude
below `256^768`, the byte string `goo_hash_all` feeds to the hash is the
ASCII prefix `libGooPy:` followed by the eleven items in this order, each
encoded as the two bytes `(L mod 256, L div 256)` with
`L = len(|n|) + 0x8000 * [n < 0]` followed by the big-endian magnitude bytes
of `|n|` (none for 0); the key is the hash of that string. -/
theorem transcript_format (E : Env) (G : Group) (C1 C2 t A B C D msg : Int)
    (hN : G.n.natAbs < 256 ^ 768) (hg : G.g.natAbs < 256 ^ 768)
    (hh : G.h.natAbs < 256 ^ 768) (h1 : C1.natAbs < 256 ^ 768)
    (h2 : C2.natAbs < 256 ^ 768) (h3 : t.natAbs < 256 ^ 768) (h4 : A.natAbs < 256 ^ 768)
    (h5 : B.natAbs < 256 ^ 768) (h6 : C.natAbs < 256 ^ 768) (h7 : D.natAbs < 256 ^ 768)
    (h8 : msg.natAbs < 256 ^ 768) :
    goo_hash_transcript G C1 C2 t A B C D msg
        = Res.ok (specTranscript G.n G.g G.h C1 C2 t A B C D msg)
    ∧ goo_hash_all E G C1 C2 t A B C D msg
        = Res.ok (E.sha256 (specTranscript G.n G.g G.h C1 C2 t A B C D msg)) := by
  have h := hash_transcript_spec G C1 C2 t A B C D msg hN hg hh h1 h2 h3 h4 h5 h6 h7 h8
  refine ⟨h, ?_⟩
  unfold goo_hash_all
  rw [h]
  rfl

theorem transcript_format_witness :
    goo_hash_transcript { Group.zero with n := 35, g := 2, h := 3 } 1 0 (-1) 256 5 6 (-300) 7
        = Res.ok (specTranscript 35 2 3 1 0 (-1) 256 5 6 (-300) 7)
      ∧ specTranscript 35 2 3 1 0 (-1) 256 5 6 (-300) 7
        = [108, 105, 98, 71, 111, 111, 80, 121, 58, 1, 0, 35, 1, 0, 2, 1, 0, 3, 1, 0, 1,
            0, 0, 1, 128, 1, 2, 0, 1, 0, 1, 0, 5, 1, 0, 6, 2, 128, 1, 44, 1, 0, 7] :=
  ⟨(transcript_format demoEnv { Group.zero with n := 35, g := 2, h := 3 } 1 0 (-1) 256 5 6
      (-300) 7 (small_magnitude _ (by decide)) (small_magnitude _ (by decide))
      (small_magnitude _ (by decide)) (small_magnitude _ (by decide))
      (small_magnitude _ (by decide)) (small_magnitude _ (by decide))
      (small_magnitude _ (by decide)) (small_magnitude _ (by decide))
      (small_magnitude _ (by decide)) (small_magnitude _ (by decide))
      (small_magnitude _ (by decide))).1,
    by decide!⟩

/-- C15 fails as stated: the counter `b` of `goo_prng_getrandbits` is an
`unsigned int`, and for `nbits = 2^32 - 1` and an empty stash it wraps from
`2^32 - 256` to 0 without ever reaching `nbits`, so the loop never ends and
no value is returned. -/
theorem getrandbits_counter_wraps :
    ¬ ∃ fuel : Nat, (goo_prng_getrandbits32 smallEnv fuel demoPrng (2 ^ 32 - 1)).isSome
      = true := by
  rintro ⟨fuel, h⟩
  unfold goo_prng_getrandbits32 at h
  rw [loop32_never smallEnv fuel demoPrng demoPrng.save _ (by decide) (by decide)] at h
  cases h

/-- C15 (amended): for every state of the generator with a non-negative
stash of fewer than `2^32` bits and every bit count `n ≤ 2^32 - 256`,
`goo_prng_getrandbits` returns (the loop with the 32-bit counter ends and
gives the values of `goo_prng_getrandbits`), its result `r` satisfies
`0 ≤ r < 2^n`, and the bits are split without loss:
`r * 2^left + save_after` is the accumulated value (the old stash shifted
left by 256 and OR-ed with a block, for each of the `k` blocks absorbed, `k`
being the least number that brings the counter to `n`), with
`0 ≤ save_after < 2^left` and `left = bitlen(stash) + 256 k - n`. -/
theorem getrandbits_split (E : Env) (prng : Prng E) (n : Nat) (hsave : 0 ≤ prng.save)
    (hn : n + 256 ≤ 2 ^ 32) (hb : goo_mpz_bitlen prng.save < 2 ^ 32) :
    goo_prng_getrandbits32 E (n + 2) prng n = some (goo_prng_getrandbits E prng n)
    ∧ ∃ k left, goo_mpz_bitlen prng.save + 256 * k = n + left
      ∧ (k = 0 ∨ goo_mpz_bitlen prng.save + 256 * (k - 1) < n)
      ∧ 0 ≤ (goo_prng_getrandbits E prng n).1
      ∧ (goo_prng_getrandbits E prng n).1 < 2 ^ n
      ∧ (goo_prng_getrandbits E prng n).1 * 2 ^ left
            + (goo_prng_getrandbits E prng n).2.save
          = absorb prng.save (drbgBlocks E k prng)
      ∧ 0 ≤ (goo_prng_getrandbits E prng n).2.save
      ∧ (goo_prng_getrandbits E prng n).2.save < 2 ^ left := by
  refine ⟨?_, getrandbits_spec E prng n hsave⟩
  unfold goo_prng_getrandbits32 goo_prng_getrandbits
  rw [Nat.mod_eq_of_lt hb, loop32_eq E n hn (n + 1) prng prng.save _ (by omega)]
  rcases getrandbitsLoop E n (n + 1) prng prng.save (goo_mpz_bitlen prng.save)
    with ⟨prng1, r, b⟩
  dsimp only
  split <;> rfl

theorem getrandbits_split_witness :
    goo_prng_getrandbits32 smallEnv (10 + 2) demoPrng 10
      = some (goo_prng_getrandbits smallEnv demoPrng 10)
    ∧ ∃ k left, goo_mpz_bitlen demoPrng.save + 256 * k = 10 + left
      ∧ (k = 0 ∨ goo_mpz_bitlen demoPrng.save + 256 * (k - 1) < 10)
      ∧ 0 ≤ (goo_prng_getrandbits smallEnv demoPrng 10).1
      ∧ (goo_prng_getrandbits smallEnv demoPrng 10).1 < 2 ^ 10
      ∧ (goo_prng_getrandbits smallEnv demoPrng 10).1 * 2 ^ left
            + (goo_prng_getrandbits smallEnv demoPrng 10).2.save
          = absorb demoPrng.save (drbgBlocks smallEnv k demoPrng)
      ∧ 0 ≤ (goo_prng_getrandbits smallEnv demoPrng 10).2.save
      ∧ (goo_prng_getrandbits smallEnv demoPrng 10).2.save < 2 ^ left :=
  getrandbits_split smallEnv demoPrng 10 (by decide) (by decide) (by decide)

/-- C16: if `goo_group_expand_sprime` returns `s` and `goo_group_powgh(n, s)`
returns `x` but `C1` differs from the reduced `x`, `goo_group_sign` returns
failure; so every run that returns a signature has passed the opening check,
and in a group initialised for a modulus `N > 1`, with `n ≥ 0`, its `C1` is
`g^n * h^s` up to sign modulo `N` and lies in `[0, floor(N/2)]`. -/
theorem sign_opening_check (E : Env) (G : Group) (rnd : RandSrc) (fuel : Nat)
    (prng : Prng E) (Aq0 : Int) (stack : Bytes) (msg s_prime C1 n p q : Int) :
    (∀ e x, goo_group_expand_sprime E prng Aq0 s_prime stack = Res.ok e →
        goo_group_powgh G n e.1 = Res.ok x → C1 ≠ goo_group_reduce G x →
        goo_group_sign E G rnd fuel prng Aq0 stack msg s_prime C1 n p q = Res.fail)
    ∧ (∀ sig, goo_group_sign E G rnd fuel prng Aq0 stack msg s_prime C1 n p q = Res.ok sig →
        ∃ e x, goo_group_expand_sprime E prng Aq0 s_prime stack = Res.ok e
          ∧ goo_group_powgh G n e.1 = Res.ok x ∧ C1 = goo_group_reduce G x)
    ∧ (∀ (N : Bytes) (g h modbits : Nat) (sig : Sig),
        goo_group_init E N g h modbits = Res.ok G → 1 < goo_mpz_import N → 0 ≤ n →
        goo_group_sign E G rnd fuel prng Aq0 stack msg s_prime C1 n p q = Res.ok sig →
        ∃ e, goo_group_expand_sprime E prng Aq0 s_prime stack = Res.ok e
          ∧ PmEq (goo_mpz_import N) C1 ((g : Int) ^ n.toNat * (h : Int) ^ e.1.toNat)
          ∧ 0 ≤ C1 ∧ C1 ≤ goo_mpz_import N / 2) := by
  refine ⟨?_, ?_, ?_⟩
  · intro e x he hx hne
    unfold goo_group_sign
    rw [he]
    simp only [Res.bind_ok]
    rw [hx]
    simp only [Res.bind_ok]
    rw [if_pos hne]
  · intro sig h
    exact sign_opening E G rnd fuel prng Aq0 stack msg s_prime C1 n p q sig h
  · intro N g h modbits sig hinit hN hn0 hs
    obtain ⟨e, x, he, hx, hC⟩ := sign_opening E G rnd fuel prng Aq0 stack msg s_prime C1 n p q
      sig hs
    have hGn := group_init_n hinit
    obtain ⟨hG, gg, gh, gnh, _⟩ := group_init_good hinit (by rw [hGn]; exact hN)
    have hv := powgh_ok_value G _ hG hn0 (expand_sprime_nonneg he) hx
    have hN0 : 0 < G.n := by rw [hGn]; omega
    have hr := reduce_range G gnh (powghVal_range G hN0 n e.1).1 (powghVal_range G hN0 n e.1).2
    refine ⟨e, he, ?_, ?_, ?_⟩
    · have := pmeq_reduce G (G.g ^ n.toNat * G.h ^ e.1.toNat)
      rw [hC, hv]
      unfold powghVal
      rw [gg, gh, hGn] at this ⊢
      exact this
    · rw [hC, hv]; exact hr.1
    · have := hr.2.2
      unfold goo_group_is_reduced at this
      rw [decide_eq_true_eq, gnh, hGn] at this
      rw [hC, hv]; exact this

theorem sign_opening_check_witness :
    ∃ e, goo_group_expand_sprime smallEnv demoPrng 0 1 [] = Res.ok e
      ∧ PmEq (goo_mpz_import demoN) demoC1
          (((2 : Nat) : Int) ^ (((1009 : Nat) : Int) * ((1013 : Nat) : Int)).toNat
            * ((3 : Nat) : Int) ^ e.1.toNat)
      ∧ 0 ≤ demoC1 ∧ demoC1 ≤ goo_mpz_import demoN / 2 :=
  (sign_opening_check smallEnv demoGroup demoRand 10 demoPrng 0 [] 424242 1 demoC1
    (((1009 : Nat) : Int) * ((1013 : Nat) : Int)) ((1009 : Nat) : Int)
    ((1013 : Nat) : Int)).2.2 demoN 2 3 20 demoSig demo_init (by decide!) (by decide)
    demo_sign

/-- C17 (what the code does): with a zero output variable, as in
`goo_group_challenge`, the key that `goo_group_expand_sprime` passes to the
seed is 32 zero bytes for every `s_prime` and every content of the stack, `s`
is what the generator seeded with 32 zero bytes gives, and for every
`s_prime` with `0 < s_prime < 2^256` this key differs from `s_prime`
left-padded to 32 bytes. -/
theorem expand_sprime_fresh (E : Env) (prng : Prng E) (s_prime : Int) (stack : Bytes) :
    expand_sprime_key 0 s_prime stack = List.replicate 32 0
    ∧ goo_group_expand_sprime E prng 0 s_prime stack
        = Res.ok (goo_prng_getrandbits E (goo_prng_seed E prng (List.replicate 32 0))
            E.GOO_EXPONENT_SIZE)
    ∧ (0 < s_prime → s_prime < 2 ^ 256 →
        natToBytes 32 s_prime.natAbs ≠ expand_sprime_key 0 s_prime stack) := by
  refine ⟨expand_sprime_key_zero _ _, ?_, ?_⟩
  · unfold goo_group_expand_sprime
    rw [if_neg (by decide), expand_sprime_key_zero]
  · intro h0 h1
    rw [expand_sprime_key_zero]
    apply padded_ne_zero
    · omega
    · have : (s_prime.natAbs : Int) < ((2 ^ 256 : Nat) : Int) := by
        rw [Int.natAbs_of_nonneg h0.le]; exact_mod_cast h1
      exact_mod_cast this

theorem expand_sprime_fresh_witness :
    natToBytes 32 (7 : Int).natAbs ≠ expand_sprime_key 0 7 [1, 2, 3] :=
  (expand_sprime_fresh demoEnv ⟨(0 : Nat), 0⟩ 7 [1, 2, 3]).2.2 (by decide) (by norm_num)

/-- C17 fails on the code: with a zero output variable, as in
`goo_group_challenge`, the key `goo_group_expand_sprime` passes to the seed
for `s_prime = 1` is 32 zero bytes and not `s_prime` left-padded to 32 bytes,
and the expanded `s` is the same for `s_prime = 1` and `s_prime = 2`. -/
theorem expand_sprime_key_ignores_seed :
    expand_sprime_key 0 1 [] = List.replicate 32 0
      ∧ natToBytes 32 1 ≠ expand_sprime_key 0 1 []
      ∧ goo_group_expand_sprime demoEnv ⟨(0 : Nat), 0⟩ 0 1 []
          = goo_group_expand_sprime demoEnv ⟨(0 : Nat), 0⟩ 0 2 []
      ∧ (goo_group_expand_sprime demoEnv ⟨(0 : Nat), 0⟩ 0 1 []).isOk = true := by
  refine ⟨expand_sprime_key_zero 1 [], ?_, expand_sprime_zero_indep _ _ _ _ _ _, by decide!⟩
  rw [expand_sprime_key_zero]
  decide

/-- C18 (what the code does): `goo_group_expand_sprime` returns failure
whenever the previous value of the output variable has more than 32 bytes,
and succeeds when it is zero, for every `s_prime`. -/
theorem expand_sprime_scratch (E : Env) (prng : Prng E) (s s_prime : Int) (stack : Bytes) :
    (32 < goo_mpz_bytesize s → goo_group_expand_sprime E prng s s_prime stack = Res.fail)
    ∧ (goo_group_expand_sprime E prng 0 s_prime stack).isOk = true := by
  constructor
  · intro h
    unfold goo_group_expand_sprime
    rw [if_pos h]
  · unfold goo_group_expand_sprime
    rw [if_neg (by decide)]
    rfl

theorem expand_sprime_scratch_witness :
    goo_group_expand_sprime smallEnv demoPrng (2 ^ 2047) 1 [] = Res.fail
      ∧ (goo_group_expand_sprime smallEnv demoPrng 0 1 []).isOk = true :=
  ⟨(expand_sprime_scratch smallEnv demoPrng (2 ^ 2047) 1 []).1 (by decide!),
    (expand_sprime_scratch smallEnv demoPrng (2 ^ 2047) 1 []).2⟩

/-- C18 fails on the code: the result of `goo_group_expand_sprime` depends on
the previous value of the output variable. For `s_prime = 1` it succeeds from
0 and fails from `2^256`; from 0 and from `2^255` it returns different `s`;
and `goo_group_sign` on the inputs of the demo run fails when the context slot
`Aq` holds the `Aq` of an earlier signature, while it succeeds from 0. -/
theorem expand_sprime_depends_on_scratch :
    (goo_group_expand_sprime smallEnv demoPrng 0 1 []).isOk = true
      ∧ goo_group_expand_sprime smallEnv demoPrng (2 ^ 256) 1 [] = Res.fail
      ∧ ((goo_group_expand_sprime smallEnv demoPrng 0 1 []).getD (0, demoPrng)).1
          ≠ ((goo_group_expand_sprime smallEnv demoPrng (2 ^ 255) 1 []).getD (0, demoPrng)).1
      ∧ goo_group_sign smallEnv demoGroup demoRand 10 demoPrng 0 [] 424242 1 demoC1
          (((1009 : Nat) : Int) * ((1013 : Nat) : Int)) ((1009 : Nat) : Int)
          ((1013 : Nat) : Int) = Res.ok demoSig
      ∧ goo_group_sign smallEnv demoGroup demoRand 10 demoPrng demoSig.Aq [] 424242 1 demoC1
          (((1009 : Nat) : Int) * ((1013 : Nat) : Int)) ((1009 : Nat) : Int)
          ((1013 : Nat) : Int) = Res.fail :=
  ⟨by decide!, by unfold goo_group_expand_sprime; rw [if_pos (by decide!)], by decide!,
    demo_sign, by decide!⟩

/-- C19: for every `ell > 0` and all integers `Z_w2`, `Z_an`, with
`Dq = floor((Z_w2 - Z_an) / ell)`, `z_w2 = Z_w2 mod ell` and
`z_an = Z_an mod ell`, the verifier's `D` (with its `+ ell` when
`z_w2 - z_an < 0`) is `(Z_w2 - Z_an) - t * chal`; for
`Z_w2 = chal * w^2 + r_w2`, `Z_an = chal * a * n + r_an` and
`w^2 - t = a * n` this is `r_w2 - r_an`. For every signature that
`goo_group_sign` returns (in an initialised group with `N > 1`, for distinct
odd primes `p`, `q`) the verifier's `D` is the `D = r_w2 - r_an` the signer
hashed, and it is not negative. -/
theorem verify_D_carry (sig : Sig) :
    (∀ Z_w2 Z_an : Int, 0 < sig.ell → sig.Dq = Int.fdiv (Z_w2 - Z_an) sig.ell →
        sig.z_w2 = Z_w2 % sig.ell → sig.z_an = Z_an % sig.ell →
        verify_D sig = (Z_w2 - Z_an) - sig.t * sig.chal
        ∧ ∀ w a n r_w2 r_an : Int, Z_w2 = sig.chal * w ^ 2 + r_w2 →
            Z_an = sig.chal * a * n + r_an → w ^ 2 - sig.t = a * n →
            verify_D sig = r_w2 - r_an)
    ∧ (∀ (E : Env) (N : Bytes) (g h modbits : Nat) (G : Group) (p q : Nat) (rnd : RandSrc)
        (fuel : Nat) (prng : Prng E) (Aq0 : Int) (stack : Bytes) (msg s_prime C1 : Int),
        E.GOO_ELLDIFF_MAX ≠ 0 → goo_group_init E N g h modbits = Res.ok G →
        1 < goo_mpz_import N → p.Prime → q.Prime → p ≠ q → p ≠ 2 → q ≠ 2 →
        goo_group_sign E G rnd fuel prng Aq0 stack msg s_prime C1 ((p : Int) * q) p q
          = Res.ok sig →
        0 ≤ verify_D sig
        ∧ ∃ A B C prngA prngB, goo_group_fs_chal E G prngA C1 sig.C2 sig.t A B C
            (verify_D sig) msg false = Res.ok (true, sig.chal, sig.ell, prngB)) := by
  constructor
  · intro Z_w2 Z_an hell hDq h1 h2
    rw [Int.fdiv_eq_ediv _ hell.le] at hDq
    have key : verify_D sig = (Z_w2 - Z_an) - sig.t * sig.chal :=
      verify_D_spec sig Z_w2 Z_an _ hell hDq h1 h2 (by ring)
    refine ⟨key, ?_⟩
    intro w a n r_w2 r_an e1 e2 e3
    rw [key, e1, e2]
    linear_combination sig.chal * e3
  · intro E N g h modbits G p q rnd fuel prng Aq0 stack msg s_prime C1 hmax hinit hN hp hq
      hpq hp2 hq2 hs
    have hGn := group_init_n hinit
    obtain ⟨hG, _⟩ := group_init_good hinit (by rw [hGn]; exact hN)
    obtain ⟨s, w, a, s1, r_w, r_w2, r_s1, r_a, r_an, r_s1w, r_sa, C1_inv, C2_inv, prngA,
        prngB, H⟩ :=
      sign_honest E hmax G _ hG (by rw [hGn]; exact hN) rnd fuel prng Aq0 stack msg s_prime
        C1 p q hp hq hpq hp2 hq2 sig hs
    obtain ⟨ell_r, _, hchal0, hellr0, _, hd0, _⟩ :=
      fs_chal_prover_verifier E hmax G prngA prngA _ _ _ _ _ _ _ _ _ _ prngB H.challenge
    have hell0 : 0 ≤ sig.ell := by omega
    have hellpos : 0 < sig.ell := by
      rcases hell0.lt_or_eq with h | h
      · exact h
      · exfalso
        have := H.ell_bits
        rw [← h, bitlen_zero] at this
        omega
    have hDq := H.Dq_eq
    rw [Int.fdiv_eq_ediv _ hell0] at hDq
    have hD : verify_D sig = r_w2 - r_an :=
      verify_D_spec sig _ _ _ hellpos hDq H.z_w2_eq H.z_an_eq
        (by linear_combination (-sig.chal) * H.root)
    refine ⟨by rw [hD]; have := H.mask_order; omega,
      goo_group_reduce G (powghVal G r_w r_s1),
      goo_group_reduce G (commitVal G C2_inv r_w r_w2 r_s1w),
      goo_group_reduce G (commitVal G C1_inv r_a r_an r_sa), prngA, prngB, ?_⟩
    rw [hD]
    exact H.challenge

theorem verify_D_carry_witness :
    verify_D { Sig.zero with t := 2, chal := 3, ell := 7, Dq := -3, z_w2 := 3, z_an := 4 }
      = (10 - 25) - 2 * 3 :=
  ((verify_D_carry
    { Sig.zero with t := 2, chal := 3, ell := 7, Dq := -3, z_w2 := 3, z_an := 4 }).1
    10 25 (by decide) (by decide) (by decide) (by decide)).1

/-- C20: in a group initialised for a modulus `N > 1` with `g`, `h` coprime
to `N`, take `C1 ≡ ±g^n * h^s` and `C2 ≡ ±g^w * h^s1` with inverses modulo
`N`, non-negative secrets and masks, `chal ≥ 0`, `ell > 0` whose bit length
fits the small comb pair, responses `z = chal * secret + mask`, quotient
commitments `Aq`, `Bq`, `Cq` built from `floor(z / ell)` as `goo_group_sign`
builds them, with inverses, and residues `z mod ell`. Then the verifier's
three `goo_group_recon` calls return the signer's reduced `A`, `B` and `C`. -/
theorem recon_rebuilds_commitments (E : Env) (hw : 2 ≤ E.GOO_WINDOW_SIZE)
    (hT : 2 ^ (E.GOO_WINDOW_SIZE - 2) ≤ E.GOO_TABLEN)
    (N : Bytes) (g h modbits : Nat) (G : Group)
    (hinit : goo_group_init E N g h modbits = Res.ok G) (hN : 1 < goo_mpz_import N)
    (hg : Int.gcd g (goo_mpz_import N) = 1) (hh : Int.gcd h (goo_mpz_import N) = 1)
    (n s w s1 a r_w r_w2 r_s1 r_a r_an r_s1w r_sa chal ell : Int)
    (hn : 0 ≤ n) (hs : 0 ≤ s) (hw0 : 0 ≤ w) (hs1 : 0 ≤ s1) (ha : 0 ≤ a)
    (m1 : 0 ≤ r_w) (m2 : 0 ≤ r_w2) (m3 : 0 ≤ r_s1) (m4 : 0 ≤ r_a) (m5 : 0 ≤ r_an)
    (m6 : 0 ≤ r_s1w) (m7 : 0 ≤ r_sa) (hchal : 0 ≤ chal) (hell : 0 < ell)
    (hcap : goo_mpz_bitlen ell ≤ G.g_comb1.bits)
    (C1 C2 C1_inv C2_inv Aq Bq Cq Aq_inv Bq_inv Cq_inv : Int)
    (hC1 : PmEq (goo_mpz_import N) C1 ((g : Int) ^ n.toNat * (h : Int) ^ s.toNat))
    (hC2 : PmEq (goo_mpz_import N) C2 ((g : Int) ^ w.toNat * (h : Int) ^ s1.toNat))
    (i1 : C1 * C1_inv % goo_mpz_import N = 1) (i2 : C2 * C2_inv % goo_mpz_import N = 1)
    (hAq : Aq = goo_group_reduce G (powghVal G
      (Int.fdiv (chal * w + r_w) ell) (Int.fdiv (chal * s1 + r_s1) ell)))
    (hBq : Bq = goo_group_reduce G (commitVal G C2_inv
      (Int.fdiv (chal * w + r_w) ell) (Int.fdiv (chal * w * w + r_w2) ell)
      (Int.fdiv (chal * s1 * w + r_s1w) ell)))
    (hCq : Cq = goo_group_reduce G (commitVal G C1_inv
      (Int.fdiv (chal * a + r_a) ell) (Int.fdiv (chal * a * n + r_an) ell)
      (Int.fdiv (chal * s * a + r_sa) ell)))
    (i3 : Aq * Aq_inv % goo_mpz_import N = 1) (i4 : Bq * Bq_inv % goo_mpz_import N = 1)
    (i5 : Cq * Cq_inv % goo_mpz_import N = 1) :
    goo_group_recon E G Aq Aq_inv ell C2_inv C2 chal
        ((chal * w + r_w) % ell) ((chal * s1 + r_s1) % ell)
      = Res.ok (goo_group_reduce G (powghVal G r_w r_s1))
    ∧ goo_group_recon E G Bq Bq_inv ell C2_inv C2 ((chal * w + r_w) % ell)
        ((chal * w * w + r_w2) % ell) ((chal * s1 * w + r_s1w) % ell)
      = Res.ok (goo_group_reduce G (commitVal G C2_inv r_w r_w2 r_s1w))
    ∧ goo_group_recon E G Cq Cq_inv ell C1_inv C1 ((chal * a + r_a) % ell)
        ((chal * a * n + r_an) % ell) ((chal * s * a + r_sa) % ell)
      = Res.ok (goo_group_reduce G (commitVal G C1_inv r_a r_an r_sa)) := by
  have hGn := group_init_n hinit
  obtain ⟨hG, gg, gh, gnh, _⟩ := group_init_good hinit (by rw [hGn]; exact hN)
  exact recon_commitments E hw hT G _ hG gnh (by rw [gg, hGn]; exact hg)
    (by rw [gh, hGn]; exact hh) n s w s1 a r_w r_w2 r_s1 r_a r_an r_s1w r_sa chal ell
    hn hs hw0 hs1 ha m1 m2 m3 m4 m5 m6 m7 hchal hell hcap
    C1 C2 C1_inv C2_inv Aq Bq Cq Aq_inv Bq_inv Cq_inv
    (by rw [gg, gh, hGn]; exact hC1) (by rw [gg, gh, hGn]; exact hC2)
    (by rw [hGn]; exact i1) (by rw [hGn]; exact i2) hAq hBq hCq
    (by rw [hGn]; exact i3) (by rw [hGn]; exact i4) (by rw [hGn]; exact i5)

theorem recon_rebuilds_commitments_witness :
    goo_group_recon smallEnv demoGroup 108 768786088228786898935772261234735588849 5
        1117820573640490240574645186758884669943 3888 3 ((3 * 4 + 1) % 5) ((3 * 5 + 3) % 5)
      = Res.ok (goo_group_reduce demoGroup (powghVal demoGroup 1 3))
    ∧ goo_group_recon smallEnv demoGroup 108 768786088228786898935772261234735588849 5
        1117820573640490240574645186758884669943 3888 ((3 * 4 + 1) % 5)
        ((3 * 4 * 4 + 2) % 5) ((3 * 5 * 4 + 6) % 5)
      = Res.ok (goo_group_reduce demoGroup
          (commitVal demoGroup 1117820573640490240574645186758884669943 1 2 6))
    ∧ goo_group_recon smallEnv demoGroup 680564733841876926926749214863536422915
        1361129467683753853853498429727072845829 5
        472614398501303421476909176988566960358 72 ((3 * 1 + 4) % 5)
        ((3 * 1 * 3 + 5) % 5) ((3 * 2 * 1 + 7) % 5)
      = Res.ok (goo_group_reduce demoGroup
          (commitVal demoGroup 472614398501303421476909176988566960358 4 5 7)) :=
  recon_rebuilds_commitments smallEnv (by decide) (by decide) demoN 2 3 20 demoGroup
    demo_init (by decide!) (by decide!) (by decide!)
    3 2 4 5 1 1 2 3 4 5 6 7 3 5
    (by decide) (by decide) (by decide) (by decide) (by decide) (by decide) (by decide)
    (by decide) (by decide) (by decide) (by decide) (by decide) (by decide) (by decide)
    (le_trans (by decide : goo_mpz_bitlen 5 ≤ 128)
      (group_init_good demo_init (by rw [group_init_n demo_init]; decide!)).2.2.2.2.1)
    72 3888 472614398501303421476909176988566960358 1117820573640490240574645186758884669943
    108 108 680564733841876926926749214863536422915
    768786088228786898935772261234735588849 768786088228786898935772261234735588849
    1361129467683753853853498429727072845829
    (Or.inl (by decide!)) (Or.inl (by decide!)) (by decide!) (by decide!)
    (by rw [reduce_of_init demo_init, powghVal_of_init demo_init]; decide!)
    (by rw [reduce_of_init demo_init, commitVal_of_init demo_init]; decide!)
    (by rw [reduce_of_init demo_init, commitVal_of_init demo_init]; decide!)
    (by decide!) (by decide!) (by decide!)

end Goo

namespace Goo

/-! ## The prover's search for the prime challenge -/

/-- With a non-zero budget and enough rounds the loop of `goo_next_prime`
ends: every candidate it stepped over failed the test, and it stops at a
candidate that passes or at the first increment beyond the budget. -/
theorem nextPrimeLoop_total (E : Env) (maxinc : Nat) (hmax : maxinc ≠ 0) :
    ∀ (fuel : Nat) (ret : Int) (inc : Nat), 1 ≤ fuel → maxinc + 3 ≤ inc + 2 * fuel →
    ∃ (r : Int) (j : Nat), nextPrimeLoop E maxinc fuel ret inc = Res.ok (r, inc + 2 * j)
      ∧ r = ret + 2 * j
      ∧ (∀ k : Nat, k < j → goo_is_prime E (ret + 2 * k) = false)
      ∧ (inc + 2 * j ≤ maxinc → goo_is_prime E r = true) := by
  intro fuel
  induction fuel with
  | zero => intro ret inc h; omega
  | succ fuel ih =>
    intro ret inc _ hf
    unfold nextPrimeLoop
    by_cases hp : goo_is_prime E ret = true
    · refine ⟨ret, 0, by simp [hp], by simp, fun k hk => by omega, fun _ => hp⟩
    · simp only [hp, if_false]
      by_cases hb : maxinc ≠ 0 ∧ inc > maxinc
      · refine ⟨ret, 0, by simp [hb], by simp, fun k hk => by omega, fun h => by omega⟩
      · rw [if_neg hb]
        have hle : inc ≤ maxinc := by
          by_contra hx; exact hb ⟨hmax, by omega⟩
        obtain ⟨r, j, h1, h2, h3, h4⟩ := ih (ret + 2) (inc + 2) (by omega) (by omega)
        refine ⟨r, j + 1, ?_, ?_, ?_, ?_⟩
        · rw [h1, show inc + 2 + 2 * j = inc + 2 * (j + 1) by ring]; simp
        · rw [h2]; push_cast; ring
        · intro k hk
          cases k with
          | zero => simpa using hp
          | succ k =>
            have := h3 k (by omega)
            rw [← this]; congr 1; push_cast; ring
        · intro hle2
          exact h4 (by omega)

/-- The result of `goo_next_prime` with a non-zero budget: the least odd number
from `p` on that passes the primality test when there is one at most `maxinc`
above `p`, failure otherwise. -/
theorem goo_next_prime_total (E : Env) (p : Int) (maxinc : Nat) (hmax : maxinc ≠ 0) :
    (∃ ell, goo_next_prime E p maxinc = Res.ok ell ∧ goo_is_prime E ell = true
        ∧ ell % 2 = 1 ∧ p ≤ ell ∧ ell ≤ p + maxinc
        ∧ ∀ x : Int, x % 2 = 1 → p ≤ x → x < ell → goo_is_prime E x = false)
    ∨ (goo_next_prime E p maxinc = Res.fail
        ∧ ∀ x : Int, x % 2 = 1 → p ≤ x → x ≤ p + maxinc → goo_is_prime E x = false) := by
  unfold goo_next_prime
  rw [if_pos hmax]
  by_cases hev : p % 2 = 0
  · rw [if_pos hev]
    obtain ⟨r, j, h1, h2, h3, h4⟩ := nextPrimeLoop_total E maxinc hmax (maxinc + 3)
      (p + 1) 1 (by omega) (by omega)
    simp only [h1, Res.bind_ok]
    by_cases hi : 1 + 2 * j ≤ maxinc
    · left
      rw [if_neg (by omega)]
      refine ⟨r, rfl, h4 hi, by omega, by omega, by omega, ?_⟩
      intro x hx1 hx2 hx3
      have := h3 ((x - (p + 1)) / 2).toNat (by omega)
      rw [← this]; congr 1; omega
    · right
      rw [if_pos ⟨hmax, by omega⟩]
      refine ⟨rfl, ?_⟩
      intro x hx1 hx2 hx3
      have := h3 ((x - (p + 1)) / 2).toNat (by omega)
      rw [← this]; congr 1; omega
  · rw [if_neg hev]
    obtain ⟨r, j, h1, h2, h3, h4⟩ := nextPrimeLoop_total E maxinc hmax (maxinc + 3)
      p 0 (by omega) (by omega)
    simp only [h1, Res.bind_ok]
    by_cases hi : 0 + 2 * j ≤ maxinc
    · left
      rw [if_neg (by omega)]
      refine ⟨r, rfl, h4 hi, by omega, by omega, by omega, ?_⟩
      intro x hx1 hx2 hx3
      have := h3 ((x - p) / 2).toNat (by omega)
      rw [← this]; congr 1; omega
    · right
      rw [if_pos ⟨hmax, by omega⟩]
      refine ⟨rfl, ?_⟩
      intro x hx1 hx2 hx3
      have := h3 ((x - p) / 2).toNat (by omega)
      rw [← this]; congr 1; omega

/-- The prover path of `goo_group_fs_chal` in terms of the verifier path: the
same `chal`, and for `ell` the outcome of the prime search from `ell_r`. -/
theorem fs_chal_prover_spec (E : Env) (hmax : E.GOO_ELLDIFF_MAX ≠ 0) (G : Group)
    (prng : Prng E) (C1 C2 t A B C D msg : Int) (b : Bool) (chal ell_r : Int)
    (prng3 : Prng E)
    (h : goo_group_fs_chal E G prng C1 C2 t A B C D msg true
      = Res.ok (b, chal, ell_r, prng3)) :
    (∃ ell, goo_group_fs_chal E G prng C1 C2 t A B C D msg false
          = Res.ok (true, chal, ell, prng3)
        ∧ goo_is_prime E ell = true ∧ ell % 2 = 1
        ∧ 0 ≤ ell - ell_r ∧ ell - ell_r ≤ E.GOO_ELLDIFF_MAX
        ∧ ∀ x : Int, x % 2 = 1 → ell_r ≤ x → x < ell → goo_is_prime E x = false)
    ∨ (goo_group_fs_chal E G prng C1 C2 t A B C D msg false = Res.ok (false, 0, 0, prng3)
        ∧ ∀ x : Int, x % 2 = 1 → ell_r ≤ x → x ≤ ell_r + E.GOO_ELLDIFF_MAX →
            goo_is_prime E x = false) := by
  unfold goo_group_fs_chal at h ⊢
  obtain ⟨key, hk, h2⟩ := Res.bind_eq_ok h
  rw [hk]
  simp only [Res.bind_ok, Bool.false_eq_true, if_false, if_true] at h2 ⊢
  simp only [Res.ok.injEq, Prod.mk.injEq] at h2
  obtain ⟨_, rfl, rfl, rfl⟩ := h2
  rcases goo_next_prime_total E
      (goo_prng_getrandbits E (goo_prng_getrandbits E (goo_prng_seed E prng key)
        E.GOO_CHAL_BITS).2 E.GOO_CHAL_BITS).1 E.GOO_ELLDIFF_MAX hmax with
    ⟨ell, e1, e2, e3, e4, e5, e6⟩ | ⟨e1, e2⟩
  · left
    rw [e1]
    exact ⟨ell, rfl, e2, e3, by omega, by omega, e6⟩
  · right
    rw [e1]
    exact ⟨rfl, e2⟩

end Goo

namespace Goo

open NumberTheorySymbols

/-! ## The signer's small-prime search -/

theorem goo_primes_length : goo_primes.length = 168 := by decide!

/-- A successful search stopped at the first entry of `goo_primes` for which
`goo_mod_sqrtn` succeeds; the entries before it were read and failed. -/
theorem signSearch_first (p q : Int) : ∀ (cnt i : Nat) (t w : Int),
    signSearch p q cnt i = Res.ok (t, w) →
    ∃ (k tn : Nat), i ≤ k ∧ k < i + cnt ∧ goo_primes[k]? = some tn ∧ t = (tn : Int)
      ∧ goo_mod_sqrtn t p q = Res.ok w
      ∧ ∀ j, i ≤ j → j < k →
          ∃ tj : Nat, goo_primes[j]? = some tj ∧ goo_mod_sqrtn (tj : Int) p q = Res.fail := by
  intro cnt
  induction cnt with
  | zero => intro i t w h; simp [signSearch] at h
  | succ cnt ih =>
    intro i t w h
    unfold signSearch at h
    obtain ⟨tn, h1, h2⟩ := Res.bind_eq_ok h
    have hget : goo_primes[i]? = some tn := rd_ok_iff'.mp h1
    cases hs : goo_mod_sqrtn (tn : Int) p q with
    | ok w1 =>
      rw [hs] at h2
      simp only [Res.ok.injEq, Prod.mk.injEq] at h2
      obtain ⟨rfl, rfl⟩ := h2
      exact ⟨i, tn, le_refl _, by omega, hget, rfl, hs, fun j h1 h2 => by omega⟩
    | fail =>
      rw [hs] at h2
      obtain ⟨k, tk, a1, a2, a3, a4, a5, a6⟩ := ih _ _ _ h2
      refine ⟨k, tk, by omega, by omega, a3, a4, a5, ?_⟩
      intro j hj1 hj2
      by_cases hji : j = i
      · subst hji; exact ⟨tn, hget, hs⟩
      · exact a6 j (by omega) hj2
    | abort => rw [hs] at h2; cases h2
    | hang => rw [hs] at h2; cases h2

/-- When `goo_mod_sqrtn` fails for every entry of `goo_primes`, a search that
is allowed more than 168 rounds reads `goo_primes[168]`, outside the array. -/
theorem signSearch_past_end (p q : Int)
    (hno : ∀ tn ∈ goo_primes, goo_mod_sqrtn (tn : Int) p q = Res.fail) :
    ∀ (cnt i : Nat), i ≤ 168 → 168 < i + cnt → signSearch p q cnt i = Res.abort := by
  intro cnt
  induction cnt with
  | zero => intro i h1 h2; omega
  | succ cnt ih =>
    intro i h1 h2
    unfold signSearch
    by_cases hi : i = 168
    · subst hi
      have : rd goo_primes 168 = Res.abort := by decide
      rw [this]; rfl
    · have hlt : i < goo_primes.length := by rw [goo_primes_length]; omega
      rw [rd_eq_ok hlt]
      simp only [Res.bind_ok]
      rw [hno _ (List.get_mem _ _ _)]
      exact ih (i + 1) (by omega) (by omega)

/-- When `goo_mod_sqrtn` fails for every entry of `goo_primes`, a search of
exactly 168 rounds returns failure. -/
theorem signSearch_exact_fail (p q : Int)
    (hno : ∀ tn ∈ goo_primes, goo_mod_sqrtn (tn : Int) p q = Res.fail) :
    ∀ (cnt i : Nat), i + cnt = 168 → signSearch p q cnt i = Res.fail := by
  intro cnt
  induction cnt with
  | zero => intro i _; rfl
  | succ cnt ih =>
    intro i h1
    unfold signSearch
    have hlt : i < goo_primes.length := by rw [goo_primes_length]; omega
    rw [rd_eq_ok hlt]
    simp only [Res.bind_ok]
    rw [hno _ (List.get_mem _ _ _)]
    exact ih (i + 1) (by omega)

/-- A signing run that reaches the search with a key for which no entry of
`goo_primes` has a square root does not return. -/
theorem sign_abort_of_no_root (E : Env) (G : Group) (rnd : RandSrc) (fuel : Nat)
    (prng : Prng E) (Aq0 : Int) (stack : Bytes) (msg s_prime C1 n p q : Int)
    (e : Int × Prng E) (x0 : Int)
    (h1 : goo_group_expand_sprime E prng Aq0 s_prime stack = Res.ok e)
    (h2 : goo_group_powgh G n e.1 = Res.ok x0) (h3 : C1 = goo_group_reduce G x0)
    (hno : ∀ tn ∈ goo_primes, goo_mod_sqrtn (tn : Int) p q = Res.fail) :
    goo_group_sign E G rnd fuel prng Aq0 stack msg s_prime C1 n p q = Res.abort := by
  unfold goo_group_sign
  rw [h1]
  simp only [Res.bind_ok]
  rw [h2]
  simp only [Res.bind_ok]
  rw [if_neg (by simpa using h3)]
  rw [signSearch_past_end p q hno sizeof_goo_primes 0 (by omega) (by decide)]
  rfl

/-- The `t` of a signature that `goo_group_sign` returns is the first entry of
`goo_primes` for which `goo_mod_sqrtn` succeeds. -/
theorem sign_publishes_first (E : Env) (G : Group) (rnd : RandSrc) (fuel : Nat)
    (prng : Prng E) (Aq0 : Int) (stack : Bytes) (msg s_prime C1 n p q : Int) (sig : Sig)
    (h : goo_group_sign E G rnd fuel prng Aq0 stack msg s_prime C1 n p q = Res.ok sig) :
    ∃ (k tn : Nat) (w : Int), k < 168 ∧ goo_primes[k]? = some tn ∧ sig.t = (tn : Int)
      ∧ goo_mod_sqrtn sig.t p q = Res.ok w
      ∧ ∀ j, j < k → ∃ tj : Nat, goo_primes[j]? = some tj
          ∧ goo_mod_sqrtn (tj : Int) p q = Res.fail := by
  unfold goo_group_sign at h
  obtain ⟨e, he, h⟩ := Res.bind_eq_ok h
  obtain ⟨x0, hx0, h⟩ := Res.bind_eq_ok h
  split at h
  · cases h
  obtain ⟨tw, htw, h⟩ := Res.bind_eq_ok h
  dsimp only at h
  split at h
  · cases h
  split at h
  · cases h
  obtain ⟨d1, hd1, h⟩ := Res.bind_eq_ok h
  obtain ⟨C2raw, hC2raw, h⟩ := Res.bind_eq_ok h
  obtain ⟨invs, hinvs, h⟩ := Res.bind_eq_ok h
  obtain ⟨d2, hd2, h⟩ := Res.bind_eq_ok h
  obtain ⟨d3, hd3, h⟩ := Res.bind_eq_ok h
  obtain ⟨d4, hd4, h⟩ := Res.bind_eq_ok h
  obtain ⟨d5, hd5, h⟩ := Res.bind_eq_ok h
  obtain ⟨d6, hd6, h⟩ := Res.bind_eq_ok h
  obtain ⟨d7, hd7, h⟩ := Res.bind_eq_ok h
  obtain ⟨y1, hy1, h⟩ := Res.bind_eq_ok h
  obtain ⟨y2, hy2, h⟩ := Res.bind_eq_ok h
  obtain ⟨fs, hfs, h⟩ := Res.bind_eq_ok h
  obtain ⟨Aq1, hAq1, h⟩ := Res.bind_eq_ok h
  obtain ⟨yy1, hyy1, h⟩ := Res.bind_eq_ok h
  obtain ⟨yy2, hyy2, h⟩ := Res.bind_eq_ok h
  simp only [Res.ok.injEq] at h
  rcases tw with ⟨t, w⟩
  have ht : sig.t = t := by rw [← h]
  obtain ⟨k, tn, _, _, a3, a4, a5, a6⟩ := signSearch_first p q _ _ t w htw
  refine ⟨k, tn, w, ?_, a3, by rw [ht]; exact a4, by rw [ht]; exact a5,
    fun j hj => a6 j (Nat.zero_le _) hj⟩
  by_contra hc
  rw [List.getElem?_eq_none (by rw [goo_primes_length]; omega)] at a3
  cases a3

/-! ## Termination and the range of the square root modulo a prime -/

theorem sqrtpOrder_le (p : Int) (s : Nat) : ∀ (fuel i : Nat) (y : Int), i ≤ s →
    sqrtpOrder p s fuel i y ≤ s := by
  intro fuel
  induction fuel with
  | zero => intro i y h; exact h
  | succ fuel ih =>
    intro i y h
    unfold sqrtpOrder
    split
    · rename_i hc; exact ih _ _ (by omega)
    · exact h

/-- The main loop of `goo_mod_sqrtp` ends, for every modulus: each round
replaces `s` by a smaller value, so `s + 1` rounds are enough. -/
theorem sqrtpLoop_ends (p : Int) : ∀ (fuel s : Nat) (w y q : Int), s < fuel →
    (∃ q1, sqrtpLoop p fuel s w y q = Res.ok q1) ∨ sqrtpLoop p fuel s w y q = Res.fail := by
  intro fuel
  induction fuel with
  | zero => intro s w y q h; omega
  | succ fuel ih =>
    intro s w y q hs
    unfold sqrtpLoop
    have hle := sqrtpOrder_le p s s 0 y (Nat.zero_le _)
    generalize sqrtpOrder p s s 0 y = i at hle
    simp only
    by_cases h0 : i = 0
    · left; exact ⟨q, by simp [h0]⟩
    · rw [if_neg h0]
      by_cases h1 : i = s
      · right; simp [h1]
      · rw [if_neg h1]
        exact ih i _ _ _ (by omega)

/-- No number has Jacobi symbol `-1` over 9. -/
theorem no_witness_nine (w : Nat) : mpz_jacobi w 9 ≠ -1 := by
  rw [mpz_jacobi_eq w 9 (by decide)]
  have h : J((w : Int) | 9) = J((w : Int) | 3) * J((w : Int) | 3) := by
    have := jacobiSym.mul_right (w : Int) 3 3
    simpa using this
  rw [h]
  intro hc
  have := mul_self_nonneg (J((w : Int) | 3))
  omega

/-- The witness search of `goo_mod_sqrtp` for the modulus 9 finds nothing,
however long it runs. -/
theorem sqrtpWitness_nine : ∀ (fuel w : Nat), sqrtpWitness 9 fuel w = Res.hang := by
  intro fuel
  induction fuel with
  | zero => intro w; rfl
  | succ fuel ih =>
    intro w
    unfold sqrtpWitness
    rw [if_neg (no_witness_nine w)]
    exact ih (w + 1)

/-- In the main branch of `goo_mod_sqrtp` a returned root is at most `p / 2`. -/
theorem mod_sqrtp_main_canonical (n p r : Int) (h : goo_mod_sqrtp n p = Res.ok r)
    (h4 : p % 4 ≠ 3) : r ≤ p / 2 := by
  unfold goo_mod_sqrtp at h
  split at h
  · cases h
  split at h
  · cases h
  simp only at h
  split at h
  · simp only [Res.ok.injEq] at h; omega
  split at h
  · cases h
  obtain ⟨w0, _, h⟩ := Res.bind_eq_ok h
  obtain ⟨q1, _, h⟩ := Res.bind_eq_ok h
  obtain ⟨_, _, h⟩ := Res.bind_eq_ok h
  simp only [Res.ok.injEq] at h
  subst h
  split <;> omega

/-- For `p = 3 mod 4` a returned root of a non-zero residue is
`n^((p+1)/4) mod p`, as `mpz_powm` leaves it. -/
theorem mod_sqrtp_shortcut (n p r : Int) (h : goo_mod_sqrtp n p = Res.ok r)
    (h4 : p % 4 = 3) (hn : n % p ≠ 0) : r = mpz_powm (n % p) ((p + 1) / 4) p := by
  unfold goo_mod_sqrtp at h
  split at h
  · cases h
  split at h
  · cases h
  simp only at h
  rw [if_neg hn] at h
  split at h
  · cases h
  simp only [Res.ok.injEq] at h
  exact h.symm

end Goo

namespace Goo

open Finset

/-! ## Layout of the comb recoding and of the windowed NAF -/

/-- Horner evaluation of a bit string, most significant bit first: bit
`K - 1 - k` of the value is the `k`-th bit read. -/
theorem horner_bits (β : Nat → Nat) (hβ : ∀ k, β k ≤ 1) (K : Nat) :
    ∀ k, k < K →
      ((List.range K).foldl (fun ret k => 2 * ret + β k) 0).testBit (K - 1 - k)
        = decide (β k = 1) := by
  induction K with
  | zero => intro k hk; omega
  | succ K ih =>
    intro k hk
    rw [List.range_succ, List.foldl_append]
    simp only [List.foldl_cons, List.foldl_nil]
    generalize (List.range K).foldl (fun ret k => 2 * ret + β k) 0 = D at ih
    have hb := hβ K
    by_cases hkK : k = K
    · subst hkK
      rw [show k + 1 - 1 - k = 0 by omega, Nat.testBit_zero]
      rcases Nat.eq_zero_or_pos (β k) with h | h
      · rw [h]; simp
      · have h1 : β k = 1 := by omega
        rw [h1]
        have : (2 * D + 1) % 2 = 1 := by omega
        simp [this]
    · have hlt : k < K := by omega
      rw [show K + 1 - 1 - k = (K - 1 - k) + 1 by omega, Nat.testBit_succ]
      have : (2 * D + β K) / 2 = D := by omega
      rw [this]
      exact ih k hlt

/-- The digit `goo_to_comb_exp` computes for sub-comb `a` and shift `s` has
`P` bits; its `k`-th most significant bit is bit
`bits - 1 - ((a + k*A)*S + s)` of the exponent, an index that is never
negative. -/
theorem comb_digit_bits (c : Comb) (e : Int) (he : 0 ≤ e)
    (hW : c.bits_per_window = c.shifts * c.adds_per_shift)
    (hbits : c.bits = c.bits_per_window * c.points_per_add)
    (hlen : goo_mpz_bitlen e ≤ c.bits) (a s : Nat) (ha : a < c.adds_per_shift)
    (hs : s < c.shifts) :
    comb_digit c e (c.bits - goo_mpz_bitlen e) a s < 2 ^ c.points_per_add
    ∧ ∀ k, k < c.points_per_add →
        (a + k * c.adds_per_shift) * c.shifts + s ≤ c.bits_per_window * c.points_per_add - 1
        ∧ (comb_digit c e (c.bits - goo_mpz_bitlen e) a s).testBit (c.points_per_add - 1 - k)
          = mpz_tstbit e (c.bits_per_window * c.points_per_add - 1
              - ((a + k * c.adds_per_shift) * c.shifts + s)) := by
  set P := c.points_per_add
  set A := c.adds_per_shift
  set S := c.shifts
  set W := c.bits_per_window
  set pad := c.bits - goo_mpz_bitlen e
  have hfun : (fun (ret k : Nat) =>
      let b := (a + k * A) * S + s
      if b < pad then 2 * ret
      else 2 * ret + (if mpz_tstbit e ((c.bits - 1) - b) then 1 else 0))
      = (fun ret k => 2 * ret + bitv e ((c.bits - 1) - ((a + k * A) * S + s))) := by
    funext ret k
    dsimp only
    split
    · rename_i hb
      rw [bitv_eq_zero_of_bitlen he (by omega)]
      rfl
    · rfl
  have hd : comb_digit c e pad a s
      = (List.range P).foldl (fun ret k =>
          2 * ret + bitv e ((c.bits - 1) - ((a + k * A) * S + s))) 0 := by
    unfold comb_digit
    rw [← hfun]
  obtain ⟨h1, _⟩ := horner_spread W
    (fun k => bitv e ((c.bits - 1) - ((a + k * A) * S + s)))
    (fun k => bitv_le_one _ _) P
  rw [hd]
  refine ⟨h1, ?_⟩
  intro k hk
  constructor
  · rw [hW]
    have h2 : (a + k * A) * S + s + 1 ≤ (A + k * A) * S := by
      have : (A + k * A) * S = (a + k * A) * S + (A - a) * S := by
        rw [← Nat.add_mul]; congr 1; omega
      rw [this]
      have : S ≤ (A - a) * S := Nat.le_mul_of_pos_left _ (by omega)
      omega
    have h3 : (A + k * A) * S ≤ S * A * P := by
      have : (A + k * A) * S = S * A * (k + 1) := by ring
      rw [this]
      exact Nat.mul_le_mul_left _ (by omega)
    omega
  · have := horner_bits (fun k => bitv e ((c.bits - 1) - ((a + k * A) * S + s)))
      (fun k => bitv_le_one _ _) P k hk
    rw [this]
    simp only [bitv, hbits]
    by_cases hx : mpz_tstbit e (W * P - 1 - ((a + k * A) * S + s)) = true
    · simp [hx]
    · simp [hx]

/-- Every bit position below `S*A*P` is `(a + k*A)*S + s` for exactly one
sub-comb `a < A`, bit `k < P` and shift `s < S`. -/
theorem comb_position_unique (P A S b : Nat) (hb : b < S * A * P) :
    ∃! x : Nat × Nat × Nat, x.1 < A ∧ x.2.1 < P ∧ x.2.2 < S
      ∧ (x.1 + x.2.1 * A) * S + x.2.2 = b := by
  have hS : 0 < S := by
    rcases Nat.eq_zero_or_pos S with h | h
    · subst h; simp at hb
    · exact h
  have hA : 0 < A := by
    rcases Nat.eq_zero_or_pos A with h | h
    · subst h; simp at hb
    · exact h
  refine ⟨(b / S % A, b / S / A, b % S), ⟨Nat.mod_lt _ hA, ?_, Nat.mod_lt _ hS, ?_⟩, ?_⟩
  · show b / S / A < P
    rw [Nat.div_div_eq_div_mul, Nat.div_lt_iff_lt_mul (by positivity)]
    calc b < S * A * P := hb
      _ = P * (S * A) := by ring
  · show (b / S % A + b / S / A * A) * S + b % S = b
    rw [Nat.mod_add_div' (b / S) A, Nat.div_add_mod' b S]
  · rintro ⟨a, k, s⟩ ⟨h1, h2, h3, h4⟩
    simp only at h1 h2 h3 h4
    have e1 : b / S = a + k * A := by
      rw [← h4, Nat.add_comm, Nat.add_mul_div_right _ _ hS, Nat.div_eq_of_lt h3]; simp
    have e2 : b % S = s := by
      rw [← h4, Nat.add_comm, Nat.add_mul_mod_self_right, Nat.mod_eq_of_lt h3]
    have e3 : (a + k * A) % A = a := by
      rw [Nat.add_mul_mod_self_right, Nat.mod_eq_of_lt h1]
    have e4 : (a + k * A) / A = k := by
      rw [Nat.add_mul_div_right _ _ hA, Nat.div_eq_of_lt h1]; simp
    rw [e1, e2, e3, e4]

/-- Value of a signed-digit string as a weighted sum. -/
theorem evalDigits_eq_sum (ds : List Int) :
    evalDigits ds = ∑ i in range ds.length, ds.getD i 0 * 2 ^ (ds.length - 1 - i) := by
  induction ds using List.reverseRecOn with
  | nil => simp [evalDigits]
  | append_singleton ds d ih =>
    rw [evalDigits_append_single, ih]
    simp only [List.length_append, List.length_singleton]
    rw [sum_range_succ, mul_sum]
    congr 1
    · apply sum_congr rfl
      intro i hi
      rw [mem_range] at hi
      rw [List.getD_append _ _ _ _ hi]
      rw [show ds.length + 1 - 1 - i = (ds.length - 1 - i) + 1 by omega, pow_succ]
      ring
    · rw [List.getD_append_right _ _ _ _ (le_refl _)]
      simp

/-- The table index `goo_group_one_mul` uses for a non-zero digit of a
width-`w` NAF is below `2^(w-2)`. -/
theorem wnaf_table_index {w : Nat} (hw : 2 ≤ w) {d : Int} (hd : wnafDigitOk w d) :
    (0 < d → ((d - 1) / 2).toNat < 2 ^ (w - 2))
    ∧ (d < 0 → ((-1 - d) / 2).toNat < 2 ^ (w - 2)) := by
  have hpow : (2 : Int) ^ (w - 1) = 2 * 2 ^ (w - 2) := by
    rw [show w - 1 = (w - 2) + 1 by omega, pow_succ]; ring
  have hcast : ((2 ^ (w - 2) : Nat) : Int) = 2 ^ (w - 2) := by push_cast; rfl
  rcases hd with rfl | ⟨h1, h2, h3⟩
  · constructor <;> intro h <;> omega
  · rw [hpow] at h2 h3
    constructor
    · intro hpos
      have : ((d - 1) / 2) < 2 ^ (w - 2) := by omega
      have h0 : 0 ≤ (d - 1) / 2 := by omega
      zify
      rw [Int.toNat_of_nonneg h0]
      exact this
    · intro hneg
      have : ((-1 - d) / 2) < 2 ^ (w - 2) := by omega
      have h0 : 0 ≤ (-1 - d) / 2 := by omega
      zify
      rw [Int.toNat_of_nonneg h0]
      exact this

end Goo

namespace Goo

/-! ## The choice made by `goo_combspec_init` -/

/-- A counted loop whose bodies return is a fold over the index range. -/
theorem forRange_foldl {σ : Type} (Inv : σ → Prop) (f : Nat → σ → Res σ) (g : Nat → σ → σ) :
    ∀ (k i : Nat) (s : σ), Inv s →
      (∀ j s, i ≤ j → j < i + k → Inv s → f j s = Res.ok (g j s) ∧ Inv (g j s)) →
      forRange k i f s = Res.ok ((List.range' i k).foldl (fun s j => g j s) s)
        ∧ Inv ((List.range' i k).foldl (fun s j => g j s) s) := by
  intro k
  induction k with
  | zero => intro i s h _; exact ⟨rfl, h⟩
  | succ k ih =>
    intro i s h hstep
    obtain ⟨h1, h2⟩ := hstep i s (le_refl _) (by omega) h
    obtain ⟨h3, h4⟩ := ih (i + 1) (g i s) h2
      (fun j s hj hj2 hI => hstep j s (by omega) (by omega) hI)
    simp only [forRange, h1, Res.bind_ok, List.range'_succ, List.foldl_cons]
    exact ⟨h3, h4⟩

theorem foldl_flatten_map {α β σ : Type} (f : σ → β → σ) (g : α → List β) :
    ∀ (l : List α) (s : σ),
      ((l.map g).flatten).foldl f s = l.foldl (fun s a => (g a).foldl f s) s := by
  intro l
  induction l with
  | nil => intro s; rfl
  | cons a l ih => intro s; simp [List.foldl_append, ih]

theorem combspecStore_length (combs : List CombSpec) (c : CombSpec) :
    (combspecStore combs c).length = combs.length := by
  unfold combspecStore
  split <;> simp

theorem foldl_store_length : ∀ (l : List CombSpec) (combs : List CombSpec),
    (l.foldl combspecStore combs).length = combs.length := by
  intro l
  induction l with
  | nil => intro combs; rfl
  | cons c l ih => intro combs; simp [ih, combspecStore_length]

/-- Within the array, `combspec_result` stores the candidate record. -/
theorem combspec_result_store (combs : List CombSpec) (shifts aps ppa bps : Nat)
    (h : (combCandidate shifts aps ppa bps).ops < combs.length) :
    combspec_result combs shifts aps ppa bps
      = Res.ok (combspecStore combs (combCandidate shifts aps ppa bps)) := by
  have h1 : shifts * (aps + 1) - 1 < combs.length := h
  unfold combspec_result combspecStore
  simp only [rd_eq_ok h1, Res.bind_ok]
  have e : combs.getD (combCandidate shifts aps ppa bps).ops CombSpec.zero
      = combs.get ⟨shifts * (aps + 1) - 1, h1⟩ := by
    show combs.getD (shifts * (aps + 1) - 1) CombSpec.zero = _
    rw [List.getD_eq_getElem _ _ h1]; rfl
  rw [e]
  have hsz : (combCandidate shifts aps ppa bps).size = (2 ^ ppa - 1) * aps := rfl
  have hops : (combCandidate shifts aps ppa bps).ops = shifts * (aps + 1) - 1 := rfl
  rw [hsz, hops]
  by_cases hc : (combs.get ⟨shifts * (aps + 1) - 1, h1⟩).exists = false
      ∨ (combs.get ⟨shifts * (aps + 1) - 1, h1⟩).size > (2 ^ ppa - 1) * aps
  · rw [if_pos hc, if_pos hc]; exact wr_eq_ok _ h1
  · rw [if_neg hc, if_neg hc]

theorem mem_candidatesFor {bits ppa aps : Nat} {c : CombSpec}
    (ha1 : 1 ≤ aps) (ha2 : aps < 1 + (goo_sqrt ((bits + ppa - 1) / ppa) + 1))
    (hc : c ∈ combCandidatesAt bits ppa aps) : c ∈ combCandidatesFor bits ppa := by
  unfold combCandidatesFor
  rw [List.mem_flatten]
  refine ⟨_, List.mem_map.mpr ⟨aps, ?_, rfl⟩, hc⟩
  rw [List.mem_range'_1]
  exact ⟨ha1, ha2⟩

theorem mem_candidates {bits ppa : Nat} {c : CombSpec} (hp1 : 2 ≤ ppa) (hp2 : ppa < 2 + 16)
    (hc : c ∈ combCandidatesFor bits ppa) : c ∈ combCandidates bits := by
  unfold combCandidates
  rw [List.mem_flatten]
  refine ⟨_, List.mem_map.mpr ⟨ppa, ?_, rfl⟩, hc⟩
  rw [List.mem_range'_1]
  exact ⟨hp1, hp2⟩

theorem mem_candidates_iff {bits : Nat} {c : CombSpec} :
    c ∈ combCandidates bits ↔ ∃ ppa aps, 2 ≤ ppa ∧ ppa < 18 ∧ 1 ≤ aps
      ∧ aps < goo_sqrt ((bits + ppa - 1) / ppa) + 2
      ∧ c ∈ combCandidatesAt bits ppa aps := by
  constructor
  · intro h
    unfold combCandidates at h
    rw [List.mem_flatten] at h
    obtain ⟨l, hl, hc⟩ := h
    obtain ⟨ppa, hp, rfl⟩ := List.mem_map.mp hl
    rw [List.mem_range'_1] at hp
    unfold combCandidatesFor at hc
    rw [List.mem_flatten] at hc
    obtain ⟨l2, hl2, hc2⟩ := hc
    obtain ⟨aps, ha, rfl⟩ := List.mem_map.mp hl2
    rw [List.mem_range'_1] at ha
    exact ⟨ppa, aps, hp.1, by omega, ha.1, by omega, hc2⟩
  · rintro ⟨ppa, aps, h1, h2, h3, h4, h5⟩
    exact mem_candidates h1 (by omega) (mem_candidatesFor h3 (by omega) h5)

/-- Every enumerated candidate is a filled record. -/
theorem candidate_exists {bits : Nat} {c : CombSpec} (h : c ∈ combCandidates bits) :
    c.exists = true := by
  obtain ⟨ppa, aps, _, _, _, _, hc⟩ := mem_candidates_iff.mp h
  unfold combCandidatesAt at hc
  simp only at hc
  split at hc
  · simp at hc
  · simp only [List.mem_cons, List.mem_singleton, List.not_mem_nil, or_false] at hc
    rcases hc with rfl | rfl <;> rfl

/-- While every candidate index lies inside the map, the enumeration of
`goo_combspec_init` stores the candidates one after the other. -/
theorem combspec_fill_eq (bits : Nat) (combs : List CombSpec)
    (hlen : ∀ c ∈ combCandidates bits, c.ops < combs.length) :
    combspec_fill bits combs = Res.ok ((combCandidates bits).foldl combspecStore combs) := by
  unfold combspec_fill combCandidates
  rw [foldl_flatten_map]
  refine (forRange_foldl (fun s : List CombSpec => s.length = combs.length) _
    (fun ppa s => (combCandidatesFor bits ppa).foldl combspecStore s) 16 2 combs rfl ?_).1
  intro ppa s hp1 hp2 hs
  refine ⟨?_, by show List.length (List.foldl combspecStore _ _) = _; rw [foldl_store_length]; exact hs⟩
  show _ = Res.ok ((combCandidatesFor bits ppa).foldl combspecStore s)
  unfold combCandidatesFor
  rw [foldl_flatten_map]
  dsimp only
  refine (forRange_foldl (fun t : List CombSpec => t.length = combs.length) _
    (fun aps t => (combCandidatesAt bits ppa aps).foldl combspecStore t)
    (goo_sqrt ((bits + ppa - 1) / ppa) + 1) 1 s hs ?_).1
  intro aps t ha1 ha2 ht
  refine ⟨?_, by show List.length (List.foldl combspecStore _ _) = _; rw [foldl_store_length]; exact ht⟩
  show _ = Res.ok ((combCandidatesAt bits ppa aps).foldl combspecStore t)
  have hmem : ∀ c ∈ combCandidatesAt bits ppa aps, c.ops < combs.length := fun c hc =>
    hlen c (mem_candidates hp1 hp2 (mem_candidatesFor ha1 ha2 hc))
  unfold combCandidatesAt at hmem ⊢
  simp only at hmem ⊢
  split
  · rfl
  · rename_i hdiv
    rw [if_neg hdiv] at hmem
    simp only [List.foldl_cons, List.foldl_nil]
    rw [combspec_result_store _ _ _ _ _ (by rw [ht]; exact hmem _ (by simp))]
    simp only [Res.bind_ok]
    rw [combspec_result_store _ _ _ _ _
      (by rw [combspecStore_length, ht]; exact hmem _ (by simp))]

/-! ### The size of the map -/

theorem foldl_bound {α : Type} (F : Nat → α → Nat) (B : α → Nat → Prop)
    (hF1 : ∀ mx a, mx ≤ F mx a) (hF2 : ∀ mx a n, B a n → n ≤ F mx a) :
    ∀ (l : List α) (mx : Nat), mx ≤ l.foldl F mx ∧ ∀ a ∈ l, ∀ n, B a n → n ≤ l.foldl F mx := by
  intro l
  induction l with
  | nil => intro mx; exact ⟨le_refl _, fun a ha => by simp at ha⟩
  | cons a l ih =>
    intro mx
    obtain ⟨h1, h2⟩ := ih (F mx a)
    simp only [List.foldl_cons]
    refine ⟨le_trans (hF1 mx a) h1, ?_⟩
    intro b hb n hn
    rcases List.mem_cons.mp hb with rfl | hb
    · exact le_trans (hF2 mx b n hn) h1
    · exact h2 b hb n hn

/-- The map of `goo_combspec_init` has a slot for every candidate. -/
theorem candidate_ops_lt (bits : Nat) {c : CombSpec} (h : c ∈ combCandidates bits) :
    c.ops < combspec_size bits := by
  obtain ⟨ppa, aps, hp1, hp2, ha1, ha2, hc⟩ := mem_candidates_iff.mp h
  unfold combCandidatesAt at hc
  simp only at hc
  split at hc
  · simp at hc
  rename_i hdiv
  have hdiv0 : (bits + ppa - 1) / ppa % aps = 0 := by
    by_contra hx; exact hdiv hx
  unfold combspec_size
  have inner : ∀ (ppa : Nat) (mx : Nat),
      mx ≤ (List.range' 1 (goo_sqrt ((bits + ppa - 1) / ppa) + 1)).foldl (fun mx aps =>
        if (bits + ppa - 1) / ppa % aps ≠ 0 then mx
        else
          (if (if (bits + ppa - 1) / ppa / aps * (aps + 1) - 1
              > aps * ((bits + ppa - 1) / ppa / aps + 1) - 1
            then (bits + ppa - 1) / ppa / aps * (aps + 1) - 1
            else aps * ((bits + ppa - 1) / ppa / aps + 1) - 1) + 1 > mx
          then (if (bits + ppa - 1) / ppa / aps * (aps + 1) - 1
              > aps * ((bits + ppa - 1) / ppa / aps + 1) - 1
            then (bits + ppa - 1) / ppa / aps * (aps + 1) - 1
            else aps * ((bits + ppa - 1) / ppa / aps + 1) - 1) + 1
          else mx)) mx
      ∧ ∀ a ∈ List.range' 1 (goo_sqrt ((bits + ppa - 1) / ppa) + 1), ∀ n,
        ((bits + ppa - 1) / ppa % a = 0
          ∧ n ≤ (if (bits + ppa - 1) / ppa / a * (a + 1) - 1
              > a * ((bits + ppa - 1) / ppa / a + 1) - 1
            then (bits + ppa - 1) / ppa / a * (a + 1) - 1
            else a * ((bits + ppa - 1) / ppa / a + 1) - 1) + 1) →
        n ≤ (List.range' 1 (goo_sqrt ((bits + ppa - 1) / ppa) + 1)).foldl (fun mx aps =>
        if (bits + ppa - 1) / ppa % aps ≠ 0 then mx
        else
          (if (if (bits + ppa - 1) / ppa / aps * (aps + 1) - 1
              > aps * ((bits + ppa - 1) / ppa / aps + 1) - 1
            then (bits + ppa - 1) / ppa / aps * (aps + 1) - 1
            else aps * ((bits + ppa - 1) / ppa / aps + 1) - 1) + 1 > mx
          then (if (bits + ppa - 1) / ppa / aps * (aps + 1) - 1
              > aps * ((bits + ppa - 1) / ppa / aps + 1) - 1
            then (bits + ppa - 1) / ppa / aps * (aps + 1) - 1
            else aps * ((bits + ppa - 1) / ppa / aps + 1) - 1) + 1
          else mx)) mx := by
    intro ppa mx
    apply foldl_bound
    · intro mx a; dsimp only
      split_ifs <;> omega
    · intro mx a n hn; dsimp only
      obtain ⟨hn1, hn2⟩ := hn
      rw [if_neg (by simp [hn1])]
      split_ifs at hn2 ⊢ <;> omega
  have outer := foldl_bound
    (fun mx ppa => (List.range' 1 (goo_sqrt ((bits + ppa - 1) / ppa) + 1)).foldl (fun mx aps =>
        if (bits + ppa - 1) / ppa % aps ≠ 0 then mx
        else
          (if (if (bits + ppa - 1) / ppa / aps * (aps + 1) - 1
              > aps * ((bits + ppa - 1) / ppa / aps + 1) - 1
            then (bits + ppa - 1) / ppa / aps * (aps + 1) - 1
            else aps * ((bits + ppa - 1) / ppa / aps + 1) - 1) + 1 > mx
          then (if (bits + ppa - 1) / ppa / aps * (aps + 1) - 1
              > aps * ((bits + ppa - 1) / ppa / aps + 1) - 1
            then (bits + ppa - 1) / ppa / aps * (aps + 1) - 1
            else aps * ((bits + ppa - 1) / ppa / aps + 1) - 1) + 1
          else mx)) mx)
    (fun ppa n => ∃ a ∈ List.range' 1 (goo_sqrt ((bits + ppa - 1) / ppa) + 1),
        ((bits + ppa - 1) / ppa % a = 0
          ∧ n ≤ (if (bits + ppa - 1) / ppa / a * (a + 1) - 1
              > a * ((bits + ppa - 1) / ppa / a + 1) - 1
            then (bits + ppa - 1) / ppa / a * (a + 1) - 1
            else a * ((bits + ppa - 1) / ppa / a + 1) - 1) + 1))
    (fun mx ppa => (inner ppa mx).1)
    (fun mx ppa n ⟨a, ha, hn⟩ => (inner ppa mx).2 a ha n hn)
    (List.range' 2 16) 0
  have key := outer.2 ppa (by rw [List.mem_range'_1]; omega) (c.ops + 1)
    ⟨aps, by rw [List.mem_range'_1]; omega, hdiv0, by
      simp only [List.mem_cons, List.mem_singleton, List.not_mem_nil, or_false] at hc
      rcases hc with rfl | rfl
      · show (bits + ppa - 1) / ppa / aps * (aps + 1) - 1 + 1 ≤ _
        split_ifs <;> omega
      · show aps * ((bits + ppa - 1) / ppa / aps + 1) - 1 + 1 ≤ _
        split_ifs <;> omega⟩
  exact key

end Goo

namespace Goo

/-! ### The content of the map and the final scan -/

theorem getD_set_self {M : List CombSpec} {o : Nat} (c : CombSpec) (h : o < M.length) :
    (M.set o c).getD o CombSpec.zero = c := by
  rw [List.getD_eq_getElem?_getD, List.getElem?_set_self h]; rfl

theorem getD_set_ne {M : List CombSpec} {o o2 : Nat} (c : CombSpec) (h : o ≠ o2) :
    (M.set o c).getD o2 CombSpec.zero = M.getD o2 CombSpec.zero := by
  rw [List.getD_eq_getElem?_getD, List.getD_eq_getElem?_getD, List.getElem?_set_ne h]

theorem storeInv_step (N : Nat) (L M : List CombSpec) (c : CombSpec)
    (hinv : StoreInv N L M) (hex : c.exists = true) (hops : c.ops < N) :
    StoreInv N (L ++ [c]) (combspecStore M c) := by
  obtain ⟨hlen, hI⟩ := hinv
  refine ⟨by rw [combspecStore_length]; exact hlen, ?_⟩
  intro o ho
  obtain ⟨hI1, hI2⟩ := hI o ho
  unfold combspecStore
  by_cases heq : o = c.ops
  · subst heq
    by_cases hc : (M.getD c.ops CombSpec.zero).exists = false
        ∨ (M.getD c.ops CombSpec.zero).size > c.size
    · rw [if_pos hc, getD_set_self c (by rw [hlen]; exact ho)]
      refine ⟨fun h => (by rw [hex] at h; cases h), fun _ => ⟨by simp, rfl, ?_⟩⟩
      intro c2 hc2 hops2
      rcases List.mem_append.mp hc2 with h | h
      · rcases hc with hc | hc
        · exact absurd hops2 (hI1 hc c2 h)
        · have hex2 : (M.getD c.ops CombSpec.zero).exists = true := by
            cases hx : (M.getD c.ops CombSpec.zero).exists
            · exact absurd hops2 (hI1 hx c2 h)
            · rfl
          have := (hI2 hex2).2.2 c2 h hops2
          omega
      · simp at h; subst h; exact le_refl _
    · rw [if_neg hc]
      push_neg at hc
      have hex2 : (M.getD c.ops CombSpec.zero).exists = true := by
        cases hx : (M.getD c.ops CombSpec.zero).exists
        · exact absurd hx hc.1
        · rfl
      refine ⟨fun h => (by rw [hex2] at h; cases h), fun _ => ?_⟩
      obtain ⟨a1, a2, a3⟩ := hI2 hex2
      refine ⟨List.mem_append_left _ a1, a2, ?_⟩
      intro c2 hc2 hops2
      rcases List.mem_append.mp hc2 with h | h
      · exact a3 c2 h hops2
      · simp at h; subst h; exact hc.2
  · have hset : (if (M.getD c.ops CombSpec.zero).exists = false
          ∨ (M.getD c.ops CombSpec.zero).size > c.size then M.set c.ops c else M).getD o
          CombSpec.zero = M.getD o CombSpec.zero := by
      split
      · exact getD_set_ne c (fun h => heq h.symm)
      · rfl
    rw [hset]
    constructor
    · intro h c2 hc2
      rcases List.mem_append.mp hc2 with h2 | h2
      · exact hI1 h c2 h2
      · simp at h2; subst h2; exact fun h3 => heq h3.symm
    · intro h
      obtain ⟨a1, a2, a3⟩ := hI2 h
      refine ⟨List.mem_append_left _ a1, a2, ?_⟩
      intro c2 hc2 hops2
      rcases List.mem_append.mp hc2 with h2 | h2
      · exact a3 c2 h2 hops2
      · simp at h2; subst h2; exact absurd hops2.symm heq

theorem storeInv_foldl (N : Nat) : ∀ (R L M : List CombSpec), StoreInv N L M →
    (∀ c ∈ R, c.exists = true ∧ c.ops < N) →
    StoreInv N (L ++ R) (R.foldl combspecStore M) := by
  intro R
  induction R with
  | nil => intro L M h _; simpa using h
  | cons c R ih =>
    intro L M h hR
    have h1 := storeInv_step N L M c h (hR c (by simp)).1 (hR c (by simp)).2
    have h2 := ih (L ++ [c]) (combspecStore M c) h1 (fun c2 hc2 => hR c2 (by simp [hc2]))
    simpa using h2

theorem storeInv_init (N : Nat) : StoreInv N [] (List.replicate N CombSpec.zero) := by
  refine ⟨by simp, ?_⟩
  intro o ho
  have : (List.replicate N CombSpec.zero).getD o CombSpec.zero = CombSpec.zero := by
    rw [List.getD_eq_getElem?_getD, List.getElem?_replicate]
    simp [ho]
  rw [this]
  exact ⟨fun _ c hc => by simp at hc, fun h => by simp [CombSpec.zero] at h⟩

/-- The final scan returns the first filled slot whose size fits, if any. -/
theorem combspec_scan_first (maxsize : Nat) : ∀ (l : List CombSpec) (sm : Nat),
    (sm = 0 ∨ maxsize < sm) →
    (∀ s, combspec_scan maxsize l sm = some s →
      ∃ i, l[i]? = some s ∧ s.exists = true ∧ s.size ≤ maxsize
        ∧ ∀ (j : Nat) (c : CombSpec), j < i → l[j]? = some c → c.exists = true → maxsize < c.size)
    ∧ (combspec_scan maxsize l sm = none → ∀ c ∈ l, c.exists = true → maxsize < c.size) := by
  intro l
  induction l with
  | nil =>
    intro sm _
    exact ⟨fun s h => by simp [combspec_scan] at h, fun _ c hc => by simp at hc⟩
  | cons a rest ih =>
    intro sm hsm
    have skip : ∀ sm2, (sm2 = 0 ∨ maxsize < sm2) → (a.exists = true → maxsize < a.size) →
        (∀ s, combspec_scan maxsize rest sm2 = some s →
          ∃ i, (a :: rest)[i]? = some s ∧ s.exists = true ∧ s.size ≤ maxsize
            ∧ ∀ (j : Nat) (c : CombSpec), j < i → (a :: rest)[j]? = some c → c.exists = true → maxsize < c.size)
        ∧ (combspec_scan maxsize rest sm2 = none →
            ∀ c ∈ a :: rest, c.exists = true → maxsize < c.size) := by
      intro sm2 hsm2 ha
      obtain ⟨i1, i2⟩ := ih sm2 hsm2
      constructor
      · intro s hs
        obtain ⟨i, b1, b2, b3, b4⟩ := i1 s hs
        refine ⟨i + 1, by simpa using b1, b2, b3, ?_⟩
        intro j c hj hc hex
        cases j with
        | zero =>
          simp at hc; subst hc; exact ha hex
        | succ j => exact b4 j c (by omega) (by simpa using hc) hex
      · intro hn c hc hex
        rcases List.mem_cons.mp hc with rfl | hc
        · exact ha hex
        · exact i2 hn c hc hex
    unfold combspec_scan
    by_cases he : a.exists = false
    · rw [if_pos he]
      exact skip sm hsm (fun h => by rw [he] at h; cases h)
    · rw [if_neg he]
      have hex : a.exists = true := by
        cases hx : a.exists
        · exact absurd hx he
        · rfl
      by_cases h2 : sm ≠ 0 ∧ sm ≤ a.size
      · rw [if_pos h2]
        exact skip sm hsm (fun _ => by omega)
      · rw [if_neg h2]
        by_cases h3 : a.size ≤ maxsize
        · rw [if_pos h3]
          constructor
          · intro s hs
            simp only [Option.some.injEq] at hs
            subst hs
            exact ⟨0, by simp, hex, h3, fun j c hj => by omega⟩
          · intro hn; cases hn
        · rw [if_neg h3]
          exact skip a.size (Or.inr (by omega)) (fun _ => by omega)

/-- The map `goo_combspec_init` scans: the candidates stored one after the
other into `combspec_size(bits)` empty slots. -/
theorem combspec_map (bits : Nat) :
    combspec_fill bits (List.replicate (combspec_size bits) CombSpec.zero)
        = Res.ok ((combCandidates bits).foldl combspecStore
            (List.replicate (combspec_size bits) CombSpec.zero))
    ∧ StoreInv (combspec_size bits) (combCandidates bits)
        ((combCandidates bits).foldl combspecStore
          (List.replicate (combspec_size bits) CombSpec.zero)) := by
  constructor
  · apply combspec_fill_eq
    intro c hc
    rw [List.length_replicate]
    exact candidate_ops_lt bits hc
  · have := storeInv_foldl (combspec_size bits) (combCandidates bits) [] _
      (storeInv_init _) (fun c hc => ⟨candidate_exists hc, candidate_ops_lt bits hc⟩)
    simpa using this

/-- The choice of `goo_combspec_init`: among the candidates that fit
`maxsize`, one with the fewest operations, and among those with that number
of operations one of the smallest size; failure exactly when `bits < 128` or
no candidate fits. -/
theorem combspec_init_choice (bits : Int) (maxsize : Nat) :
    (goo_combspec_init bits maxsize = Res.fail
      ↔ bits < 128 ∨ ∀ c ∈ combCandidates bits.toNat, maxsize < c.size)
    ∧ (∀ s, goo_combspec_init bits maxsize = Res.ok s →
        s ∈ combCandidates bits.toNat ∧ s.size ≤ maxsize
        ∧ ∀ c ∈ combCandidates bits.toNat, c.size ≤ maxsize →
            s.ops < c.ops ∨ (s.ops = c.ops ∧ s.size ≤ c.size))
    ∧ ((∃ s, goo_combspec_init bits maxsize = Res.ok s)
        ∨ goo_combspec_init bits maxsize = Res.fail) := by
  unfold goo_combspec_init
  by_cases hb : bits < 128
  · simp [hb]
  rw [if_neg hb]
  obtain ⟨hfill, hlen, hI⟩ := combspec_map bits.toNat
  rw [hfill]
  simp only [Res.bind_ok]
  generalize (combCandidates bits.toNat).foldl combspecStore
    (List.replicate (combspec_size bits.toNat) CombSpec.zero) = M at hlen hI
  obtain ⟨sc1, sc2⟩ := combspec_scan_first maxsize M 0 (Or.inl rfl)
  -- a candidate that fits makes its slot a filled slot that fits
  have slot : ∀ c ∈ combCandidates bits.toNat,
      (M.getD c.ops CombSpec.zero).exists = true
      ∧ (M.getD c.ops CombSpec.zero).size ≤ c.size
      ∧ M[c.ops]? = some (M.getD c.ops CombSpec.zero) := by
    intro c hc
    have hops := candidate_ops_lt bits.toNat hc
    obtain ⟨h1, h2⟩ := hI c.ops hops
    have hex : (M.getD c.ops CombSpec.zero).exists = true := by
      cases hx : (M.getD c.ops CombSpec.zero).exists
      · exact absurd rfl (h1 hx c hc)
      · rfl
    refine ⟨hex, (h2 hex).2.2 c hc rfl, ?_⟩
    rw [List.getD_eq_getElem?_getD, List.getElem?_eq_getElem (by rw [hlen]; exact hops)]
    rfl
  cases hsc : combspec_scan maxsize M 0 with
  | none =>
    have hall := sc2 hsc
    refine ⟨⟨fun _ => Or.inr ?_, fun _ => rfl⟩, fun s h => (by cases h), Or.inr rfl⟩
    intro c hc
    obtain ⟨s1, s2, s3⟩ := slot c hc
    have := hall _ (List.getElem?_mem s3) s1
    omega
  | some s =>
    obtain ⟨i, a1, a2, a3, a4⟩ := sc1 s hsc
    have hi : i < M.length := by
      by_contra hx
      rw [List.getElem?_eq_none (by omega)] at a1; cases a1
    have hsi : M.getD i CombSpec.zero = s := by
      rw [List.getD_eq_getElem?_getD, a1]; rfl
    obtain ⟨_, h2⟩ := hI i (by rw [← hlen]; exact hi)
    rw [hsi] at h2
    obtain ⟨b1, b2, b3⟩ := h2 a2
    refine ⟨⟨fun h => (by cases h), fun h => ?_⟩, fun s2 h => ?_, Or.inl ⟨s, rfl⟩⟩
    · rcases h with h | h
      · exact absurd h hb
      · have := h s b1
        omega
    · simp only [Res.ok.injEq] at h
      subst h
      refine ⟨b1, a3, ?_⟩
      intro c hc hfit
      obtain ⟨s1, s2, s3⟩ := slot c hc
      rcases Nat.lt_trichotomy i c.ops with h | h | h
      · left; omega
      · right
        refine ⟨by omega, ?_⟩
        have : M.getD c.ops CombSpec.zero = s := by rw [← h]; exact hsi
        rw [this] at s2; exact s2
      · have := a4 c.ops _ h s3 s1
        omega

end Goo

namespace Goo

/-! ## Exact contents of the comb table -/

theorem tableRange_set {m : Nat} {base : Int} {it : List Int} (k : Nat) (v : Int)
    (hk : 1 ≤ k) (hv : 0 ≤ v ∧ v < m) (h : TableRange m base it) :
    TableRange m base (it.set k v) := by
  obtain ⟨h0, h1⟩ := h
  refine ⟨by rw [List.getElem?_set_ne (by omega)]; exact h0, ?_⟩
  intro idx x hidx hx
  by_cases hki : k = idx
  · subst hki
    have hlt : k < it.length := by
      by_contra hc
      rw [List.getElem?_eq_none (by simp; omega)] at hx
      cases hx
    rw [getElem?_set_same it k v x hlt hx]
    exact hv
  · exact h1 idx x hidx (getElem?_set_of_ne _ _ _ _ _ hki hx)

theorem group_pow_range (m : Nat) (hm : 0 < m) (x : Int) (k : Nat) :
    0 ≤ goo_group_pow (m : Int) x (2 ^ k) ∧ goo_group_pow (m : Int) x (2 ^ k) < m := by
  unfold goo_group_pow
  have : ((2 : Int) ^ k) = ((2 ^ k : Nat) : Int) := by push_cast; rfl
  rw [this]
  exact mpz_powm_range x (2 ^ k) m hm

theorem group_mul_range (m : Nat) (hm : 0 < m) (a b : Int) :
    0 ≤ goo_group_mul (m : Int) a b ∧ goo_group_mul (m : Int) a b < m := by
  unfold goo_group_mul
  have : (0 : Int) < m := by exact_mod_cast hm
  exact ⟨Int.emod_nonneg _ this.ne', Int.emod_lt_of_pos _ this⟩

/-- The first table loop leaves item 0 alone and writes residues. -/
theorem comb_fill_points_range (m : Nat) (hm : 0 < m) (base : Int) (P W : Nat)
    (it0 it : List Int) (h : comb_fill_points (m : Int) P (2 ^ W) it0 = Res.ok it)
    (h0 : TableRange m base it0) : TableRange m base it := by
  unfold comb_fill_points at h
  refine forRange_ok_inv (fun _ (it : List Int) => TableRange m base it) _
    (P - 1) 1 it0 it h0 h ?_
  intro i s s1 hi1 _ hI hs
  dsimp only at hs
  obtain ⟨x, _, hs⟩ := Res.bind_eq_ok hs
  obtain ⟨it1, hw, hs⟩ := Res.bind_eq_ok hs
  obtain ⟨_, rfl⟩ := wr_ok_iff.mp hw
  have hpow : 2 ≤ 2 ^ i := by
    calc 2 = 2 ^ 1 := by norm_num
      _ ≤ 2 ^ i := Nat.pow_le_pow_right (by norm_num) hi1
  have hI1 : TableRange m base (s.set (2 ^ i - 1) (goo_group_pow (m : Int) x (2 ^ W))) :=
    tableRange_set _ _ (by omega) (group_pow_range m hm x W) hI
  refine forRange_ok_inv (fun _ (it : List Int) => TableRange m base it) _
    (2 ^ i - 1) (2 ^ i + 1) _ s1 hI1 hs ?_
  intro j t t1 hj1 _ hJ ht
  obtain ⟨a, _, ht⟩ := Res.bind_eq_ok ht
  obtain ⟨b, _, ht⟩ := Res.bind_eq_ok ht
  obtain ⟨_, rfl⟩ := wr_ok_iff.mp ht
  exact tableRange_set _ _ (by omega) (group_mul_range m hm a b) hJ

/-- The second table loop leaves item 0 alone and writes residues. -/
theorem comb_fill_subcombs_range (m : Nat) (hm : 0 < m) (base : Int) (A skip S : Nat)
    (it0 it : List Int) (h : comb_fill_subcombs (m : Int) A skip (2 ^ S) it0 = Res.ok it)
    (h0 : TableRange m base it0) : TableRange m base it := by
  unfold comb_fill_subcombs at h
  refine forRange_ok_inv (fun _ (it : List Int) => TableRange m base it) _
    (A - 1) 1 it0 it h0 h ?_
  intro i s s1 hi1 _ hI hs
  refine forRange_ok_inv (fun _ (it : List Int) => TableRange m base it) _
    skip 0 s s1 hI hs ?_
  intro j t t1 _ hj2 hJ ht
  dsimp only at ht
  obtain ⟨x, _, ht⟩ := Res.bind_eq_ok ht
  obtain ⟨_, rfl⟩ := wr_ok_iff.mp ht
  have : skip ≤ i * skip := Nat.le_mul_of_pos_left _ (by omega)
  exact tableRange_set _ _ (by omega) (group_pow_range m hm x S) hJ

/-- The table `goo_comb_init` builds from a well-formed specification: `A`
sub-combs of `2^P - 1` items; item 0 is the base as given; the item of
sub-comb `j` and digit `v` is `base^(2^(S*j) * spread W P v) mod m`, where
bit `k` of `v` stands for the exponent `2^(W*k)`. -/
theorem comb_table_spec (m : Nat) (hm : 0 < m) (base : Int) (spec : CombSpec)
    (hwf : spec.WF) :
    ∃ c, goo_comb_init (m : Int) base spec false = Res.ok c
      ∧ c.items.length = spec.adds_per_shift * (2 ^ spec.points_per_add - 1)
      ∧ c.items[0]? = some base
      ∧ ∀ j v, j < spec.adds_per_shift → 1 ≤ v → v ≤ 2 ^ spec.points_per_add - 1 →
          ∃ x, c.items[j * (2 ^ spec.points_per_add - 1) + v - 1]? = some x
            ∧ (x : ZMod m) = (base : ZMod m)
                ^ (2 ^ (spec.shifts * j) * spread spec.bits_per_window spec.points_per_add v)
            ∧ (¬ (j = 0 ∧ v = 1) → x = base
                ^ (2 ^ (spec.shifts * j) * spread spec.bits_per_window spec.points_per_add v)
                % m) := by
  obtain ⟨c, hc, hgood, e1, e2, e3, e4⟩ := goo_comb_init_spec m base spec hwf
  obtain ⟨hP, hA, hS, hW, hsize⟩ := hwf
  obtain ⟨_, g1, g2, g3, g4, g5, g6, g7, g8⟩ := hgood
  rw [e1] at g6
  rw [e2, g6] at g7
  have hpow2 : 2 ≤ 2 ^ spec.points_per_add := by
    calc 2 = 2 ^ 1 := by norm_num
      _ ≤ 2 ^ spec.points_per_add := Nat.pow_le_pow_right (by norm_num) hP
  -- range of the items
  have hrange : TableRange m base c.items := by
    have h := hc
    unfold goo_comb_init at h
    obtain ⟨_, _, h⟩ := Res.bind_eq_ok h
    obtain ⟨it0, hw0, h⟩ := Res.bind_eq_ok h
    obtain ⟨it1, h1, h⟩ := Res.bind_eq_ok h
    obtain ⟨it2, h2, h⟩ := Res.bind_eq_ok h
    simp only [Res.ok.injEq] at h
    subst h
    obtain ⟨hlt, rfl⟩ := wr_ok_iff.mp hw0
    show TableRange m base it2
    refine comb_fill_subcombs_range m hm base _ _ _ _ _ h2
      (comb_fill_points_range m hm base _ _ _ _ h1 ⟨?_, ?_⟩)
    · rw [List.getElem?_set_self hlt]
    · intro idx x hidx hx
      rw [List.getElem?_set_ne (by omega)] at hx
      have hmem := List.getElem?_mem hx
      rw [List.eq_of_mem_replicate hmem]
      exact ⟨le_refl _, by exact_mod_cast hm⟩
  refine ⟨c, hc, by rw [g7, Nat.mul_comm], hrange.1, ?_⟩
  intro j v hj hv1 hv2
  have hidx : j * (2 ^ spec.points_per_add - 1) + v - 1 < c.items.length := by
    rw [g7]
    have : (j + 1) * (2 ^ spec.points_per_add - 1)
        ≤ spec.adds_per_shift * (2 ^ spec.points_per_add - 1) :=
      Nat.mul_le_mul_right _ (by omega)
    rw [Nat.mul_comm (2 ^ spec.points_per_add - 1) spec.adds_per_shift]
    have e : (j + 1) * (2 ^ spec.points_per_add - 1)
        = j * (2 ^ spec.points_per_add - 1) + (2 ^ spec.points_per_add - 1) := by ring
    omega
  have hget : c.items[j * (2 ^ spec.points_per_add - 1) + v - 1]?
      = some (c.items[j * (2 ^ spec.points_per_add - 1) + v - 1]) :=
    List.getElem?_eq_getElem hidx
  have hcong := g8 j v _ (by rw [e2]; exact hj) hv1 (by rw [g6]; exact hv2)
    (by rw [g6]; exact hget)
  rw [e3, e4, e1] at hcong
  refine ⟨_, hget, hcong, ?_⟩
  intro hne
  have hge : 1 ≤ j * (2 ^ spec.points_per_add - 1) + v - 1 := by
    rcases Nat.eq_zero_or_pos j with h | h
    · subst h
      have : v ≠ 1 := fun hv => hne ⟨rfl, hv⟩
      omega
    · have : 2 ^ spec.points_per_add - 1 ≤ j * (2 ^ spec.points_per_add - 1) :=
        Nat.le_mul_of_pos_left _ h
      omega
  obtain ⟨r0, r1⟩ := hrange.2 _ _ hge hget
  have hz : ((c.items[j * (2 ^ spec.points_per_add - 1) + v - 1] : Int) : ZMod m)
      = ((base ^ (2 ^ (spec.shifts * j)
          * spread spec.bits_per_window spec.points_per_add v) : Int) : ZMod m) := by
    rw [hcong]; push_cast; rfl
  have := (ZMod.intCast_eq_intCast_iff' _ _ m).mp hz
  rw [Int.emod_eq_of_lt r0 r1] at this
  exact this

/-- With `modbits = 0`, `goo_group_init` returns the group made of the two
tiny combs when the specification call and the two table constructions
return. -/
theorem group_init_tiny (E : Env) (n : Bytes) (g h : Nat) (spec : CombSpec) (c1 c2 : Comb)
    (hspec : combspec_unchecked E (E.GOO_CHAL_BITS : Int) = Res.ok spec)
    (h1 : goo_comb_init (goo_mpz_import n) g spec true = Res.ok c1)
    (h2 : goo_comb_init (goo_mpz_import n) h spec true = Res.ok c2) :
    ∃ G, goo_group_init E n g h 0 = Res.ok G ∧ G.g_comb1 = c1 ∧ G.h_comb1 = c2 := by
  unfold goo_group_init
  simp only [ne_eq, not_true_eq_false, if_false, hspec, Res.bind_ok, h1, h2]
  exact ⟨_, rfl, rfl, rfl⟩

end Goo

namespace Goo

open NumberTheorySymbols Finset

/-! ## Claims on the prime search, the square roots, the comb and the wNAF -/

/-- C21 (prover-path challenge derivation): let `chal` and `ell_r` be the two
draws of `goo_group_fs_chal` (the second and third component of what the call
returns with `verify = 1`), with
`GOO_ELLDIFF_MAX` not zero. With `verify = 0` the call either succeeds with
the same `chal` and with `ell` the least odd number in
`[ell_r, ell_r + GOO_ELLDIFF_MAX]` that passes `goo_is_prime`, so that `ell`
passes the test and `0 <= ell - ell_r <= GOO_ELLDIFF_MAX`; or no odd number of
that window passes the test and the call returns 0 with `chal = ell = 0`.
Primality is what `goo_is_prime` (`mpz_probab_prime_p`) reports, the test the
verifier applies as well. -/
theorem fs_chal_prover_window (E : Env) (hmax : E.GOO_ELLDIFF_MAX ≠ 0) (G : Group)
    (prng : Prng E) (C1 C2 t A B C D msg : Int) (o : Bool × Int × Int × Prng E)
    (h : goo_group_fs_chal E G prng C1 C2 t A B C D msg true = Res.ok o) :
    (∃ ell, goo_group_fs_chal E G prng C1 C2 t A B C D msg false
          = Res.ok (true, o.2.1, ell, o.2.2.2)
        ∧ goo_is_prime E ell = true ∧ ell % 2 = 1
        ∧ 0 ≤ ell - o.2.2.1 ∧ ell - o.2.2.1 ≤ E.GOO_ELLDIFF_MAX
        ∧ ∀ x : Int, x % 2 = 1 → o.2.2.1 ≤ x → x < ell → goo_is_prime E x = false)
    ∨ (goo_group_fs_chal E G prng C1 C2 t A B C D msg false
          = Res.ok (false, 0, 0, o.2.2.2)
        ∧ ∀ x : Int, x % 2 = 1 → o.2.2.1 ≤ x → x ≤ o.2.2.1 + E.GOO_ELLDIFF_MAX →
            goo_is_prime E x = false) :=
  fs_chal_prover_spec E hmax G prng C1 C2 t A B C D msg o.1 o.2.1 o.2.2.1 o.2.2.2 h

theorem fs_chal_prover_window_witness :
    (∃ ell, goo_group_fs_chal demoEnv toyGroup toyPrng 1 2 3 4 5 6 7 8 false
          = Res.ok (true, toyFs.2.1, ell, toyFs.2.2.2)
        ∧ goo_is_prime demoEnv ell = true ∧ ell % 2 = 1
        ∧ 0 ≤ ell - toyFs.2.2.1 ∧ ell - toyFs.2.2.1 ≤ demoEnv.GOO_ELLDIFF_MAX
        ∧ ∀ x : Int, x % 2 = 1 → toyFs.2.2.1 ≤ x → x < ell →
            goo_is_prime demoEnv x = false)
    ∨ (goo_group_fs_chal demoEnv toyGroup toyPrng 1 2 3 4 5 6 7 8 false
          = Res.ok (false, 0, 0, toyFs.2.2.2)
        ∧ ∀ x : Int, x % 2 = 1 → toyFs.2.2.1 ≤ x →
            x ≤ toyFs.2.2.1 + demoEnv.GOO_ELLDIFF_MAX → goo_is_prime demoEnv x = false) :=
  fs_chal_prover_window demoEnv (by decide) toyGroup toyPrng 1 2 3 4 5 6 7 8 toyFs
    (Res.eq_ok_of_isOk _ (false, 0, 0, toyPrng) (by decide!))

/-- C22 (small-prime search of the signer; the loop bound is
`sizeof(goo_primes)`, 672, instead of 168): for all `p`, `q`, when the search
of `goo_group_sign` returns `t` and `w`, `t` is the first entry of
`goo_primes` for which `goo_mod_sqrtn` succeeds, at an index below 168, and
the entries before it were tried in order and failed; this `t` is the one a
returned signature publishes. When `goo_mod_sqrtn` fails for every entry of
the list the search does not return failure: it goes on to read
`goo_primes[168]`, behind the end of the array, and so does a signing run
that reaches the search; with the bound 168 the search returns failure. -/
theorem sign_search_bound (p q : Int) :
    (∀ t w, signSearch p q sizeof_goo_primes 0 = Res.ok (t, w) →
      ∃ (k tn : Nat), k < 168 ∧ goo_primes[k]? = some tn ∧ t = (tn : Int)
        ∧ goo_mod_sqrtn t p q = Res.ok w
        ∧ ∀ j, j < k → ∃ tj : Nat, goo_primes[j]? = some tj
            ∧ goo_mod_sqrtn (tj : Int) p q = Res.fail)
    ∧ (∀ (E : Env) (G : Group) (rnd : RandSrc) (fuel : Nat) (prng : Prng E) (Aq0 : Int)
        (stack : Bytes) (msg s_prime C1 n : Int) (sig : Sig),
        goo_group_sign E G rnd fuel prng Aq0 stack msg s_prime C1 n p q = Res.ok sig →
        ∃ (k tn : Nat) (w : Int), k < 168 ∧ goo_primes[k]? = some tn ∧ sig.t = (tn : Int)
          ∧ goo_mod_sqrtn sig.t p q = Res.ok w
          ∧ ∀ j, j < k → ∃ tj : Nat, goo_primes[j]? = some tj
              ∧ goo_mod_sqrtn (tj : Int) p q = Res.fail)
    ∧ ((∀ tn ∈ goo_primes, goo_mod_sqrtn (tn : Int) p q = Res.fail) →
        signSearch p q sizeof_goo_primes 0 = Res.abort
        ∧ signSearch p q 168 0 = Res.fail
        ∧ ∀ (E : Env) (G : Group) (rnd : RandSrc) (fuel : Nat) (prng : Prng E) (Aq0 : Int)
            (stack : Bytes) (msg s_prime C1 n : Int) (e : Int × Prng E) (x0 : Int),
            goo_group_expand_sprime E prng Aq0 s_prime stack = Res.ok e →
            goo_group_powgh G n e.1 = Res.ok x0 → C1 = goo_group_reduce G x0 →
            goo_group_sign E G rnd fuel prng Aq0 stack msg s_prime C1 n p q = Res.abort) := by
  refine ⟨?_, ?_, ?_⟩
  · intro t w h
    obtain ⟨k, tn, _, _, a3, a4, a5, a6⟩ := signSearch_first p q _ _ t w h
    refine ⟨k, tn, ?_, a3, a4, a5, fun j hj => a6 j (Nat.zero_le _) hj⟩
    by_contra hc
    rw [List.getElem?_eq_none (by rw [goo_primes_length]; omega)] at a3
    cases a3
  · intro E G rnd fuel prng Aq0 stack msg s_prime C1 n sig h
    exact sign_publishes_first E G rnd fuel prng Aq0 stack msg s_prime C1 n p q sig h
  · intro hno
    refine ⟨signSearch_past_end p q hno sizeof_goo_primes 0 (by omega) (by decide),
      signSearch_exact_fail p q hno 168 0 rfl, ?_⟩
    intro E G rnd fuel prng Aq0 stack msg s_prime C1 n e x0 h1 h2 h3
    exact sign_abort_of_no_root E G rnd fuel prng Aq0 stack msg s_prime C1 n p q e x0
      h1 h2 h3 hno

theorem sign_search_bound_witness :
    ∃ (k tn : Nat), k < 168 ∧ goo_primes[k]? = some tn ∧ (2 : Int) = (tn : Int)
      ∧ goo_mod_sqrtn 2 7 17 = Res.ok 74
      ∧ ∀ j, j < k → ∃ tj : Nat, goo_primes[j]? = some tj
          ∧ goo_mod_sqrtn (tj : Int) 7 17 = Res.fail :=
  (sign_search_bound 7 17).1 2 74 (by decide!)

/-- C22, failing input: for the modulus `searchlessP` (every entry of
`goo_primes` has Jacobi symbol `-1` over it) and `q = 1013` the search of
`goo_group_sign` reads `goo_primes[168]`; bounded by 168 it returns failure. -/
theorem sign_search_reads_past_list :
    signSearch searchlessP 1013 sizeof_goo_primes 0 = Res.abort
    ∧ signSearch searchlessP 1013 168 0 = Res.fail := by
  constructor <;> decide!

/-- C23 (range of the root of `goo_mod_sqrtp`): for every odd prime `p` and
every `n` for which `goo_mod_sqrtp` returns a root `r`: `0 <= r < p` and
`r^2 = n (mod p)`; when `p = 1 (mod 4)` (the main branch, which replaces a
root above `p/2` by `p - r`) `r <= floor(p/2)`; when `p = 3 (mod 4)` and `n`
is not divisible by `p` the root is `n^((p+1)/4) mod p` as computed, with no
replacement; a multiple of `p` has the root 0. -/
theorem mod_sqrtp_root_range (p : Nat) (hp : p.Prime) (hp2 : p ≠ 2) (n r : Int)
    (h : goo_mod_sqrtp n p = Res.ok r) :
    0 ≤ r ∧ r < p ∧ r * r % p = n % p
    ∧ (p % 4 = 1 → r ≤ (p : Int) / 2)
    ∧ (p % 4 = 3 → n % p ≠ 0 → r = n ^ ((p + 1) / 4) % p)
    ∧ (n % p = 0 → r = 0) := by
  haveI : Fact p.Prime := ⟨hp⟩
  obtain ⟨c1, c2⟩ := mod_sqrtp_cases p hp2 n
  have hsq : HasSqrtMod n p := by
    by_contra hc
    rw [c2 hc] at h; cases h
  obtain ⟨r', e1, e2, e3, e4⟩ := c1 hsq
  rw [h] at e1
  simp only [Res.ok.injEq] at e1
  subst e1
  refine ⟨e2, e3, e4, ?_, ?_, ?_⟩
  · intro h4
    exact mod_sqrtp_main_canonical n p r h (by omega)
  · intro h4 hn
    have := mod_sqrtp_shortcut n p r h (by omega) hn
    rw [show ((p : Int) + 1) / 4 = (((p + 1) / 4 : Nat) : Int) by omega,
      mpz_powm_natCast] at this
    rw [this]
    exact Int.ModEq.pow _ (Int.mod_modEq n p)
  · intro hn
    have := (mod_sqrtp_spec p hp2 n).1 hn
    rw [h] at this
    simp only [Res.ok.injEq] at this
    exact this

theorem mod_sqrtp_root_range_witness :
    (0 : Int) ≤ 4 ∧ (4 : Int) < ((7 : Nat) : Int) ∧ (4 : Int) * 4 % ((7 : Nat) : Int)
        = 2 % ((7 : Nat) : Int)
    ∧ (7 % 4 = 1 → (4 : Int) ≤ ((7 : Nat) : Int) / 2)
    ∧ (7 % 4 = 3 → (2 : Int) % ((7 : Nat) : Int) ≠ 0 →
        (4 : Int) = 2 ^ ((7 + 1) / 4) % ((7 : Nat) : Int))
    ∧ ((2 : Int) % ((7 : Nat) : Int) = 0 → (4 : Int) = 0) :=
  mod_sqrtp_root_range 7 (by norm_num) (by decide) 2 4 (by decide)

/-- C23, counterexample: for `p = 7` and `n = 2` the shortcut for
`p = 3 (mod 4)` returns the root 4, which is above `floor(7/2) = 3`. -/
theorem mod_sqrtp_root_not_canonical :
    goo_mod_sqrtp 2 7 = Res.ok 4 ∧ ¬ ((4 : Int) ≤ 7 / 2) := by
  constructor <;> decide

/-- C24 (termination of Tonelli-Shanks for prime moduli): for every odd prime
`p` and every `n`, `goo_mod_sqrtp` returns: either a root `r` in `[0, p)` with
`r^2 = n (mod p)` (so the final assertion held) or failure; the search for a
witness of Jacobi symbol `-1` from 2 ends within `p - 2` steps; and, for every
modulus, each round of the main loop replaces `s` by a value that is not
larger, stopping when it is equal, so the loop ends within `s + 1` rounds
with a root or with failure. -/
theorem mod_sqrtp_terminates (p : Nat) (hp : p.Prime) (hp2 : p ≠ 2) (n : Int) :
    ((∃ r, goo_mod_sqrtp n p = Res.ok r ∧ 0 ≤ r ∧ r < p ∧ r * r % p = n % p)
      ∨ goo_mod_sqrtp n p = Res.fail)
    ∧ (∀ fuel, p ≤ fuel + 2 →
        ∃ w, sqrtpWitness p fuel 2 = Res.ok w ∧ w < p ∧ mpz_jacobi w p = -1)
    ∧ (∀ (m : Int) (s : Nat) (y : Int), sqrtpOrder m s s 0 y ≤ s)
    ∧ (∀ (m : Int) (fuel s : Nat) (w y q : Int), s < fuel →
        (∃ q1, sqrtpLoop m fuel s w y q = Res.ok q1)
          ∨ sqrtpLoop m fuel s w y q = Res.fail) := by
  haveI : Fact p.Prime := ⟨hp⟩
  obtain ⟨c1, c2⟩ := mod_sqrtp_cases p hp2 n
  refine ⟨?_, ?_, fun m s y => sqrtpOrder_le m s s 0 y (Nat.zero_le _),
    fun m => sqrtpLoop_ends m⟩
  · by_cases hsq : HasSqrtMod n p
    · exact Or.inl (c1 hsq)
    · exact Or.inr (c2 hsq)
  · intro fuel hf
    obtain ⟨w0, h1, h2, h3⟩ := exists_nonresidue p hp2
    have hfirst : ∀ (f w : Nat), w ≤ w0 → w0 < w + f →
        ∃ w1, sqrtpWitness p f w = Res.ok w1 ∧ w1 ≤ w0 ∧ mpz_jacobi w1 p = -1 := by
      intro f
      induction f with
      | zero => intro w a b; omega
      | succ f ih =>
        intro w a b
        unfold sqrtpWitness
        by_cases hj : mpz_jacobi w p = -1
        · exact ⟨w, by simp [hj], a, hj⟩
        · rw [if_neg hj]
          have : w ≠ w0 := fun e => hj (e ▸ h3)
          exact ih (w + 1) (by omega) (by omega)
    obtain ⟨w1, a1, a2, a3⟩ := hfirst fuel 2 h1 (by omega)
    exact ⟨w1, a1, by omega, a3⟩

theorem mod_sqrtp_terminates_witness :
    ((∃ r, goo_mod_sqrtp 10 ((13 : Nat) : Int) = Res.ok r ∧ 0 ≤ r ∧ r < ((13 : Nat) : Int)
        ∧ r * r % ((13 : Nat) : Int) = 10 % ((13 : Nat) : Int))
      ∨ goo_mod_sqrtp 10 ((13 : Nat) : Int) = Res.fail)
    ∧ (∀ fuel, 13 ≤ fuel + 2 →
        ∃ w, sqrtpWitness 13 fuel 2 = Res.ok w ∧ w < 13 ∧ mpz_jacobi w 13 = -1)
    ∧ (∀ (m : Int) (s : Nat) (y : Int), sqrtpOrder m s s 0 y ≤ s)
    ∧ (∀ (m : Int) (fuel s : Nat) (w y q : Int), s < fuel →
        (∃ q1, sqrtpLoop m fuel s w y q = Res.ok q1)
          ∨ sqrtpLoop m fuel s w y q = Res.fail) :=
  mod_sqrtp_terminates 13 (by norm_num) (by decide) 10

/-- C24, counterexample: for the modulus 9 and `n = 1` the call reaches the
witness search, which never ends because no number has Jacobi symbol `-1`
over 9: the model runs out of rounds, whatever their number. -/
theorem mod_sqrtp_hangs_nine :
    goo_mod_sqrtp 1 9 = Res.hang ∧ ¬ ∃ fuel : Nat, sqrtpWitness 9 fuel 2 ≠ Res.hang := by
  refine ⟨by decide, ?_⟩
  rintro ⟨fuel, h⟩
  exact h (sqrtpWitness_nine fuel 2)

/-- C25 (comb specification choice): `goo_combspec_init` fails exactly when
`bits < 128` or no enumerated candidate (`P` in `[2, 17]`, `A` a divisor of
`ceil(bits/P)` up to `sqrt + 1`, and the swapped pair) has size
`(2^P - 1) * A <= maxsize`, and otherwise succeeds. The specification it
returns is a candidate of size `<= maxsize` with the least number of
operations `ops = shifts * (A + 1) - 1` among the candidates that fit, and of
the least size among the candidates with that `ops`. -/
theorem combspec_choice (bits : Int) (maxsize : Nat) :
    (goo_combspec_init bits maxsize = Res.fail
      ↔ bits < 128 ∨ ∀ c ∈ combCandidates bits.toNat, maxsize < c.size)
    ∧ (∀ s, goo_combspec_init bits maxsize = Res.ok s →
        s ∈ combCandidates bits.toNat ∧ s.size ≤ maxsize
        ∧ ∀ c ∈ combCandidates bits.toNat, c.size ≤ maxsize →
            s.ops < c.ops ∨ (s.ops = c.ops ∧ s.size ≤ c.size))
    ∧ ((∃ s, goo_combspec_init bits maxsize = Res.ok s)
        ∨ goo_combspec_init bits maxsize = Res.fail) :=
  combspec_init_choice bits maxsize

theorem combspec_choice_witness :
    tinySpec ∈ combCandidates (128 : Int).toNat ∧ tinySpec.size ≤ 512
      ∧ ∀ c ∈ combCandidates (128 : Int).toNat, c.size ≤ 512 →
          tinySpec.ops < c.ops ∨ (tinySpec.ops = c.ops ∧ tinySpec.size ≤ c.size) :=
  (combspec_choice 128 512).2.1 tinySpec (by decide!)

/-- C25, counterexample: `goo_combspec_init(128, 512)` returns the
specification of size 510, although the candidate `P = 2`, `A = 1`,
`shifts = 64` of size 3 is enumerated and fits as well. -/
theorem combspec_not_min_size :
    goo_combspec_init 128 512 = Res.ok tinySpec ∧ narrowSpec ∈ combCandidates 128
      ∧ narrowSpec.size ≤ 512 ∧ narrowSpec.size < tinySpec.size := by
  refine ⟨by decide!, by decide!, by decide, by decide⟩

/-- C26 (tiny comb constants): `goo_combspec_init(128, 512)` succeeds and
returns `points_per_add = 8`, `adds_per_shift = 2`, `shifts = 8`,
`bits_per_window = 16`, `size = 510`, hence `bits = 128` and 255 points per
sub-comb; so the assertions of the tiny branch of `goo_comb_init` hold and
`goo_comb_init` returns the comb with these constants for every modulus and
base, and `goo_group_init` with `modbits = 0` (constants `GOO_CHAL_BITS = 128`
and `GOO_MAX_COMB_SIZE = 512`) returns a group with two such combs. -/
theorem tiny_comb_constants :
    goo_combspec_init 128 512 = Res.ok tinySpec
    ∧ tinySpec.points_per_add = 8 ∧ tinySpec.adds_per_shift = 2 ∧ tinySpec.shifts = 8
    ∧ tinySpec.bits_per_window = 16 ∧ tinySpec.size = 510
    ∧ tinySpec.bits_per_window * tinySpec.points_per_add = 128
    ∧ 2 ^ tinySpec.points_per_add - 1 = 255
    ∧ (∀ (m : Nat) (base : Int), ∃ c, goo_comb_init (m : Int) base tinySpec true = Res.ok c
        ∧ c.points_per_add = 8 ∧ c.adds_per_shift = 2 ∧ c.shifts = 8
        ∧ c.bits_per_window = 16 ∧ c.bits = 128 ∧ c.points_per_subcomb = 255
        ∧ c.size = 510)
    ∧ (∀ (E : Env), E.GOO_CHAL_BITS = 128 → E.GOO_MAX_COMB_SIZE = 512 →
        ∀ (n : Bytes) (g h : Nat), ∃ G, goo_group_init E n g h 0 = Res.ok G
          ∧ G.g_comb1.size = 510 ∧ G.h_comb1.size = 510) := by
  have hspec : goo_combspec_init 128 512 = Res.ok tinySpec := by decide!
  have hcomb : ∀ (m : Nat) (base : Int),
      ∃ c, goo_comb_init (m : Int) base tinySpec true = Res.ok c
        ∧ c.points_per_add = 8 ∧ c.adds_per_shift = 2 ∧ c.shifts = 8
        ∧ c.bits_per_window = 16 ∧ c.bits = 128 ∧ c.points_per_subcomb = 255
        ∧ c.size = 510 := by
    intro m base
    obtain ⟨c, hc, _, _⟩ := goo_comb_init_spec m base tinySpec
      ⟨by decide, by decide, by decide, rfl, rfl⟩
    have htiny : goo_comb_init (m : Int) base tinySpec true
        = goo_comb_init (m : Int) base tinySpec false := by
      unfold goo_comb_init
      rfl
    refine ⟨c, by rw [htiny]; exact hc, ?_⟩
    unfold goo_comb_init at hc
    obtain ⟨_, _, hc⟩ := Res.bind_eq_ok hc
    obtain ⟨_, _, hc⟩ := Res.bind_eq_ok hc
    obtain ⟨_, _, hc⟩ := Res.bind_eq_ok hc
    obtain ⟨_, _, hc⟩ := Res.bind_eq_ok hc
    simp only [Res.ok.injEq] at hc
    subst hc
    exact ⟨rfl, rfl, rfl, rfl, rfl, rfl, rfl⟩
  refine ⟨hspec, rfl, rfl, rfl, rfl, rfl, rfl, rfl, hcomb, ?_⟩
  intro E hE1 hE2 n g h
  obtain ⟨c1, e1, _, _, _, _, _, _, s1⟩ := hcomb (goo_mpz_import n).toNat g
  obtain ⟨c2, e2, _, _, _, _, _, _, s2⟩ := hcomb (goo_mpz_import n).toNat h
  rw [Int.toNat_of_nonneg (goo_mpz_import_nonneg n)] at e1 e2
  have hun : combspec_unchecked E (E.GOO_CHAL_BITS : Int) = Res.ok tinySpec := by
    unfold combspec_unchecked
    rw [hE1, hE2, Nat.cast_ofNat, hspec]
  obtain ⟨G, hG, g1, g2⟩ := group_init_tiny E n g h tinySpec c1 c2 hun e1 e2
  exact ⟨G, hG, by rw [g1]; exact s1, by rw [g2]; exact s2⟩

/-- C27 (comb table contents): for a modulus `m > 0` and a well-formed
specification with `P = points_per_add`, `A = adds_per_shift`, `S = shifts`,
`W = bits_per_window = S * A`, `goo_comb_init` returns a table of
`A * (2^P - 1)` items; item 0 is the base itself; and for every `j` in
`[0, A)` and `v` in `[1, 2^P - 1]` the item at index `j * (2^P - 1) + v - 1`
is congruent to, and apart from item 0 equal to,
`base^(2^(S*j) * spread(v)) mod m`, where `spread(v)` is the sum of `2^(W*k)`
over the bits `k` set in `v`. -/
theorem comb_table_contents (m : Nat) (hm : 0 < m) (base : Int) (spec : CombSpec)
    (hwf : spec.WF) :
    ∃ c, goo_comb_init (m : Int) base spec false = Res.ok c
      ∧ c.items.length = spec.adds_per_shift * (2 ^ spec.points_per_add - 1)
      ∧ c.items[0]? = some base
      ∧ ∀ j v, j < spec.adds_per_shift → 1 ≤ v → v ≤ 2 ^ spec.points_per_add - 1 →
          ∃ x, c.items[j * (2 ^ spec.points_per_add - 1) + v - 1]? = some x
            ∧ (x : ZMod m) = (base : ZMod m)
                ^ (2 ^ (spec.shifts * j) * spread spec.bits_per_window spec.points_per_add v)
            ∧ (¬ (j = 0 ∧ v = 1) → x = base
                ^ (2 ^ (spec.shifts * j) * spread spec.bits_per_window spec.points_per_add v)
                % m) :=
  comb_table_spec m hm base spec hwf

theorem comb_table_contents_witness :
    ∃ c, goo_comb_init ((1000003 : Nat) : Int) 2 pairSpec false = Res.ok c
      ∧ c.items.length = pairSpec.adds_per_shift * (2 ^ pairSpec.points_per_add - 1)
      ∧ c.items[0]? = some 2
      ∧ ∀ j v, j < pairSpec.adds_per_shift → 1 ≤ v → v ≤ 2 ^ pairSpec.points_per_add - 1 →
          ∃ x, c.items[j * (2 ^ pairSpec.points_per_add - 1) + v - 1]? = some x
            ∧ (x : ZMod 1000003) = ((2 : Int) : ZMod 1000003)
                ^ (2 ^ (pairSpec.shifts * j)
                  * spread pairSpec.bits_per_window pairSpec.points_per_add v)
            ∧ (¬ (j = 0 ∧ v = 1) → x = 2
                ^ (2 ^ (pairSpec.shifts * j)
                  * spread pairSpec.bits_per_window pairSpec.points_per_add v)
                % ((1000003 : Nat) : Int)) :=
  comb_table_contents 1000003 (by decide) 2 pairSpec
    ⟨by decide, by decide, by decide, rfl, rfl⟩

/-- C27, counterexample: with `P = 2`, `A = 2`, `S = 1`, `W = 2` and base 2
modulo 1000003 the table is `[2, 2^4, 2^5, 2^2, 2^8, 2^10]`; the item for
`j = 0`, `v = 2` (index 1) is `2^(2^W) = 16`, not `2^(v * 2^(j*S)) = 4`. The
same holds for the specification `goo_combspec_init(128, 3)` returns
(`P = 2`, `A = 1`, `S = W = 64`), where that item is `2^(2^64) mod 1000003`. -/
theorem comb_table_not_plain_powers :
    (∃ c, goo_comb_init 1000003 2 pairSpec false = Res.ok c
        ∧ c.items = [2, 16, 32, 4, 256, 1024])
    ∧ (2 : Int) ^ (2 * 2 ^ (0 * 1)) % 1000003 = 4
    ∧ goo_combspec_init 128 3 = Res.ok narrowSpec
    ∧ (∃ c, goo_comb_init 1000003 2 narrowSpec false = Res.ok c
        ∧ c.items = [2, 560597, 121191])
    ∧ (2 : Int) ^ (2 * 2 ^ (0 * 64)) % 1000003 = 4 := by
  refine ⟨⟨_, Res.eq_ok_of_isOk _ Comb.zero (by decide!), by decide!⟩, by decide,
    by decide!, ⟨_, Res.eq_ok_of_isOk _ Comb.zero (by decide!), by decide!⟩, by decide⟩

/-- C28 (comb recoding layout): for a comb with `W = S * A` and
`bits = W * P` and every non-negative `e`, `goo_to_comb_exp` fails iff the bit
length of `e` exceeds `W * P`; otherwise, for every `s` in `[0, S)` and `a` in
`[0, A)`, the digit `w[s][A-1-a]` is below `2^P` and its `k`-th most
significant bit (`k` in `[0, P)`) is bit
`p_k = (W*P - 1) - ((a + k*A)*S + s)` of `e`, where `(a + k*A)*S + s` never
exceeds `W*P - 1`; and every bit position below `W * P` is `(a + k*A)*S + s`
for exactly one triple `(a, k, s)`. -/
theorem to_comb_exp_layout (c : Comb)
    (hW : c.bits_per_window = c.shifts * c.adds_per_shift)
    (hbits : c.bits = c.bits_per_window * c.points_per_add) (e : Int) (he : 0 ≤ e) :
    (goo_to_comb_exp c e = Res.fail
      ↔ c.bits_per_window * c.points_per_add < goo_mpz_bitlen e)
    ∧ (goo_mpz_bitlen e ≤ c.bits_per_window * c.points_per_add →
        ∃ w, goo_to_comb_exp c e = Res.ok w
          ∧ ∀ s a, s < c.shifts → a < c.adds_per_shift →
              ∃ row d, w[s]? = some row ∧ row[c.adds_per_shift - 1 - a]? = some d
                ∧ d < 2 ^ c.points_per_add
                ∧ ∀ k, k < c.points_per_add →
                    (a + k * c.adds_per_shift) * c.shifts + s
                      ≤ c.bits_per_window * c.points_per_add - 1
                    ∧ d.testBit (c.points_per_add - 1 - k)
                      = mpz_tstbit e (c.bits_per_window * c.points_per_add - 1
                          - ((a + k * c.adds_per_shift) * c.shifts + s)))
    ∧ (∀ b, b < c.bits_per_window * c.points_per_add →
        ∃! x : Nat × Nat × Nat, x.1 < c.adds_per_shift ∧ x.2.1 < c.points_per_add
          ∧ x.2.2 < c.shifts
          ∧ (x.1 + x.2.1 * c.adds_per_shift) * c.shifts + x.2.2 = b) := by
  refine ⟨?_, ?_, ?_⟩
  · unfold goo_to_comb_exp
    rw [hbits]
    constructor
    · intro h
      by_contra hc
      simp only at h
      rw [if_neg (by omega)] at h
      cases h
    · intro h
      simp only
      rw [if_pos (by omega)]
  · intro hlen
    have hlen2 : goo_mpz_bitlen e ≤ c.bits := by rw [hbits]; exact hlen
    unfold goo_to_comb_exp
    simp only
    rw [if_neg (by omega)]
    refine ⟨_, rfl, ?_⟩
    intro s a hs ha
    obtain ⟨d1, d2⟩ := comb_digit_bits c e he hW hbits hlen2 a s ha hs
    refine ⟨_, _, getElem?_map_range _ _ s hs,
      getElem?_map_range _ _ (c.adds_per_shift - 1 - a) (by omega), ?_, ?_⟩
    · rw [show c.adds_per_shift - 1 - (c.adds_per_shift - 1 - a) = a by omega]
      exact d1
    · rw [show c.adds_per_shift - 1 - (c.adds_per_shift - 1 - a) = a by omega]
      exact d2
  · intro b hb
    rw [hW] at hb
    exact comb_position_unique _ _ _ b hb

theorem to_comb_exp_layout_witness :
    (goo_to_comb_exp pairComb 11 = Res.fail
      ↔ pairComb.bits_per_window * pairComb.points_per_add < goo_mpz_bitlen 11)
    ∧ (goo_mpz_bitlen 11 ≤ pairComb.bits_per_window * pairComb.points_per_add →
        ∃ w, goo_to_comb_exp pairComb 11 = Res.ok w
          ∧ ∀ s a, s < pairComb.shifts → a < pairComb.adds_per_shift →
              ∃ row d, w[s]? = some row ∧ row[pairComb.adds_per_shift - 1 - a]? = some d
                ∧ d < 2 ^ pairComb.points_per_add
                ∧ ∀ k, k < pairComb.points_per_add →
                    (a + k * pairComb.adds_per_shift) * pairComb.shifts + s
                      ≤ pairComb.bits_per_window * pairComb.points_per_add - 1
                    ∧ d.testBit (pairComb.points_per_add - 1 - k)
                      = mpz_tstbit 11 (pairComb.bits_per_window * pairComb.points_per_add - 1
                          - ((a + k * pairComb.adds_per_shift) * pairComb.shifts + s)))
    ∧ (∀ b, b < pairComb.bits_per_window * pairComb.points_per_add →
        ∃! x : Nat × Nat × Nat, x.1 < pairComb.adds_per_shift
          ∧ x.2.1 < pairComb.points_per_add ∧ x.2.2 < pairComb.shifts
          ∧ (x.1 + x.2.1 * pairComb.adds_per_shift) * pairComb.shifts + x.2.2 = b) :=
  to_comb_exp_layout pairComb (by decide) (by decide) 11 (by decide)

/-- C29 (wNAF recoding): with a window `w = GOO_WINDOW_SIZE >= 2` and
`2^(w-2) <= GOO_TABLEN`, for every integer `e` of either sign and every
length `totlen >= bitlen(|e|) + 1`, `goo_group_wnaf` returns (its final
assertion holds) `totlen` digits, each 0 or an odd integer in
`[-2^(w-1)+1, 2^(w-1)-1]`, with `sum_i out[i] * 2^(totlen-1-i) = e`; and the
table index `goo_group_one_mul` uses for a digit, `(d - 1) >> 1` for `d > 0`
and `(-1 - d) >> 1` for `d < 0`, is below `2^(w-2)` and so below
`GOO_TABLEN`. -/
theorem wnaf_recoding (E : Env) (hw : 2 ≤ E.GOO_WINDOW_SIZE)
    (htab : 2 ^ (E.GOO_WINDOW_SIZE - 2) ≤ E.GOO_TABLEN) (e : Int) (totlen : Nat)
    (hlen : goo_mpz_bitlen e + 1 ≤ totlen) :
    ∃ out, goo_group_wnaf E e totlen = Res.ok out ∧ out.length = totlen
      ∧ (∀ d ∈ out, d = 0 ∨ (d % 2 = 1 ∧ -(2 ^ (E.GOO_WINDOW_SIZE - 1)) + 1 ≤ d
          ∧ d ≤ 2 ^ (E.GOO_WINDOW_SIZE - 1) - 1))
      ∧ ∑ i in range totlen, out.getD i 0 * 2 ^ (totlen - 1 - i) = e
      ∧ ∀ d ∈ out,
          (0 < d → ((d - 1) / 2).toNat < 2 ^ (E.GOO_WINDOW_SIZE - 2)
            ∧ ((d - 1) / 2).toNat < E.GOO_TABLEN)
          ∧ (d < 0 → ((-1 - d) / 2).toNat < 2 ^ (E.GOO_WINDOW_SIZE - 2)
            ∧ ((-1 - d) / 2).toNat < E.GOO_TABLEN) := by
  obtain ⟨ds, h1, h2, h3, h4⟩ := goo_group_wnaf_spec E hw e totlen hlen
  refine ⟨ds, h1, h2, ?_, ?_, ?_⟩
  · intro d hd
    rcases h4 d hd with h | ⟨a, b, c⟩
    · exact Or.inl h
    · exact Or.inr ⟨a, by omega, by omega⟩
  · rw [← h3, evalDigits_eq_sum, h2]
  · intro d hd
    obtain ⟨i1, i2⟩ := wnaf_table_index hw (h4 d hd)
    exact ⟨fun h => ⟨i1 h, lt_of_lt_of_le (i1 h) htab⟩,
      fun h => ⟨i2 h, lt_of_lt_of_le (i2 h) htab⟩⟩

theorem wnaf_recoding_witness :
    ∃ out, goo_group_wnaf demoEnv (-23) 6 = Res.ok out ∧ out.length = 6
      ∧ (∀ d ∈ out, d = 0 ∨ (d % 2 = 1 ∧ -(2 ^ (demoEnv.GOO_WINDOW_SIZE - 1)) + 1 ≤ d
          ∧ d ≤ 2 ^ (demoEnv.GOO_WINDOW_SIZE - 1) - 1))
      ∧ ∑ i in range 6, out.getD i 0 * 2 ^ (6 - 1 - i) = -23
      ∧ ∀ d ∈ out,
          (0 < d → ((d - 1) / 2).toNat < 2 ^ (demoEnv.GOO_WINDOW_SIZE - 2)
            ∧ ((d - 1) / 2).toNat < demoEnv.GOO_TABLEN)
          ∧ (d < 0 → ((-1 - d) / 2).toNat < 2 ^ (demoEnv.GOO_WINDOW_SIZE - 2)
            ∧ ((-1 - d) / 2).toNat < demoEnv.GOO_TABLEN) :=
  wnaf_recoding demoEnv (by decide) (by decide) (-23) 6 (by decide)

/-- C30 (leading zero bytes of the message are not authenticated): for every
context, signature, commitment `C1` and message of fewer than 768 bytes,
`goo_verify` returns the same result for `msg` and for `0x00 ∥ msg`. -/
theorem verify_ignores_leading_zero (E : Env) (G : Group) (prng : Prng E)
    (msg sig C1 : Bytes) (h : msg.length < 768) :
    goo_verify E G prng msg sig C1 = goo_verify E G prng (0 :: msg) sig C1 :=
  (goo_verify_zero_msg E G prng msg sig C1 h).symm

theorem verify_ignores_leading_zero_witness :
    goo_verify smallEnv demoGroup demoPrng demoMsg demoSigBytes demoC1Bytes
      = goo_verify smallEnv demoGroup demoPrng (0 :: demoMsg) demoSigBytes demoC1Bytes :=
  verify_ignores_leading_zero smallEnv demoGroup demoPrng demoMsg demoSigBytes demoC1Bytes
    (by decide)

end Goo

namespace Goo

/-! ## The stash of the generator and the top bit of a draw -/

/-- OR-ing a block below `2^256` into a value shifted left by 256 bits adds it. -/
theorem int_lor_shift {r b : Int} (hr : 0 ≤ r) (hb0 : 0 ≤ b) (hb : b < 2 ^ 256) :
    Int.lor (r * 2 ^ 256) b = r * 2 ^ 256 + b := by
  obtain ⟨m, rfl⟩ := Int.eq_ofNat_of_zero_le hr
  obtain ⟨n, rfl⟩ := Int.eq_ofNat_of_zero_le hb0
  have hn : n < 2 ^ 256 := by exact_mod_cast hb
  have e : ((m : Int) * 2 ^ 256) = ((2 ^ 256 * m : Nat) : Int) := by push_cast; ring
  rw [e]
  show ((2 ^ 256 * m ||| n : Nat) : Int) = _
  rw [← Nat.mul_add_lt_is_or hn m]
  push_cast
  rfl

/-- Absorbing `k` blocks shifts the stash left by `256 k` bits, so the
accumulated value is at least the shifted stash. -/
theorem absorb_ge (E : Env) : ∀ (k : Nat) (prng : Prng E) (r : Int), 0 ≤ r →
    r * 2 ^ (256 * k) ≤ absorb r (drbgBlocks E k prng) := by
  intro k
  induction k with
  | zero => intro prng r _; simp [absorb, drbgBlocks]
  | succ k ih =>
    intro prng r hr
    have hblk := nextrand_lt E prng
    have hblk0 := goo_mpz_import_nonneg (goo_prng_nextrand E prng).1
    have hstep : absorb r (drbgBlocks E (k + 1) prng)
        = absorb (Int.lor (r * 2 ^ 256) (goo_mpz_import (goo_prng_nextrand E prng).1))
            (drbgBlocks E k (goo_prng_nextrand E prng).2) := rfl
    rw [hstep, int_lor_shift hr hblk0 hblk]
    have h1 := ih (goo_prng_nextrand E prng).2
      (r * 2 ^ 256 + goo_mpz_import (goo_prng_nextrand E prng).1)
      (add_nonneg (mul_nonneg hr (by positivity)) hblk0)
    have h2 : r * 2 ^ (256 * (k + 1))
        ≤ (r * 2 ^ 256 + goo_mpz_import (goo_prng_nextrand E prng).1) * 2 ^ (256 * k) := by
      have : r * 2 ^ (256 * (k + 1)) = r * 2 ^ 256 * 2 ^ (256 * k) := by
        rw [show 256 * (k + 1) = 256 + 256 * k by ring, pow_add]; ring
      rw [this]
      exact mul_le_mul_of_nonneg_right (by omega) (by positivity)
    exact le_trans h2 h1

theorem two_pow_le_of_pos {x : Int} (hx : 0 < x) :
    1 ≤ goo_mpz_bitlen x ∧ (2 : Int) ^ (goo_mpz_bitlen x - 1) ≤ x := by
  have h1 : 1 ≤ goo_mpz_bitlen x := by
    by_contra hc
    have h0 : goo_mpz_bitlen x ≤ 0 := by omega
    have := (bitlen_of_nonneg_le_iff hx.le 0).mp h0
    simp at this
    omega
  refine ⟨h1, ?_⟩
  have := two_pow_le_of_bitlen (n := x) (k := goo_mpz_bitlen x - 1) (by omega)
  have h2 : ((2 ^ (goo_mpz_bitlen x - 1) : Nat) : Int) ≤ (x.natAbs : Int) := by
    exact_mod_cast this
  rw [Int.natAbs_of_nonneg hx.le] at h2
  exact_mod_cast h2

/-- A draw of `n` bits from a state whose stash is positive and has at most
`n` bits has its top bit set. -/
theorem getrandbits_top_bit (E : Env) (prng : Prng E) (n : Nat) (hpos : 0 < prng.save)
    (hlen : goo_mpz_bitlen prng.save ≤ n) :
    2 ^ (n - 1) ≤ (goo_prng_getrandbits E prng n).1
      ∧ (goo_prng_getrandbits E prng n).1 < 2 ^ n := by
  obtain ⟨k, left, e1, e2, r0, r1, e3, s0, s1⟩ := getrandbits_spec E prng n hpos.le
  refine ⟨?_, r1⟩
  obtain ⟨b1, b2⟩ := two_pow_le_of_pos hpos
  have hge := absorb_ge E k prng prng.save hpos.le
  rw [← e3] at hge
  generalize (goo_prng_getrandbits E prng n).1 = r at *
  generalize (goo_prng_getrandbits E prng n).2.save = s at *
  generalize goo_mpz_bitlen prng.save = b0 at *
  have hn1 : 1 ≤ n := by omega
  have hexp : b0 - 1 + 256 * k = (n - 1) + left := by omega
  have hlow : (2 : Int) ^ (n - 1) * 2 ^ left ≤ prng.save * 2 ^ (256 * k) := by
    rw [← pow_add, ← hexp, pow_add]
    exact mul_le_mul_of_nonneg_right b2 (by positivity)
  have hpos2 : (0 : Int) < 2 ^ left := by positivity
  have hlt : (2 : Int) ^ (n - 1) * 2 ^ left < (r + 1) * 2 ^ left := by
    have : (r + 1) * 2 ^ left = r * 2 ^ left + 2 ^ left := by ring
    rw [this]
    omega
  have := lt_of_mul_lt_mul_right hlt hpos2.le
  omega

/-- Below `2^32 - 256` bits the loop with the 32-bit counter gives the
values of `goo_prng_getrandbits`. -/
theorem getrandbits32_eq (E : Env) (prng : Prng E) (n : Nat) (hn : n + 256 ≤ 2 ^ 32)
    (hb : goo_mpz_bitlen prng.save < 2 ^ 32) :
    goo_prng_getrandbits32 E (n + 2) prng n = some (goo_prng_getrandbits E prng n) := by
  unfold goo_prng_getrandbits32 goo_prng_getrandbits
  rw [Nat.mod_eq_of_lt hb, loop32_eq E n hn (n + 1) prng prng.save _ (by omega)]
  rcases getrandbitsLoop E n (n + 1) prng prng.save (goo_mpz_bitlen prng.save)
    with ⟨prng1, r, b⟩
  dsimp only
  split <;> rfl

/-- With `nbits = 2^32 - 1` and a counter that is not 255 modulo 256, the
loop with the 32-bit counter never ends. -/
theorem loop32_never_off (E : Env) : ∀ (fuel : Nat) (prng : Prng E) (r : Int) (b : Nat),
    b % 256 ≠ 255 → b < 2 ^ 32 → getrandbitsLoop32 E (2 ^ 32 - 1) fuel prng r b = none := by
  intro fuel
  induction fuel with
  | zero => intro prng r b _ _; rfl
  | succ fuel ih =>
    intro prng r b h1 h2
    rw [getrandbitsLoop32, if_pos (by omega)]
    dsimp only
    exact ih _ _ _ (by omega) (Nat.mod_lt _ (by norm_num))

/-- After seeding, the first draw of 128 bits leaves the low 128 bits of the
first block in the stash. -/
theorem first_draw_stash (E : Env) (prng : Prng E) (hs : prng.save = 0) :
    (goo_prng_getrandbits E prng 128).2.save
      = goo_mpz_import (goo_prng_nextrand E prng).1 % 2 ^ 128 := by
  obtain ⟨k, left, e1, e2, r0, r1, e3, s0, s1⟩ := getrandbits_spec E prng 128 (by rw [hs])
  rw [hs, bitlen_zero] at e1 e2
  have hk : k = 1 := by omega
  have hl : left = 128 := by omega
  subst hk hl
  have habs : absorb prng.save (drbgBlocks E 1 prng)
      = goo_mpz_import (goo_prng_nextrand E prng).1 := by
    show Int.lor (prng.save * 2 ^ 256) (goo_mpz_import (goo_prng_nextrand E prng).1) = _
    rw [hs, int_lor_shift (le_refl _) (goo_mpz_import_nonneg _) (nextrand_lt E prng)]
    ring
  rw [habs] at e3
  rw [← e3]
  generalize (goo_prng_getrandbits E prng 128).1 = r at *
  generalize (goo_prng_getrandbits E prng 128).2.save = s at *
  rw [Int.add_comm, Int.add_mul_emod_self, Int.emod_eq_of_lt s0 s1]

/-- The `ell_r` of `goo_group_fs_chal` has exactly 128 bits when the low 128
bits of the first block are not all zero. -/
theorem fs_chal_ell_bits (E : Env) (hc : E.GOO_CHAL_BITS = 128) (G : Group) (prng : Prng E)
    (C1 C2 t A B C D msg : Int) (key : Bytes)
    (hk : goo_hash_all E G C1 C2 t A B C D msg = Res.ok key)
    (hlow : goo_mpz_import (goo_prng_nextrand E (goo_prng_seed E prng key)).1 % 2 ^ 128 ≠ 0) :
    ∃ (chal ell_r : Int) (prng3 : Prng E),
      goo_group_fs_chal E G prng C1 C2 t A B C D msg true = Res.ok (true, chal, ell_r, prng3)
      ∧ goo_mpz_bitlen ell_r = 128 := by
  unfold goo_group_fs_chal
  rw [hk]
  simp only [Res.bind_ok, if_true, hc]
  refine ⟨_, _, _, rfl, ?_⟩
  have hst := first_draw_stash E (goo_prng_seed E prng key) (seed_save E prng key)
  have hs0 : 0 ≤ (goo_prng_getrandbits E (goo_prng_seed E prng key) 128).2.save := by
    rw [hst]; exact Int.emod_nonneg _ (by positivity)
  have hs1 : (goo_prng_getrandbits E (goo_prng_seed E prng key) 128).2.save < 2 ^ 128 := by
    rw [hst]; exact Int.emod_lt_of_pos _ (by positivity)
  have hsne : (goo_prng_getrandbits E (goo_prng_seed E prng key) 128).2.save ≠ 0 := by
    rw [hst]; exact hlow
  obtain ⟨t1, t2⟩ := getrandbits_top_bit E
    (goo_prng_getrandbits E (goo_prng_seed E prng key) 128).2 128 (by omega)
    ((bitlen_of_nonneg_le_iff hs0 128).mpr hs1)
  generalize (goo_prng_getrandbits E
    (goo_prng_getrandbits E (goo_prng_seed E prng key) 128).2 128).1 = x at t1 t2
  have hx0 : 0 ≤ x := le_trans (by positivity) t1
  have u1 : goo_mpz_bitlen x ≤ 128 := (bitlen_of_nonneg_le_iff hx0 128).mpr t2
  have u2 : ¬ goo_mpz_bitlen x ≤ 127 := by
    intro h
    have := (bitlen_of_nonneg_le_iff hx0 127).mp h
    have e : (128 : Nat) - 1 = 127 := rfl
    rw [e] at t1
    omega
  omega

end Goo

namespace Goo

/-! ## The hashed transcript determines every component -/

/-- Two transcripts with the same bytes were made from the same eleven
integers. -/
theorem transcript_inj_all (G G' : Group)
    {C1 C2 t A B C D m C1' C2' t' A' B' C' D' m' : Int} {tr : Bytes}
    (h1 : goo_hash_transcript G C1 C2 t A B C D m = Res.ok tr)
    (h2 : goo_hash_transcript G' C1' C2' t' A' B' C' D' m' = Res.ok tr) :
    G.n = G'.n ∧ G.g = G'.g ∧ G.h = G'.h ∧ C1 = C1' ∧ C2 = C2' ∧ t = t' ∧ A = A'
      ∧ B = B' ∧ C = C' ∧ D = D' ∧ m = m' := by
  unfold goo_hash_transcript at h1 h2
  obtain ⟨i1, a1, h1⟩ := Res.bind_eq_ok h1
  obtain ⟨i2, a2, h1⟩ := Res.bind_eq_ok h1
  obtain ⟨i3, a3, h1⟩ := Res.bind_eq_ok h1
  obtain ⟨i4, a4, h1⟩ := Res.bind_eq_ok h1
  obtain ⟨i5, a5, h1⟩ := Res.bind_eq_ok h1
  obtain ⟨i6, a6, h1⟩ := Res.bind_eq_ok h1
  obtain ⟨i7, a7, h1⟩ := Res.bind_eq_ok h1
  obtain ⟨i8, a8, h1⟩ := Res.bind_eq_ok h1
  obtain ⟨i9, a9, h1⟩ := Res.bind_eq_ok h1
  obtain ⟨i10, a10, h1⟩ := Res.bind_eq_ok h1
  obtain ⟨i11, a11, h1⟩ := Res.bind_eq_ok h1
  obtain ⟨j1, b1, h2⟩ := Res.bind_eq_ok h2
  obtain ⟨j2, b2, h2⟩ := Res.bind_eq_ok h2
  obtain ⟨j3, b3, h2⟩ := Res.bind_eq_ok h2
  obtain ⟨j4, b4, h2⟩ := Res.bind_eq_ok h2
  obtain ⟨j5, b5, h2⟩ := Res.bind_eq_ok h2
  obtain ⟨j6, b6, h2⟩ := Res.bind_eq_ok h2
  obtain ⟨j7, b7, h2⟩ := Res.bind_eq_ok h2
  obtain ⟨j8, b8, h2⟩ := Res.bind_eq_ok h2
  obtain ⟨j9, b9, h2⟩ := Res.bind_eq_ok h2
  obtain ⟨j10, b10, h2⟩ := Res.bind_eq_ok h2
  obtain ⟨j11, b11, h2⟩ := Res.bind_eq_ok h2
  simp only [Res.ok.injEq] at h1 h2
  rw [← h2] at h1
  simp only [List.append_assoc] at h1
  have h := List.append_cancel_left h1
  obtain ⟨e1, h⟩ := hash_item_split a1 b1 h
  obtain ⟨e2, h⟩ := hash_item_split a2 b2 h
  obtain ⟨e3, h⟩ := hash_item_split a3 b3 h
  obtain ⟨e4, h⟩ := hash_item_split a4 b4 h
  obtain ⟨e5, h⟩ := hash_item_split a5 b5 h
  obtain ⟨e6, h⟩ := hash_item_split a6 b6 h
  obtain ⟨e7, h⟩ := hash_item_split a7 b7 h
  obtain ⟨e8, h⟩ := hash_item_split a8 b8 h
  obtain ⟨e9, h⟩ := hash_item_split a9 b9 h
  obtain ⟨e10, h⟩ := hash_item_split a10 b10 h
  have h' : i11 ++ [] = j11 ++ [] := by simpa using h
  obtain ⟨e11, _⟩ := hash_item_split a11 b11 h'
  exact ⟨e1, e2, e3, e4, e5, e6, e7, e8, e9, e10, e11⟩

/-- The transcript depends on the group only through `n`, `g` and `h`. -/
theorem transcript_congr (G G' : Group) (C1 C2 t A B C D m : Int) (hn : G.n = G'.n)
    (hg : G.g = G'.g) (hh : G.h = G'.h) :
    goo_hash_transcript G C1 C2 t A B C D m = goo_hash_transcript G' C1 C2 t A B C D m := by
  unfold goo_hash_transcript
  rw [hn, hg, hh]

/-! ## Fields of the enumerated comb candidates -/

theorem candidate_fields {bits : Nat} {c : CombSpec} (h : c ∈ combCandidates bits) :
    2 ≤ c.points_per_add ∧ c.points_per_add ≤ 17
    ∧ c.bits_per_window = (bits + c.points_per_add - 1) / c.points_per_add
    ∧ c.bits_per_window = c.shifts * c.adds_per_shift
    ∧ c.size = (2 ^ c.points_per_add - 1) * c.adds_per_shift
    ∧ c.ops = c.shifts * (c.adds_per_shift + 1) - 1 := by
  obtain ⟨ppa, aps, hp1, hp2, _, _, hc⟩ := mem_candidates_iff.mp h
  unfold combCandidatesAt at hc
  simp only at hc
  split at hc
  · simp at hc
  rename_i hdiv
  have hdvd : aps ∣ (bits + ppa - 1) / ppa := by
    apply Nat.dvd_of_mod_eq_zero
    by_contra hx; exact hdiv hx
  simp only [List.mem_cons, List.mem_singleton, List.not_mem_nil, or_false] at hc
  rcases hc with rfl | rfl
  · exact ⟨hp1, Nat.le_of_lt_succ hp2, rfl, (Nat.div_mul_cancel hdvd).symm, rfl, rfl⟩
  · exact ⟨hp1, Nat.le_of_lt_succ hp2, rfl, (Nat.mul_div_cancel' hdvd).symm, rfl, rfl⟩

theorem ceil_div_bounds (bits P : Nat) (hP : 0 < P) :
    bits ≤ (bits + P - 1) / P * P ∧ (bits + P - 1) / P * P < bits + P := by
  have h1 := Nat.div_add_mod (bits + P - 1) P
  have h2 := Nat.mod_lt (bits + P - 1) hP
  have h3 : P * ((bits + P - 1) / P) = (bits + P - 1) / P * P := Nat.mul_comm _ _
  omega

/-! ## Claims on the transcript, the comb chooser and the stash -/

/-- C31 (the Fiat-Shamir transcript is unambiguous): for two tuples
`(N, g, h, C1, C2, t, A, B, C, D, msg)` of integers of magnitude below
`256^768`, `goo_hash_all` feeds byte strings `tr` and `tr'` to the hash, and
`tr = tr'` exactly when the tuples agree in every component; tuples that
differ in one component, be it only in its sign, give different byte
strings. -/
theorem transcript_unambiguous (G G' : Group)
    (C1 C2 t A B C D msg C1' C2' t' A' B' C' D' msg' : Int)
    (hG : G.n.natAbs < 256 ^ 768 ∧ G.g.natAbs < 256 ^ 768 ∧ G.h.natAbs < 256 ^ 768)
    (hT : C1.natAbs < 256 ^ 768 ∧ C2.natAbs < 256 ^ 768 ∧ t.natAbs < 256 ^ 768
      ∧ A.natAbs < 256 ^ 768 ∧ B.natAbs < 256 ^ 768 ∧ C.natAbs < 256 ^ 768
      ∧ D.natAbs < 256 ^ 768 ∧ msg.natAbs < 256 ^ 768)
    (hG' : G'.n.natAbs < 256 ^ 768 ∧ G'.g.natAbs < 256 ^ 768 ∧ G'.h.natAbs < 256 ^ 768)
    (hT' : C1'.natAbs < 256 ^ 768 ∧ C2'.natAbs < 256 ^ 768 ∧ t'.natAbs < 256 ^ 768
      ∧ A'.natAbs < 256 ^ 768 ∧ B'.natAbs < 256 ^ 768 ∧ C'.natAbs < 256 ^ 768
      ∧ D'.natAbs < 256 ^ 768 ∧ msg'.natAbs < 256 ^ 768) :
    ∃ tr tr', goo_hash_transcript G C1 C2 t A B C D msg = Res.ok tr
      ∧ goo_hash_transcript G' C1' C2' t' A' B' C' D' msg' = Res.ok tr'
      ∧ (∀ E : Env, goo_hash_all E G C1 C2 t A B C D msg = Res.ok (E.sha256 tr)
          ∧ goo_hash_all E G' C1' C2' t' A' B' C' D' msg' = Res.ok (E.sha256 tr'))
      ∧ (tr = tr' ↔ G.n = G'.n ∧ G.g = G'.g ∧ G.h = G'.h ∧ C1 = C1' ∧ C2 = C2' ∧ t = t'
          ∧ A = A' ∧ B = B' ∧ C = C' ∧ D = D' ∧ msg = msg') := by
  obtain ⟨g1, g2, g3⟩ := hG
  obtain ⟨t1, t2, t3, t4, t5, t6, t7, t8⟩ := hT
  obtain ⟨g1', g2', g3'⟩ := hG'
  obtain ⟨t1', t2', t3', t4', t5', t6', t7', t8'⟩ := hT'
  have h1 := hash_transcript_spec G C1 C2 t A B C D msg g1 g2 g3 t1 t2 t3 t4 t5 t6 t7 t8
  have h2 := hash_transcript_spec G' C1' C2' t' A' B' C' D' msg' g1' g2' g3' t1' t2' t3' t4'
    t5' t6' t7' t8'
  refine ⟨_, _, h1, h2, ?_, ?_⟩
  · intro E
    unfold goo_hash_all
    rw [h1, h2]
    exact ⟨rfl, rfl⟩
  · constructor
    · intro he
      rw [← he] at h2
      exact transcript_inj_all G G' h1 h2
    · rintro ⟨e1, e2, e3, rfl, rfl, rfl, rfl, rfl, rfl, rfl, rfl⟩
      have := transcript_congr G G' C1 C2 t A B C D msg e1 e2 e3
      rw [h1, h2] at this
      simpa using this

theorem transcript_unambiguous_witness :
    ∃ tr tr', goo_hash_transcript toyGroup 1 0 (-1) 256 5 6 (-300) 7 = Res.ok tr
      ∧ goo_hash_transcript toyGroup 1 0 (-1) 256 5 6 300 7 = Res.ok tr'
      ∧ (∀ E : Env, goo_hash_all E toyGroup 1 0 (-1) 256 5 6 (-300) 7 = Res.ok (E.sha256 tr)
          ∧ goo_hash_all E toyGroup 1 0 (-1) 256 5 6 300 7 = Res.ok (E.sha256 tr'))
      ∧ (tr = tr' ↔ toyGroup.n = toyGroup.n ∧ toyGroup.g = toyGroup.g
          ∧ toyGroup.h = toyGroup.h ∧ (1 : Int) = 1 ∧ (0 : Int) = 0 ∧ (-1 : Int) = -1
          ∧ (256 : Int) = 256 ∧ (5 : Int) = 5 ∧ (6 : Int) = 6 ∧ (-300 : Int) = 300
          ∧ (7 : Int) = 7) :=
  transcript_unambiguous toyGroup toyGroup 1 0 (-1) 256 5 6 (-300) 7 1 0 (-1) 256 5 6 300 7
    ⟨small_magnitude _ (by decide), small_magnitude _ (by decide),
      small_magnitude _ (by decide)⟩
    ⟨small_magnitude _ (by decide), small_magnitude _ (by decide),
      small_magnitude _ (by decide), small_magnitude _ (by decide),
      small_magnitude _ (by decide), small_magnitude _ (by decide),
      small_magnitude _ (by decide), small_magnitude _ (by decide)⟩
    ⟨small_magnitude _ (by decide), small_magnitude _ (by decide),
      small_magnitude _ (by decide)⟩
    ⟨small_magnitude _ (by decide), small_magnitude _ (by decide),
      small_magnitude _ (by decide), small_magnitude _ (by decide),
      small_magnitude _ (by decide), small_magnitude _ (by decide),
      small_magnitude _ (by decide), small_magnitude _ (by decide)⟩

/-- C32 (what the comb chooser optimises): whenever `goo_combspec_init`
succeeds, `bits >= 128` and the returned specification has `size <= maxsize`,
`bits_per_window = shifts * adds_per_shift = ceil(bits / points_per_add)`,
`size = (2^points_per_add - 1) * adds_per_shift` and
`ops = shifts * (adds_per_shift + 1) - 1`; no enumerated candidate of size
`<= maxsize` has fewer `ops`, and no candidate with the same `ops` has a
smaller size; every candidate's `ops`, the values used as indices, is below
`combspec_size(bits)`, so that the enumeration stays inside the map. -/
theorem combspec_optimum (bits : Int) (maxsize : Nat) (s : CombSpec)
    (h : goo_combspec_init bits maxsize = Res.ok s) :
    128 ≤ bits ∧ s.size ≤ maxsize
    ∧ s.bits_per_window = s.shifts * s.adds_per_shift
    ∧ s.bits_per_window = (bits.toNat + s.points_per_add - 1) / s.points_per_add
    ∧ bits ≤ ((s.bits_per_window * s.points_per_add : Nat) : Int)
    ∧ ((s.bits_per_window * s.points_per_add : Nat) : Int) < bits + s.points_per_add
    ∧ s.size = (2 ^ s.points_per_add - 1) * s.adds_per_shift
    ∧ s.ops = s.shifts * (s.adds_per_shift + 1) - 1
    ∧ (∀ c ∈ combCandidates bits.toNat, c.size ≤ maxsize → s.ops ≤ c.ops)
    ∧ (∀ c ∈ combCandidates bits.toNat, c.ops = s.ops → s.size ≤ c.size)
    ∧ (∀ c ∈ combCandidates bits.toNat, c.ops < combspec_size bits.toNat)
    ∧ (∃ combs, combspec_fill bits.toNat
        (List.replicate (combspec_size bits.toNat) CombSpec.zero) = Res.ok combs) := by
  obtain ⟨_, c2, _⟩ := combspec_init_choice bits maxsize
  obtain ⟨hmem, hsz, hmin⟩ := c2 s h
  obtain ⟨hwf, hb, _⟩ := combspec_init_wf h
  obtain ⟨f1, f2, f3, f4, f5, f6⟩ := candidate_fields hmem
  obtain ⟨k1, k2⟩ := ceil_div_bounds bits.toNat s.points_per_add (by omega)
  rw [← f3] at k1 k2
  have hbits : (bits.toNat : Int) = bits := Int.toNat_of_nonneg (by omega)
  refine ⟨hb, hsz, f4, f3, ?_, ?_, f5, f6, ?_, ?_,
    fun c hc => candidate_ops_lt bits.toNat hc, ⟨_, (combspec_map bits.toNat).1⟩⟩
  · rw [← hbits]; exact_mod_cast k1
  · rw [← hbits]; exact_mod_cast k2
  · intro c hc hfit
    rcases hmin c hc hfit with h1 | ⟨h1, _⟩ <;> omega
  · intro c hc hops
    by_cases hfit : c.size ≤ maxsize
    · rcases hmin c hc hfit with h1 | ⟨_, h2⟩
      · omega
      · exact h2
    · omega

theorem combspec_optimum_witness :
    (128 : Int) ≤ 128 ∧ tinySpec.size ≤ 512
    ∧ tinySpec.bits_per_window = tinySpec.shifts * tinySpec.adds_per_shift
    ∧ tinySpec.bits_per_window
        = ((128 : Int).toNat + tinySpec.points_per_add - 1) / tinySpec.points_per_add
    ∧ (128 : Int) ≤ ((tinySpec.bits_per_window * tinySpec.points_per_add : Nat) : Int)
    ∧ ((tinySpec.bits_per_window * tinySpec.points_per_add : Nat) : Int)
        < 128 + tinySpec.points_per_add
    ∧ tinySpec.size = (2 ^ tinySpec.points_per_add - 1) * tinySpec.adds_per_shift
    ∧ tinySpec.ops = tinySpec.shifts * (tinySpec.adds_per_shift + 1) - 1
    ∧ (∀ c ∈ combCandidates (128 : Int).toNat, c.size ≤ 512 → tinySpec.ops ≤ c.ops)
    ∧ (∀ c ∈ combCandidates (128 : Int).toNat, c.ops = tinySpec.ops →
        tinySpec.size ≤ c.size)
    ∧ (∀ c ∈ combCandidates (128 : Int).toNat, c.ops < combspec_size (128 : Int).toNat)
    ∧ (∃ combs, combspec_fill (128 : Int).toNat
        (List.replicate (combspec_size (128 : Int).toNat) CombSpec.zero) = Res.ok combs) :=
  combspec_optimum 128 512 tinySpec (by decide!)

/-- C33 (stash-induced bias of `goo_prng_getrandbits`): for every bit count
`n <= 2^32 - 256` and every state whose stash is positive with bit length at
most `n`, `goo_prng_getrandbits(n)` returns (the loop with the 32-bit counter
ends) a value `r` with `2^(n-1) <= r < 2^n`, whatever the DRBG outputs; and
with `GOO_CHAL_BITS = 128` the `ell_r` drawn second in `goo_group_fs_chal` has
exactly 128 bits whenever the low 128 bits of the first DRBG block are not
all zero. -/
theorem getrandbits_stash_bias (E : Env) (prng : Prng E) (n : Nat) (hpos : 0 < prng.save)
    (hlen : goo_mpz_bitlen prng.save ≤ n) (hn : n + 256 ≤ 2 ^ 32) :
    goo_prng_getrandbits32 E (n + 2) prng n = some (goo_prng_getrandbits E prng n)
    ∧ 2 ^ (n - 1) ≤ (goo_prng_getrandbits E prng n).1
    ∧ (goo_prng_getrandbits E prng n).1 < 2 ^ n
    ∧ (E.GOO_CHAL_BITS = 128 →
        ∀ (G : Group) (prng0 : Prng E) (C1 C2 t A B C D msg : Int) (key : Bytes),
          goo_hash_all E G C1 C2 t A B C D msg = Res.ok key →
          goo_mpz_import (goo_prng_nextrand E (goo_prng_seed E prng0 key)).1 % 2 ^ 128 ≠ 0 →
          ∃ (chal ell_r : Int) (prng3 : Prng E),
            goo_group_fs_chal E G prng0 C1 C2 t A B C D msg true
              = Res.ok (true, chal, ell_r, prng3)
            ∧ goo_mpz_bitlen ell_r = 128) := by
  obtain ⟨b1, b2⟩ := getrandbits_top_bit E prng n hpos hlen
  refine ⟨getrandbits32_eq E prng n hn (by omega), b1, b2, ?_⟩
  intro hc G prng0 C1 C2 t A B C D msg key hk hlow
  exact fs_chal_ell_bits E hc G prng0 C1 C2 t A B C D msg key hk hlow

theorem getrandbits_stash_bias_witness :
    goo_prng_getrandbits32 demoEnv (128 + 2) stashPrng 128
        = some (goo_prng_getrandbits demoEnv stashPrng 128)
    ∧ 2 ^ (128 - 1) ≤ (goo_prng_getrandbits demoEnv stashPrng 128).1
    ∧ (goo_prng_getrandbits demoEnv stashPrng 128).1 < 2 ^ 128
    ∧ (demoEnv.GOO_CHAL_BITS = 128 →
        ∀ (G : Group) (prng0 : Prng demoEnv) (C1 C2 t A B C D msg : Int) (key : Bytes),
          goo_hash_all demoEnv G C1 C2 t A B C D msg = Res.ok key →
          goo_mpz_import (goo_prng_nextrand demoEnv (goo_prng_seed demoEnv prng0 key)).1
            % 2 ^ 128 ≠ 0 →
          ∃ (chal ell_r : Int) (prng3 : Prng demoEnv),
            goo_group_fs_chal demoEnv G prng0 C1 C2 t A B C D msg true
              = Res.ok (true, chal, ell_r, prng3)
            ∧ goo_mpz_bitlen ell_r = 128) :=
  getrandbits_stash_bias demoEnv stashPrng 128 (by decide) (by decide) (by decide)

/-- C33, counterexample: for `n = 2^32 - 1` and the stash 1 (positive, one
bit) the 32-bit counter takes the values 1, 257, ..., `2^32 - 255` and wraps
to 1 without reaching `n`, so the loop never ends and no value is returned. -/
theorem getrandbits_stash_wraps :
    0 < stashPrng.save ∧ goo_mpz_bitlen stashPrng.save ≤ 2 ^ 32 - 1
    ∧ ¬ ∃ fuel : Nat,
        (goo_prng_getrandbits32 demoEnv fuel stashPrng (2 ^ 32 - 1)).isSome = true := by
  refine ⟨by decide, by decide, ?_⟩
  rintro ⟨fuel, h⟩
  unfold goo_prng_getrandbits32 at h
  rw [loop32_never_off demoEnv fuel stashPrng stashPrng.save _ (by decide) (by decide)] at h
  cases h

end Goo

namespace Goo

/-! ## The 768-byte assertion of `goo_hash_item` in the verifier -/

/-- What `goo_hash_item` does on every integer: an item of at most 768 bytes
is written in the format of the spec, a longer one trips `assert(len <= 768)`. -/
theorem hash_item_total (n : Int) :
    (goo_mpz_bytesize n ≤ 768 ∧ goo_hash_item n = Res.ok (specItem n))
    ∨ (768 < goo_mpz_bytesize n ∧ goo_hash_item n = Res.abort) := by
  by_cases h : goo_mpz_bytesize n ≤ 768
  · exact Or.inl ⟨h, hash_item_spec n ((bytesize_le_iff n 768).mp h)⟩
  · right
    refine ⟨by omega, ?_⟩
    unfold goo_hash_item
    dsimp only
    rw [export_length]
    simp [assertC, h]

/-- The transcript of `goo_hash_all` has no result as soon as one of its
eleven items has more than 768 bytes. -/
theorem hash_transcript_abort (G : Group) (C1 C2 t A B C D msg : Int)
    (h : ∃ x ∈ [G.n, G.g, G.h, C1, C2, t, A, B, C, D, msg], 768 < goo_mpz_bytesize x) :
    goo_hash_transcript G C1 C2 t A B C D msg = Res.abort := by
  unfold goo_hash_transcript
  rcases hash_item_total G.n with ⟨b1, e1⟩ | ⟨_, e1⟩
  swap
  · rw [e1]; rfl
  rw [e1]; simp only [Res.bind_ok]
  rcases hash_item_total G.g with ⟨b2, e2⟩ | ⟨_, e2⟩
  swap
  · rw [e2]; rfl
  rw [e2]; simp only [Res.bind_ok]
  rcases hash_item_total G.h with ⟨b3, e3⟩ | ⟨_, e3⟩
  swap
  · rw [e3]; rfl
  rw [e3]; simp only [Res.bind_ok]
  rcases hash_item_total C1 with ⟨b4, e4⟩ | ⟨_, e4⟩
  swap
  · rw [e4]; rfl
  rw [e4]; simp only [Res.bind_ok]
  rcases hash_item_total C2 with ⟨b5, e5⟩ | ⟨_, e5⟩
  swap
  · rw [e5]; rfl
  rw [e5]; simp only [Res.bind_ok]
  rcases hash_item_total t with ⟨b6, e6⟩ | ⟨_, e6⟩
  swap
  · rw [e6]; rfl
  rw [e6]; simp only [Res.bind_ok]
  rcases hash_item_total A with ⟨b7, e7⟩ | ⟨_, e7⟩
  swap
  · rw [e7]; rfl
  rw [e7]; simp only [Res.bind_ok]
  rcases hash_item_total B with ⟨b8, e8⟩ | ⟨_, e8⟩
  swap
  · rw [e8]; rfl
  rw [e8]; simp only [Res.bind_ok]
  rcases hash_item_total C with ⟨b9, e9⟩ | ⟨_, e9⟩
  swap
  · rw [e9]; rfl
  rw [e9]; simp only [Res.bind_ok]
  rcases hash_item_total D with ⟨b10, e10⟩ | ⟨_, e10⟩
  swap
  · rw [e10]; rfl
  rw [e10]; simp only [Res.bind_ok]
  rcases hash_item_total msg with ⟨b11, e11⟩ | ⟨_, e11⟩
  swap
  · rw [e11]; rfl
  exfalso
  obtain ⟨x, hx, hlt⟩ := h
  simp only [List.mem_cons, List.mem_singleton, List.not_mem_nil, or_false] at hx
  rcases hx with rfl | rfl | rfl | rfl | rfl | rfl | rfl | rfl | rfl | rfl | rfl <;> omega

/-- The verifier-path Fiat-Shamir derivation returns a pair when the eleven
items have at most 768 bytes each. -/
theorem fs_chal_verify_ok (E : Env) (G : Group) (prng : Prng E)
    (C1 C2 t A B C D msg : Int)
    (h : ∀ x ∈ [G.n, G.g, G.h, C1, C2, t, A, B, C, D, msg], goo_mpz_bytesize x ≤ 768) :
    ∃ o, goo_group_fs_chal E G prng C1 C2 t A B C D msg true = Res.ok o := by
  have hb : ∀ x ∈ [G.n, G.g, G.h, C1, C2, t, A, B, C, D, msg], x.natAbs < 256 ^ 768 :=
    fun x hx => (bytesize_le_iff x 768).mp (h x hx)
  have htr := hash_transcript_spec G C1 C2 t A B C D msg
    (hb _ (by simp)) (hb _ (by simp)) (hb _ (by simp)) (hb _ (by simp)) (hb _ (by simp))
    (hb _ (by simp)) (hb _ (by simp)) (hb _ (by simp)) (hb _ (by simp)) (hb _ (by simp))
    (hb _ (by simp))
  unfold goo_group_fs_chal goo_hash_all
  rw [htr]
  simp only [Res.bind_ok, if_true]
  exact ⟨_, rfl⟩

/-- The verifier-path Fiat-Shamir derivation has no result when one of the
eleven items has more than 768 bytes. -/
theorem fs_chal_abort (E : Env) (G : Group) (prng : Prng E)
    (C1 C2 t A B C D msg : Int) (verify : Bool)
    (h : ∃ x ∈ [G.n, G.g, G.h, C1, C2, t, A, B, C, D, msg], 768 < goo_mpz_bytesize x) :
    goo_group_fs_chal E G prng C1 C2 t A B C D msg verify = Res.abort := by
  unfold goo_group_fs_chal goo_hash_all
  rw [hash_transcript_abort G C1 C2 t A B C D msg h]
  rfl

/-- After the four checks `goo_group_verify` is the outcome of the
Fiat-Shamir call: it has no result when that call has none. -/
theorem verify_abort_of_fs (E : Env) (G : Group) (prng : Prng E) (msg C1 : Int) (sig : Sig)
    (C1_inv C2_inv Aq_inv Bq_inv Cq_inv A B C : Int)
    (ht : ∃ p ∈ goo_primes, sig.t = (p : Int))
    (hred : C1 ≤ G.nh ∧ sig.C2 ≤ G.nh ∧ sig.Aq ≤ G.nh ∧ sig.Bq ≤ G.nh ∧ sig.Cq ≤ G.nh)
    (hinv : goo_group_inv5 G C1 sig.C2 sig.Aq sig.Bq sig.Cq
      = Res.ok (C1_inv, C2_inv, Aq_inv, Bq_inv, Cq_inv))
    (hA : goo_group_recon E G sig.Aq Aq_inv sig.ell C2_inv sig.C2 sig.chal sig.z_w sig.z_s1
      = Res.ok A)
    (hB : goo_group_recon E G sig.Bq Bq_inv sig.ell C2_inv sig.C2 sig.z_w sig.z_w2 sig.z_s1w
      = Res.ok B)
    (hC : goo_group_recon E G sig.Cq Cq_inv sig.ell C1_inv C1 sig.z_a sig.z_an sig.z_sa
      = Res.ok C)
    (hfs : goo_group_fs_chal E G prng C1 sig.C2 sig.t A B C (verify_D sig) msg true
      = Res.abort) :
    goo_group_verify E G prng msg C1 sig = Res.abort := by
  unfold goo_group_verify
  rw [if_neg (by rw [primes_any_of_mem ht]; simp),
    if_neg (by simp [goo_group_is_reduced, hred]), hinv]
  simp only [Res.bind_ok]
  rw [hA]
  simp only [Res.bind_ok]
  rw [hB]
  simp only [Res.bind_ok]
  rw [hC]
  simp only [Res.bind_ok]
  rw [hfs]

/-- With a message and a commitment of at most 768 bytes and a signature that
`goo_read_sig` accepts, `goo_verify` is `goo_group_verify` on the imported
integers. -/
theorem goo_verify_of_read (E : Env) (G : Group) (prng : Prng E) (msg sig C1 : Bytes)
    (s : Sig) (hm : msg.length ≤ 768) (hc : C1.length ≤ 768)
    (hs : goo_read_sig sig = Res.ok s) :
    goo_verify E G prng msg sig C1
      = goo_group_verify E G prng (goo_mpz_import msg) (goo_mpz_import C1) s := by
  unfold goo_verify
  rw [if_neg (by omega), if_neg (by omega), hs]
  rfl

/-- The signature `wideSig` with `C1 = 1` passes the small-prime check, the
reducedness check, `inv5` and the three reconstructions in the demo group. -/
theorem wide_checks :
    (∃ p ∈ goo_primes, wideSig.t = (p : Int))
    ∧ ((1 : Int) ≤ demoGroup.nh ∧ wideSig.C2 ≤ demoGroup.nh ∧ wideSig.Aq ≤ demoGroup.nh
        ∧ wideSig.Bq ≤ demoGroup.nh ∧ wideSig.Cq ≤ demoGroup.nh)
    ∧ goo_group_inv5 demoGroup 1 wideSig.C2 wideSig.Aq wideSig.Bq wideSig.Cq
        = Res.ok (1, 1, 1, 1, 1)
    ∧ goo_group_recon smallEnv demoGroup wideSig.Aq 1 wideSig.ell 1 wideSig.C2 wideSig.chal
        wideSig.z_w wideSig.z_s1 = Res.ok 1
    ∧ goo_group_recon smallEnv demoGroup wideSig.Bq 1 wideSig.ell 1 wideSig.C2 wideSig.z_w
        wideSig.z_w2 wideSig.z_s1w = Res.ok 1
    ∧ goo_group_recon smallEnv demoGroup wideSig.Cq 1 wideSig.ell 1 1 wideSig.z_a
        wideSig.z_an wideSig.z_sa = Res.ok 1 :=
  ⟨⟨2, by decide!, rfl⟩, by decide!⟩

/-- The demo signature with `demoC1` passes the small-prime check and the
reducedness check, `inv5` and the three reconstructions return the values
shown, and each of the eleven hashed items has at most 768 bytes. -/
theorem demo_checks :
    (∃ p ∈ goo_primes, demoSig.t = (p : Int))
    ∧ (demoC1 ≤ demoGroup.nh ∧ demoSig.C2 ≤ demoGroup.nh ∧ demoSig.Aq ≤ demoGroup.nh
        ∧ demoSig.Bq ≤ demoGroup.nh ∧ demoSig.Cq ≤ demoGroup.nh)
    ∧ goo_group_inv5 demoGroup demoC1 demoSig.C2 demoSig.Aq demoSig.Bq demoSig.Cq
        = Res.ok (567960098303244924970359895644426006045,
            1227599434982971919831899994245146014316,
            460617007474643760663370838639978518921,
            1153870028260208973792291426169108656208,
            12058431034201102536256811997577962746)
    ∧ goo_group_recon smallEnv demoGroup demoSig.Aq 460617007474643760663370838639978518921
        demoSig.ell 1227599434982971919831899994245146014316 demoSig.C2 demoSig.chal
        demoSig.z_w demoSig.z_s1 = Res.ok 6528008380626320696197985765733543087
    ∧ goo_group_recon smallEnv demoGroup demoSig.Bq 1153870028260208973792291426169108656208
        demoSig.ell 1227599434982971919831899994245146014316 demoSig.C2 demoSig.z_w
        demoSig.z_w2 demoSig.z_s1w = Res.ok 411615901427384345663857414448839388638
    ∧ goo_group_recon smallEnv demoGroup demoSig.Cq 12058431034201102536256811997577962746
        demoSig.ell 567960098303244924970359895644426006045 demoC1 demoSig.z_a demoSig.z_an
        demoSig.z_sa = Res.ok 74610714849727796139410581501990630677
    ∧ ∀ x ∈ [demoGroup.n, demoGroup.g, demoGroup.h, demoC1, demoSig.C2, demoSig.t,
        6528008380626320696197985765733543087, 411615901427384345663857414448839388638,
        74610714849727796139410581501990630677, verify_D demoSig, 424242],
        goo_mpz_bytesize x ≤ 768 :=
  ⟨⟨71, by decide!, rfl⟩, by decide!⟩

/-- The value `D` that the verifier computes for `wideSig` is `3 * 2^6143 - 10`,
which has 769 bytes. -/
theorem wide_D_bytesize :
    verify_D wideSig = ((3 * 2 ^ 6143 - 10 : Nat) : Int)
    ∧ goo_mpz_bytesize (verify_D wideSig) = 769 :=
  ⟨by decide!, by decide!⟩

/-- The byte string `wideSigBytes` is accepted by `goo_read_sig`, which returns
`wideSig`: the longest field, `Dq`, has 768 bytes. -/
theorem wide_wire :
    goo_read_sig wideSigBytes = Res.ok wideSig ∧ goo_mpz_bytesize wideSig.Dq = 768 :=
  ⟨by decide!, by decide!⟩

/-! ## The claims -/

/-- C2 (amended): `goo_verify` reads `msg` and `C1` as big-endian integers.
For all byte strings of at most 768 bytes, whether accepted or not, two inputs
with the same signature bytes whose messages encode the same integer and whose
commitments encode the same integer get the same verdict. And when
`goo_verify` accepts `(msg, sig, C1)` and also `(msg2, sig, C1b)`, then either
`msg2` and `C1b` encode the same integers as `msg` and `C1`, or the two runs
hashed two different transcripts whose derived challenges both equal the
`chal` field of the signature. -/
theorem verify_binding (E : Env) (G : Group) (prng prng2 : Prng E)
    (msg msg2 sig C1 C1b : Bytes) :
    (msg.length ≤ 768 → msg2.length ≤ 768 → C1.length ≤ 768 → C1b.length ≤ 768 →
      goo_mpz_import msg = goo_mpz_import msg2 → goo_mpz_import C1 = goo_mpz_import C1b →
        goo_verify E G prng msg2 sig C1b = goo_verify E G prng msg sig C1)
    ∧ (goo_verify E G prng msg sig C1 = Res.ok () →
        goo_verify E G prng2 msg2 sig C1b = Res.ok () →
        ((goo_mpz_import msg = goo_mpz_import msg2 ∧ goo_mpz_import C1 = goo_mpz_import C1b)
          ∨ ∃ s A B C A' B' C' tr1 tr2, goo_read_sig sig = Res.ok s
            ∧ goo_hash_transcript G (goo_mpz_import C1) s.C2 s.t A B C (verify_D s)
                (goo_mpz_import msg) = Res.ok tr1
            ∧ goo_hash_transcript G (goo_mpz_import C1b) s.C2 s.t A' B' C' (verify_D s)
                (goo_mpz_import msg2) = Res.ok tr2
            ∧ tr1 ≠ tr2
            ∧ transcriptChal E prng tr1 = s.chal ∧ transcriptChal E prng2 tr2 = s.chal)) := by
  constructor
  · intro l1 l2 l3 l4 e1 e2
    unfold goo_verify
    rw [if_neg (by omega : ¬ msg.length > 768), if_neg (by omega : ¬ msg2.length > 768),
      if_neg (by omega : ¬ C1.length > 768), if_neg (by omega : ¬ C1b.length > 768), e1, e2]
  · intro h1 h2
    exact (verify_binding_of_accept E G prng prng2 msg msg2 sig C1 C1b h1 h2).2

theorem verify_binding_witness :
    goo_verify smallEnv demoGroup demoPrng (0 :: 0 :: demoMsg) (demoSigBytes ++ [0])
        demoC1Bytes
      = goo_verify smallEnv demoGroup demoPrng demoMsg (demoSigBytes ++ [0]) demoC1Bytes
    ∧ ((goo_mpz_import demoMsg = goo_mpz_import (0 :: demoMsg)
          ∧ goo_mpz_import demoC1Bytes = goo_mpz_import demoC1Bytes)
        ∨ ∃ s A B C A' B' C' tr1 tr2, goo_read_sig demoSigBytes = Res.ok s
          ∧ goo_hash_transcript demoGroup (goo_mpz_import demoC1Bytes) s.C2 s.t A B C
              (verify_D s) (goo_mpz_import demoMsg) = Res.ok tr1
          ∧ goo_hash_transcript demoGroup (goo_mpz_import demoC1Bytes) s.C2 s.t A' B' C'
              (verify_D s) (goo_mpz_import (0 :: demoMsg)) = Res.ok tr2
          ∧ tr1 ≠ tr2
          ∧ transcriptChal smallEnv demoPrng tr1 = s.chal
          ∧ transcriptChal smallEnv demoPrng tr2 = s.chal) :=
  ⟨(verify_binding smallEnv demoGroup demoPrng demoPrng demoMsg (0 :: 0 :: demoMsg)
      (demoSigBytes ++ [0]) demoC1Bytes demoC1Bytes).1 (by decide) (by decide) (by decide!)
      (by decide!) (by decide) rfl,
    (verify_binding smallEnv demoGroup demoPrng demoPrng demoMsg (0 :: demoMsg)
      demoSigBytes demoC1Bytes demoC1Bytes).2 demo_verify
      (by rw [goo_verify_zero_msg _ _ _ _ _ _ (by decide)]; exact demo_verify)⟩

/-- C5 fails on the code: the signature `wideSig` (`C2 = Aq = Bq = Cq = 1`,
`t = 2`, `chal = 5`, `ell = 3`, `Dq = 2^6143`, responses zero; `goo_read_sig`
reads it from the bytes `wideSigBytes`) with `C1 = 1` passes the small-prime
check, the reducedness check, `inv5` and the three reconstructions in the demo
group, but `D = Dq * ell - t * chal` has 769 bytes, so the Fiat-Shamir call
that the claim takes `chal_out` and `ell_r_out` from trips
`assert(len <= 768)` in `goo_hash_item`: that call, `goo_group_verify` and
`goo_verify` return neither true nor false. -/
theorem verify_aborts_wide_D :
    goo_read_sig wideSigBytes = Res.ok wideSig
    ∧ (∃ p ∈ goo_primes, wideSig.t = (p : Int))
    ∧ ((1 : Int) ≤ demoGroup.nh ∧ wideSig.C2 ≤ demoGroup.nh ∧ wideSig.Aq ≤ demoGroup.nh
        ∧ wideSig.Bq ≤ demoGroup.nh ∧ wideSig.Cq ≤ demoGroup.nh)
    ∧ goo_group_inv5 demoGroup 1 wideSig.C2 wideSig.Aq wideSig.Bq wideSig.Cq
        = Res.ok (1, 1, 1, 1, 1)
    ∧ goo_group_recon smallEnv demoGroup wideSig.Aq 1 wideSig.ell 1 wideSig.C2 wideSig.chal
        wideSig.z_w wideSig.z_s1 = Res.ok 1
    ∧ goo_group_recon smallEnv demoGroup wideSig.Bq 1 wideSig.ell 1 wideSig.C2 wideSig.z_w
        wideSig.z_w2 wideSig.z_s1w = Res.ok 1
    ∧ goo_group_recon smallEnv demoGroup wideSig.Cq 1 wideSig.ell 1 1 wideSig.z_a
        wideSig.z_an wideSig.z_sa = Res.ok 1
    ∧ goo_mpz_bytesize (verify_D wideSig) = 769
    ∧ goo_group_fs_chal smallEnv demoGroup demoPrng 1 wideSig.C2 wideSig.t 1 1 1
        (verify_D wideSig) 424242 true = Res.abort
    ∧ goo_group_verify smallEnv demoGroup demoPrng 424242 1 wideSig = Res.abort
    ∧ goo_verify smallEnv demoGroup demoPrng demoMsg wideSigBytes [1] = Res.abort := by
  have hw : ∃ x ∈ [demoGroup.n, demoGroup.g, demoGroup.h, 1, wideSig.C2, wideSig.t, 1, 1, 1,
      verify_D wideSig, 424242], 768 < goo_mpz_bytesize x :=
    ⟨verify_D wideSig, by simp, by rw [wide_D_bytesize.2]; decide⟩
  have hfs := fs_chal_abort smallEnv demoGroup demoPrng 1 wideSig.C2 wideSig.t 1 1 1
    (verify_D wideSig) 424242 true hw
  have hv := verify_abort_of_fs smallEnv demoGroup demoPrng 424242 1 wideSig 1 1 1 1 1 1 1 1
    wide_checks.1 wide_checks.2.1 wide_checks.2.2.1 wide_checks.2.2.2.1
    wide_checks.2.2.2.2.1 wide_checks.2.2.2.2.2 hfs
  refine ⟨wide_wire.1, wide_checks.1, wide_checks.2.1, wide_checks.2.2.1,
    wide_checks.2.2.2.1, wide_checks.2.2.2.2.1, wide_checks.2.2.2.2.2, wide_D_bytesize.2,
    hfs, hv, ?_⟩
  rw [goo_verify_of_read smallEnv demoGroup demoPrng demoMsg wideSigBytes [1] wideSig
      (by decide) (by decide) wide_wire.1,
    show goo_mpz_import demoMsg = 424242 by decide, show goo_mpz_import [1] = 1 by decide]
  exact hv

/-- C5 (what the code does): take an input that passes the small-prime check
and the reducedness check, for which `inv5` returns the five inverses and the
three reconstructions return `A`, `B`, `C`, and let `D` be the verifier's
value `verify_D`. When each of the eleven hashed items `N, g, h, C1, C2, t,
A, B, C, D, msg` has at most 768 bytes, the verifier-path Fiat-Shamir
derivation returns `(chal_out, ell_r_out)`, and `goo_group_verify` returns
true if and only if `chal = chal_out`, `0 ≤ ell - ell_r_out ≤ GOO_ELLDIFF_MAX`
and `ell` passes the primality test, and returns false otherwise. When one of
the eleven items has more than 768 bytes, the derivation trips the assertion
of `goo_hash_item` and neither it nor `goo_group_verify` returns a verdict. -/
theorem verify_decision (E : Env) (G : Group) (prng : Prng E) (msg C1 : Int) (sig : Sig)
    (C1_inv C2_inv Aq_inv Bq_inv Cq_inv A B C : Int)
    (ht : ∃ p ∈ goo_primes, sig.t = (p : Int))
    (hred : C1 ≤ G.nh ∧ sig.C2 ≤ G.nh ∧ sig.Aq ≤ G.nh ∧ sig.Bq ≤ G.nh ∧ sig.Cq ≤ G.nh)
    (hinv : goo_group_inv5 G C1 sig.C2 sig.Aq sig.Bq sig.Cq
      = Res.ok (C1_inv, C2_inv, Aq_inv, Bq_inv, Cq_inv))
    (hA : goo_group_recon E G sig.Aq Aq_inv sig.ell C2_inv sig.C2 sig.chal sig.z_w sig.z_s1
      = Res.ok A)
    (hB : goo_group_recon E G sig.Bq Bq_inv sig.ell C2_inv sig.C2 sig.z_w sig.z_w2 sig.z_s1w
      = Res.ok B)
    (hC : goo_group_recon E G sig.Cq Cq_inv sig.ell C1_inv C1 sig.z_a sig.z_an sig.z_sa
      = Res.ok C) :
    ((∀ x ∈ [G.n, G.g, G.h, C1, sig.C2, sig.t, A, B, C, verify_D sig, msg],
        goo_mpz_bytesize x ≤ 768) →
      ∃ o, goo_group_fs_chal E G prng C1 sig.C2 sig.t A B C (verify_D sig) msg true
          = Res.ok o
        ∧ (goo_group_verify E G prng msg C1 sig = Res.ok () ↔
            (sig.chal = o.2.1 ∧ 0 ≤ sig.ell - o.2.2.1
              ∧ sig.ell - o.2.2.1 ≤ E.GOO_ELLDIFF_MAX ∧ goo_is_prime E sig.ell = true))
        ∧ (¬ (sig.chal = o.2.1 ∧ 0 ≤ sig.ell - o.2.2.1
              ∧ sig.ell - o.2.2.1 ≤ E.GOO_ELLDIFF_MAX ∧ goo_is_prime E sig.ell = true) →
            goo_group_verify E G prng msg C1 sig = Res.fail))
    ∧ ((∃ x ∈ [G.n, G.g, G.h, C1, sig.C2, sig.t, A, B, C, verify_D sig, msg],
        768 < goo_mpz_bytesize x) →
      goo_group_fs_chal E G prng C1 sig.C2 sig.t A B C (verify_D sig) msg true = Res.abort
        ∧ goo_group_verify E G prng msg C1 sig = Res.abort) := by
  constructor
  · intro hfit
    obtain ⟨o, ho⟩ := fs_chal_verify_ok E G prng C1 sig.C2 sig.t A B C (verify_D sig) msg hfit
    exact ⟨o, ho, verify_decision_of_fs E G prng msg C1 sig C1_inv C2_inv Aq_inv Bq_inv Cq_inv
      A B C o ht hred hinv hA hB hC ho⟩
  · intro hwide
    have hfs := fs_chal_abort E G prng C1 sig.C2 sig.t A B C (verify_D sig) msg true hwide
    exact ⟨hfs, verify_abort_of_fs E G prng msg C1 sig C1_inv C2_inv Aq_inv Bq_inv Cq_inv
      A B C ht hred hinv hA hB hC hfs⟩

theorem verify_decision_witness :
    (∃ o, goo_group_fs_chal smallEnv demoGroup demoPrng demoC1 demoSig.C2 demoSig.t
          6528008380626320696197985765733543087 411615901427384345663857414448839388638
          74610714849727796139410581501990630677 (verify_D demoSig) 424242 true = Res.ok o
        ∧ (goo_group_verify smallEnv demoGroup demoPrng 424242 demoC1 demoSig = Res.ok () ↔
            (demoSig.chal = o.2.1 ∧ 0 ≤ demoSig.ell - o.2.2.1
              ∧ demoSig.ell - o.2.2.1 ≤ smallEnv.GOO_ELLDIFF_MAX
              ∧ goo_is_prime smallEnv demoSig.ell = true))
        ∧ (¬ (demoSig.chal = o.2.1 ∧ 0 ≤ demoSig.ell - o.2.2.1
              ∧ demoSig.ell - o.2.2.1 ≤ smallEnv.GOO_ELLDIFF_MAX
              ∧ goo_is_prime smallEnv demoSig.ell = true) →
            goo_group_verify smallEnv demoGroup demoPrng 424242 demoC1 demoSig = Res.fail))
    ∧ (goo_group_fs_chal smallEnv demoGroup demoPrng 1 wideSig.C2 wideSig.t 1 1 1
          (verify_D wideSig) 7 true = Res.abort
        ∧ goo_group_verify smallEnv demoGroup demoPrng 7 1 wideSig = Res.abort) :=
  ⟨(verify_decision smallEnv demoGroup demoPrng 424242 demoC1 demoSig
      567960098303244924970359895644426006045 1227599434982971919831899994245146014316
      460617007474643760663370838639978518921 1153870028260208973792291426169108656208
      12058431034201102536256811997577962746 6528008380626320696197985765733543087
      411615901427384345663857414448839388638 74610714849727796139410581501990630677
      demo_checks.1 demo_checks.2.1 demo_checks.2.2.1 demo_checks.2.2.2.1
      demo_checks.2.2.2.2.1 demo_checks.2.2.2.2.2.1).1 demo_checks.2.2.2.2.2.2,
    (verify_decision smallEnv demoGroup demoPrng 7 1 wideSig 1 1 1 1 1 1 1 1
      wide_checks.1 wide_checks.2.1 wide_checks.2.2.1 wide_checks.2.2.2.1
      wide_checks.2.2.2.2.1 wide_checks.2.2.2.2.2).2
      ⟨verify_D wideSig, by simp, by rw [wide_D_bytesize.2]; decide⟩⟩

end Goo
